import Mathlib

/-!
OpenQL intermediate representation: the operations on the tree

A shallow embedding of `src/ql/ir/ops.cc`, and of the rendering of gate conditions of
`src/ql/ir/gate.cc`.

Modelling conventions.

* Nodes that the C++ code reaches through pointers live in node stores of `Root`; the
  identity of a node is its position in the store, a `Link` is an optional identity and the
  empty link is `none`.  Owning edges (`specializations`) and non-owning edges
  (`generalization`, `data_type`, `target`) are both stored as identities.
* The comparison operators of the tree edges (`==`, `!=`, `<`, `>` on links and on owning
  edges) compare node pointers; the comparison of values is `equals`.
* The pointer of an index literal of a reference is observable (the map key order of
  `ObjectAccesses` compares these pointers), so `IntLiteral` carries the address `addr` of
  its node; `clone` hands out fresh addresses from a counter.
* Functions that can throw return `Except Error`; functions that mutate the IR before they
  throw return the IR reached together with the result.
* Literals with a floating-point payload (real, complex, matrix, json) are not embedded.
* Annotations (`copy_annotations`) are not embedded.
* Machine integers are mathematical integers with the wrap-around of 64-bit arithmetic
  written out; a shift by 64 or more, which is undefined in C++, is taken modulo `2 ^ 64`.
* The describing visitor returns the text that it writes to its stream; the visit of an
  empty link writes nothing, the dereference of an empty link throws.
* The read `operands.front()` of the specialization loop of `make_instruction` is total in
  `specialize_instruction` (an empty list has no front, which equals no template operand);
  `specialize_instruction_strict` is the same loop with that read reported as an error.
-/

namespace ql.ir

/-! ## Primitives -/

/-- Access mode of an operand (`prim::AccessMode`). -/
inductive AccessMode where
  | WRITE
  | READ
  | LITERAL
  | COMMUTE_X
  | COMMUTE_Y
  | COMMUTE_Z
  | MEASURE
  | UPDATE
deriving DecidableEq, Repr, Inhabited

/-- A link to a node: `none` is the empty link, `some p` the node with identity `p`. -/
abbrev Link := Option Nat

/-- Pointer order on links; the empty link (null) is below every node. -/
def Link.lt : Link → Link → Bool
  | none, none => false
  | none, some _ => true
  | some _, none => false
  | some a, some b => decide (a < b)

/-- Errors raised by the operations: `QL_USER_ERROR`, `QL_ASSERT` / `QL_ICE`, and the
bounds and emptiness checks of the containers. -/
inductive Error where
  | user_error (msg : String)
  | internal_error (msg : String)
  | out_of_range
  | empty_dereference
deriving DecidableEq, Repr, Inhabited

/-- The kinds of data type of the platform. -/
inductive DataTypeKind where
  | qubit
  | bit
  | int (bits : Nat) (is_signed : Bool)
  | real
  | complex
  | real_matrix
  | complex_matrix
  | string
  | json
deriving DecidableEq, Repr, Inhabited

/-- A data type node. -/
structure DataType where
  name : String := ""
  kind : DataTypeKind := DataTypeKind.qubit
deriving DecidableEq, Repr, Inhabited

/-- Operand prototype: access mode and data type. -/
structure OperandType where
  mode : AccessMode := AccessMode.WRITE
  data_type : Link := none
deriving DecidableEq, Repr, Inhabited

/-- Function type node. -/
structure FunctionType where
  name : String := ""
  operand_types : List OperandType := []
  return_type : Link := none
deriving DecidableEq, Repr, Inhabited

/-! ## Expressions -/

/-- An integer literal node used as an index of a reference; `addr` is the identity of
the node. -/
structure IntLiteral where
  addr : Nat := 0
  value : Int := 0
  data_type : Link := none
deriving DecidableEq, Repr, Inhabited

/-- A reference: target object, viewed-as data type and indices. The default value is the
empty reference. -/
structure Reference where
  target : Link := none
  data_type : Link := none
  indices : List IntLiteral := []
deriving DecidableEq, Repr, Inhabited

/-- Expressions. -/
inductive Expression where
  | bit_literal (value : Bool) (data_type : Link)
  | int_literal (value : Int) (data_type : Link)
  | string_literal (value : String) (data_type : Link)
  | reference (ref : Reference)
  | function_call (function_type : Link) (operands : List Expression)
deriving Repr, Inhabited

/-- Value equality of index literals: node identity is ignored. -/
def IntLiteral.equals (a b : IntLiteral) : Bool :=
  a.value == b.value && a.data_type == b.data_type

/-- Value equality of index lists, element by element. -/
def indices_equal : List IntLiteral → List IntLiteral → Bool
  | [], [] => true
  | a :: as, b :: bs => a.equals b && indices_equal as bs
  | _, _ => false

/-- Value equality of references (`Reference::equals`): same target link, same data type
link, equal index values. -/
def Reference.equals (a b : Reference) : Bool :=
  a.target == b.target && a.data_type == b.data_type && indices_equal a.indices b.indices

mutual
/-- Value equality of expressions (`equals`): same variant, equal primitive values, equal
links, equal children. -/
def Expression.equals : Expression → Expression → Bool
  | .bit_literal a d, .bit_literal b e => a == b && d == e
  | .int_literal a d, .int_literal b e => a == b && d == e
  | .string_literal a d, .string_literal b e => a == b && d == e
  | .reference r, .reference s => r.equals s
  | .function_call f xs, .function_call g ys => f == g && Expression.equals_list xs ys
  | _, _ => false
/-- Value equality of expression lists (`Any::equals`). -/
def Expression.equals_list : List Expression → List Expression → Bool
  | [], [] => true
  | x :: xs, y :: ys => x.equals y && Expression.equals_list xs ys
  | _, _ => false
end

/-- The method `Maybe::equals`: two empty references are equal, an empty and a non-empty
one are not, two non-empty ones are compared by value. -/
def maybe_equals : Option Expression → Option Expression → Bool
  | some a, some b => a.equals b
  | none, none => true
  | _, _ => false

/-- Fresh copies of index literal nodes, at consecutive addresses from `next`. -/
def clone_indices : List IntLiteral → Nat → List IntLiteral
  | [], _ => []
  | i :: rest, next => { i with addr := next } :: clone_indices rest (next + 1)

/-- The method `Reference::clone`: a deep copy whose index nodes are new nodes. Returns the
copy and the next unused address. -/
def Reference.clone (r : Reference) (next : Nat) : Reference × Nat :=
  ({ r with indices := clone_indices r.indices next }, next + r.indices.length)

mutual
/-- The method `clone` on expressions: a deep copy; links are copied as they are; index
nodes get fresh addresses. Returns the copy and the next unused address. -/
def Expression.clone : Expression → Nat → Expression × Nat
  | .bit_literal v d, next => (.bit_literal v d, next)
  | .int_literal v d, next => (.int_literal v d, next)
  | .string_literal v d, next => (.string_literal v d, next)
  | .reference r, next => (.reference (r.clone next).1, (r.clone next).2)
  | .function_call f xs, next =>
    (.function_call f (Expression.clone_list xs next).1, (Expression.clone_list xs next).2)
/-- Deep copy of a list of expressions, left to right. -/
def Expression.clone_list : List Expression → Nat → List Expression × Nat
  | [], next => ([], next)
  | x :: xs, next =>
    ((x.clone next).1 :: (Expression.clone_list xs (x.clone next).2).1,
      (Expression.clone_list xs (x.clone next).2).2)
end

/-! ## Instruction types and the IR root -/

/-- An object node (`Object`): name, data type and shape. -/
structure Object where
  name : String := ""
  data_type : Link := none
  shape : List Nat := []
deriving DecidableEq, Repr, Inhabited


/-- A decomposition rule of an instruction type; only its identity matters here. -/
structure InstructionDecomposition where
  name : String := ""
deriving DecidableEq, Repr, Inhabited

/-- Instruction type node. `specializations` are the identities of the owned child nodes,
`generalization` is the link to the parent. -/
structure InstructionType where
  name : String := ""
  cqasm_name : String := ""
  operand_types : List OperandType := []
  template_operands : List Expression := []
  generalization : Link := none
  specializations : List Nat := []
  decompositions : List InstructionDecomposition := []
  duration : Nat := 0
deriving Repr, Inhabited

/-- The platform: the collections of instruction types, physical objects, data types and
function types (identities of the nodes, in collection order), the main qubit register and
the distinguished types. -/
structure Platform where
  instructions : List Nat := []
  objects : List Nat := []
  data_types : List Nat := []
  functions : List Nat := []
  qubits : Link := none
  implicit_bit_type : Link := none
  default_bit_type : Link := none
  default_int_type : Link := none
deriving Repr, Inhabited

/-- The IR root with its node stores. `next_addr` is the next unused address for
expression nodes made by `clone`. -/
structure Root where
  platform : Platform := {}
  instruction_nodes : List InstructionType := []
  function_nodes : List FunctionType := []
  data_type_nodes : List DataType := []
  object_nodes : List Object := []
  next_addr : Nat := 0
deriving Repr, Inhabited

/-- The instruction type node with identity `id`. -/
def Root.node (ir : Root) (id : Nat) : InstructionType :=
  ir.instruction_nodes.getD id default

/-- Allocates a new instruction type node; returns the IR and the identity of the node. -/
def Root.alloc (ir : Root) (n : InstructionType) : Root × Nat :=
  ({ ir with instruction_nodes := ir.instruction_nodes ++ [n] }, ir.instruction_nodes.length)

/-- Overwrites the instruction type node with identity `id`. -/
def Root.set_node (ir : Root) (id : Nat) (n : InstructionType) : Root :=
  { ir with instruction_nodes := ir.instruction_nodes.set id n }

/-- Replaces the instruction collection of the platform. -/
def Root.set_instructions (ir : Root) (l : List Nat) : Root :=
  { ir with platform := { ir.platform with instructions := l } }

/-- The names of the entries of the instruction collection, in collection order. -/
def Root.instruction_names (ir : Root) : List String :=
  ir.platform.instructions.map fun id => (ir.node id).name

/-- Returns the data type of/returned by an expression (`get_type_of`). Dereferencing an
empty or dangling function type link throws. -/
def get_type_of (ir : Root) : Expression → Except Error Link
  | .bit_literal _ d => .ok d
  | .int_literal _ d => .ok d
  | .string_literal _ d => .ok d
  | .reference r => .ok r.data_type
  | .function_call f _ =>
    match f with
    | none => .error Error.empty_dereference
    | some p =>
      match ir.function_nodes.get? p with
      | none => .error Error.empty_dereference
      | some ft => .ok ft.return_type

/-- Modelled from the spec: the regular expression `IDENTIFIER_RE`, which is declared in a
header that is not part of the sources; the spec gives it as `[A-Za-z_][A-Za-z0-9_]*`. -/
def is_identifier (s : String) : Bool :=
  match s.toList with
  | [] => false
  | c :: cs => (c.isAlpha || c == '_') && cs.all fun d => d.isAlphanum || d == '_'

/-- Modelled from the spec: `compare_by_name`, declared in a header that is not part of the
sources; the collections are sorted by `name`, so it compares the names of two nodes
(strings are compared character by character). -/
def compare_by_name (a b : String) : Bool :=
  decide (a.toList < b.toList)

/-- The loop of `std::lower_bound` over positions `first .. first + len` of `names`. -/
def lower_bound_loop (names : List String) (value : String) : Nat → Nat → Nat → Nat
  | 0, first, _ => first
  | fuel + 1, first, len =>
    if len = 0 then first
    else if compare_by_name (names.getD (first + len / 2) "") value then
      lower_bound_loop names value fuel (first + len / 2 + 1) (len - len / 2 - 1)
    else
      lower_bound_loop names value fuel first (len / 2)

/-- The function `std::lower_bound` over the whole list with `compare_by_name`: binary
search for the first position whose name is not below `value`. The length of the range
bounds the number of iterations. -/
def lower_bound (names : List String) (value : String) : Nat :=
  lower_bound_loop names value names.length 0 names.length

/-- Inserts `x` before position `pos` (`std::vector::insert`). -/
def insert_at (l : List Nat) (pos : Nat) (x : Nat) : List Nat :=
  l.take pos ++ x :: l.drop pos

/-- The operand data types of a prototype. -/
def operand_data_types (ots : List OperandType) : List Link :=
  ots.map fun o => o.data_type

/-- The overload test shared by the lookups: same number of operand types and the same data
type link at every position. -/
def data_types_match (ots : List OperandType) (types : List Link) : Bool :=
  ots.length == types.length && (ots.zip types).all fun p => p.1.data_type == p.2

/-- The search loop shared by `add_or_find_instruction_type` and `find_instruction_type`:
from position `pos` (with `rest` the entries from `pos` on), walk over the entries named
`name` and stop at the first whose operand data types match. Returns the final position
and whether a match was found. -/
def scan_overloads (ir : Root) (name : String) (types : List Link) : List Nat → Nat → Nat × Bool
  | [], pos => (pos, false)
  | id :: rest, pos =>
    if (ir.node id).name = name then
      if data_types_match (ir.node id).operand_types types then (pos, true)
      else scan_overloads ir name types rest (pos + 1)
    else (pos, false)

/-- The search for an overload as both lookups start it: binary search for the first entry
that is not below `name`, then the search loop from there. -/
def search_overload (ir : Root) (name : String) (types : List Link) : Nat × Bool :=
  scan_overloads ir name types
    (ir.platform.instructions.drop (lower_bound ir.instruction_names name))
    (lower_bound ir.instruction_names name)

/-- The search for an existing specialization: the first child whose last template operand
equals `op`. -/
def find_specialization (ir : Root) (specs : List Nat) (op : Option Expression) : Option Nat :=
  specs.find? fun s => maybe_equals (ir.node s).template_operands.getLast? op

/-- The loop that moves operand types of a new specialization into template operands: for
every template operand, check its type against the first operand type, remove that operand
type and append a clone of the operand. Returns the node and the next unused address. -/
def move_operands (ir : Root) : List Expression → InstructionType → Nat →
    Except Error (InstructionType × Nat)
  | [], spec, next => .ok (spec, next)
  | op :: rest, spec, next =>
    match spec.operand_types with
    | [] => .error Error.out_of_range
    | o :: ots =>
      match get_type_of ir op with
      | .error e => .error e
      | .ok t =>
        if o.data_type = t then
          move_operands ir rest
            { spec with
              operand_types := ots
              template_operands := spec.template_operands ++ [(op.clone next).1] }
            (op.clone next).2
        else .error (Error.internal_error "assertion failed")

/-- Links a new specialization up: the node `spec` is added to the specializations of
`ityp` and gets `ityp` as its generalization. The new node has the identity
`ir.instruction_nodes.length`. -/
def Root.add_specialization (ir : Root) (ityp : Nat) (spec : InstructionType) : Root :=
  (ir.alloc { spec with generalization := some ityp }).1.set_node ityp
    { ir.node ityp with
      specializations := (ir.node ityp).specializations ++ [ir.instruction_nodes.length] }

/-- The loop over the template operands of `add_or_find_instruction_type`. `remaining` are
the template operands from index `i` on, `ityp` the current node, `added` the flag
`added_anything`. Returns the IR reached and either the error thrown or the final node and
flag. -/
def add_specializations (instruction_type : InstructionType) (template_operands : List Expression) :
    List Expression → Nat → Root → Nat → Bool → Root × Except Error (Nat × Bool)
  | [], _, ir, ityp, added => (ir, .ok (ityp, added))
  | op :: rest, i, ir, ityp, added =>
    match find_specialization ir (ir.node ityp).specializations (some op) with
    | some spec =>
      add_specializations instruction_type template_operands rest (i + 1) ir spec added
    | none =>
      match move_operands ir (template_operands.take (i + 1))
          { instruction_type with decompositions := [] } ir.next_addr with
      | .error e => (ir, .error e)
      | .ok (spec, next) =>
        add_specializations instruction_type template_operands rest (i + 1)
          (({ ir with next_addr := next }).add_specialization ityp spec)
          ir.instruction_nodes.length true

/-- The copy of the access modes of an existing overload onto the incoming prototype (the
two have the same length). -/
def copy_modes (existing incoming : List OperandType) : List OperandType :=
  List.zipWith (fun e o => { o with mode := e.mode }) existing incoming

/-- Result of `add_or_find_instruction_type`: the IR reached, the incoming instruction
type object as the call leaves it, and the error thrown or the pair (node, added). -/
structure AddResult where
  ir : Root
  instruction_type : InstructionType
  result : Except Error (Nat × Bool)

/-- The end of `add_or_find_instruction_type`: if an instruction type was added, the
decomposition rules of the incoming instruction type go to the final node. `r` is the
outcome of the loop over the template operands. -/
def attach_decompositions (r : Root × Except Error (Nat × Bool))
    (instruction_type : InstructionType) : AddResult :=
  match r.2 with
  | .error e => ⟨r.1, instruction_type, .error e⟩
  | .ok (ityp, added) =>
    if added then
      ⟨r.1.set_node ityp { r.1.node ityp with decompositions := instruction_type.decompositions },
        instruction_type, .ok (ityp, added)⟩
    else ⟨r.1, instruction_type, .ok (ityp, added)⟩

/-- The position and outcome of the search for the overload of an incoming instruction
type. -/
def find_root (ir : Root) (instruction_type : InstructionType) : Nat × Bool :=
  search_overload ir instruction_type.name (operand_data_types instruction_type.operand_types)

/-- The existing overload found by the search (the entry at the final position). -/
def existing_root (ir : Root) (instruction_type : InstructionType) : Nat :=
  ir.platform.instructions.getD (find_root ir instruction_type).1 0

/-- The incoming instruction type after the access modes of the existing overload have
been copied onto it. -/
def with_copied_modes (ir : Root) (instruction_type : InstructionType) : InstructionType :=
  { instruction_type with
    operand_types := copy_modes (ir.node (existing_root ir instruction_type)).operand_types
      instruction_type.operand_types }

/-- The IR after a clone of the incoming instruction type, without its decompositions, has
been inserted in the collection at the final position of the search. The clone is the node
`ir.instruction_nodes.length`. -/
def with_new_root (ir : Root) (instruction_type : InstructionType) : Root :=
  (ir.alloc { instruction_type with decompositions := [] }).1.set_instructions
    (insert_at ir.platform.instructions (find_root ir instruction_type).1
      ir.instruction_nodes.length)

/-- The function `add_or_find_instruction_type`. -/
def add_or_find_instruction_type (ir : Root) (instruction_type : InstructionType)
    (template_operands : List Expression) : AddResult :=
  if ¬ (instruction_type.specializations = [] ∧ instruction_type.template_operands.isEmpty
      ∧ instruction_type.generalization = none) then
    ⟨ir, instruction_type, .error (Error.internal_error "assertion failed")⟩
  else if ¬ is_identifier instruction_type.name then
    ⟨ir, instruction_type, .error (Error.user_error "invalid name for new instruction type")⟩
  else if (find_root ir instruction_type).2 then
    attach_decompositions
      (add_specializations (with_copied_modes ir instruction_type) template_operands
        template_operands 0 ir (existing_root ir instruction_type) false)
      (with_copied_modes ir instruction_type)
  else
    attach_decompositions
      (add_specializations instruction_type template_operands template_operands 0
        (with_new_root ir instruction_type) ir.instruction_nodes.length true)
      instruction_type

/-! ## Describing nodes -/

/-- The data type node behind a link; dereferencing an empty or dangling link throws. -/
def Root.data_type (ir : Root) : Link → Except Error DataType
  | none => .error Error.empty_dereference
  | some p =>
    match ir.data_type_nodes.get? p with
    | none => .error Error.empty_dereference
    | some dt => .ok dt

/-- The object node behind a link; dereferencing an empty or dangling link throws. -/
def Root.object (ir : Root) : Link → Except Error Object
  | none => .error Error.empty_dereference
  | some p =>
    match ir.object_nodes.get? p with
    | none => .error Error.empty_dereference
    | some obj => .ok obj

/-- Associativity of an operator (`OperatorAssociativity`). -/
inductive OperatorAssociativity where
  | LEFT
  | RIGHT
deriving DecidableEq, Repr, Inhabited

/-- An entry of the operator table (`OperatorInfo`): precedence, associativity and the
texts printed before the first operand (`prefix` in the source), between the operands
(`infix`) and before the last operand of a ternary operator (`infix2`). -/
structure OperatorInfo where
  precedence : Nat
  associativity : OperatorAssociativity
  prefix_text : String
  infix_text : String
  infix2 : String
deriving DecidableEq, Repr, Inhabited

/-- The operator table `OPERATOR_INFO`, keyed by function name and number of operands. -/
def OPERATOR_INFO : List ((String × Nat) × OperatorInfo) :=
  [ (("operator?:", 3), ⟨1, .RIGHT, "", " ? ", " : "⟩),
    (("operator||", 2), ⟨2, .LEFT, "", " || ", ""⟩),
    (("operator^^", 2), ⟨3, .LEFT, "", " ^^ ", ""⟩),
    (("operator&&", 2), ⟨4, .LEFT, "", " && ", ""⟩),
    (("operator|", 2), ⟨5, .LEFT, "", " | ", ""⟩),
    (("operator^", 2), ⟨6, .LEFT, "", " ^ ", ""⟩),
    (("operator&", 2), ⟨7, .LEFT, "", " & ", ""⟩),
    (("operator==", 2), ⟨8, .LEFT, "", " == ", ""⟩),
    (("operator!=", 2), ⟨8, .LEFT, "", " != ", ""⟩),
    (("operator<", 2), ⟨9, .LEFT, "", " < ", ""⟩),
    (("operator>", 2), ⟨9, .LEFT, "", " > ", ""⟩),
    (("operator<=", 2), ⟨9, .LEFT, "", " <= ", ""⟩),
    (("operator>=", 2), ⟨9, .LEFT, "", " >= ", ""⟩),
    (("operator<<", 2), ⟨10, .LEFT, "", " << ", ""⟩),
    (("operator<<<", 2), ⟨10, .LEFT, "", " <<< ", ""⟩),
    (("operator>>", 2), ⟨10, .LEFT, "", " >> ", ""⟩),
    (("operator>>>", 2), ⟨10, .LEFT, "", " >>> ", ""⟩),
    (("operator+", 2), ⟨11, .LEFT, "", " + ", ""⟩),
    (("operator-", 2), ⟨11, .LEFT, "", " - ", ""⟩),
    (("operator*", 2), ⟨12, .LEFT, "", " * ", ""⟩),
    (("operator/", 2), ⟨12, .LEFT, "", " / ", ""⟩),
    (("operator//", 2), ⟨12, .LEFT, "", " // ", ""⟩),
    (("operator%", 2), ⟨12, .LEFT, "", " % ", ""⟩),
    (("operator**", 2), ⟨13, .RIGHT, "", " ** ", ""⟩),
    (("operator-", 1), ⟨14, .RIGHT, "-", "", ""⟩),
    (("operator+", 1), ⟨14, .RIGHT, "+", "", ""⟩),
    (("operator~", 1), ⟨14, .RIGHT, "~", "", ""⟩),
    (("operator!", 1), ⟨14, .RIGHT, "!", "", ""⟩) ]

/-- The visit of a data type link (`visit_data_type` behind a link): the name of the data
type; the visit of an empty link does nothing. -/
def DescribingVisitor.visit_data_type (ir : Root) : Link → String
  | none => ""
  | some p =>
    match ir.data_type_nodes.get? p with
    | none => ""
    | some dt => dt.name

/-- The method `visit_operand_type`: the access mode, which is left out for a qubit in
WRITE mode, and the data type. -/
def DescribingVisitor.visit_operand_type (ir : Root) (operand_type : OperandType) : Except Error String :=
  match operand_type.mode with
  | AccessMode.WRITE =>
    match ir.data_type operand_type.data_type with
    | .error e => .error e
    | .ok dt =>
      if dt.kind ≠ DataTypeKind.qubit then .ok ("write " ++ DescribingVisitor.visit_data_type ir operand_type.data_type)
      else .ok (DescribingVisitor.visit_data_type ir operand_type.data_type)
  | AccessMode.READ => .ok ("read " ++ DescribingVisitor.visit_data_type ir operand_type.data_type)
  | AccessMode.LITERAL => .ok ("literal " ++ DescribingVisitor.visit_data_type ir operand_type.data_type)
  | AccessMode.COMMUTE_X => .ok ("X-commute " ++ DescribingVisitor.visit_data_type ir operand_type.data_type)
  | AccessMode.COMMUTE_Y => .ok ("Y-commute " ++ DescribingVisitor.visit_data_type ir operand_type.data_type)
  | AccessMode.COMMUTE_Z => .ok ("Z-commute " ++ DescribingVisitor.visit_data_type ir operand_type.data_type)
  | AccessMode.MEASURE => .ok ("measure " ++ DescribingVisitor.visit_data_type ir operand_type.data_type)
  | AccessMode.UPDATE => .ok (DescribingVisitor.visit_data_type ir operand_type.data_type)

/-- The loop of `visit_reference` over the indices: the values in decimal, separated by
`", "`; `first` is the flag of the loop. -/
def DescribingVisitor.visit_indices : List IntLiteral → Bool → String
  | [], _ => ""
  | index :: rest, first =>
    (if first then "" else ", ") ++ toString index.value ++ DescribingVisitor.visit_indices rest false

/-- The method `visit_reference`: the data type in parentheses when it is not the data type
of the target, the name of the target and the indices in square brackets. -/
def DescribingVisitor.visit_reference (ir : Root) (reference : Reference) : Except Error String :=
  match ir.object reference.target with
  | .error e => .error e
  | .ok target =>
    .ok ((if reference.data_type ≠ target.data_type then
          "(" ++ DescribingVisitor.visit_data_type ir reference.data_type ++ ")" else "") ++
      (if target.name = "" then "<anonymous>" else target.name) ++
      (if reference.indices ≠ [] then "[" ++ DescribingVisitor.visit_indices reference.indices true ++ "]" else ""))

/-- The method `visit_string_literal`: the value between double quotes, with backslashes and
double quotes escaped. -/
def DescribingVisitor.visit_string_literal (value : String) : String :=
  "\"" ++ (value.replace "\\" "\\\\").replace "\"" "\\\"" ++ "\""

/-- The text that `visit_function_call` puts before and after an operator when the
surrounding precedence is above the precedence of the operator. -/
def parenthesize (needed : Bool) (text : String) : String :=
  (if needed then "(" else "") ++ text ++ (if needed then ")" else "")

mutual
/-- The visit of an expression by the describing visitor; `precedence` is the member
`precedence` of the visitor at the time of the visit. -/
def DescribingVisitor.visit_expression (ir : Root) : Nat → Expression → Except Error String
  | _, .bit_literal value _ => .ok (if value then "true" else "false")
  | _, .int_literal value _ => .ok (toString value)
  | _, .string_literal value _ => .ok (DescribingVisitor.visit_string_literal value)
  | _, .reference reference => DescribingVisitor.visit_reference ir reference
  | precedence, .function_call function_type operands =>
    match function_type with
    | none => .error Error.empty_dereference
    | some p =>
      match ir.function_nodes.get? p with
      | none => .error Error.empty_dereference
      | some ft =>
        match OPERATOR_INFO.lookup (ft.name, operands.length) with
        | none =>
          match DescribingVisitor.visit_arguments ir operands true with
          | .error e => .error e
          | .ok text => .ok (ft.name ++ "(" ++ text ++ ")")
        | some op_inf =>
          match DescribingVisitor.visit_operator_operands ir op_inf operands with
          | .error e => .error e
          | .ok text =>
            .ok (parenthesize (decide (precedence > op_inf.precedence))
              (op_inf.prefix_text ++ text))
/-- The loop of `visit_function_call` over the operands of a function that is not an
operator: the operands are visited with precedence 0 and separated by `", "`. -/
def DescribingVisitor.visit_arguments (ir : Root) : List Expression → Bool → Except Error String
  | [], _ => .ok ""
  | operand :: rest, first =>
    match DescribingVisitor.visit_expression ir 0 operand with
    | .error e => .error e
    | .ok text =>
      match DescribingVisitor.visit_arguments ir rest false with
      | .error e => .error e
      | .ok texts => .ok ((if first then "" else ", ") ++ text ++ texts)
/-- The part of `visit_function_call` that prints the operands of an operator. The only
operand of a unary operator is visited with the precedence of the operator. The first
operand of another operator is visited with that precedence, plus one when the operator is
right-associative, and the last operand with that precedence, plus one when the operator is
left-associative; the middle operand of a ternary operator is visited with that precedence
plus one. An operator without operands or with more than three fails an assertion. -/
def DescribingVisitor.visit_operator_operands (ir : Root) (op_inf : OperatorInfo) :
    List Expression → Except Error String
  | [] => .error (Error.internal_error "assertion failed")
  | [operand] => DescribingVisitor.visit_expression ir op_inf.precedence operand
  | [first, last] =>
    match DescribingVisitor.visit_expression ir
        (if op_inf.associativity = OperatorAssociativity.RIGHT then op_inf.precedence + 1
          else op_inf.precedence) first with
    | .error e => .error e
    | .ok text1 =>
      match DescribingVisitor.visit_expression ir
          (if op_inf.associativity = OperatorAssociativity.LEFT then op_inf.precedence + 1
            else op_inf.precedence) last with
      | .error e => .error e
      | .ok text2 => .ok (text1 ++ op_inf.infix_text ++ text2)
  | [first, middle, last] =>
    match DescribingVisitor.visit_expression ir
        (if op_inf.associativity = OperatorAssociativity.RIGHT then op_inf.precedence + 1
          else op_inf.precedence) first with
    | .error e => .error e
    | .ok text1 =>
      match DescribingVisitor.visit_expression ir (op_inf.precedence + 1) middle with
      | .error e => .error e
      | .ok text2 =>
        match DescribingVisitor.visit_expression ir
            (if op_inf.associativity = OperatorAssociativity.LEFT then op_inf.precedence + 1
              else op_inf.precedence) last with
        | .error e => .error e
        | .ok text3 => .ok (text1 ++ op_inf.infix_text ++ text2 ++ op_inf.infix2 ++ text3)
  | first :: _ :: _ :: _ :: _ =>
    match DescribingVisitor.visit_expression ir
        (if op_inf.associativity = OperatorAssociativity.RIGHT then op_inf.precedence + 1
          else op_inf.precedence) first with
    | .error e => .error e
    | .ok _ => .error (Error.internal_error "assertion failed")
end

/-- The loop over the operands that `print_instruction_type_prefix` runs for the template
operands and `visit_custom_instruction` for the operands: operand `i` is printed as a blank,
entry `i` of `operand_types`, `=` and the operand, after a comma unless it is the first
item; `first` is the flag of the loop. -/
def DescribingVisitor.visit_operands (ir : Root) (operand_types : List OperandType) :
    List Expression → Nat → Bool → Except Error String
  | [], _, _ => .ok ""
  | operand :: rest, i, first =>
    match operand_types.get? i with
    | none => .error Error.out_of_range
    | some operand_type =>
      match DescribingVisitor.visit_operand_type ir operand_type with
      | .error e => .error e
      | .ok type_text =>
        match DescribingVisitor.visit_expression ir 0 operand with
        | .error e => .error e
        | .ok operand_text =>
          match DescribingVisitor.visit_operands ir operand_types rest (i + 1) false with
          | .error e => .error e
          | .ok texts =>
            .ok ((if first then "" else ",") ++ " " ++ type_text ++ "=" ++ operand_text ++ texts)

/-- The instruction type whose operand types `print_instruction_type_prefix` prints for the
template operands: the generalization `g` of the instruction type, or the generalization of
`g` when it has one. -/
def DescribingVisitor.generalization (ir : Root) (g : Nat) : InstructionType :=
  match (ir.node g).generalization with
  | none => ir.node g
  | some p => ir.node p

/-- The name of an instruction type as `print_instruction_type_prefix` prints it: the name,
followed by `/` and the cQASM name when that is another name. -/
def DescribingVisitor.instruction_type_name (instruction_type : InstructionType) : String :=
  instruction_type.name ++
    (if instruction_type.cqasm_name ≠ instruction_type.name then
      "/" ++ instruction_type.cqasm_name else "")

/-- The method `print_instruction_type_prefix`: the name and the template operands. Returns
the text and the flag `first`, which tells that no item has been printed. -/
def DescribingVisitor.print_instruction_type_prefix (ir : Root)
    (instruction_type : InstructionType) : Except Error (String × Bool) :=
  if instruction_type.template_operands.isEmpty then
    .ok (DescribingVisitor.instruction_type_name instruction_type, true)
  else
    match instruction_type.generalization with
    | none => .error Error.empty_dereference
    | some g =>
      match DescribingVisitor.visit_operands ir (DescribingVisitor.generalization ir g).operand_types
          instruction_type.template_operands 0 true with
      | .error e => .error e
      | .ok text => .ok (DescribingVisitor.instruction_type_name instruction_type ++ text, false)

/-- The loop of `visit_instruction_type` over the operand types; `first` is the flag of the
loop. -/
def DescribingVisitor.visit_prototype (ir : Root) : List OperandType → Bool → Except Error String
  | [], _ => .ok ""
  | opt :: rest, first =>
    match DescribingVisitor.visit_operand_type ir opt with
    | .error e => .error e
    | .ok text =>
      match DescribingVisitor.visit_prototype ir rest false with
      | .error e => .error e
      | .ok texts => .ok ((if first then "" else ",") ++ " " ++ text ++ texts)

/-- The method `visit_instruction_type`: the name and the template operands, then the
operand types. -/
def DescribingVisitor.visit_instruction_type (ir : Root) (instruction_type : InstructionType) :
    Except Error String :=
  match DescribingVisitor.print_instruction_type_prefix ir instruction_type with
  | .error e => .error e
  | .ok type_text =>
    match DescribingVisitor.visit_prototype ir instruction_type.operand_types type_text.2 with
    | .error e => .error e
    | .ok texts => .ok (type_text.1 ++ texts)

/-! ## Registering instruction types, continued -/

/-- The function `add_instruction_type`: returns the IR reached and the node added, or the
duplicate error when nothing was added. The message of the duplicate error holds the
description of the incoming instruction type object as `add_or_find_instruction_type` leaves
it; an exception thrown while describing it replaces the duplicate error. -/
def add_instruction_type (ir : Root) (instruction_type : InstructionType)
    (template_operands : List Expression) : Root × Except Error Nat :=
  let r := add_or_find_instruction_type ir instruction_type template_operands
  match r.result with
  | .error e => (r.ir, .error e)
  | .ok (ityp, added) =>
    if ¬ added then
      match DescribingVisitor.visit_instruction_type r.ir r.instruction_type with
      | .error e => (r.ir, .error e)
      | .ok text => (r.ir, .error (Error.user_error ("duplicate instruction type: " ++ text)))
    else (r.ir, .ok ityp)

/-- The function `add_decomposition_rule`: when nothing was added, the decomposition rules
of the incoming instruction type extend those of the existing node. -/
def add_decomposition_rule (ir : Root) (instruction_type : InstructionType)
    (template_operands : List Expression) : Root × Except Error Nat :=
  let r := add_or_find_instruction_type ir instruction_type template_operands
  match r.result with
  | .error e => (r.ir, .error e)
  | .ok (ityp, added) =>
    if ¬ added then
      (r.ir.set_node ityp
        { r.ir.node ityp with
          decompositions := (r.ir.node ityp).decompositions ++ r.instruction_type.decompositions },
        .ok ityp)
    else (r.ir, .ok ityp)

/-! ## Finding instruction types and building instructions -/

/-- The method `clone` on an instruction type node of the IR: a deep copy of the node and of
the nodes it owns (its specializations, recursively, and its template operands); links
(`generalization`) are copied as they are. `fuel` bounds the depth of the copy; the number
of nodes of the store is enough for every ownership tree. Returns the IR with the new nodes
and the identity of the copy. -/
def clone_tree : Nat → Root → Nat → Root × Nat
  | 0, ir, id =>
    ({ ir with next_addr := (Expression.clone_list (ir.node id).template_operands ir.next_addr).2 }).alloc
      { ir.node id with
        template_operands := (Expression.clone_list (ir.node id).template_operands ir.next_addr).1
        specializations := [] }
  | fuel + 1, ir, id =>
    let copies := (ir.node id).specializations.foldl
      (fun (acc : Root × List Nat) c => ((clone_tree fuel acc.1 c).1, acc.2 ++ [(clone_tree fuel acc.1 c).2]))
      ((({ ir with next_addr := (Expression.clone_list (ir.node id).template_operands ir.next_addr).2 }).alloc
        { ir.node id with
          template_operands := (Expression.clone_list (ir.node id).template_operands ir.next_addr).1
          specializations := [] }).1, [])
    (copies.1.set_node ir.instruction_nodes.length
      { copies.1.node ir.instruction_nodes.length with specializations := copies.2 },
      ir.instruction_nodes.length)

/-- The function `find_instruction_type`. Returns the IR reached (changed only when an
overload is generated) and the link found. -/
def find_instruction_type (ir : Root) (name : String) (types : List Link)
    (generate_overload_if_needed : Bool) : Root × Link :=
  if (search_overload ir name types).2 then
    (ir, ir.platform.instructions.get? (search_overload ir name types).1)
  else if (search_overload ir name types).1 = lower_bound ir.instruction_names name then (ir, none)
  else if ¬ generate_overload_if_needed then (ir, none)
  else
    (((clone_tree ir.instruction_nodes.length ir
          (ir.platform.instructions.getD (lower_bound ir.instruction_names name) 0)).1.set_node
        ir.instruction_nodes.length
        { (clone_tree ir.instruction_nodes.length ir
            (ir.platform.instructions.getD (lower_bound ir.instruction_names name) 0)).1.node
            ir.instruction_nodes.length with
          operand_types := types.map fun t => { mode := AccessMode.WRITE, data_type := t } }
      ).set_instructions
        (insert_at ir.platform.instructions (search_overload ir name types).1
          ir.instruction_nodes.length),
      some ir.instruction_nodes.length)

/-- Custom instruction. -/
structure CustomInstruction where
  cycle : Int := 0
  condition : Option Expression := none
  instruction_type : Link := none
  operands : List Expression := []
deriving Repr, Inhabited

/-- Set instruction. -/
structure SetInstruction where
  cycle : Int := 0
  condition : Option Expression := none
  lhs : Reference := {}
  rhs : Expression := default
deriving Repr, Inhabited

/-- Wait instruction. -/
structure WaitInstruction where
  cycle : Int := 0
  duration : Nat := 0
  objects : List Reference := []
deriving Repr, Inhabited

/-- The instructions that `make_instruction` builds. -/
inductive Instruction where
  | custom_instruction (insn : CustomInstruction)
  | set_instruction (insn : SetInstruction)
  | wait_instruction (insn : WaitInstruction)
deriving Repr, Inhabited

/-- The function `make_bit_lit` with the default bit type of the platform. -/
def make_bit_lit (ir : Root) (b : Bool) : Except Error Expression :=
  match ir.data_type ir.platform.default_bit_type with
  | .error e => .error e
  | .ok dt =>
    if dt.kind = DataTypeKind.bit then .ok (Expression.bit_literal b ir.platform.default_bit_type)
    else .error (Error.user_error "type is not bit-like")

/-- The data types of a list of operands, left to right. -/
def get_types_of (ir : Root) : List Expression → Except Error (List Link)
  | [] => .ok []
  | op :: rest =>
    match get_type_of ir op with
    | .error e => .error e
    | .ok t =>
      match get_types_of ir rest with
      | .error e => .error e
      | .ok ts => .ok (t :: ts)

/-- The loop of `make_instruction` that specializes the instruction type and operands as
much as possible: while the current type has a specialization whose last template operand
equals the front operand, remove that operand and descend. `fuel` bounds the number of
iterations; `none` means the bound was reached. -/
def specialize_instruction (ir : Root) : Nat → Nat → List Expression → Option (Nat × List Expression)
  | 0, _, _ => none
  | fuel + 1, ityp, operands =>
    match find_specialization ir (ir.node ityp).specializations operands.head? with
    | some spec => specialize_instruction ir fuel spec (operands.drop 1)
    | none => some (ityp, operands)

/-- The references of a list of operands, when all of them are references. -/
def as_references : List Expression → Option (List Reference)
  | [] => some []
  | .reference r :: rest =>
    match as_references rest with
    | some rs => some (r :: rs)
    | none => none
  | _ :: _ => none

/-- Sets the condition of a conditional instruction (the end of `make_instruction`): the
supplied condition, or a literal true; a condition on an instruction that cannot be made
conditional is an error. -/
def set_condition (ir : Root) (insn : Instruction) (condition : Option Expression) :
    Except Error Instruction :=
  match insn, condition with
  | .wait_instruction w, none => .ok (.wait_instruction w)
  | .wait_instruction _, some _ =>
    .error (Error.user_error "condition specified for instruction that cannot be made conditional")
  | .custom_instruction c, some e => .ok (.custom_instruction { c with condition := some e })
  | .set_instruction s, some e => .ok (.set_instruction { s with condition := some e })
  | .custom_instruction c, none =>
    match make_bit_lit ir true with
    | .error e => .error e
    | .ok t => .ok (.custom_instruction { c with condition := some t })
  | .set_instruction s, none =>
    match make_bit_lit ir true with
    | .error e => .error e
    | .ok t => .ok (.set_instruction { s with condition := some t })

/-- The loop of `make_instruction` that adds the names of the data types of the operands to
the message of the unknown-instruction error: a blank and the name for each type, after a
comma unless it is the first one; `first` is the flag of the loop. Dereferencing an empty or
dangling link throws. -/
def unknown_instruction_types (ir : Root) : List Link → Bool → Except Error String
  | [], _ => .ok ""
  | type :: rest, first =>
    match ir.data_type type with
    | .error e => .error e
    | .ok dt =>
      match unknown_instruction_types ir rest false with
      | .error e => .error e
      | .ok texts => .ok ((if first then "" else ",") ++ " " ++ dt.name ++ texts)

/-- The function `make_instruction`. Returns the IR reached (changed only when an overload
is generated) and the error thrown, or the instruction built (`none` is the empty
instruction returned with `return_empty_on_failure`). Every iteration of the
specialization loop but the last removes an operand or descends to an owned node without
template operands, so in an ownership tree the loop ends within the bound given here; a
loop that reaches the bound is reported as an internal error. -/
def make_instruction (ir : Root) (name : String) (operands : List Expression)
    (condition : Option Expression) (generate_overload_if_needed : Bool)
    (return_empty_on_failure : Bool) : Root × Except Error (Option Instruction) :=
  if name = "set" then
    match operands with
    | [lhs, rhs] =>
      match lhs with
      | .reference r =>
        match ir.data_type r.data_type with
        | .error e => (ir, .error e)
        | .ok dt =>
          if dt.kind = DataTypeKind.qubit then
            (ir, .error (Error.user_error "set instructions only support classical data types"))
          else
            match get_type_of ir rhs with
            | .error e => (ir, .error e)
            | .ok t =>
              if r.data_type ≠ t then
                (ir, .error (Error.user_error
                  "the left-hand side and right-hand side of a set instruction must have the same type"))
              else
                match set_condition ir (.set_instruction { lhs := r, rhs := rhs }) condition with
                | .error e => (ir, .error e)
                | .ok insn => (ir, .ok (some insn))
      | _ => (ir, .error (Error.user_error
          "the left-hand side of a set instructions must be a reference"))
    | _ => (ir, .error (Error.user_error "set instructions must have exactly two operands"))
  else if name = "wait" then
    match operands with
    | [] => (ir, .error (Error.user_error
        "wait instructions must have at least one operand (the duration)"))
    | .int_literal value _ :: rest =>
      if value < 0 then
        (ir, .error (Error.user_error "the duration of a wait instruction cannot be negative"))
      else
        match as_references rest with
        | none => (ir, .error (Error.user_error
            "the operands of a wait instruction after the first must be references"))
        | some refs =>
          match set_condition ir (.wait_instruction { duration := value.toNat, objects := refs })
              condition with
          | .error e => (ir, .error e)
          | .ok insn => (ir, .ok (some insn))
    | _ :: _ => (ir, .error (Error.user_error
        "the duration of a wait instruction must be an integer literal"))
  else if name = "barrier" then
    match as_references operands with
    | none => (ir, .error (Error.user_error
        "the operands of a wait instruction after the first must be references"))
    | some refs =>
      match set_condition ir (.wait_instruction { duration := 0, objects := refs }) condition with
      | .error e => (ir, .error e)
      | .ok insn => (ir, .ok (some insn))
  else
    match get_types_of ir operands with
    | .error e => (ir, .error e)
    | .ok types =>
      let found := find_instruction_type ir name types generate_overload_if_needed
      match found.2 with
      | none =>
        if return_empty_on_failure then (found.1, .ok none)
        else
          match unknown_instruction_types found.1 types true with
          | .error e => (found.1, .error e)
          | .ok texts => (found.1, .error (Error.user_error ("unknown instruction: " ++ name ++ texts)))
      | some ityp =>
        match specialize_instruction found.1
            (operands.length + found.1.instruction_nodes.length + 1) ityp operands with
        | none => (found.1, .error (Error.internal_error "specialization loop bound reached"))
        | some (spec, rest) =>
          match set_condition found.1
              (.custom_instruction { instruction_type := some spec, operands := rest }) condition with
          | .error e => (found.1, .error e)
          | .ok insn => (found.1, .ok (some insn))

/-! ## Object accesses -/

/-- Wrapper of a reference used as the key of the access map; the default is the empty
reference. -/
structure ReferenceWrapper where
  reference : Reference := {}
deriving DecidableEq, Repr, Inhabited

/-- The loop of `ReferenceWrapper::operator<` over the index lists; the index entries are
compared as pointers. -/
def indices_lt : List IntLiteral → List IntLiteral → Bool
  | _, [] => false
  | [], _ :: _ => true
  | a :: as, b :: bs =>
    if a.addr > b.addr then false
    else if a.addr < b.addr then true
    else indices_lt as bs

/-- The operator `ReferenceWrapper::operator<`. -/
def ReferenceWrapper.lt (a b : ReferenceWrapper) : Bool :=
  if Link.lt b.reference.target a.reference.target then false
  else if Link.lt a.reference.target b.reference.target then true
  else if Link.lt b.reference.data_type a.reference.data_type then false
  else if Link.lt a.reference.data_type b.reference.data_type then true
  else indices_lt a.reference.indices b.reference.indices

/-- The operator `ReferenceWrapper::operator==`: value equality of the references. -/
def ReferenceWrapper.eq (a b : ReferenceWrapper) : Bool :=
  a.reference.equals b.reference

/-- The access map (`std::map<ReferenceWrapper, AccessMode>`) as the list of its entries in
key order. -/
abbrev Accesses := List (ReferenceWrapper × AccessMode)

/-- The position of the first entry whose key is not below `k` (`std::map::lower_bound`). -/
def Accesses.lower_bound (m : Accesses) (k : ReferenceWrapper) : Nat :=
  m.findIdx fun e => !(e.1.lt k)

/-- The method `std::map::find`: the position of the entry whose key is equivalent to `k`
(neither is below the other), if there is one. -/
def Accesses.find (m : Accesses) (k : ReferenceWrapper) : Option Nat :=
  match m.get? (m.lower_bound k) with
  | none => none
  | some e => if k.lt e.1 then none else some (m.lower_bound k)

/-- The access analysis object. `next_addr` is the next unused address for the nodes made
by `ReferenceWrapper::clone`. -/
structure ObjectAccesses where
  accesses : Accesses := []
  disable_single_qubit_commutation : Bool := false
  disable_multi_qubit_commutation : Bool := false
  next_addr : Nat := 0
deriving Repr, Inhabited

/-- The end of `add_access` (after the mode has been adjusted): insert the reference with
the mode when the map has no entry for it; otherwise keep the recorded mode when it is the
same and set it to WRITE when it is not. -/
def ObjectAccesses.record (self : ObjectAccesses) (mode : AccessMode)
    (reference : ReferenceWrapper) : ObjectAccesses :=
  match self.accesses.find reference with
  | none =>
    { self with
      accesses := self.accesses.take (self.accesses.lower_bound reference)
        ++ (reference, mode) :: self.accesses.drop (self.accesses.lower_bound reference) }
  | some i =>
    if (self.accesses.getD i default).2 ≠ mode then
      { self with
        accesses := self.accesses.set i ((self.accesses.getD i default).1, AccessMode.WRITE) }
    else self

/-- The method `ObjectAccesses::add_access`. The recursive call for MEASURE has mode WRITE,
for which the call takes neither of the first two branches, so it is `record`. -/
def ObjectAccesses.add_access (ir : Root) (self : ObjectAccesses) (mode : AccessMode)
    (reference : ReferenceWrapper) : ObjectAccesses :=
  if mode = AccessMode.LITERAL then self.record AccessMode.READ reference
  else if mode = AccessMode.MEASURE then
    (({ self with next_addr := (reference.reference.clone self.next_addr).2 }).record AccessMode.WRITE
      { reference := { (reference.reference.clone self.next_addr).1 with
          data_type := ir.platform.implicit_bit_type } }).record AccessMode.WRITE reference
  else self.record mode reference

/-- Entry `id` is the overload `(name, types)`. -/
def matches_overload (ir : Root) (name : String) (types : List Link) (id : Nat) : Bool :=
  decide ((ir.node id).name = name) && data_types_match (ir.node id).operand_types types

/-- The instruction collection is non-decreasing by name. -/
def Root.names_sorted (ir : Root) : Prop :=
  ir.instruction_names.Pairwise (· ≤ ·)

/-- Two instruction types are the same overload: same name, same number of operand types
and the same operand data type at every position. -/
def same_overload (a b : InstructionType) : Prop :=
  a.name = b.name ∧ operand_data_types a.operand_types = operand_data_types b.operand_types

/-- No two entries of the instruction collection are the same overload. -/
def Root.overloads_distinct (ir : Root) : Prop :=
  ir.platform.instructions.Pairwise fun a b => ¬ same_overload (ir.node a) (ir.node b)

/-- Every identity stored in the instruction collection and in a specialization list
denotes a node of the store (the IR has no dangling owner). -/
structure Root.links_valid (ir : Root) : Prop where
  top : ∀ id ∈ ir.platform.instructions, id < ir.instruction_nodes.length
  specs : ∀ p, p < ir.instruction_nodes.length → ∀ c ∈ (ir.node p).specializations,
    c < ir.instruction_nodes.length

/-- State `b` extends state `a`: the nodes of `a` are nodes of `b` with the same name,
prototype, template operands and parent; their specialization lists may have grown at the
end by nodes that are new in `b`. -/
structure Extends (a b : Root) : Prop where
  length_le : a.instruction_nodes.length ≤ b.instruction_nodes.length
  function_nodes : b.function_nodes = a.function_nodes
  data_type_nodes : b.data_type_nodes = a.data_type_nodes
  name : ∀ id, id < a.instruction_nodes.length → (b.node id).name = (a.node id).name
  operand_types : ∀ id, id < a.instruction_nodes.length →
    (b.node id).operand_types = (a.node id).operand_types
  template_operands : ∀ id, id < a.instruction_nodes.length →
    (b.node id).template_operands = (a.node id).template_operands
  generalization : ∀ id, id < a.instruction_nodes.length →
    (b.node id).generalization = (a.node id).generalization
  specializations : ∀ id, id < a.instruction_nodes.length →
    ∃ extra, (b.node id).specializations = (a.node id).specializations ++ extra ∧
      ∀ x ∈ extra, a.instruction_nodes.length ≤ x

/-- Consistency of the specialization trees: the entries of the instruction collection are
roots, and every specialization is linked to its parent, extends the template operands of
its parent by one expression and drops the first operand type of its parent, which has the
data type of that expression. -/
structure Root.tree_consistent (ir : Root) : Prop where
  top : ∀ id ∈ ir.platform.instructions, id < ir.instruction_nodes.length
  roots : ∀ id ∈ ir.platform.instructions,
    (ir.node id).template_operands = [] ∧ (ir.node id).generalization = none
  children : ∀ p, p < ir.instruction_nodes.length → ∀ c ∈ (ir.node p).specializations,
    (ir.node c).generalization = some p ∧
    ∃ e o, Expression.equals_list (ir.node c).template_operands
        ((ir.node p).template_operands ++ [e]) = true ∧
      (ir.node p).operand_types = o :: (ir.node c).operand_types ∧
      get_type_of ir e = .ok o.data_type
  parents : ∀ c, c < ir.instruction_nodes.length → ∀ p, (ir.node c).generalization = some p →
    p < ir.instruction_nodes.length ∧ c ∈ (ir.node p).specializations

/-- The invariant of the instruction registry: consistent specialization trees in a
collection that is sorted by name and holds every overload once. -/
structure Root.well_formed (ir : Root) : Prop where
  consistent : ir.tree_consistent
  sorted : ir.names_sorted
  distinct : ir.overloads_distinct

/-- The platforms built from an empty instruction collection by calls of
`add_instruction_type` and `add_decomposition_rule`, with any arguments; a call that
throws leaves the IR it has reached. -/
inductive Built : Root → Prop where
  | empty (ir : Root) (h1 : ir.platform.instructions = []) (h2 : ir.instruction_nodes = []) :
    Built ir
  | add_instruction_type (ir : Root) (instruction_type : InstructionType)
    (template_operands : List Expression) (h : Built ir) :
    Built (add_instruction_type ir instruction_type template_operands).1
  | add_decomposition_rule (ir : Root) (instruction_type : InstructionType)
    (template_operands : List Expression) (h : Built ir) :
    Built (add_decomposition_rule ir instruction_type template_operands).1

/-- Node `t` belongs to the specialization tree of `root`. -/
inductive in_tree (ir : Root) (root : Nat) : Nat → Prop where
  | root : in_tree ir root root
  | child (p c : Nat) (h : in_tree ir root p) (hc : c ∈ (ir.node p).specializations) :
    in_tree ir root c

/-- The node reached from `cur` by descending, for every template operand in turn, into
the first specialization whose last template operand equals it; `none` when a step of the
path does not exist. -/
def lookup_specialization (ir : Root) : List Expression → Nat → Option Nat
  | [], cur => some cur
  | op :: rest, cur =>
    match find_specialization ir (ir.node cur).specializations (some op) with
    | some c => lookup_specialization ir rest c
    | none => none

/-- The existing node for an instruction type and template operands: the top-level overload
with the same name and operand data types, followed along the complete specialization path;
`none` when the overload or a step of the path does not exist. -/
def existing_instruction_type (ir : Root) (instruction_type : InstructionType)
    (template_operands : List Expression) : Option Nat :=
  match ir.platform.instructions.find? (fun id =>
      decide ((ir.node id).name = instruction_type.name) &&
        decide (operand_data_types (ir.node id).operand_types =
          operand_data_types instruction_type.operand_types)) with
  | some root => lookup_specialization ir template_operands root
  | none => none

/-! ## A small platform used in the examples -/

/-- An empty IR with a qubit type (type 0), a bit type (type 1, also the default and the
implicit bit type) and an integer type (type 2). -/
def example_ir0 : Root :=
  { data_type_nodes := [{ name := "qubit", kind := DataTypeKind.qubit }, { name := "bit", kind := DataTypeKind.bit }, { name := "int", kind := DataTypeKind.int 32 true }], platform := { default_bit_type := some 1, implicit_bit_type := some 1, default_int_type := some 2 } }

/-- The instruction type `g` with one qubit operand. -/
def example_g : InstructionType :=
  { name := "g", cqasm_name := "g", operand_types := [{ mode := AccessMode.WRITE, data_type := some 0 }] }

/-- The qubit reference `qubit_ref index` to the qubit register (object 0), with its index
literal at address `addr`. -/
def example_qubit_ref (addr : Nat) (index : Int) : Expression :=
  Expression.reference { target := some 0, data_type := some 0, indices := [{ addr := addr, value := index, data_type := some 2 }] }

/-- The platform after registering `g`. -/
def example_ir1 : Root := (add_instruction_type example_ir0 example_g []).1

/-- The platform after registering `g` and its specialization `g q[3]`. -/
def example_ir2 : Root := (add_instruction_type example_ir1 example_g [example_qubit_ref 0 3]).1

/-- A decomposition rule. -/
def example_rule : InstructionDecomposition := { name := "g_rule" }

/-- The platform after registering `g` with a decomposition rule and then its specialization
`g q[3]`. -/
def example_ir3 : Root :=
  (add_instruction_type
    (add_instruction_type example_ir0 { example_g with decompositions := [example_rule] } []).1
    example_g [example_qubit_ref 0 3]).1

/-- The instruction type `g` carrying a decomposition rule. -/
def example_g_rule : InstructionType := { example_g with decompositions := [example_rule] }

/-- The platform after registering `g` and `g q[3]` and then asking for the overload of `g`
on a bit operand with overload generation. -/
def example_ir4 : Root := (find_instruction_type example_ir2 "g" [some 1] true).1

/-- The qubit reference `q[3]` as a key of the access map. -/
def example_key : ReferenceWrapper :=
  { reference := { target := some 0, data_type := some 0, indices := [{ addr := 5, value := 3, data_type := some 2 }] } }

/-- The invariant of the top-level instruction collection alone: its entries denote nodes,
it is sorted by name and it holds every overload once. -/
structure Root.registry_invariant (ir : Root) : Prop where
  top : ∀ id ∈ ir.platform.instructions, id < ir.instruction_nodes.length
  sorted : ir.names_sorted
  distinct : ir.overloads_distinct

/-- The platforms reached from an empty instruction collection by calls of
`add_instruction_type`, `add_decomposition_rule` and `find_instruction_type` (with either
value of `generate_overload_if_needed`), with any arguments; a call that throws leaves the
IR it has reached. -/
inductive Registered : Root → Prop where
  | empty (ir : Root) (h1 : ir.platform.instructions = []) (h2 : ir.instruction_nodes = []) :
    Registered ir
  | add_instruction_type (ir : Root) (instruction_type : InstructionType)
    (template_operands : List Expression) (h : Registered ir) :
    Registered (add_instruction_type ir instruction_type template_operands).1
  | add_decomposition_rule (ir : Root) (instruction_type : InstructionType)
    (template_operands : List Expression) (h : Registered ir) :
    Registered (add_decomposition_rule ir instruction_type template_operands).1
  | find_instruction_type (ir : Root) (name : String) (types : List Link)
    (generate_overload_if_needed : Bool) (h : Registered ir) :
    Registered (find_instruction_type ir name types generate_overload_if_needed).1

/-! ## Statements -/

/-- Goto instruction. -/
structure GotoInstruction where
  cycle : Int := 0
  condition : Option Expression := none
  target : Link := none
deriving Repr, Inhabited

mutual
/-- Statements: the instructions and the structured statements. A sub-block is the list of
its statements. -/
inductive Statement where
  | custom_instruction (insn : CustomInstruction)
  | set_instruction (insn : SetInstruction)
  | goto_instruction (insn : GotoInstruction)
  | wait_instruction (insn : WaitInstruction)
  | dummy_instruction (cycle : Int)
  | if_else (branches : List IfElseBranch) (otherwise : Option (List Statement))
  | static_loop (lhs : Reference) (frm : Int) (to_ : Int) (body : List Statement)
  | for_loop (init : Option SetInstruction) (condition : Expression)
      (update : Option SetInstruction) (body : List Statement)
  | repeat_until_loop (condition : Expression) (body : List Statement)
  | break_statement
  | continue_statement
/-- A branch of an if-else statement. -/
inductive IfElseBranch where
  | mk (condition : Expression) (body : List Statement)
end

/-- The switch of `add_operands` that turns the commute modes into WRITE when commutation
is disabled. -/
def demote_commutation (disable_qubit_commutation : Bool) (mode : AccessMode) : AccessMode :=
  if disable_qubit_commutation then
    match mode with
    | AccessMode.COMMUTE_X => AccessMode.WRITE
    | AccessMode.COMMUTE_Y => AccessMode.WRITE
    | AccessMode.COMMUTE_Z => AccessMode.WRITE
    | m => m
  else mode

/-- The first loop of `add_operands`: the number of operand types of the prototype whose
data type is a qubit type. Dereferencing an empty or dangling data type link throws. -/
def count_qubit_types (ir : Root) : List OperandType → Except Error Nat
  | [] => .ok 0
  | otyp :: rest =>
    match ir.data_type otyp.data_type with
    | .error e => .error e
    | .ok dt =>
      match count_qubit_types ir rest with
      | .error e => .error e
      | .ok n => .ok (if dt.kind = DataTypeKind.qubit then n + 1 else n)

/-- The value of `disable_qubit_commutation` in `add_operands`. -/
def ObjectAccesses.disable_qubit_commutation (self : ObjectAccesses) (num_qubits : Nat) : Bool :=
  (num_qubits == 1 && self.disable_single_qubit_commutation) ||
    (decide (num_qubits > 1) && self.disable_multi_qubit_commutation)

mutual
/-- The method `ObjectAccesses::add_expression`: a reference is recorded with the mode; the
operands of a function call are recorded by `add_operands` with the prototype of the
function type; a literal records nothing. -/
def ObjectAccesses.add_expression (ir : Root) :
    ObjectAccesses → AccessMode → Expression → Except Error ObjectAccesses
  | self, mode, .reference r => .ok (self.add_access ir mode { reference := r })
  | self, _, .function_call f operands =>
    match f with
    | none => .error Error.empty_dereference
    | some p =>
      match ir.function_nodes.get? p with
      | none => .error Error.empty_dereference
      | some ft =>
        match count_qubit_types ir ft.operand_types with
        | .error e => .error e
        | .ok num_qubits =>
          ObjectAccesses.add_operands_loop ir self (self.disable_qubit_commutation num_qubits)
            ft.operand_types operands
  | self, _, .bit_literal _ _ => .ok self
  | self, _, .int_literal _ _ => .ok self
  | self, _, .string_literal _ _ => .ok self
/-- The second loop of `add_operands`: operand `i` is recorded with the mode of entry `i` of
the prototype, commute modes turned into WRITE when commutation is disabled; a prototype
longer than the operand list is an access out of range. -/
def ObjectAccesses.add_operands_loop (ir : Root) :
    ObjectAccesses → Bool → List OperandType → List Expression → Except Error ObjectAccesses
  | self, _, [], _ => .ok self
  | _, _, _ :: _, [] => .error Error.out_of_range
  | self, disable, otyp :: prototype, operand :: operands =>
    match ObjectAccesses.add_expression ir self (demote_commutation disable otyp.mode) operand with
    | .error e => .error e
    | .ok next => ObjectAccesses.add_operands_loop ir next disable prototype operands
end

/-- The method `ObjectAccesses::add_operands`. -/
def ObjectAccesses.add_operands (ir : Root) (self : ObjectAccesses)
    (prototype : List OperandType) (operands : List Expression) : Except Error ObjectAccesses :=
  match count_qubit_types ir prototype with
  | .error e => .error e
  | .ok num_qubits =>
    ObjectAccesses.add_operands_loop ir self (self.disable_qubit_commutation num_qubits)
      prototype operands

/-- The loop `while (!gen->generalization.empty()) gen = gen->generalization` of
`add_statement`; `fuel` bounds the number of iterations, `none` means the bound was
reached. -/
def find_generalization (ir : Root) : Nat → Nat → Option Nat
  | 0, _ => none
  | fuel + 1, gen =>
    match (ir.node gen).generalization with
    | none => some gen
    | some p => find_generalization ir fuel p

/-- The loop of `add_statement` over the template operands of the instruction type:
template operand `i` is recorded with the mode of operand type `i` of the fully generalized
instruction type. -/
def ObjectAccesses.add_template_operands (ir : Root) :
    ObjectAccesses → List OperandType → List Expression → Except Error ObjectAccesses
  | self, _, [] => .ok self
  | _, [], _ :: _ => .error Error.out_of_range
  | self, otyp :: operand_types, operand :: template_operands =>
    match self.add_expression ir otyp.mode operand with
    | .error e => .error e
    | .ok next => ObjectAccesses.add_template_operands ir next operand_types template_operands

/-- The access to the condition of a conditional instruction. -/
def ObjectAccesses.add_condition (ir : Root) (self : ObjectAccesses)
    (condition : Option Expression) : Except Error ObjectAccesses :=
  match condition with
  | none => .error Error.empty_dereference
  | some c => self.add_expression ir AccessMode.READ c

/-- The end of `add_statement`: the access to the empty reference that orders the statement
with respect to barriers. -/
def ObjectAccesses.add_barrier_access (ir : Root) (self : ObjectAccesses) (barrier : Bool) :
    ObjectAccesses :=
  self.add_access ir (if barrier then AccessMode.WRITE else AccessMode.READ) {}

/-- The branch of `add_statement` for a custom instruction, up to the final access. The
generalization loop ends within one step per template operand in a specialization tree; the
bound given here is larger, and a loop that reaches it is reported as an internal error. -/
def ObjectAccesses.add_custom_instruction (ir : Root) (self : ObjectAccesses)
    (custom : CustomInstruction) : Except Error ObjectAccesses :=
  match self.add_condition ir custom.condition with
  | .error e => .error e
  | .ok s1 =>
    match custom.instruction_type with
    | none => .error Error.empty_dereference
    | some t =>
      match s1.add_operands ir (ir.node t).operand_types custom.operands with
      | .error e => .error e
      | .ok s2 =>
        if (ir.node t).template_operands.isEmpty then .ok s2
        else
          match find_generalization ir
              ((ir.node t).template_operands.length + ir.instruction_nodes.length + 1) t with
          | none => .error (Error.internal_error "generalization loop bound reached")
          | some gen =>
            s2.add_template_operands ir (ir.node gen).operand_types (ir.node t).template_operands

/-- The method `add_statement` on a set instruction. -/
def ObjectAccesses.add_set_instruction (ir : Root) (self : ObjectAccesses)
    (set : SetInstruction) : Except Error ObjectAccesses :=
  match self.add_condition ir set.condition with
  | .error e => .error e
  | .ok s1 =>
    match s1.add_expression ir AccessMode.WRITE (.reference set.lhs) with
    | .error e => .error e
    | .ok s2 =>
      match s2.add_expression ir AccessMode.READ set.rhs with
      | .error e => .error e
      | .ok s3 => .ok (s3.add_barrier_access ir false)

/-- The loop of `add_statement` over the objects of a wait instruction. -/
def ObjectAccesses.add_wait_objects (ir : Root) (self : ObjectAccesses) :
    List Reference → ObjectAccesses
  | [] => self
  | ref :: rest =>
    ObjectAccesses.add_wait_objects ir (self.add_access ir AccessMode.WRITE { reference := ref })
      rest

/-- The method `add_statement` on the initialize or update assignment of a for loop; the
edge may be empty, and dereferencing it then throws. -/
def ObjectAccesses.add_optional_set (ir : Root) (self : ObjectAccesses) :
    Option SetInstruction → Except Error ObjectAccesses
  | none => .error Error.empty_dereference
  | some set => self.add_set_instruction ir set

mutual
/-- The method `ObjectAccesses::add_statement`. -/
def ObjectAccesses.add_statement (ir : Root) :
    ObjectAccesses → Statement → Except Error ObjectAccesses
  | self, .custom_instruction custom =>
    match self.add_custom_instruction ir custom with
    | .error e => .error e
    | .ok s => .ok (s.add_barrier_access ir false)
  | self, .set_instruction set => self.add_set_instruction ir set
  | self, .goto_instruction goto =>
    match self.add_condition ir goto.condition with
    | .error e => .error e
    | .ok s => .ok (s.add_barrier_access ir true)
  | self, .wait_instruction wait =>
    if wait.objects.isEmpty then .ok (self.add_barrier_access ir true)
    else .ok ((self.add_wait_objects ir wait.objects).add_barrier_access ir false)
  | self, .dummy_instruction _ => .ok (self.add_barrier_access ir true)
  | self, .if_else branches otherwise =>
    match ObjectAccesses.add_branches ir self branches with
    | .error e => .error e
    | .ok s1 =>
      match ObjectAccesses.add_otherwise ir s1 otherwise with
      | .error e => .error e
      | .ok s2 => .ok (s2.add_barrier_access ir false)
  | self, .static_loop lhs _ _ body =>
    match ObjectAccesses.add_block ir self body with
    | .error e => .error e
    | .ok s1 =>
      .ok ((s1.add_access ir AccessMode.WRITE { reference := lhs }).add_barrier_access ir false)
  | self, .for_loop init condition update body =>
    match ObjectAccesses.add_block ir self body with
    | .error e => .error e
    | .ok s1 =>
      match s1.add_expression ir AccessMode.READ condition with
      | .error e => .error e
      | .ok s2 =>
        match s2.add_optional_set ir init with
        | .error e => .error e
        | .ok s3 =>
          match s3.add_optional_set ir update with
          | .error e => .error e
          | .ok s4 => .ok (s4.add_barrier_access ir false)
  | self, .repeat_until_loop condition body =>
    match ObjectAccesses.add_block ir self body with
    | .error e => .error e
    | .ok s1 =>
      match s1.add_expression ir AccessMode.READ condition with
      | .error e => .error e
      | .ok s2 => .ok (s2.add_barrier_access ir false)
  | self, .break_statement => .ok (self.add_barrier_access ir true)
  | self, .continue_statement => .ok (self.add_barrier_access ir true)
/-- The method `ObjectAccesses::add_block`: the statements of the block in order. -/
def ObjectAccesses.add_block (ir : Root) :
    ObjectAccesses → List Statement → Except Error ObjectAccesses
  | self, [] => .ok self
  | self, stmt :: rest =>
    match ObjectAccesses.add_statement ir self stmt with
    | .error e => .error e
    | .ok s => ObjectAccesses.add_block ir s rest
/-- The loop of `add_statement` over the branches of an if-else statement. -/
def ObjectAccesses.add_branches (ir : Root) :
    ObjectAccesses → List IfElseBranch → Except Error ObjectAccesses
  | self, [] => .ok self
  | self, branch :: rest =>
    match ObjectAccesses.add_branch ir self branch with
    | .error e => .error e
    | .ok s => ObjectAccesses.add_branches ir s rest
/-- One iteration of the loop over the branches: the condition, then the body. -/
def ObjectAccesses.add_branch (ir : Root) :
    ObjectAccesses → IfElseBranch → Except Error ObjectAccesses
  | self, .mk condition body =>
    match self.add_expression ir AccessMode.READ condition with
    | .error e => .error e
    | .ok s => ObjectAccesses.add_block ir s body
/-- The final block of an if-else statement, when there is one. -/
def ObjectAccesses.add_otherwise (ir : Root) :
    ObjectAccesses → Option (List Statement) → Except Error ObjectAccesses
  | self, none => .ok self
  | self, some block => ObjectAccesses.add_block ir self block
end

/-- An instruction built by `make_instruction`, as a statement. -/
def Instruction.to_statement : Instruction → Statement
  | .custom_instruction insn => .custom_instruction insn
  | .set_instruction insn => .set_instruction insn
  | .wait_instruction insn => .wait_instruction insn

/-- The mode recorded for a reference in the access map: the mode of the entry that
`std::map::find` gives for it, if there is one. -/
def Accesses.mode (m : Accesses) (k : ReferenceWrapper) : Option AccessMode :=
  match m.find k with
  | none => none
  | some i => (m.get? i).map fun e => e.2

/-- The mode of an entry after another access with mode `mode`: the mode of the access when
there was no entry, the recorded mode when the two are the same, and WRITE otherwise. -/
def merged_mode (recorded : Option AccessMode) (mode : AccessMode) : AccessMode :=
  match recorded with
  | none => mode
  | some a => if a = mode then a else AccessMode.WRITE

/-- Two keys of the access map are equivalent: neither is below the other. -/
def ReferenceWrapper.equivalent (a b : ReferenceWrapper) : Bool :=
  !a.lt b && !b.lt a

mutual
/-- The statement is, or contains nested in its branches or loop body, a goto instruction,
a wait instruction without objects, a dummy instruction or a break or continue statement.
The assignments of a for loop are set instructions, which are none of these. -/
def Statement.has_barrier : Statement → Bool
  | .custom_instruction _ => false
  | .set_instruction _ => false
  | .goto_instruction _ => true
  | .wait_instruction wait => wait.objects.isEmpty
  | .dummy_instruction _ => true
  | .if_else branches otherwise =>
    Statement.branches_have_barrier branches || Statement.otherwise_has_barrier otherwise
  | .static_loop _ _ _ body => Statement.block_has_barrier body
  | .for_loop _ _ _ body => Statement.block_has_barrier body
  | .repeat_until_loop _ body => Statement.block_has_barrier body
  | .break_statement => true
  | .continue_statement => true
/-- Some statement of the block is or contains a barrier-like statement. -/
def Statement.block_has_barrier : List Statement → Bool
  | [] => false
  | stmt :: rest => Statement.has_barrier stmt || Statement.block_has_barrier rest
/-- Some branch body is or contains a barrier-like statement. -/
def Statement.branches_have_barrier : List IfElseBranch → Bool
  | [] => false
  | branch :: rest =>
    Statement.branch_has_barrier branch || Statement.branches_have_barrier rest
/-- The body of the branch is or contains a barrier-like statement. -/
def Statement.branch_has_barrier : IfElseBranch → Bool
  | .mk _ body => Statement.block_has_barrier body
/-- The final block, when there is one, is or contains a barrier-like statement. -/
def Statement.otherwise_has_barrier : Option (List Statement) → Bool
  | none => false
  | some block => Statement.block_has_barrier block
end

/-- Every data type link of the prototype denotes a data type node. -/
def types_resolve (ir : Root) (prototype : List OperandType) : Bool :=
  prototype.all fun otyp =>
    match ir.data_type otyp.data_type with
    | .ok _ => true
    | .error _ => false

mutual
/-- Well-formedness of an expression for the access analysis: every reference has a target
object, and every function call has a function type of the IR whose operand data types are
data types of the IR and which has no more operand types than the call has operands. -/
def Expression.well_formed (ir : Root) : Expression → Bool
  | .bit_literal _ _ => true
  | .int_literal _ _ => true
  | .string_literal _ _ => true
  | .reference r => r.target.isSome
  | .function_call f operands =>
    (match f with
      | none => false
      | some p =>
        match ir.function_nodes.get? p with
        | none => false
        | some ft =>
          types_resolve ir ft.operand_types && decide (ft.operand_types.length ≤ operands.length))
    && Expression.well_formed_list ir operands
/-- Well-formedness of every expression of a list. -/
def Expression.well_formed_list (ir : Root) : List Expression → Bool
  | [] => true
  | e :: rest => Expression.well_formed ir e && Expression.well_formed_list ir rest
end

/-- Well-formedness of the condition of a conditional instruction: it is there and it is
well-formed. -/
def condition_well_formed (ir : Root) : Option Expression → Bool
  | none => false
  | some c => c.well_formed ir

/-- The instruction type with identity `t` has no template operands, or its generalization
links lead to an instruction type that has an operand type for every template operand of
`t`. -/
def generalization_ok (ir : Root) (t : Nat) : Bool :=
  (ir.node t).template_operands.isEmpty ||
  match find_generalization ir
      ((ir.node t).template_operands.length + ir.instruction_nodes.length + 1) t with
  | none => false
  | some gen => decide ((ir.node t).template_operands.length ≤ (ir.node gen).operand_types.length)

/-- Well-formedness of a custom instruction for the access analysis: its condition is
well-formed, its instruction type is a node of the IR, the operand data types of the
instruction type are data types of the IR, there is an operand for every operand type, the
operands and the template operands of the instruction type are well-formed, and the fully
generalized instruction type has an operand type for every template operand. -/
def CustomInstruction.well_formed (ir : Root) (custom : CustomInstruction) : Bool :=
  condition_well_formed ir custom.condition &&
  (match custom.instruction_type with
    | none => false
    | some t =>
      decide (t < ir.instruction_nodes.length) &&
      types_resolve ir (ir.node t).operand_types &&
      decide ((ir.node t).operand_types.length ≤ custom.operands.length) &&
      Expression.well_formed_list ir (ir.node t).template_operands &&
      generalization_ok ir t) &&
  Expression.well_formed_list ir custom.operands

/-- Well-formedness of a set instruction for the access analysis. -/
def SetInstruction.well_formed (ir : Root) (set : SetInstruction) : Bool :=
  condition_well_formed ir set.condition && set.lhs.target.isSome && set.rhs.well_formed ir

/-- Well-formedness of an assignment of a for loop: it is there and it is well-formed. -/
def optional_set_well_formed (ir : Root) : Option SetInstruction → Bool
  | none => false
  | some set => set.well_formed ir

mutual
/-- Well-formedness of a statement for the access analysis: every edge that the analysis
follows is filled, every reference has a target object, and the operand lists are as long as
the prototypes they are matched with. -/
def Statement.well_formed (ir : Root) : Statement → Bool
  | .custom_instruction custom => custom.well_formed ir
  | .set_instruction set => set.well_formed ir
  | .goto_instruction goto => condition_well_formed ir goto.condition
  | .wait_instruction wait => wait.objects.all fun r => r.target.isSome
  | .dummy_instruction _ => true
  | .if_else branches otherwise =>
    Statement.branches_well_formed ir branches && Statement.otherwise_well_formed ir otherwise
  | .static_loop lhs _ _ body => lhs.target.isSome && Statement.block_well_formed ir body
  | .for_loop init condition update body =>
    optional_set_well_formed ir init && condition.well_formed ir &&
      optional_set_well_formed ir update && Statement.block_well_formed ir body
  | .repeat_until_loop condition body =>
    condition.well_formed ir && Statement.block_well_formed ir body
  | .break_statement => true
  | .continue_statement => true
/-- Well-formedness of every statement of a block. -/
def Statement.block_well_formed (ir : Root) : List Statement → Bool
  | [] => true
  | stmt :: rest => Statement.well_formed ir stmt && Statement.block_well_formed ir rest
/-- Well-formedness of every branch. -/
def Statement.branches_well_formed (ir : Root) : List IfElseBranch → Bool
  | [] => true
  | branch :: rest =>
    Statement.branch_well_formed ir branch && Statement.branches_well_formed ir rest
/-- Well-formedness of a branch: of its condition and of its body. -/
def Statement.branch_well_formed (ir : Root) : IfElseBranch → Bool
  | .mk condition body => condition.well_formed ir && Statement.block_well_formed ir body
/-- Well-formedness of the final block, when there is one. -/
def Statement.otherwise_well_formed (ir : Root) : Option (List Statement) → Bool
  | none => true
  | some block => Statement.block_well_formed ir block
end

/-- What can be recorded for the empty reference by `add_statement`: nothing, READ or
WRITE. -/
def barrier_mode_valid (x : Option AccessMode) : Prop :=
  x = none ∨ x = some AccessMode.READ ∨ x = some AccessMode.WRITE

/-- How a part of the access analysis that leads from `before` to `after` treats the entry of
the empty reference: an entry with mode WRITE stays; and when the part is well-formed
(`wf`), the entry is WRITE afterwards exactly when it was WRITE before or the part holds a
barrier-like statement (`barrier`). -/
structure BarrierStep (before after : ObjectAccesses) (wf barrier : Bool) : Prop where
  write_stays : before.accesses.mode {} = some AccessMode.WRITE →
    after.accesses.mode {} = some AccessMode.WRITE
  valid : wf = true → barrier_mode_valid (before.accesses.mode {}) →
    barrier_mode_valid (after.accesses.mode {})
  write_iff : wf = true → barrier_mode_valid (before.accesses.mode {}) →
    (after.accesses.mode {} = some AccessMode.WRITE ↔
      before.accesses.mode {} = some AccessMode.WRITE ∨ barrier = true)

/-- What `ReferenceWrapper::operator<` compares: the target link, the data type link and
the identities of the index nodes. -/
def ReferenceWrapper.key (a : ReferenceWrapper) : Link × Link × List Nat :=
  (a.reference.target, a.reference.data_type, a.reference.indices.map fun i => i.addr)



/-- The entries of the access map are in strictly increasing key order, as the entries of
a `std::map` are. -/
def Accesses.sorted (m : Accesses) : Prop :=
  m.Pairwise fun x y => x.1.lt y.1 = true

/-- The mode with which `add_access` records a reference that has no entry: LITERAL is
recorded as READ and MEASURE as WRITE. -/
def recorded_mode (mode : AccessMode) : AccessMode :=
  match mode with
  | AccessMode.LITERAL => AccessMode.READ
  | AccessMode.MEASURE => AccessMode.WRITE
  | m => m

mutual
/-- The references of an expression: the expression itself when it is a reference, and the
references of the operands of a function call. -/
def Expression.references : Expression → List Reference
  | .bit_literal _ _ => []
  | .int_literal _ _ => []
  | .string_literal _ _ => []
  | .reference r => [r]
  | .function_call _ operands => Expression.references_list operands
/-- The references of the expressions of a list. -/
def Expression.references_list : List Expression → List Reference
  | [] => []
  | e :: rest => Expression.references e ++ Expression.references_list rest
end

/-- An access to reference `r` does not touch the entry of key `k`: `r` has another key
than `k`, and so has the view of `r` as implicit bit that an access with mode MEASURE
records as well. -/
def ReferenceWrapper.independent (ir : Root) (k : ReferenceWrapper) (r : Reference) : Bool :=
  decide (ReferenceWrapper.key { reference := r } ≠ k.key) &&
    (decide (r.target ≠ k.reference.target) ||
      decide (k.reference.data_type ≠ ir.platform.implicit_bit_type))

/-- A sequence of calls of `add_access`, in order. -/
def ObjectAccesses.add_accesses (ir : Root) (self : ObjectAccesses)
    (accesses : List (AccessMode × ReferenceWrapper)) : ObjectAccesses :=
  accesses.foldl (fun acc x => acc.add_access ir x.1 x.2) self

/-- The access that `add_expression` makes for an expression that is not a function call:
the expression itself when it is a reference, none when it is a literal. -/
def direct_accesses (mode : AccessMode) : Expression → List (AccessMode × ReferenceWrapper)
  | .reference r => [(mode, { reference := r })]
  | _ => []

/-- The expression is a function call. -/
def Expression.is_function_call : Expression → Bool
  | .function_call _ _ => true
  | _ => false

/-- The reference `q[index]` to the qubit register (object 0), with its index literal at
address `addr`. -/
def example_reference (addr : Nat) (index : Int) : Reference :=
  { target := some 0, data_type := some 0, indices := [{ addr := addr, value := index, data_type := some 2 }] }

/-- An if-else statement with a break statement in its only branch. -/
def example_statement : Statement :=
  .if_else [.mk (.bit_literal true (some 1)) [.break_statement]] none

/-- The instruction type `rz` with one qubit operand that commutes along the Z axis. -/
def example_rz : InstructionType :=
  { name := "rz", cqasm_name := "rz", operand_types := [{ mode := AccessMode.COMMUTE_Z, data_type := some 0 }] }

/-- The platform after registering `rz`. -/
def example_ir5 : Root := (add_instruction_type example_ir0 example_rz []).1

/-- The unconditional instruction `rz q[0]`. -/
def example_custom : CustomInstruction :=
  { condition := some (.bit_literal true (some 1)), instruction_type := some 0, operands := [.reference (example_reference 10 0)] }

/-- A reference to an integer variable (object `target`). -/
def example_int_reference (target : Nat) : Reference :=
  { target := some target, data_type := some 2 }

/-- A reference to a bit variable (object 3). -/
def example_bit_reference : Reference :=
  { target := some 3, data_type := some 1 }

/-- The set instruction `b = c` under the condition of the bit variable. -/
def example_set : SetInstruction :=
  { condition := some (.reference example_bit_reference), lhs := example_int_reference 1, rhs := .reference (example_int_reference 2) }

/-! ## Integer ranges, literals and references -/

/-- The expression `1ull << n` on unsigned 64-bit integers: the shift reduced modulo
`2 ^ 64`, so a count of 64 or more (undefined in C++) gives 0. -/
def shift_left_one (n : Nat) : Nat :=
  if n < 64 then 2 ^ n else 0

/-- The cast `(utils::Int)` of an unsigned 64-bit value: its two's complement reading. -/
def to_int (x : Nat) : Int :=
  if x % 2 ^ 64 < 2 ^ 63 then ((x % 2 ^ 64 : Nat) : Int) else ((x % 2 ^ 64 : Nat) : Int) - 2 ^ 64

/-- The cast `(utils::UInt)` of a signed 64-bit value. -/
def to_uint (i : Int) : Nat :=
  (i % 2 ^ 64).toNat

/-- The function `get_max_int_for` on the integer type with the given fields. `bits` is an
unsigned 64-bit integer, so `bits--` and the subtraction of 1 wrap around. -/
def get_max_int_for (bits : Nat) (is_signed : Bool) : Int :=
  to_int ((shift_left_one (if is_signed then (bits + (2 ^ 64 - 1)) % 2 ^ 64 else bits)
    + (2 ^ 64 - 1)) % 2 ^ 64)

/-- The function `get_min_int_for` on the integer type with the given fields; the negation
is that of unsigned 64-bit integers. -/
def get_min_int_for (bits : Nat) (is_signed : Bool) : Int :=
  if ¬ is_signed then 0
  else to_int ((2 ^ 64 - shift_left_one ((bits + (2 ^ 64 - 1)) % 2 ^ 64)) % 2 ^ 64)

/-- The shifts of `get_max_int_for` and `get_min_int_for` have a count below 64, so that
they are defined in C++: from 1 to 64 bits for a signed type, at most 63 bits for an
unsigned one. -/
def shift_counts_defined (bits : Nat) (is_signed : Bool) : Prop :=
  if is_signed then 1 ≤ bits ∧ bits ≤ 64 else bits ≤ 63

/-- The range computation of the default integer type of the platform shifts by less than
64 (when that type is an integer type). -/
def Root.default_int_type_defined (ir : Root) : Prop :=
  ∀ dt bits is_signed, ir.data_type ir.platform.default_int_type = .ok dt →
    dt.kind = DataTypeKind.int bits is_signed → shift_counts_defined bits is_signed

/-- The function `make_int_lit`: an empty `type` stands for the default integer type of the
platform; `addr` is the address of the new node. -/
def make_int_lit (ir : Root) (i : Int) (type : Link) (addr : Nat) : Except Error IntLiteral :=
  match ir.data_type (if type = none then ir.platform.default_int_type else type) with
  | .error e => .error e
  | .ok dt =>
    match dt.kind with
    | .int bits is_signed =>
      if i > get_max_int_for bits is_signed ∨ i < get_min_int_for bits is_signed then
        .error (Error.user_error "integer literal value out of range for default integer type")
      else
        .ok { addr := addr, value := i,
              data_type := if type = none then ir.platform.default_int_type else type }
    | _ => .error (Error.user_error "type is not integer-like")

/-- The function `make_uint_lit`: `i` is an unsigned 64-bit integer; the value of the node
is the signed reading of `i`. -/
def make_uint_lit (ir : Root) (i : Nat) (type : Link) (addr : Nat) : Except Error IntLiteral :=
  match ir.data_type (if type = none then ir.platform.default_int_type else type) with
  | .error e => .error e
  | .ok dt =>
    match dt.kind with
    | .int bits is_signed =>
      if i > to_uint (get_max_int_for bits is_signed) then
        .error (Error.user_error "integer literal value out of range for default integer type")
      else
        .ok { addr := addr, value := to_int i,
              data_type := if type = none then ir.platform.default_int_type else type }
    | _ => .error (Error.user_error "type is not integer-like")

/-- The loop of `make_reference` over the indices (`shape` is what is left of the shape of
the object): an index that is not below the size of its dimension is an error, otherwise an
integer literal of the default integer type is added. The new nodes get the addresses from
`addr` on. -/
def make_reference_loop (ir : Root) : List Nat → List Nat → Nat → Except Error (List IntLiteral)
  | [], _, _ => .ok []
  | _ :: _, [], _ => .error Error.out_of_range
  | index :: indices, size :: shape, addr =>
    if index ≥ size then
      .error (Error.user_error "index out of range making reference")
    else
      match make_uint_lit ir index none addr with
      | .error e => .error e
      | .ok lit =>
        match make_reference_loop ir indices shape (addr + 1) with
        | .error e => .error e
        | .ok lits => .ok (lit :: lits)

/-- The function `make_reference`; `addr` is the address of the first new index node. -/
def make_reference (ir : Root) (obj : Link) (indices : List Nat) (addr : Nat) :
    Except Error Reference :=
  match ir.object obj with
  | .error e => .error e
  | .ok o =>
    if indices.length > o.shape.length then
      .error (Error.user_error "too many indices specified to make reference")
    else if indices.length < o.shape.length then
      .error (Error.user_error "not enough indices specified to make reference")
    else
      match make_reference_loop ir indices o.shape addr with
      | .error e => .error e
      | .ok lits => .ok { target := obj, data_type := o.data_type, indices := lits }

/-- The function `make_qubit_ref`. -/
def make_qubit_ref (ir : Root) (idx : Nat) (addr : Nat) : Except Error Reference :=
  make_reference ir ir.platform.qubits [idx] addr

/-- The function `make_bit_ref`. -/
def make_bit_ref (ir : Root) (idx : Nat) (addr : Nat) : Except Error Reference :=
  if ir.platform.implicit_bit_type = none then
    .error (Error.user_error "platform does not support implicit measurement bits for qubits")
  else
    match make_qubit_ref ir idx addr with
    | .error e => .error e
    | .ok ref => .ok { ref with data_type := ir.platform.implicit_bit_type }

/-- A platform with the types `qubit` (node 0), `bit` (node 1), an 8-bit signed `int8`
(node 2) and an unsigned 64-bit `uint64` (node 3), the qubit register `qubits` of shape
`[3]` (object 0) and a matrix `m` of shape `[2, 5]` of `int8` (object 1); the default
integer type is `int8`. -/
def example_platform : Root :=
  { platform := { objects := [1, 0], data_types := [1, 2, 0, 3], qubits := some 0, implicit_bit_type := some 1, default_bit_type := some 1, default_int_type := some 2 }
    data_type_nodes := [{ name := "qubit", kind := DataTypeKind.qubit }, { name := "bit", kind := DataTypeKind.bit }, { name := "int8", kind := DataTypeKind.int 8 true }, { name := "uint64", kind := DataTypeKind.int 64 false }]
    object_nodes := [{ name := "qubits", data_type := some 0, shape := [3] }, { name := "m", data_type := some 2, shape := [2, 5] }] }

/-! ## Data types and physical objects of the platform -/

/-- The data type node with identity `id`. -/
def Root.data_type_node (ir : Root) (id : Nat) : DataType :=
  ir.data_type_nodes.getD id default

/-- The names of the entries of the data type collection, in collection order. -/
def Root.data_type_names (ir : Root) : List String :=
  ir.platform.data_types.map fun id => (ir.data_type_node id).name

/-- The object node with identity `id`. -/
def Root.object_node (ir : Root) (id : Nat) : Object :=
  ir.object_nodes.getD id default

/-- The names of the entries of the object collection, in collection order. -/
def Root.object_names (ir : Root) : List String :=
  ir.platform.objects.map fun id => (ir.object_node id).name

/-- The function `find_type`: binary search for the first entry that is not below `name`;
the entry is the result when it has that name. -/
def find_type (ir : Root) (name : String) : Link :=
  if lower_bound ir.data_type_names name = ir.platform.data_types.length ∨
      ir.data_type_names.getD (lower_bound ir.data_type_names name) "" ≠ name then none
  else ir.platform.data_types.get? (lower_bound ir.data_type_names name)

/-- The function `add_physical_object`: `obj` becomes a node of the store (with the identity
`ir.object_nodes.length`) that is inserted in the object collection before the first entry
that is not below its name. Returns the IR reached and the link to the object, or the error
thrown. -/
def add_physical_object (ir : Root) (obj : Object) : Root × Except Error Link :=
  if ¬ is_identifier obj.name then
    (ir, .error (Error.user_error "invalid name for new register: not a valid identifier"))
  else if lower_bound ir.object_names obj.name ≠ ir.platform.objects.length ∧
      ir.object_names.getD (lower_bound ir.object_names obj.name) "" = obj.name then
    (ir, .error (Error.user_error "invalid name for new register: already in use"))
  else
    ({ ir with
        object_nodes := ir.object_nodes ++ [obj]
        platform := { ir.platform with
          objects := insert_at ir.platform.objects (lower_bound ir.object_names obj.name)
            ir.object_nodes.length } },
      .ok (some ir.object_nodes.length))

/-- The function `find_physical_object`. -/
def find_physical_object (ir : Root) (name : String) : Link :=
  if lower_bound ir.object_names name = ir.platform.objects.length ∨
      ir.object_names.getD (lower_bound ir.object_names name) "" ≠ name then none
  else ir.platform.objects.get? (lower_bound ir.object_names name)

/-- The object collection denotes nodes of the store and is strictly increasing by name. -/
structure Root.objects_sorted (ir : Root) : Prop where
  valid : ∀ id ∈ ir.platform.objects, id < ir.object_nodes.length
  sorted : ir.object_names.Pairwise (· < ·)

/-- The states reached from a platform without objects by calls of `add_physical_object`,
calls that throw included. -/
inductive ObjectsAdded : Root → Prop where
  | empty (ir : Root) : ir.platform.objects = [] → ObjectsAdded ir
  | step (ir : Root) (obj : Object) : ObjectsAdded ir → ObjectsAdded (add_physical_object ir obj).1

/-- A platform without objects. -/
def example_objects0 : Root := {}

/-- The state after the register `q` of three qubits has been added to
`example_objects0`. -/
def example_objects1 : Root :=
  (add_physical_object example_objects0 { name := "q", data_type := some 0, shape := [3] }).1

/-- The state after the register `b` has been added to `example_objects1`. -/
def example_objects2 : Root :=
  (add_physical_object example_objects1 { name := "b", data_type := some 1, shape := [3] }).1

/-! ## Reference remapping -/

/-- The method `ReferenceRemapper::visit_reference`; `map` is the map of the remapper from
object links to object links, as the list of its entries (a key has one entry). -/
def ReferenceRemapper.visit_reference (map : List (Link × Link)) (node : Reference) : Reference :=
  match map.lookup node.target with
  | some target => { node with target := target }
  | none => node

mutual
/-- The traversal of an expression by the remapper: every reference node is visited, the
operands of a function call are traversed. -/
def ReferenceRemapper.visit_expression (map : List (Link × Link)) : Expression → Expression
  | .bit_literal v d => .bit_literal v d
  | .int_literal v d => .int_literal v d
  | .string_literal v d => .string_literal v d
  | .reference r => .reference (ReferenceRemapper.visit_reference map r)
  | .function_call f operands =>
    .function_call f (ReferenceRemapper.visit_expressions map operands)
/-- The traversal of a list of expressions. -/
def ReferenceRemapper.visit_expressions (map : List (Link × Link)) :
    List Expression → List Expression
  | [] => []
  | e :: rest =>
    ReferenceRemapper.visit_expression map e :: ReferenceRemapper.visit_expressions map rest
end

/-- The traversal of an optional expression. -/
def ReferenceRemapper.visit_maybe_expression (map : List (Link × Link)) :
    Option Expression → Option Expression
  | none => none
  | some e => some (ReferenceRemapper.visit_expression map e)

/-- The traversal of a custom instruction: its condition and operands (the instruction type
is a link, which the traversal does not follow). -/
def ReferenceRemapper.visit_custom_instruction (map : List (Link × Link))
    (insn : CustomInstruction) : CustomInstruction :=
  { insn with
    condition := ReferenceRemapper.visit_maybe_expression map insn.condition
    operands := ReferenceRemapper.visit_expressions map insn.operands }

/-- The traversal of a set instruction: its condition and both sides. -/
def ReferenceRemapper.visit_set_instruction (map : List (Link × Link))
    (insn : SetInstruction) : SetInstruction :=
  { insn with
    condition := ReferenceRemapper.visit_maybe_expression map insn.condition
    lhs := ReferenceRemapper.visit_reference map insn.lhs
    rhs := ReferenceRemapper.visit_expression map insn.rhs }

/-- The traversal of an optional set instruction. -/
def ReferenceRemapper.visit_maybe_set (map : List (Link × Link)) :
    Option SetInstruction → Option SetInstruction
  | none => none
  | some insn => some (ReferenceRemapper.visit_set_instruction map insn)

/-- The traversal of a goto instruction: its condition (the target is a link). -/
def ReferenceRemapper.visit_goto_instruction (map : List (Link × Link))
    (insn : GotoInstruction) : GotoInstruction :=
  { insn with condition := ReferenceRemapper.visit_maybe_expression map insn.condition }

/-- The traversal of a wait instruction: its objects. -/
def ReferenceRemapper.visit_wait_instruction (map : List (Link × Link))
    (insn : WaitInstruction) : WaitInstruction :=
  { insn with objects := insn.objects.map (ReferenceRemapper.visit_reference map) }

mutual
/-- The traversal of a statement by the remapper. -/
def ReferenceRemapper.visit_statement (map : List (Link × Link)) : Statement → Statement
  | .custom_instruction insn =>
    .custom_instruction (ReferenceRemapper.visit_custom_instruction map insn)
  | .set_instruction insn => .set_instruction (ReferenceRemapper.visit_set_instruction map insn)
  | .goto_instruction insn =>
    .goto_instruction (ReferenceRemapper.visit_goto_instruction map insn)
  | .wait_instruction insn =>
    .wait_instruction (ReferenceRemapper.visit_wait_instruction map insn)
  | .dummy_instruction cycle => .dummy_instruction cycle
  | .if_else branches otherwise =>
    .if_else (ReferenceRemapper.visit_branches map branches)
      (ReferenceRemapper.visit_otherwise map otherwise)
  | .static_loop lhs frm to_ body =>
    .static_loop (ReferenceRemapper.visit_reference map lhs) frm to_
      (ReferenceRemapper.visit_block map body)
  | .for_loop init condition update body =>
    .for_loop (ReferenceRemapper.visit_maybe_set map init)
      (ReferenceRemapper.visit_expression map condition)
      (ReferenceRemapper.visit_maybe_set map update) (ReferenceRemapper.visit_block map body)
  | .repeat_until_loop condition body =>
    .repeat_until_loop (ReferenceRemapper.visit_expression map condition)
      (ReferenceRemapper.visit_block map body)
  | .break_statement => .break_statement
  | .continue_statement => .continue_statement
/-- The traversal of the statements of a block. -/
def ReferenceRemapper.visit_block (map : List (Link × Link)) : List Statement → List Statement
  | [] => []
  | stmt :: rest =>
    ReferenceRemapper.visit_statement map stmt :: ReferenceRemapper.visit_block map rest
/-- The traversal of the branches of an if-else statement. -/
def ReferenceRemapper.visit_branches (map : List (Link × Link)) :
    List IfElseBranch → List IfElseBranch
  | [] => []
  | branch :: rest =>
    ReferenceRemapper.visit_branch map branch :: ReferenceRemapper.visit_branches map rest
/-- The traversal of a branch: its condition and body. -/
def ReferenceRemapper.visit_branch (map : List (Link × Link)) : IfElseBranch → IfElseBranch
  | .mk condition body =>
    .mk (ReferenceRemapper.visit_expression map condition) (ReferenceRemapper.visit_block map body)
/-- The traversal of the final block of an if-else statement. -/
def ReferenceRemapper.visit_otherwise (map : List (Link × Link)) :
    Option (List Statement) → Option (List Statement)
  | none => none
  | some block => some (ReferenceRemapper.visit_block map block)
end

/-- The references of an optional expression. -/
def maybe_references : Option Expression → List Reference
  | none => []
  | some e => e.references

/-- The reference nodes of a set instruction. -/
def SetInstruction.references (insn : SetInstruction) : List Reference :=
  maybe_references insn.condition ++ insn.lhs :: insn.rhs.references

/-- The reference nodes of an optional set instruction. -/
def maybe_set_references : Option SetInstruction → List Reference
  | none => []
  | some insn => insn.references

mutual
/-- The reference nodes of a statement, in the order of the traversal. -/
def Statement.references : Statement → List Reference
  | .custom_instruction insn =>
    maybe_references insn.condition ++ Expression.references_list insn.operands
  | .set_instruction insn => insn.references
  | .goto_instruction insn => maybe_references insn.condition
  | .wait_instruction insn => insn.objects
  | .dummy_instruction _ => []
  | .if_else branches otherwise =>
    Statement.branches_references branches ++ Statement.otherwise_references otherwise
  | .static_loop lhs _ _ body => lhs :: Statement.block_references body
  | .for_loop init condition update body =>
    maybe_set_references init ++ condition.references ++ maybe_set_references update ++
      Statement.block_references body
  | .repeat_until_loop condition body => condition.references ++ Statement.block_references body
  | .break_statement => []
  | .continue_statement => []
/-- The reference nodes of the statements of a block. -/
def Statement.block_references : List Statement → List Reference
  | [] => []
  | stmt :: rest => Statement.references stmt ++ Statement.block_references rest
/-- The reference nodes of the branches of an if-else statement. -/
def Statement.branches_references : List IfElseBranch → List Reference
  | [] => []
  | branch :: rest => Statement.branch_references branch ++ Statement.branches_references rest
/-- The reference nodes of a branch. -/
def Statement.branch_references : IfElseBranch → List Reference
  | .mk condition body => condition.references ++ Statement.block_references body
/-- The reference nodes of the final block of an if-else statement. -/
def Statement.otherwise_references : Option (List Statement) → List Reference
  | none => []
  | some block => Statement.block_references block
end

/-- The number of nodes of a reference: the reference and its index literals. -/
def Reference.node_count (r : Reference) : Nat :=
  1 + r.indices.length

mutual
/-- The number of nodes of an expression tree. -/
def Expression.node_count : Expression → Nat
  | .bit_literal _ _ => 1
  | .int_literal _ _ => 1
  | .string_literal _ _ => 1
  | .reference r => r.node_count
  | .function_call _ operands => 1 + Expression.node_count_list operands
/-- The number of nodes of a list of expression trees. -/
def Expression.node_count_list : List Expression → Nat
  | [] => 0
  | e :: rest => Expression.node_count e + Expression.node_count_list rest
end

/-- The number of nodes of an optional expression. -/
def maybe_node_count : Option Expression → Nat
  | none => 0
  | some e => e.node_count

/-- The number of nodes of a set instruction. -/
def SetInstruction.node_count (insn : SetInstruction) : Nat :=
  1 + maybe_node_count insn.condition + insn.lhs.node_count + insn.rhs.node_count

/-- The number of nodes of an optional set instruction. -/
def maybe_set_node_count : Option SetInstruction → Nat
  | none => 0
  | some insn => insn.node_count

mutual
/-- The number of nodes of a statement tree: the statement, its sub-blocks and their
statements, and the expressions and literals below them. -/
def Statement.node_count : Statement → Nat
  | .custom_instruction insn =>
    1 + maybe_node_count insn.condition + Expression.node_count_list insn.operands
  | .set_instruction insn => insn.node_count
  | .goto_instruction insn => 1 + maybe_node_count insn.condition
  | .wait_instruction insn => 1 + (insn.objects.map Reference.node_count).sum
  | .dummy_instruction _ => 1
  | .if_else branches otherwise =>
    1 + Statement.branches_node_count branches + Statement.otherwise_node_count otherwise
  | .static_loop lhs _ _ body => 1 + lhs.node_count + 2 + (1 + Statement.block_node_count body)
  | .for_loop init condition update body =>
    1 + maybe_set_node_count init + condition.node_count + maybe_set_node_count update +
      (1 + Statement.block_node_count body)
  | .repeat_until_loop condition body =>
    1 + condition.node_count + (1 + Statement.block_node_count body)
  | .break_statement => 1
  | .continue_statement => 1
/-- The number of nodes of the statements of a block. -/
def Statement.block_node_count : List Statement → Nat
  | [] => 0
  | stmt :: rest => Statement.node_count stmt + Statement.block_node_count rest
/-- The number of nodes of the branches of an if-else statement. -/
def Statement.branches_node_count : List IfElseBranch → Nat
  | [] => 0
  | branch :: rest => Statement.branch_node_count branch + Statement.branches_node_count rest
/-- The number of nodes of a branch: the branch, its condition and its body. -/
def Statement.branch_node_count : IfElseBranch → Nat
  | .mk condition body => 1 + condition.node_count + (1 + Statement.block_node_count body)
/-- The number of nodes of the final block of an if-else statement. -/
def Statement.otherwise_node_count : Option (List Statement) → Nat
  | none => 0
  | some block => 1 + Statement.block_node_count block
end

/-- A loop that assigns to the element 0 of object 0 from the element 0 of object 1 when the
element 0 of object 2 holds, then waits on object 0. -/
def example_remap_statement : Statement :=
  .repeat_until_loop (.reference { target := some 2, data_type := some 1, indices := [{ addr := 0, value := 0 }] }) [.set_instruction { condition := some (.bit_literal true (some 1)), lhs := { target := some 0, data_type := some 2, indices := [{ addr := 1, value := 0 }] }, rhs := .reference { target := some 1, data_type := some 2, indices := [{ addr := 2, value := 0 }] } }, .wait_instruction { duration := 1, objects := [{ target := some 0, data_type := some 2 }] }]

/-! ## Examples for the description of expressions -/

/-- A platform with the integer type `int` (node 0), the scalar objects `a`, `b` and `c`
(objects 0, 1 and 2) and the function types `operator+`, `operator*`, `operator**` with two
operands and `min` with two operands (function nodes 0 to 3). -/
def example_describe_ir : Root :=
  { data_type_nodes := [{ name := "int", kind := DataTypeKind.int 32 true }]
    object_nodes := [{ name := "a", data_type := some 0 }, { name := "b", data_type := some 0 }, { name := "c", data_type := some 0 }]
    function_nodes := [{ name := "operator+", operand_types := [{ mode := AccessMode.READ, data_type := some 0 }, { mode := AccessMode.READ, data_type := some 0 }], return_type := some 0 }, { name := "operator*", operand_types := [{ mode := AccessMode.READ, data_type := some 0 }, { mode := AccessMode.READ, data_type := some 0 }], return_type := some 0 }, { name := "operator**", operand_types := [{ mode := AccessMode.READ, data_type := some 0 }, { mode := AccessMode.READ, data_type := some 0 }], return_type := some 0 }, { name := "min", operand_types := [{ mode := AccessMode.READ, data_type := some 0 }, { mode := AccessMode.READ, data_type := some 0 }], return_type := some 0 }] }

/-- The reference to the scalar object `target` of `example_describe_ir`. -/
def example_scalar (target : Nat) : Expression :=
  .reference { target := some target, data_type := some 0 }

/-! ## Describing instructions and function types -/

/-- The test of `visit_conditional_instruction`: the condition is a bit literal with the
value true. -/
def is_literal_true : Expression → Bool
  | .bit_literal value _ => value
  | _ => false

/-- The method `visit_conditional_instruction`: the condition between `cond (` and `) `,
unless it is a bit literal with the value true. -/
def DescribingVisitor.visit_conditional_instruction (ir : Root) :
    Option Expression → Except Error String
  | none => .error Error.empty_dereference
  | some condition =>
    if is_literal_true condition then .ok ""
    else
      match DescribingVisitor.visit_expression ir 0 condition with
      | .error e => .error e
      | .ok text => .ok ("cond (" ++ text ++ ") ")

/-- The method `visit_custom_instruction`. -/
def DescribingVisitor.visit_custom_instruction (ir : Root)
    (custom_instruction : CustomInstruction) : Except Error String :=
  match DescribingVisitor.visit_conditional_instruction ir custom_instruction.condition with
  | .error e => .error e
  | .ok condition_text =>
    match custom_instruction.instruction_type with
    | none => .error Error.empty_dereference
    | some t =>
      match DescribingVisitor.print_instruction_type_prefix ir (ir.node t) with
      | .error e => .error e
      | .ok type_text =>
        match DescribingVisitor.visit_operands ir (ir.node t).operand_types
            custom_instruction.operands 0 type_text.2 with
        | .error e => .error e
        | .ok text => .ok (condition_text ++ type_text.1 ++ text)

/-- The method `visit_set_instruction`. -/
def DescribingVisitor.visit_set_instruction (ir : Root) (set_instruction : SetInstruction) :
    Except Error String :=
  match DescribingVisitor.visit_conditional_instruction ir set_instruction.condition with
  | .error e => .error e
  | .ok condition_text =>
    match DescribingVisitor.visit_reference ir set_instruction.lhs with
    | .error e => .error e
    | .ok lhs =>
      match DescribingVisitor.visit_expression ir 0 set_instruction.rhs with
      | .error e => .error e
      | .ok rhs => .ok (condition_text ++ lhs ++ " = " ++ rhs)

/-- The loop of `visit_wait_instruction` over the objects. -/
def DescribingVisitor.visit_objects (ir : Root) : List Reference → Bool → Except Error String
  | [], _ => .ok ""
  | ref :: rest, first =>
    match DescribingVisitor.visit_reference ir ref with
    | .error e => .error e
    | .ok text =>
      match DescribingVisitor.visit_objects ir rest false with
      | .error e => .error e
      | .ok texts => .ok ((if first then "" else ",") ++ " " ++ text ++ texts)

/-- The method `visit_wait_instruction`. -/
def DescribingVisitor.visit_wait_instruction (ir : Root) (wait_instruction : WaitInstruction) :
    Except Error String :=
  match DescribingVisitor.visit_objects ir wait_instruction.objects true with
  | .error e => .error e
  | .ok texts =>
    .ok ("wait" ++
      (if wait_instruction.duration ≠ 0 then
        " " ++ toString wait_instruction.duration ++
          (if wait_instruction.duration = 1 then " cycle" else " cycles") ++
          (if wait_instruction.objects ≠ [] then " after " else "")
      else if wait_instruction.objects ≠ [] then " on " else "") ++ texts)

/-- The function `describe` on the instructions that `make_instruction` builds. -/
def describe (ir : Root) : Instruction → Except Error String
  | .custom_instruction insn => DescribingVisitor.visit_custom_instruction ir insn
  | .set_instruction insn => DescribingVisitor.visit_set_instruction ir insn
  | .wait_instruction insn => DescribingVisitor.visit_wait_instruction ir insn

/-- The loop of `visit_function_type` over the operand types. -/
def DescribingVisitor.visit_operand_types (ir : Root) : List OperandType → Bool → Except Error String
  | [], _ => .ok ""
  | opt :: rest, first =>
    match DescribingVisitor.visit_operand_type ir opt with
    | .error e => .error e
    | .ok text =>
      match DescribingVisitor.visit_operand_types ir rest false with
      | .error e => .error e
      | .ok texts => .ok ((if first then "" else ", ") ++ text ++ texts)

/-- The method `visit_function_type`: the prototype of the function. -/
def DescribingVisitor.visit_function_type (ir : Root) (function_type : FunctionType) :
    Except Error String :=
  match DescribingVisitor.visit_operand_types ir function_type.operand_types true with
  | .error e => .error e
  | .ok texts =>
    .ok (function_type.name ++ "(" ++ texts ++ ") -> " ++
      DescribingVisitor.visit_data_type ir function_type.return_type)

/-! ## Function types of the platform -/

/-- The function type node with identity `id`. -/
def Root.function_node (ir : Root) (id : Nat) : FunctionType :=
  ir.function_nodes.getD id default

/-- The names of the entries of the function collection, in collection order. -/
def Root.function_names (ir : Root) : List String :=
  ir.platform.functions.map fun id => (ir.function_node id).name

/-- Modelled from the spec: `utils::starts_with`, declared in a header that is not part of
the sources; the spec words the test as "start with `operator`", so it tells whether `front`
is an initial part of `str`. -/
def starts_with (str front : String) : Bool :=
  front.toList.isPrefixOf str.toList

/-- The search loop of `add_function_type`: from position `pos` (with `rest` the entries
from `pos` on), walk over the entries named `name`; an entry with the same number of operand
types and the same data type at every position is a duplicate. Returns the final position,
or `none` for a duplicate. -/
def scan_function_types (ir : Root) (name : String) (types : List Link) :
    List Nat → Nat → Option Nat
  | [], pos => some pos
  | id :: rest, pos =>
    if (ir.function_node id).name = name then
      if data_types_match (ir.function_node id).operand_types types then none
      else scan_function_types ir name types rest (pos + 1)
    else some pos

/-- The function `add_function_type`: `function_type` becomes a node of the store (with the
identity `ir.function_nodes.length`) that is inserted in the function collection after the
entries of the same name. Returns the IR reached and the link to the function type, or the
error thrown; the message of the duplicate error holds the description of the function
type, which can throw itself. -/
def add_function_type (ir : Root) (function_type : FunctionType) : Root × Except Error Link :=
  if ¬ is_identifier function_type.name ∧ ¬ starts_with function_type.name "operator" then
    (ir, .error (Error.user_error "invalid name for new function type"))
  else
    match scan_function_types ir function_type.name
        (operand_data_types function_type.operand_types)
        (ir.platform.functions.drop (lower_bound ir.function_names function_type.name))
        (lower_bound ir.function_names function_type.name) with
    | none =>
      match DescribingVisitor.visit_function_type ir function_type with
      | .error e => (ir, .error e)
      | .ok text => (ir, .error (Error.user_error ("duplicate function type: " ++ text)))
    | some pos =>
      ({ ir with
          function_nodes := ir.function_nodes ++ [function_type]
          platform := { ir.platform with
            functions := insert_at ir.platform.functions pos ir.function_nodes.length } },
        .ok (some ir.function_nodes.length))

/-- The function names of the operator table: `operator` followed by an operator
spelling. -/
def operator_names : List String :=
  OPERATOR_INFO.map fun entry => entry.1.1

/-! ## The format of the description of a custom instruction -/

/-- The items of a description as the specification words them: for each operand `i` the
list `items` holds the text ` T=O`, where `T` is the description of `operand_types[i]` and
`O` the description of the operand. -/
def items_described (ir : Root) (operand_types : List OperandType) (operands : List Expression)
    (items : List String) : Prop :=
  items.length = operands.length ∧
  ∀ i, i < operands.length → ∃ ot T O, operand_types.get? i = some ot ∧
    DescribingVisitor.visit_operand_type ir ot = .ok T ∧
    DescribingVisitor.visit_expression ir 0 (operands.getD i default) = .ok O ∧
    items.getD i "" = " " ++ T ++ "=" ++ O

/-- The text of a loop with the flag `first` over items: every item but the first one
printed is preceded by the separator. -/
def join_items (separator : String) : Bool → List String → String
  | _, [] => ""
  | first, item :: rest =>
    (if first then "" else separator) ++ item ++ join_items separator false rest

/-- The platform of scenario S1: `example_platform` with the instruction type `x` on one
qubit in WRITE mode. -/
def example_s1 : Root :=
  (add_instruction_type example_platform { name := "x", cqasm_name := "x", operand_types := [{ mode := AccessMode.WRITE, data_type := some 0 }] } []).1

/-- The platform `example_platform` with an instruction type whose cQASM name `cphase` is
not its name `cz`. -/
def example_alias : Root :=
  (add_instruction_type example_platform { name := "cz", cqasm_name := "cphase" } []).1

/-- The instruction of scenario S1: `make_instruction("x", [qubit_ref(0)])`. -/
def example_s1_instruction : Except Error (Option Instruction) :=
  match make_qubit_ref example_s1 0 0 with
  | .error e => .error e
  | .ok ref => (make_instruction example_s1 "x" [.reference ref] none false false).2

/-! ## Parentheses in the description of an expression -/

/-- The entry of the operator table for an expression that is a call of a function whose
name and number of operands are in the table. -/
def Expression.operator_info (ir : Root) : Expression → Option OperatorInfo
  | .function_call (some p) operands =>
    match ir.function_nodes.get? p with
    | none => none
    | some ft => OPERATOR_INFO.lookup (ft.name, operands.length)
  | _ => none

/-- The text of an expression visited with the surrounding precedence `precedence`, from
its text `body` at precedence 0: an operator call gets parentheses when the surrounding
precedence is above its own. -/
def text_in_context (ir : Root) (precedence : Nat) (e : Expression) (body : String) : String :=
  match e.operator_info ir with
  | none => body
  | some q => parenthesize (decide (precedence > q.precedence)) body

/-- The rule of the specification for an operand of a binary operator `op` that is an
operator call of precedence `q`: it is wrapped in parentheses iff `q` is below the
precedence of `op`, or equal to it while the operand is the left operand of a
right-associative operator or the right operand of a left-associative one. -/
def operand_parenthesized (op : OperatorInfo) (is_left : Bool) (q : Nat) : Bool :=
  decide (q < op.precedence) ||
    (decide (q = op.precedence) &&
      (if is_left then decide (op.associativity = OperatorAssociativity.RIGHT)
        else decide (op.associativity = OperatorAssociativity.LEFT)))

/-- The text of an operand of a binary operator `op` by the rule of the specification, from
the text `body` of the operand at the top level. -/
def operand_text (ir : Root) (op : OperatorInfo) (is_left : Bool) (operand : Expression)
    (body : String) : String :=
  match operand.operator_info ir with
  | none => body
  | some q => parenthesize (operand_parenthesized op is_left q.precedence) body

/-- The call of the function type `function_type` of `example_describe_ir` on two
operands. -/
def example_call (function_type : Nat) (first last : Expression) : Expression :=
  .function_call (some function_type) [first, last]

/-! ## Conditions of the gates of the old representation (`gate.cc`) -/

/-- The enumeration `ConditionType`. -/
inductive ConditionType where
  | ALWAYS | NEVER | UNARY | NOT | AND | NAND | OR | NOR | XOR | NXOR
  deriving DecidableEq, Repr, Inhabited

/-- The function `Gate::is_valid_cond`. -/
def Gate.is_valid_cond (condition : ConditionType) (cond_operands : List Nat) : Bool :=
  match condition with
  | .ALWAYS | .NEVER => cond_operands.length == 0
  | .UNARY | .NOT => cond_operands.length == 1
  | .AND | .NAND | .OR | .NOR | .XOR | .NXOR => cond_operands.length == 2

/-- The bounds-checked element access of `utils::Vec`. -/
def Gate.operand (cond_operands : List Nat) (i : Nat) : Except Error Nat :=
  match cond_operands.get? i with
  | none => .error Error.out_of_range
  | some x => .ok x

/-- The text `front + to_string(cond_operands[0]) + back` of the conditions with one
operand. -/
def Gate.cond_text1 (cond_operands : List Nat) (front back : String) : Except Error String :=
  match Gate.operand cond_operands 0 with
  | .error e => .error e
  | .ok a => .ok (front ++ toString a ++ back)

/-- The text `front + to_string(cond_operands[0]) + middle + to_string(cond_operands[1]) +
back` of the conditions with two operands. -/
def Gate.cond_text2 (cond_operands : List Nat) (front middle back : String) :
    Except Error String :=
  match Gate.operand cond_operands 0 with
  | .error e => .error e
  | .ok a =>
    match Gate.operand cond_operands 1 with
    | .error e => .error e
    | .ok b => .ok (front ++ toString a ++ middle ++ toString b ++ back)

/-- The function `Gate::cond_qasm` on the fields `condition` and `cond_operands` of the
gate; the assertion throws when it fails. -/
def Gate.cond_qasm (condition : ConditionType) (cond_operands : List Nat) :
    Except Error String :=
  if ¬ Gate.is_valid_cond condition cond_operands then
    .error (Error.internal_error "assert \"Gate::is_valid_cond(condition, cond_operands)\" failed")
  else
    match condition with
    | .ALWAYS => .ok ""
    | .NEVER => .ok "cond(0) "
    | .UNARY => Gate.cond_text1 cond_operands "cond(b[" "]) "
    | .NOT => Gate.cond_text1 cond_operands "cond(!b[" "]) "
    | .AND => Gate.cond_text2 cond_operands "cond(b[" "]&&b[" ") "
    | .NAND => Gate.cond_text2 cond_operands "cond(!(b[" "]&&b[" ")) "
    | .OR => Gate.cond_text2 cond_operands "cond(b[" "]||b[" ") "
    | .NOR => Gate.cond_text2 cond_operands "cond(!(b[" "]||b[" ")) "
    | .XOR => Gate.cond_text2 cond_operands "cond(b[" "]^^b[" ") "
    | .NXOR => Gate.cond_text2 cond_operands "cond(!(b[" "]^^b[" ")) "

/-- Modelled from the spec: the square brackets and parentheses of a text are balanced;
`open_brackets` holds the brackets that are open, the innermost first. -/
def brackets_balanced : List Char → List Char → Bool
  | open_brackets, [] => open_brackets.isEmpty
  | open_brackets, c :: text =>
    if c = '(' ∨ c = '[' then brackets_balanced (c :: open_brackets) text
    else if c = ')' then
      match open_brackets with
      | '(' :: rest => brackets_balanced rest text
      | _ => false
    else if c = ']' then
      match open_brackets with
      | '[' :: rest => brackets_balanced rest text
      | _ => false
    else brackets_balanced open_brackets text

/-- Modelled from the spec: the text has the form `cond(E) `. -/
def has_cond_form (text : String) : Bool :=
  "cond(".toList.isPrefixOf text.toList && ") ".toList.isSuffixOf text.toList

/-- Modelled from the spec: the bit operand `i` appears in the text as `b[i]`. -/
def operand_appears (i : Nat) (text : String) : Bool :=
  text.toList.tails.any (fun rest => ("b[" ++ toString i ++ "]").toList.isPrefixOf rest)

/-! ## Durations -/

/-- The function `get_duration_of_instruction` on a statement that is an instruction.
Dereferencing an empty instruction type link throws. -/
def get_duration_of_instruction (ir : Root) : Statement → Except Error Nat
  | .custom_instruction custom =>
    match custom.instruction_type with
    | none => .error Error.empty_dereference
    | some t => .ok (ir.node t).duration
  | .wait_instruction wait => .ok wait.duration
  | _ => .ok 0

/-- The field `cycle` behind the cast `stmt.as<Instruction>()`: nothing for a statement that
is not an instruction. -/
def Statement.instruction_cycle : Statement → Option Int
  | .custom_instruction insn => some insn.cycle
  | .set_instruction insn => some insn.cycle
  | .goto_instruction insn => some insn.cycle
  | .wait_instruction insn => some insn.cycle
  | .dummy_instruction cycle => some cycle
  | _ => none

/-- The loop of `get_duration_of_block`. The sum of the signed `cycle` and the unsigned
duration is a sum of unsigned 64-bit integers. -/
def get_duration_of_block_loop (ir : Root) : List Statement → Nat → Except Error Nat
  | [], duration => .ok duration
  | stmt :: rest, duration =>
    match stmt.instruction_cycle with
    | none => get_duration_of_block_loop ir rest duration
    | some cycle =>
      match get_duration_of_instruction ir stmt with
      | .error e => .error e
      | .ok d => get_duration_of_block_loop ir rest (max duration ((to_uint cycle + d) % 2 ^ 64))

/-- The function `get_duration_of_block` on the statements of the block. -/
def get_duration_of_block (ir : Root) (block : List Statement) : Except Error Nat :=
  get_duration_of_block_loop ir block 0

/-- Modelled from the spec: the sum `cycle + duration` of a statement that is an instruction
whose duration is defined, nothing for another statement. -/
def Statement.cycle_plus_duration (ir : Root) (stmt : Statement) : Option Int :=
  match stmt.instruction_cycle, get_duration_of_instruction ir stmt with
  | some cycle, .ok d => some (cycle + (d : Int))
  | _, _ => none

/-- Modelled from the spec: the sums `cycle + duration` of the instructions of a block. -/
def block_ends (ir : Root) (block : List Statement) : List Int :=
  block.filterMap (Statement.cycle_plus_duration ir)

/-- Modelled from the spec: `d` is the maximum of the list, or 0 when the list is empty. -/
def is_maximum_or_zero (l : List Int) (d : Int) : Prop :=
  (l = [] → d = 0) ∧ (l ≠ [] → d ∈ l) ∧ ∀ e ∈ l, e ≤ d

/-- The instructions of the block have a type, a cycle that is not negative and a sum
`cycle + duration` that fits in an unsigned 64-bit integer. -/
def block_scheduled (ir : Root) (block : List Statement) : Prop :=
  ∀ stmt ∈ block, ∀ cycle, stmt.instruction_cycle = some cycle →
    ∃ d, get_duration_of_instruction ir stmt = .ok d ∧ 0 ≤ cycle ∧ cycle + (d : Int) < 2 ^ 64

/-- A platform with one instruction type of duration 3. -/
def example_duration_ir : Root :=
  { instruction_nodes := [{ name := "x", duration := 3 }], platform := { instructions := [0] } }

/-- A block with a custom instruction in cycle 2, a wait of 10 cycles in cycle 0, a set
instruction in cycle 7 and a loop around a wait of 100 cycles. -/
def example_block : List Statement :=
  [.custom_instruction { cycle := 2, instruction_type := some 0 },
   .wait_instruction { cycle := 0, duration := 10 },
   .set_instruction { cycle := 7 },
   .repeat_until_loop (.bit_literal true none) [.wait_instruction { cycle := 0, duration := 100 }]]

/-- A block with one wait instruction of no duration in cycle -1. -/
def example_negative_block : List Statement :=
  [.wait_instruction { cycle := -1, duration := 0 }]

/-! ## Looking up function types -/

/-- The search loop of `find_function_type` over the entries from the lower bound on: walk
over the entries named `name`; the first with the same number of operand types and the same
data type at every position is returned. -/
def scan_find_function_type (ir : Root) (name : String) (types : List Link) : List Nat → Link
  | [] => none
  | id :: rest =>
    if (ir.function_node id).name = name then
      if data_types_match (ir.function_node id).operand_types types then some id
      else scan_find_function_type ir name types rest
    else none

/-- The function `find_function_type`. -/
def find_function_type (ir : Root) (name : String) (types : List Link) : Link :=
  scan_find_function_type ir name types
    (ir.platform.functions.drop (lower_bound ir.function_names name))

/-- The names of the data types behind a list of links, for the message of
`make_function_call`; dereferencing an empty or dangling link throws. -/
def data_type_names (ir : Root) : List Link → Except Error (List String)
  | [] => .ok []
  | type :: rest =>
    match ir.data_type type with
    | .error e => .error e
    | .ok dt =>
      match data_type_names ir rest with
      | .error e => .error e
      | .ok names => .ok (dt.name :: names)

/-- The function `make_function_call`: the function call node with the operands as they
are and the function type found for their data types. -/
def make_function_call (ir : Root) (name : String) (operands : List Expression) :
    Except Error Expression :=
  match get_types_of ir operands with
  | .error e => .error e
  | .ok types =>
    match find_function_type ir name types with
    | none =>
      match data_type_names ir types with
      | .error e => .error e
      | .ok names =>
        .error (Error.user_error
          ("unknown function: " ++ name ++ "(" ++ String.intercalate " ," names ++ ")"))
    | some function_type => .ok (.function_call (some function_type) operands)

/-- The function collection denotes nodes of the store and is non-decreasing by name. -/
structure Root.functions_sorted (ir : Root) : Prop where
  valid : ∀ id ∈ ir.platform.functions, id < ir.function_nodes.length
  sorted : ir.function_names.Pairwise (· ≤ ·)

/-- No two entries of the function collection have the same name and the same operand data
types. -/
def Root.functions_distinct (ir : Root) : Prop :=
  ∀ a ∈ ir.platform.functions, ∀ b ∈ ir.platform.functions,
    (ir.function_node a).name = (ir.function_node b).name →
    operand_data_types (ir.function_node a).operand_types =
      operand_data_types (ir.function_node b).operand_types → a = b

/-- Modelled from the spec: the same number of operand types and positionally identical
operand data types. -/
def same_operand_data_types (operand_types : List OperandType) (types : List Link) : Prop :=
  operand_types.length = types.length ∧
    ∀ i, i < operand_types.length → (operand_types.getD i default).data_type = types.getD i none

/-- Modelled from the spec: the entry `id` of the function collection has the name `name`
and the operand data types `types`. -/
def Root.function_entry (ir : Root) (name : String) (types : List Link) (id : Nat) : Prop :=
  id ∈ ir.platform.functions ∧ (ir.function_node id).name = name ∧
    same_operand_data_types (ir.function_node id).operand_types types

/-- The data type links of the operand types of a function type denote nodes of the store,
as in a well-formed tree; `describe` throws on a WRITE operand type with an empty link. -/
def FunctionType.types_defined (ir : Root) (function_type : FunctionType) : Prop :=
  ∀ ot ∈ function_type.operand_types, ∃ dt, ir.data_type ot.data_type = .ok dt

/-- The states reached from a platform without function types by calls of
`add_function_type`, calls that throw included (they leave the platform as it is). -/
inductive FunctionsAdded : Root → Prop where
  | empty (ir : Root) : ir.platform.functions = [] → FunctionsAdded ir
  | step (ir : Root) (function_type : FunctionType) :
      FunctionsAdded ir → FunctionsAdded (add_function_type ir function_type).1

/-- A platform with the types `int` (node 0) and `bit` (node 1) and no function type. -/
def example_functions0 : Root :=
  { data_type_nodes := [{ name := "int", kind := DataTypeKind.int 32 true }, { name := "bit", kind := DataTypeKind.bit }] }

/-- The function type `min(int, int) -> int`. -/
def example_min2 : FunctionType :=
  { name := "min", operand_types := [{ mode := AccessMode.READ, data_type := some 0 }, { mode := AccessMode.READ, data_type := some 0 }], return_type := some 0 }

/-- The function type `min(int) -> int`. -/
def example_min1 : FunctionType :=
  { name := "min", operand_types := [{ mode := AccessMode.READ, data_type := some 0 }], return_type := some 0 }

/-- The function type `abs(int) -> int`. -/
def example_abs : FunctionType :=
  { name := "abs", operand_types := [{ mode := AccessMode.READ, data_type := some 0 }], return_type := some 0 }

/-- The platform after `min(int, int)` was added. -/
def example_functions1 : Root := (add_function_type example_functions0 example_min2).1

/-- The platform after `min(int)` was added as well. -/
def example_functions2 : Root := (add_function_type example_functions1 example_min1).1

/-- The platform after `abs(int)` was added as well. -/
def example_functions3 : Root := (add_function_type example_functions2 example_abs).1

/-! ## Depth in a specialization tree -/

/-- Node `t` is at depth `d` of the specialization tree of `root`: it is reached from `root`
by `d` steps to a specialization. -/
inductive at_depth (ir : Root) (root : Nat) : Nat → Nat → Prop where
  | root : at_depth ir root 0 root
  | child (d p c : Nat) (h : at_depth ir root d p) (hc : c ∈ (ir.node p).specializations) :
    at_depth ir root (d + 1) c

/-- The instruction type `cz` with two qubit operands, the first commuting along the Z axis
and the second along the X axis. -/
def example_cz : InstructionType :=
  { name := "cz", cqasm_name := "cz", operand_types := [{ mode := AccessMode.COMMUTE_Z, data_type := some 0 }, { mode := AccessMode.COMMUTE_X, data_type := some 0 }] }

/-- The instruction type `cz` once more, with both operands in WRITE mode. -/
def example_cz_write : InstructionType :=
  { name := "cz", cqasm_name := "cz", operand_types := [{ mode := AccessMode.WRITE, data_type := some 0 }, { mode := AccessMode.WRITE, data_type := some 0 }] }

/-- The platform after registering `cz`. -/
def example_ir6 : Root := (add_instruction_type example_ir0 example_cz []).1

/-- The platform after registering `cz` and then, from the instruction type with the WRITE
modes, the specialization `cz q[3]`. -/
def example_ir7 : Root :=
  (add_instruction_type example_ir6 example_cz_write [example_qubit_ref 0 3]).1

/-! ## Examples for the description of instruction types -/

/-- The instruction type `toffoli` on three qubits: two controls that commute along the Z
axis and a target that commutes along the X axis. -/
def example_toffoli : InstructionType :=
  { name := "toffoli", cqasm_name := "toffoli", operand_types := [{ mode := AccessMode.COMMUTE_Z, data_type := some 0 }, { mode := AccessMode.COMMUTE_Z, data_type := some 0 }, { mode := AccessMode.COMMUTE_X, data_type := some 0 }] }

/-- The reference `qubits[index]` of `example_platform`, with its index literal at address
`addr`. -/
def example_qubit (addr : Nat) (index : Int) : Expression :=
  .reference { target := some 0, data_type := some 0, indices := [{ addr := addr, value := index, data_type := some 2 }] }

/-- The platform `example_platform` after registering `toffoli` with the template operands
`qubits[0]`, `qubits[1]` and `qubits[2]`: node 0 is the instruction type, node 1 its
specialization on `qubits[0]`, node 2 the specialization of node 1 on `qubits[1]` and node 3
the specialization of node 2 on `qubits[2]`. -/
def example_toffoli_ir : Root :=
  (add_instruction_type example_platform example_toffoli
    [example_qubit 0 0, example_qubit 1 1, example_qubit 2 2]).1

/-! ## The specialization loop with its read of the front operand -/

/-- The specialization loop of `make_instruction` with the read `operands.front()` of the
loop over the specializations written out: the read happens when the current instruction
type has a specialization, and on an empty operand list it is reported as an access out of
range. Returns the final instruction type, the operands that are left and the number of
descents; `fuel` bounds the number of iterations. -/
def specialize_instruction_strict (ir : Root) :
    Nat → Nat → List Expression → Except Error (Nat × List Expression × Nat)
  | 0, _, _ => .error (Error.internal_error "specialization loop bound reached")
  | fuel + 1, ityp, operands =>
    if (ir.node ityp).specializations = [] then .ok (ityp, operands, 0)
    else
      match operands with
      | [] => .error Error.out_of_range
      | front :: rest =>
        match find_specialization ir (ir.node ityp).specializations (some front) with
        | some spec =>
          match specialize_instruction_strict ir fuel spec rest with
          | .error e => .error e
          | .ok (t, left, descents) => .ok (t, left, descents + 1)
        | none => .ok (ityp, front :: rest, 0)

/-! ## The access map as a function of the accesses -/

/-- Modelled from the spec: the promotion of LITERAL to READ. -/
def promote_literal (mode : AccessMode) : AccessMode :=
  if mode = AccessMode.LITERAL then AccessMode.READ else mode

/-- Modelled from the spec: the merge of two modes, the common mode when they agree and
WRITE otherwise. -/
def merge_modes (a b : AccessMode) : AccessMode :=
  if a = b then a else AccessMode.WRITE

/-- Modelled from the spec: the mode of the accesses to one object: none when there is no
access, the common mode when all accesses agree and WRITE otherwise. -/
def common_mode : List AccessMode → Option AccessMode
  | [] => none
  | m :: rest => if rest.all (fun x => decide (x = m)) then some m else some AccessMode.WRITE

/-- Modelled from the spec: the modes, with LITERAL promoted to READ, of the accesses of a
sequence to the reference with the key of `k`, in order. -/
def accesses_to (l : List (AccessMode × ReferenceWrapper)) (k : ReferenceWrapper) :
    List AccessMode :=
  (l.filter fun x => decide (x.2.key = k.key)).map fun x => promote_literal x.1

/-- The entries of the access map as pairs of the key of the reference and the mode. -/
def Accesses.entries (m : Accesses) : List ((Link × Link × List Nat) × AccessMode) :=
  m.map fun e => (e.1.key, e.2)

/-- The order of the entries of the access map, on pairs of a key and a mode. -/
def entry_lt (p q : (Link × Link × List Nat) × AccessMode) : Prop :=
  ∃ a b : ReferenceWrapper, a.key = p.1 ∧ b.key = q.1 ∧ a.lt b = true

/-- The modes recorded one after the other for one reference, from the mode `start` that
the map holds for it. -/
def merge_all (start : Option AccessMode) (modes : List AccessMode) : Option AccessMode :=
  modes.foldl (fun acc m => some (merged_mode acc m)) start

/-- Three accesses to `q[3]` (twice, through different reference nodes with the same index
node) and `q[4]`. -/
def example_accesses : List (AccessMode × ReferenceWrapper) :=
  [(AccessMode.READ, { reference := example_reference 5 3 }),
   (AccessMode.COMMUTE_Z, { reference := example_reference 6 4 }),
   (AccessMode.LITERAL, { reference := example_reference 5 3 }),
   (AccessMode.COMMUTE_X, { reference := example_reference 6 4 })]

/-! ## A specialized instruction and its generalized form -/

/-- The platform after registering `rz` and its specialization `rz q[0]` (node 1, whose
template operand is a copy of the reference, with its index node at address 0). -/
def example_ir8 : Root := (add_instruction_type example_ir5 example_rz [example_qubit_ref 0 0]).1

/-- The unconditional instruction `rz q[0]` in its specialized form: the instruction type
is the specialization and no operand is left. -/
def example_specialized : Statement :=
  .custom_instruction { condition := some (.bit_literal true (some 1)), instruction_type := some 1, operands := [] }

/-- The same instruction in its generalized form: the instruction type is `rz` and the
operands are the template operands of the specialization. -/
def example_generalized : Statement :=
  .custom_instruction { condition := some (.bit_literal true (some 1)), instruction_type := some 0, operands := (example_ir8.node 1).template_operands }

/-- The platform after registering `g` with a decomposition rule and its specialization
`g q[3]`, and then asking for the overload of `g` on a bit operand with overload
generation. -/
def example_ir9 : Root := (find_instruction_type example_ir3 "g" [some 1] true).1

/-! ## Well-formed prototypes, shallow specializations and references built twice -/

/-- The data type links of the operand types of an instruction type denote nodes of the
store, as in a well-formed tree; `describe` throws on a WRITE operand type with an empty
link. -/
def InstructionType.types_defined (ir : Root) (instruction_type : InstructionType) : Prop :=
  ∀ ot ∈ instruction_type.operand_types, ∃ dt, ir.data_type ot.data_type = .ok dt

/-- The instruction type `t` has no template operands, or it is one or two specializations
below the instruction type `r`, which has no generalization: the cases in which the
instruction type whose operand types `print_instruction_type_prefix` prints for the template
operands of `t` is the fully generalized instruction type `r`. -/
def within_two_of_root (ir : Root) (t r : Nat) : Prop :=
  (ir.node t).template_operands = [] ∨
  ((ir.node t).generalization = some r ∧ (ir.node r).generalization = none) ∨
  ∃ g, (ir.node t).generalization = some g ∧ (ir.node g).generalization = some r ∧
    (ir.node r).generalization = none

/-- The reference `qubits[1]` that `make_qubit_ref` builds on `example_platform` with the
new index node at address 0, as a key of the access map. -/
def example_q1 : ReferenceWrapper :=
  { reference := { target := some 0, data_type := some 0, indices := [{ addr := 0, value := 1, data_type := some 2 }] } }

/-- The reference `qubits[1]` that a second call of `make_qubit_ref` builds, with the new
index node at address 1. -/
def example_q1_again : ReferenceWrapper :=
  { reference := { target := some 0, data_type := some 0, indices := [{ addr := 1, value := 1, data_type := some 2 }] } }

/-- The unconditional instruction `toffoli qubits[0], qubits[1], qubits[2]` of
`example_toffoli_ir` with the specialization on `qubits[0]` (node 1) as its type. -/
def example_toffoli_instruction : CustomInstruction :=
  { condition := some (.bit_literal true (some 1)), instruction_type := some 1, operands := [example_qubit 3 1, example_qubit 4 2] }

/-! ## Lemmas and theorems -/

/-! ## Value equality of expressions -/

theorem indices_equal_refl : ∀ l : List IntLiteral, indices_equal l l = true
  | [] => rfl
  | a :: l => by simp [indices_equal, IntLiteral.equals, indices_equal_refl l]

theorem indices_equal_symm : ∀ l m : List IntLiteral, indices_equal l m = true → indices_equal m l = true
  | [], [] => fun _ => rfl
  | [], _ :: _ => fun h => by simp [indices_equal] at h
  | _ :: _, [] => fun h => by simp [indices_equal] at h
  | a :: l, b :: m => fun h => by
    simp [indices_equal, IntLiteral.equals] at h ⊢
    exact ⟨⟨h.1.1.symm, h.1.2.symm⟩, indices_equal_symm l m h.2⟩

theorem indices_equal_trans : ∀ l m n : List IntLiteral,
    indices_equal l m = true → indices_equal m n = true → indices_equal l n = true
  | [], [], [] => fun _ _ => rfl
  | [], [], _ :: _ => fun _ h => by simp [indices_equal] at h
  | [], _ :: _, _ => fun h _ => by simp [indices_equal] at h
  | _ :: _, [], _ => fun h _ => by simp [indices_equal] at h
  | _ :: _, _ :: _, [] => fun _ h => by simp [indices_equal] at h
  | a :: l, b :: m, c :: n => fun h1 h2 => by
    simp [indices_equal, IntLiteral.equals] at h1 h2 ⊢
    exact ⟨⟨h1.1.1.trans h2.1.1, h1.1.2.trans h2.1.2⟩, indices_equal_trans l m n h1.2 h2.2⟩

theorem indices_equal_clone : ∀ (l : List IntLiteral) (next : Nat),
    indices_equal (clone_indices l next) l = true
  | [], _ => rfl
  | a :: l, next => by
    simp [clone_indices, indices_equal, IntLiteral.equals, indices_equal_clone l (next + 1)]

theorem reference_equals_refl (r : Reference) : r.equals r = true := by
  simp [Reference.equals, indices_equal_refl]

theorem reference_equals_symm (r s : Reference) (h : r.equals s = true) : s.equals r = true := by
  simp [Reference.equals] at h ⊢
  exact ⟨⟨h.1.1.symm, h.1.2.symm⟩, indices_equal_symm _ _ h.2⟩

theorem reference_equals_trans (r s t : Reference) (h1 : r.equals s = true)
    (h2 : s.equals t = true) : r.equals t = true := by
  simp [Reference.equals] at h1 h2 ⊢
  exact ⟨⟨h1.1.1.trans h2.1.1, h1.1.2.trans h2.1.2⟩, indices_equal_trans _ _ _ h1.2 h2.2⟩

theorem reference_equals_clone (r : Reference) (next : Nat) : (r.clone next).1.equals r = true := by
  simp [Reference.equals, Reference.clone, indices_equal_clone]

mutual
theorem Expression.equals_refl : ∀ e : Expression, e.equals e = true
  | .bit_literal .. => by simp [Expression.equals]
  | .int_literal .. => by simp [Expression.equals]
  | .string_literal .. => by simp [Expression.equals]
  | .reference r => by simp [Expression.equals, reference_equals_refl]
  | .function_call f xs => by simp [Expression.equals, Expression.equals_list_refl xs]
theorem Expression.equals_list_refl : ∀ xs : List Expression, Expression.equals_list xs xs = true
  | [] => by simp [Expression.equals_list]
  | x :: xs => by
    simp [Expression.equals_list, Expression.equals_refl x, Expression.equals_list_refl xs]
end

mutual
theorem Expression.equals_symm : ∀ a b : Expression, a.equals b = true → b.equals a = true
  | .bit_literal .., .bit_literal .. => fun h => by
    simp [Expression.equals] at h ⊢; exact ⟨h.1.symm, h.2.symm⟩
  | .int_literal .., .int_literal .. => fun h => by
    simp [Expression.equals] at h ⊢; exact ⟨h.1.symm, h.2.symm⟩
  | .string_literal .., .string_literal .. => fun h => by
    simp [Expression.equals] at h ⊢; exact ⟨h.1.symm, h.2.symm⟩
  | .reference r, .reference s => fun h => by
    simp [Expression.equals] at h ⊢; exact reference_equals_symm _ _ h
  | .function_call f xs, .function_call g ys => fun h => by
    simp [Expression.equals] at h ⊢
    exact ⟨h.1.symm, Expression.equals_list_symm xs ys h.2⟩
  | .bit_literal .., .int_literal .. => fun h => by simp [Expression.equals] at h
  | .bit_literal .., .string_literal .. => fun h => by simp [Expression.equals] at h
  | .bit_literal .., .reference .. => fun h => by simp [Expression.equals] at h
  | .bit_literal .., .function_call .. => fun h => by simp [Expression.equals] at h
  | .int_literal .., .bit_literal .. => fun h => by simp [Expression.equals] at h
  | .int_literal .., .string_literal .. => fun h => by simp [Expression.equals] at h
  | .int_literal .., .reference .. => fun h => by simp [Expression.equals] at h
  | .int_literal .., .function_call .. => fun h => by simp [Expression.equals] at h
  | .string_literal .., .bit_literal .. => fun h => by simp [Expression.equals] at h
  | .string_literal .., .int_literal .. => fun h => by simp [Expression.equals] at h
  | .string_literal .., .reference .. => fun h => by simp [Expression.equals] at h
  | .string_literal .., .function_call .. => fun h => by simp [Expression.equals] at h
  | .reference .., .bit_literal .. => fun h => by simp [Expression.equals] at h
  | .reference .., .int_literal .. => fun h => by simp [Expression.equals] at h
  | .reference .., .string_literal .. => fun h => by simp [Expression.equals] at h
  | .reference .., .function_call .. => fun h => by simp [Expression.equals] at h
  | .function_call .., .bit_literal .. => fun h => by simp [Expression.equals] at h
  | .function_call .., .int_literal .. => fun h => by simp [Expression.equals] at h
  | .function_call .., .string_literal .. => fun h => by simp [Expression.equals] at h
  | .function_call .., .reference .. => fun h => by simp [Expression.equals] at h
theorem Expression.equals_list_symm : ∀ xs ys : List Expression,
    Expression.equals_list xs ys = true → Expression.equals_list ys xs = true
  | [], [] => fun _ => by simp [Expression.equals_list]
  | [], _ :: _ => fun h => by simp [Expression.equals_list] at h
  | _ :: _, [] => fun h => by simp [Expression.equals_list] at h
  | x :: xs, y :: ys => fun h => by
    simp [Expression.equals_list] at h ⊢
    exact ⟨Expression.equals_symm x y h.1, Expression.equals_list_symm xs ys h.2⟩
end

/-- The state that `add_instruction_type` reaches is the state that
`add_or_find_instruction_type` reaches. -/
theorem add_instruction_type_ir (ir : Root) (t : InstructionType) (tops : List Expression) :
    (add_instruction_type ir t tops).1 = (add_or_find_instruction_type ir t tops).ir := by
  unfold add_instruction_type
  simp only []
  cases (add_or_find_instruction_type ir t tops).result with
  | error e => rfl
  | ok p =>
    obtain ⟨ityp, added⟩ := p
    cases added
    · simp only [Bool.false_eq_true, not_false_eq_true, if_true]
      cases DescribingVisitor.visit_instruction_type (add_or_find_instruction_type ir t tops).ir
        (add_or_find_instruction_type ir t tops).instruction_type <;> rfl
    · rfl

/-- When `add_or_find_instruction_type` adds a node, `add_instruction_type` returns it. -/
theorem add_instruction_type_added (ir : Root) (t : InstructionType) (tops : List Expression)
    (n : Nat) (h : (add_or_find_instruction_type ir t tops).result = .ok (n, true)) :
    add_instruction_type ir t tops = ((add_or_find_instruction_type ir t tops).ir, .ok n) := by
  unfold add_instruction_type
  simp only []
  rw [h]
  rfl

/-- When `add_or_find_instruction_type` adds nothing, `add_instruction_type` throws: the
duplicate error with the description of the incoming instruction type, or what the
description throws. -/
theorem add_instruction_type_not_added (ir : Root) (t : InstructionType) (tops : List Expression)
    (n : Nat) (h : (add_or_find_instruction_type ir t tops).result = .ok (n, false)) :
    add_instruction_type ir t tops =
      ((add_or_find_instruction_type ir t tops).ir,
        match DescribingVisitor.visit_instruction_type (add_or_find_instruction_type ir t tops).ir
            (add_or_find_instruction_type ir t tops).instruction_type with
        | .error e => .error e
        | .ok text => .error (Error.user_error ("duplicate instruction type: " ++ text))) := by
  unfold add_instruction_type
  simp only []
  rw [h]
  simp only [Bool.false_eq_true, not_false_eq_true, if_true]
  cases DescribingVisitor.visit_instruction_type (add_or_find_instruction_type ir t tops).ir
    (add_or_find_instruction_type ir t tops).instruction_type <;> rfl

/-- The function `add_instruction_type` returns a node only when
`add_or_find_instruction_type` added it. -/
theorem add_instruction_type_ok (ir : Root) (t : InstructionType) (tops : List Expression)
    (n : Nat) (h : (add_instruction_type ir t tops).2 = .ok n) :
    (add_or_find_instruction_type ir t tops).result = .ok (n, true) := by
  cases hr : (add_or_find_instruction_type ir t tops).result with
  | error e =>
    unfold add_instruction_type at h
    simp only [] at h
    rw [hr] at h
    cases h
  | ok p =>
    obtain ⟨ityp, added⟩ := p
    cases added
    · rw [add_instruction_type_not_added ir t tops ityp hr] at h
      simp only [] at h
      cases hd : DescribingVisitor.visit_instruction_type
          (add_or_find_instruction_type ir t tops).ir
          (add_or_find_instruction_type ir t tops).instruction_type with
      | error e => rw [hd] at h; cases h
      | ok text => rw [hd] at h; cases h
    · rw [add_instruction_type_added ir t tops ityp hr] at h
      cases h
      rfl

/-- A dereference of a data type link throws only the exception of an empty link. -/
theorem data_type_error (ir : Root) (link : Link) (e : Error)
    (h : ir.data_type link = .error e) : e = Error.empty_dereference := by
  cases link with
  | none => simp only [Root.data_type] at h; cases h; rfl
  | some p =>
    simp only [Root.data_type] at h
    cases hg : ir.data_type_nodes.get? p with
    | none => rw [hg] at h; cases h; rfl
    | some d => rw [hg] at h; cases h

/-- The loop over the types of the unknown-instruction message throws only the exception of
an empty link. -/
theorem unknown_instruction_types_error (ir : Root) :
    ∀ (types : List Link) (first : Bool) (e : Error),
      unknown_instruction_types ir types first = .error e → e = Error.empty_dereference := by
  intro types
  induction types with
  | nil => intro first e h; simp only [unknown_instruction_types] at h; cases h
  | cons type rest ih =>
    intro first e h
    simp only [unknown_instruction_types] at h
    cases hd : ir.data_type type with
    | error e2 =>
      rw [hd] at h
      cases h
      exact data_type_error ir type _ hd
    | ok dt =>
      rw [hd] at h
      simp only [] at h
      cases hr : unknown_instruction_types ir rest false with
      | error e2 =>
        rw [hr] at h
        cases h
        exact ih false _ hr
      | ok texts => rw [hr] at h; cases h

mutual
theorem Expression.equals_trans (a b c : Expression) (h1 : a.equals b = true)
    (h2 : b.equals c = true) : a.equals c = true := by
  cases a <;> cases b <;> simp [Expression.equals] at h1 <;> cases c <;>
    simp [Expression.equals] at h2 ⊢
  · exact ⟨h1.1.trans h2.1, h1.2.trans h2.2⟩
  · exact ⟨h1.1.trans h2.1, h1.2.trans h2.2⟩
  · exact ⟨h1.1.trans h2.1, h1.2.trans h2.2⟩
  · exact reference_equals_trans _ _ _ h1 h2
  · exact ⟨h1.1.trans h2.1, Expression.equals_list_trans _ _ _ h1.2 h2.2⟩
theorem Expression.equals_list_trans (xs ys zs : List Expression)
    (h1 : Expression.equals_list xs ys = true) (h2 : Expression.equals_list ys zs = true) :
    Expression.equals_list xs zs = true := by
  cases xs <;> cases ys <;> simp [Expression.equals_list] at h1 <;> cases zs <;>
    simp [Expression.equals_list] at h2 ⊢
  exact ⟨Expression.equals_trans _ _ _ h1.1 h2.1, Expression.equals_list_trans _ _ _ h1.2 h2.2⟩
end

mutual
theorem Expression.equals_clone (e : Expression) (next : Nat) : (e.clone next).1.equals e = true := by
  cases e <;> simp [Expression.clone, Expression.equals]
  · exact reference_equals_clone _ _
  · exact Expression.equals_list_clone _ _
theorem Expression.equals_list_clone (xs : List Expression) (next : Nat) :
    Expression.equals_list (Expression.clone_list xs next).1 xs = true := by
  cases xs <;> simp [Expression.clone_list, Expression.equals_list]
  exact ⟨Expression.equals_clone _ _, Expression.equals_list_clone _ _⟩
end

theorem get_type_of_equals (ir : Root) (a b : Expression) (h : a.equals b = true) :
    get_type_of ir a = get_type_of ir b := by
  cases a <;> cases b <;> simp [Expression.equals] at h <;> simp [get_type_of, h]
  · simp [Reference.equals] at h; rw [h.1.2]

theorem maybe_equals_some (a b : Expression) : maybe_equals (some a) (some b) = a.equals b := rfl

/-- Element-wise value equality as a relation on lists. -/
theorem equals_list_iff (xs ys : List Expression) :
    Expression.equals_list xs ys = true ↔ List.Forall₂ (fun a b => a.equals b = true) xs ys := by
  induction xs generalizing ys with
  | nil => cases ys <;> simp [Expression.equals_list]
  | cons x xs ih => cases ys <;> simp [Expression.equals_list, ih]

/-! ## The node store -/

theorem node_alloc_old (ir : Root) (n : InstructionType) (id : Nat)
    (h : id < ir.instruction_nodes.length) : (ir.alloc n).1.node id = ir.node id := by
  simp [Root.alloc, Root.node, List.getD_eq_getElem?_getD, List.getElem?_append_left h]

theorem node_alloc_new (ir : Root) (n : InstructionType) :
    (ir.alloc n).1.node ir.instruction_nodes.length = n := by
  simp [Root.alloc, Root.node, List.getD_eq_getElem?_getD]

theorem length_alloc (ir : Root) (n : InstructionType) :
    (ir.alloc n).1.instruction_nodes.length = ir.instruction_nodes.length + 1 := by
  simp [Root.alloc]

theorem node_set_node_same (ir : Root) (n : InstructionType) (id : Nat)
    (h : id < ir.instruction_nodes.length) : (ir.set_node id n).node id = n := by
  simp [Root.set_node, Root.node, List.getD_eq_getElem?_getD, h]

theorem node_set_node_other (ir : Root) (n : InstructionType) (id j : Nat) (h : j ≠ id) :
    (ir.set_node id n).node j = ir.node j := by
  simp [Root.set_node, Root.node, List.getD_eq_getElem?_getD, List.getElem?_set_ne (Ne.symm h)]

theorem length_set_node (ir : Root) (n : InstructionType) (id : Nat) :
    (ir.set_node id n).instruction_nodes.length = ir.instruction_nodes.length := by
  simp [Root.set_node]

/-! ## Names and binary search -/

theorem compare_by_name_iff (a b : String) : compare_by_name a b = true ↔ a < b := by
  simp [compare_by_name, String.lt_iff_toList_lt]

theorem lower_bound_loop_spec (names : List String) (value : String)
    (hs : names.Pairwise (· ≤ ·)) :
    ∀ fuel first len, len ≤ fuel → first + len ≤ names.length →
      (∀ i, i < first → names.getD i "" < value) →
      (∀ i, first + len ≤ i → i < names.length → value ≤ names.getD i "") →
      first ≤ lower_bound_loop names value fuel first len ∧
      lower_bound_loop names value fuel first len ≤ first + len ∧
      (∀ i, i < lower_bound_loop names value fuel first len → names.getD i "" < value) ∧
      (∀ i, lower_bound_loop names value fuel first len ≤ i → i < names.length →
        value ≤ names.getD i "") := by
  intro fuel
  induction fuel with
  | zero =>
    intro first len hlen hb hlo hhi
    have : len = 0 := by omega
    subst this
    simp only [lower_bound_loop]
    exact ⟨le_refl _, by omega, hlo, fun i h1 h2 => hhi i (by omega) h2⟩
  | succ fuel ih =>
    intro first len hlen hb hlo hhi
    unfold lower_bound_loop
    by_cases h0 : len = 0
    · subst h0
      simp only [if_true]
      exact ⟨le_refl _, by omega, hlo, fun i h1 h2 => hhi i (by omega) h2⟩
    · simp only [h0, if_false]
      have hmid : first + len / 2 < names.length := by omega
      by_cases hc : compare_by_name (names.getD (first + len / 2) "") value = true
      · simp only [hc, if_true]
        have hlt := (compare_by_name_iff _ _).1 hc
        have key := ih (first + len / 2 + 1) (len - len / 2 - 1) (by omega) (by omega)
          (by
            intro i hi
            by_cases h1 : i < first
            · exact hlo i h1
            · have hi2 : i ≤ first + len / 2 := by omega
              rcases Nat.lt_or_ge i (first + len / 2) with h2 | h2
              · have hle : names.getD i "" ≤ names.getD (first + len / 2) "" := by
                  have := List.pairwise_iff_getElem.1 hs i (first + len / 2) (by omega) hmid h2
                  simpa [List.getD_eq_getElem?_getD, List.getElem?_eq_getElem, hmid,
                    show i < names.length by omega] using this
                exact lt_of_le_of_lt hle hlt
              · have : i = first + len / 2 := by omega
                subst this
                exact hlt)
          (by
            intro i hi1 hi2
            exact hhi i (by omega) hi2)
        refine ⟨by omega, by omega, key.2.2.1, key.2.2.2⟩
      · simp only [hc]
        have hge : value ≤ names.getD (first + len / 2) "" := by
          rw [compare_by_name_iff] at hc
          exact not_lt.1 hc
        have key := ih first (len / 2) (by omega) (by omega) hlo
          (by
            intro i hi1 hi2
            rcases Nat.lt_or_ge (first + len / 2) i with h2 | h2
            · have hle : names.getD (first + len / 2) "" ≤ names.getD i "" := by
                have := List.pairwise_iff_getElem.1 hs (first + len / 2) i hmid hi2 h2
                simpa [List.getD_eq_getElem?_getD, List.getElem?_eq_getElem, hmid, hi2] using this
              exact le_trans hge hle
            · have : i = first + len / 2 := by omega
              subst this
              exact hge)
        simp only [Bool.false_eq_true, if_false]
        refine ⟨key.1, by omega, key.2.2.1, key.2.2.2⟩

theorem lower_bound_spec (names : List String) (value : String) (hs : names.Pairwise (· ≤ ·)) :
    lower_bound names value ≤ names.length ∧
    (∀ i, i < lower_bound names value → names.getD i "" < value) ∧
    (∀ i, lower_bound names value ≤ i → i < names.length → value ≤ names.getD i "") := by
  have := lower_bound_loop_spec names value hs names.length 0 names.length (le_refl _) (by simp)
    (by intro i hi; omega) (by intro i h1 h2; omega)
  simp only [lower_bound]
  exact ⟨by simpa using this.2.1, this.2.2.1, this.2.2.2⟩

theorem data_types_match_iff (ots : List OperandType) (types : List Link) :
    data_types_match ots types = true ↔ operand_data_types ots = types := by
  unfold data_types_match operand_data_types
  induction ots generalizing types with
  | nil => cases types <;> simp
  | cons o ots ih =>
    cases types with
    | nil => simp
    | cons t types =>
      have := ih types
      simp only [List.length_cons, List.zip_cons_cons, List.all_cons, List.map_cons,
        List.cons.injEq, Bool.and_eq_true, beq_iff_eq, Nat.add_right_cancel_iff] at this ⊢
      constructor
      · rintro ⟨h1, h2, h3⟩; exact ⟨h2, this.1 ⟨h1, h3⟩⟩
      · rintro ⟨h2, h3⟩; exact ⟨(this.2 h3).1, h2, (this.2 h3).2⟩

theorem scan_overloads_spec (ir : Root) (name : String) (types : List Link) :
    ∀ (rest : List Nat) (pos : Nat),
      (rest.map fun id => (ir.node id).name).Pairwise (· ≤ ·) →
      (∀ id ∈ rest, name ≤ (ir.node id).name) →
      pos ≤ (scan_overloads ir name types rest pos).1 ∧
      (scan_overloads ir name types rest pos).1 ≤ pos + rest.length ∧
      (∀ k, k < (scan_overloads ir name types rest pos).1 - pos →
        ∃ id, rest[k]? = some id ∧ (ir.node id).name = name ∧
          matches_overload ir name types id = false) ∧
      ((scan_overloads ir name types rest pos).2 = true →
        ∃ id, rest[(scan_overloads ir name types rest pos).1 - pos]? = some id ∧
          matches_overload ir name types id = true) ∧
      ((scan_overloads ir name types rest pos).2 = false →
        ∀ k id, (scan_overloads ir name types rest pos).1 - pos ≤ k → rest[k]? = some id →
          (ir.node id).name ≠ name) := by
  intro rest
  induction rest with
  | nil => intro pos _ _; simp [scan_overloads]
  | cons a rest ih =>
    intro pos hs hge
    simp only [List.map_cons, List.pairwise_cons] at hs
    unfold scan_overloads
    by_cases hn : (ir.node a).name = name
    · by_cases hm : data_types_match (ir.node a).operand_types types = true
      · simp only [hn, hm, if_true]
        refine ⟨le_refl _, by omega, fun k hk => by omega, fun _ => ⟨a, by simp, ?_⟩,
          fun h => by simp at h⟩
        simp [matches_overload, hn, hm]
      · simp only [hn, hm, if_true, Bool.false_eq_true, if_false]
        have key := ih (pos + 1) hs.2 (fun id hid => hge id (List.mem_cons_of_mem _ hid))
        refine ⟨by omega, by simp only [List.length_cons]; omega, ?_, ?_, ?_⟩
        · intro k hk
          cases k with
          | zero => exact ⟨a, by simp, hn, by simp [matches_overload, hm]⟩
          | succ k =>
            obtain ⟨id, h1, h2⟩ := key.2.2.1 k (by omega)
            exact ⟨id, by simpa using h1, h2⟩
        · intro h
          obtain ⟨id, h1, h2⟩ := key.2.2.2.1 h
          refine ⟨id, ?_, h2⟩
          have : (scan_overloads ir name types rest (pos + 1)).1 - pos =
              ((scan_overloads ir name types rest (pos + 1)).1 - (pos + 1)) + 1 := by omega
          rw [this]; simpa using h1
        · intro h k id hk hid
          cases k with
          | zero => omega
          | succ k =>
            exact key.2.2.2.2 h k id (by omega) (by simpa using hid)
    · simp only [hn, if_false]
      refine ⟨le_refl _, by omega, fun k hk => by omega, fun h => by simp at h, ?_⟩
      intro _ k id _ hid
      have hlt : name < (ir.node a).name := lt_of_le_of_ne (hge a (List.mem_cons_self _ _)) (Ne.symm hn)
      cases k with
      | zero =>
        simp at hid; subst hid; exact hn
      | succ k =>
        simp at hid
        have hmem : id ∈ rest := List.getElem?_mem hid
        have := hs.1 ((ir.node id).name) (List.mem_map.2 ⟨id, hmem, rfl⟩)
        exact fun h => absurd (h ▸ this) (not_le.2 hlt)

theorem find?_of_scan (ir : Root) (name : String) (types : List Link) (rest : List Nat) (pos : Nat)
    (hs : (rest.map fun id => (ir.node id).name).Pairwise (· ≤ ·))
    (hge : ∀ id ∈ rest, name ≤ (ir.node id).name) :
    rest.find? (matches_overload ir name types) =
      if (scan_overloads ir name types rest pos).2 then
        rest[(scan_overloads ir name types rest pos).1 - pos]?
      else none := by
  obtain ⟨h1, h2, h3, h4, h5⟩ := scan_overloads_spec ir name types rest pos hs hge
  by_cases hf : (scan_overloads ir name types rest pos).2 = true
  · simp only [hf, if_true]
    obtain ⟨id, hid, hm⟩ := h4 hf
    rw [hid, List.find?_eq_some]
    obtain ⟨hlt, hget⟩ := List.getElem?_eq_some_iff.1 hid
    refine ⟨hm, rest.take ((scan_overloads ir name types rest pos).1 - pos),
      rest.drop ((scan_overloads ir name types rest pos).1 - pos + 1), ?_, ?_⟩
    · rw [← hget, ← List.drop_eq_getElem_cons hlt, List.take_append_drop]
    · intro a ha
      obtain ⟨j, hj, rfl⟩ := List.mem_iff_getElem.1 ha
      simp only [List.length_take] at hj
      obtain ⟨id2, hid2, _, hm2⟩ := h3 j (by omega)
      have : rest[j] = id2 := (List.getElem?_eq_some_iff.1 hid2).2
      simp [List.getElem_take, this, hm2]
  · simp only [hf, Bool.false_eq_true, if_false]
    rw [List.find?_eq_none]
    intro id hid
    obtain ⟨k, hk, rfl⟩ := List.mem_iff_getElem.1 hid
    simp only [Bool.not_eq_true] at hf ⊢
    by_cases hlt : k < (scan_overloads ir name types rest pos).1 - pos
    · obtain ⟨id2, hid2, _, hm2⟩ := h3 k hlt
      have : rest[k] = id2 := (List.getElem?_eq_some_iff.1 hid2).2
      simp [this, hm2]
    · have := h5 hf k rest[k] (by omega) (by simp [hk])
      simp [matches_overload, this]

theorem Extends.refl (a : Root) : Extends a a :=
  ⟨le_refl _, rfl, rfl, fun _ _ => rfl, fun _ _ => rfl, fun _ _ => rfl, fun _ _ => rfl,
    fun _ _ => ⟨[], by simp, by simp⟩⟩

theorem Extends.trans {a b c : Root} (h1 : Extends a b) (h2 : Extends b c) : Extends a c := by
  refine ⟨le_trans h1.length_le h2.length_le, h2.function_nodes.trans h1.function_nodes,
    h2.data_type_nodes.trans h1.data_type_nodes, ?_, ?_, ?_, ?_, ?_⟩
  · intro id h; rw [h2.name id (lt_of_lt_of_le h h1.length_le), h1.name id h]
  · intro id h; rw [h2.operand_types id (lt_of_lt_of_le h h1.length_le), h1.operand_types id h]
  · intro id h
    rw [h2.template_operands id (lt_of_lt_of_le h h1.length_le), h1.template_operands id h]
  · intro id h
    rw [h2.generalization id (lt_of_lt_of_le h h1.length_le), h1.generalization id h]
  · intro id h
    obtain ⟨e1, h11, h12⟩ := h1.specializations id h
    obtain ⟨e2, h21, h22⟩ := h2.specializations id (lt_of_lt_of_le h h1.length_le)
    refine ⟨e1 ++ e2, by rw [h21, h11, List.append_assoc], ?_⟩
    intro x hx
    rcases List.mem_append.1 hx with hx | hx
    · exact h12 x hx
    · exact le_trans h1.length_le (h22 x hx)

/-- Allocation extends the state. -/
theorem Extends.alloc (a : Root) (n : InstructionType) : Extends a (a.alloc n).1 := by
  refine ⟨by simp [Root.alloc], rfl, rfl, ?_, ?_, ?_, ?_, ?_⟩ <;> intro id h <;>
    simp [node_alloc_old a n id h]

/-- Changing the allocation counter changes no node. -/
theorem Extends.next_addr (a : Root) (k : Nat) : Extends a { a with next_addr := k } :=
  ⟨le_refl _, rfl, rfl, fun _ _ => rfl, fun _ _ => rfl, fun _ _ => rfl, fun _ _ => rfl,
    fun _ _ => ⟨[], by simp [Root.node], by simp⟩⟩

/-- Changing the instruction collection changes no node. -/
theorem Extends.set_instructions (a : Root) (l : List Nat) : Extends a (a.set_instructions l) :=
  ⟨le_refl _, rfl, rfl, fun _ _ => rfl, fun _ _ => rfl, fun _ _ => rfl, fun _ _ => rfl,
    fun _ _ => ⟨[], by simp [Root.node, Root.set_instructions], by simp⟩⟩

/-- Overwriting a node with one that differs in its decompositions and has more
specializations (new ones) extends the state. -/
theorem Extends.set_node (a : Root) (id : Nat) (n : InstructionType) (extra : List Nat)
    (h1 : n.name = (a.node id).name) (h2 : n.operand_types = (a.node id).operand_types)
    (h3 : n.template_operands = (a.node id).template_operands)
    (h4 : n.generalization = (a.node id).generalization)
    (h5 : n.specializations = (a.node id).specializations ++ extra)
    (h6 : ∀ x ∈ extra, a.instruction_nodes.length ≤ x) : Extends a (a.set_node id n) := by
  refine ⟨by simp [Root.set_node], rfl, rfl, ?_, ?_, ?_, ?_, ?_⟩ <;> intro j hj <;>
    by_cases hji : j = id
  · subst hji; rw [node_set_node_same _ _ _ hj, h1]
  · rw [node_set_node_other _ _ _ _ hji]
  · subst hji; rw [node_set_node_same _ _ _ hj, h2]
  · rw [node_set_node_other _ _ _ _ hji]
  · subst hji; rw [node_set_node_same _ _ _ hj, h3]
  · rw [node_set_node_other _ _ _ _ hji]
  · subst hji; rw [node_set_node_same _ _ _ hj, h4]
  · rw [node_set_node_other _ _ _ _ hji]
  · subst hji; rw [node_set_node_same _ _ _ hj]; exact ⟨extra, h5, h6⟩
  · rw [node_set_node_other _ _ _ _ hji]; exact ⟨[], by simp, by simp⟩

/-- The data type of an expression depends only on the function type store. -/
theorem get_type_of_congr (a b : Root) (h : b.function_nodes = a.function_nodes) (e : Expression) :
    get_type_of b e = get_type_of a e := by
  cases e <;> simp [get_type_of, h]

/-! ## Linking a new specialization -/

theorem length_add_specialization (ir : Root) (ityp : Nat) (spec : InstructionType) :
    (ir.add_specialization ityp spec).instruction_nodes.length = ir.instruction_nodes.length + 1 := by
  simp [Root.add_specialization, Root.set_node, Root.alloc]

theorem node_add_specialization_new (ir : Root) (ityp : Nat) (spec : InstructionType)
    (h : ityp < ir.instruction_nodes.length) :
    (ir.add_specialization ityp spec).node ir.instruction_nodes.length =
      { spec with generalization := some ityp } := by
  unfold Root.add_specialization
  rw [node_set_node_other _ _ _ _ (by omega), node_alloc_new]

theorem node_add_specialization_parent (ir : Root) (ityp : Nat) (spec : InstructionType)
    (h : ityp < ir.instruction_nodes.length) :
    (ir.add_specialization ityp spec).node ityp =
      { ir.node ityp with
        specializations := (ir.node ityp).specializations ++ [ir.instruction_nodes.length] } := by
  unfold Root.add_specialization
  rw [node_set_node_same _ _ _ (by rw [length_alloc]; omega)]

theorem node_add_specialization_other (ir : Root) (ityp : Nat) (spec : InstructionType) (j : Nat)
    (h1 : j ≠ ityp) (h2 : j < ir.instruction_nodes.length) :
    (ir.add_specialization ityp spec).node j = ir.node j := by
  unfold Root.add_specialization
  rw [node_set_node_other _ _ _ _ h1, node_alloc_old _ _ _ h2]

theorem platform_add_specialization (ir : Root) (ityp : Nat) (spec : InstructionType) :
    (ir.add_specialization ityp spec).platform = ir.platform := rfl

theorem next_addr_add_specialization (ir : Root) (ityp : Nat) (spec : InstructionType) :
    (ir.add_specialization ityp spec).next_addr = ir.next_addr := rfl

theorem Extends.add_specialization (ir : Root) (ityp : Nat) (spec : InstructionType)
    (h : ityp < ir.instruction_nodes.length) : Extends ir (ir.add_specialization ityp spec) := by
  refine ⟨by rw [length_add_specialization]; omega, rfl, rfl, ?_, ?_, ?_, ?_, ?_⟩ <;>
    intro j hj <;> by_cases hji : j = ityp
  · subst hji; rw [node_add_specialization_parent _ _ _ h]
  · rw [node_add_specialization_other _ _ _ _ hji hj]
  · subst hji; rw [node_add_specialization_parent _ _ _ h]
  · rw [node_add_specialization_other _ _ _ _ hji hj]
  · subst hji; rw [node_add_specialization_parent _ _ _ h]
  · rw [node_add_specialization_other _ _ _ _ hji hj]
  · subst hji; rw [node_add_specialization_parent _ _ _ h]
  · rw [node_add_specialization_other _ _ _ _ hji hj]
  · subst hji; rw [node_add_specialization_parent _ _ _ h]
    exact ⟨[ir.instruction_nodes.length], rfl, by simp⟩
  · rw [node_add_specialization_other _ _ _ _ hji hj]; exact ⟨[], by simp, by simp⟩

theorem node_next_addr (ir : Root) (k id : Nat) : ({ ir with next_addr := k } : Root).node id = ir.node id :=
  rfl

/-! ## Moving operand types into template operands -/

theorem move_operands_spec (ir : Root) :
    ∀ (l : List Expression) (spec : InstructionType) (next : Nat) (s : InstructionType) (n : Nat),
      move_operands ir l spec next = .ok (s, n) →
      s.name = spec.name ∧ s.cqasm_name = spec.cqasm_name ∧ s.duration = spec.duration ∧
      s.generalization = spec.generalization ∧ s.specializations = spec.specializations ∧
      s.decompositions = spec.decompositions ∧
      (∃ front, spec.operand_types = front ++ s.operand_types ∧
        List.Forall₂ (fun o e => get_type_of ir e = .ok o.data_type) front l) ∧
      (∃ cl, s.template_operands = spec.template_operands ++ cl ∧
        List.Forall₂ (fun c e => c.equals e = true) cl l) := by
  intro l
  induction l with
  | nil =>
    intro spec next s n h
    simp only [move_operands, Except.ok.injEq, Prod.mk.injEq] at h
    obtain ⟨rfl, rfl⟩ := h
    exact ⟨rfl, rfl, rfl, rfl, rfl, rfl, ⟨[], by simp⟩, ⟨[], by simp⟩⟩
  | cons op rest ih =>
    intro spec next s n h
    unfold move_operands at h
    cases hot : spec.operand_types with
    | nil => simp [hot] at h
    | cons o ots =>
      simp only [hot] at h
      cases hty : get_type_of ir op with
      | error e => simp [hty] at h
      | ok t =>
        simp only [hty] at h
        by_cases hd : o.data_type = t
        · simp only [hd, if_true] at h
          obtain ⟨h1, h2, h3, h4, h5, h6, ⟨front, hf1, hf2⟩, ⟨cl, hc1, hc2⟩⟩ := ih _ _ _ _ h
          refine ⟨h1, h2, h3, h4, h5, h6, ⟨o :: front, ?_, ?_⟩, ⟨(op.clone next).1 :: cl, ?_, ?_⟩⟩
          · simp only [List.cons_append]; rw [← hf1]
          · exact List.Forall₂.cons (by rw [hty, hd]) hf2
          · rw [hc1]; simp
          · exact List.Forall₂.cons (Expression.equals_clone _ _) hc2
        · simp [hd] at h

theorem find_specialization_mem {ir : Root} {specs : List Nat} {op : Option Expression} {c : Nat}
    (h : find_specialization ir specs op = some c) :
    c ∈ specs ∧ maybe_equals (ir.node c).template_operands.getLast? op = true := by
  unfold find_specialization at h
  exact ⟨List.mem_of_find?_eq_some h, by simpa using List.find?_some h⟩

theorem node_out_of_range (ir : Root) (id : Nat) (h : ir.instruction_nodes.length ≤ id) :
    ir.node id = default := by
  simp [Root.node, List.getD_eq_getElem?_getD, List.getElem?_eq_none h]

theorem find_specialization_lt {ir : Root} {specs : List Nat} {op : Expression} {c : Nat}
    (h : find_specialization ir specs (some op) = some c) : c < ir.instruction_nodes.length := by
  by_contra hc
  have h2 := (find_specialization_mem h).2
  rw [node_out_of_range ir c (by omega)] at h2
  simp [maybe_equals] at h2
  revert h2
  show ¬ maybe_equals none (some op) = true
  simp [maybe_equals]

theorem links_valid_add_specialization (ir : Root) (ityp : Nat) (spec : InstructionType)
    (hv : ir.links_valid) (h : ityp < ir.instruction_nodes.length)
    (hs : spec.specializations = []) : (ir.add_specialization ityp spec).links_valid := by
  constructor
  · intro id hid
    rw [length_add_specialization]
    exact Nat.lt_succ_of_lt (hv.top id hid)
  · intro p hp c hc
    rw [length_add_specialization] at hp ⊢
    by_cases hpi : p = ityp
    · subst hpi
      rw [node_add_specialization_parent _ _ _ h] at hc
      simp only [List.mem_append, List.mem_singleton] at hc
      rcases hc with hc | hc
      · exact Nat.lt_succ_of_lt (hv.specs p h c hc)
      · omega
    · by_cases hpl : p < ir.instruction_nodes.length
      · rw [node_add_specialization_other _ _ _ _ hpi hpl] at hc
        exact Nat.lt_succ_of_lt (hv.specs p hpl c hc)
      · have : p = ir.instruction_nodes.length := by omega
        subst this
        rw [node_add_specialization_new _ _ _ h] at hc
        simp [hs] at hc

theorem links_valid_next_addr (ir : Root) (k : Nat) (hv : ir.links_valid) :
    ({ ir with next_addr := k } : Root).links_valid :=
  ⟨hv.top, hv.specs⟩

theorem add_specializations_frame (it : InstructionType) (tops : List Expression)
    (hit : it.specializations = []) :
    ∀ (rest : List Expression) (i : Nat) (ir : Root) (cur : Nat) (added : Bool),
      cur < ir.instruction_nodes.length →
      Extends ir (add_specializations it tops rest i ir cur added).1 ∧
      (ir.links_valid → (add_specializations it tops rest i ir cur added).1.links_valid) ∧
      (add_specializations it tops rest i ir cur added).1.platform = ir.platform ∧
      (∀ id, id < ir.instruction_nodes.length →
        ((add_specializations it tops rest i ir cur added).1.node id).decompositions =
          (ir.node id).decompositions) ∧
      (∀ id, ir.instruction_nodes.length ≤ id →
        id < (add_specializations it tops rest i ir cur added).1.instruction_nodes.length →
        ((add_specializations it tops rest i ir cur added).1.node id).decompositions = []) ∧
      (∀ n added', (add_specializations it tops rest i ir cur added).2 = .ok (n, added') →
        n < (add_specializations it tops rest i ir cur added).1.instruction_nodes.length ∧
        (added = true → added' = true) ∧
        (added' = false → (add_specializations it tops rest i ir cur added).1 = ir) ∧
        (added = false → added' = true → ir.instruction_nodes.length ≤ n) ∧
        (added = true → (ir.node cur).specializations = [] →
          n = cur ∨ ir.instruction_nodes.length ≤ n) ∧
        (added' = true → (added = true → (ir.node cur).specializations = []) →
          ((add_specializations it tops rest i ir cur added).1.node n).specializations = [])) := by
  intro rest
  induction rest with
  | nil =>
    intro i ir cur added hc
    refine ⟨Extends.refl _, id, rfl, fun _ _ => rfl, fun id h1 h2 => ?_, ?_⟩
    · exact absurd h2 (by simp only [add_specializations]; omega)
    intro n added' h
    simp only [add_specializations, Except.ok.injEq, Prod.mk.injEq] at h
    obtain ⟨rfl, rfl⟩ := h
    exact ⟨hc, id, fun _ => rfl, fun h1 h2 => by simp [h1] at h2, fun _ _ => Or.inl rfl,
      fun h1 h2 => h2 h1⟩
  | cons op rest ih =>
    intro i ir cur added hc
    unfold add_specializations
    cases hfind : find_specialization ir (ir.node cur).specializations (some op) with
    | some c =>
      simp only []
      have hcl : c < ir.instruction_nodes.length := find_specialization_lt hfind
      obtain ⟨h1, h2, h3, h4, h5, h6⟩ := ih (i + 1) ir c added hcl
      refine ⟨h1, h2, h3, h4, h5, ?_⟩
      intro n added' h
      obtain ⟨k1, k2, k3, k4, k4b, k5⟩ := h6 n added' h
      refine ⟨k1, k2, k3, k4, ?_, ?_⟩
      · intro _ hs
        rw [hs] at hfind
        simp [find_specialization] at hfind
      · intro ha hs
        apply k5 ha
        intro hadded
        have := hs hadded
        rw [this] at hfind
        simp [find_specialization] at hfind
    | none =>
      simp only []
      cases hmove : move_operands ir (tops.take (i + 1)) { it with decompositions := [] } ir.next_addr with
      | error e =>
        refine ⟨Extends.refl _, id, rfl, fun _ _ => rfl, fun id h1 h2 => ?_, ?_⟩
        · exact absurd h2 (by simp only []; omega)
        intro n added' h
        simp at h
      | ok p =>
        obtain ⟨spec, next⟩ := p
        simp only []
        obtain ⟨m1, m2, m3, m4, m5, m6, m7, m8⟩ := move_operands_spec ir _ _ _ _ _ hmove
        simp only [] at m5 m6
        rw [hit] at m5
        have hv1 : ir.links_valid →
            (({ ir with next_addr := next } : Root).add_specialization cur spec).links_valid :=
          fun hv => links_valid_add_specialization _ _ _ (links_valid_next_addr ir next hv) hc m5
        have hlen : (({ ir with next_addr := next } : Root).add_specialization cur spec).instruction_nodes.length
            = ir.instruction_nodes.length + 1 := length_add_specialization _ _ _
        have hext : Extends ir (({ ir with next_addr := next } : Root).add_specialization cur spec) :=
          (Extends.next_addr ir next).trans (Extends.add_specialization _ _ _ hc)
        obtain ⟨h1, h2, h3, h4, h5, h6⟩ := ih (i + 1)
          (({ ir with next_addr := next } : Root).add_specialization cur spec)
          ir.instruction_nodes.length true (by rw [hlen]; omega)
        have hnew : (({ ir with next_addr := next } : Root).add_specialization cur spec).node
            ir.instruction_nodes.length = { spec with generalization := some cur } :=
          node_add_specialization_new ({ ir with next_addr := next } : Root) cur spec hc
        refine ⟨hext.trans h1, fun hv => h2 (hv1 hv), h3, ?_, ?_, ?_⟩
        · intro id hid
          rw [h4 id (by rw [hlen]; omega)]
          by_cases hic : id = cur
          · subst hic
            rw [node_add_specialization_parent ({ ir with next_addr := next } : Root) id spec hc]
            rfl
          · rw [node_add_specialization_other ({ ir with next_addr := next } : Root) cur spec id hic hid]
            rfl
        · intro id hid1 hid2
          by_cases hid : id = ir.instruction_nodes.length
          · rw [h4 id (by rw [hlen]; omega), hid, hnew]
            exact m6
          · exact h5 id (by rw [hlen]; omega) hid2
        · intro n added' h
          obtain ⟨k1, k2, k3, k4, k4b, k5⟩ := h6 n added' h
          have hat : added' = true := k2 rfl
          have hge : ir.instruction_nodes.length ≤ n := by
            rcases k4b rfl (by rw [hnew]; exact m5) with hn | hn
            · omega
            · rw [hlen] at hn; omega
          refine ⟨k1, fun _ => hat, fun hf => by simp [hat] at hf, fun _ _ => hge,
            fun _ _ => Or.inr hge, ?_⟩
          intro _ _
          exact k5 hat (fun _ => by rw [hnew]; exact m5)

theorem instruction_names_getD (ir : Root) (k : Nat) (h : k < ir.platform.instructions.length) :
    ir.instruction_names.getD k "" = (ir.node ir.platform.instructions[k]).name := by
  simp [Root.instruction_names, List.getD_eq_getElem?_getD, List.getElem?_eq_getElem h]

/-- What the search loop finds when it starts at the lower bound of a sorted collection. -/
theorem scan_summary (ir : Root) (name : String) (types : List Link) (hs : ir.names_sorted) :
    lower_bound ir.instruction_names name ≤
      (search_overload ir name types).1 ∧
    (search_overload ir name types).1 ≤ ir.platform.instructions.length ∧
    (∀ id ∈ ir.platform.instructions.take (lower_bound ir.instruction_names name),
      (ir.node id).name < name) ∧
    (∀ id ∈ ir.platform.instructions.drop (lower_bound ir.instruction_names name),
      name ≤ (ir.node id).name) ∧
    (∀ id ∈ ir.platform.instructions.take (search_overload ir name types).1,
      (ir.node id).name ≤ name ∧ matches_overload ir name types id = false) ∧
    ((search_overload ir name types).2 = false →
      ∀ id ∈ ir.platform.instructions.drop (search_overload ir name types).1, name < (ir.node id).name) ∧
    ((search_overload ir name types).2 = true →
      ∃ id, ir.platform.instructions[(search_overload ir name types).1]? = some id ∧
        matches_overload ir name types id = true) ∧
    (lower_bound ir.instruction_names name <
      (search_overload ir name types).1 →
      ∃ id, ir.platform.instructions[lower_bound ir.instruction_names name]? = some id ∧
        (ir.node id).name = name) := by
  unfold search_overload
  have hlen : ir.instruction_names.length = ir.platform.instructions.length := by
    simp [Root.instruction_names]
  obtain ⟨lb1, lb2, lb3⟩ := lower_bound_spec ir.instruction_names name hs
  generalize hfirst : lower_bound ir.instruction_names name = first at *
  rw [hlen] at lb1
  have hs2 : ir.platform.instructions.Pairwise fun a b => (ir.node a).name ≤ (ir.node b).name := by
    have := hs
    unfold Root.names_sorted Root.instruction_names at this
    exact List.pairwise_map.1 this
  have hrest : ((ir.platform.instructions.drop first).map fun id => (ir.node id).name).Pairwise (· ≤ ·) :=
    List.pairwise_map.2 (hs2.sublist (List.drop_sublist _ _))
  have htake : ∀ id ∈ ir.platform.instructions.take first, (ir.node id).name < name := by
    intro id hid
    obtain ⟨k, hk, rfl⟩ := List.mem_take_iff_getElem.1 hid
    have hk2 : k < ir.platform.instructions.length := by omega
    have := lb2 k (by omega)
    rwa [instruction_names_getD ir k hk2] at this
  have hdrop : ∀ id ∈ ir.platform.instructions.drop first, name ≤ (ir.node id).name := by
    intro id hid
    obtain ⟨k, hk, rfl⟩ := List.mem_drop_iff_getElem.1 hid
    have hk2 : first + k < ir.platform.instructions.length := by omega
    have := lb3 (first + k) (by omega) (by rw [hlen]; exact hk2)
    rwa [instruction_names_getD ir (first + k) hk2] at this
  obtain ⟨s1, s2, s3, s4, s5⟩ := scan_overloads_spec ir name types _ first hrest hdrop
  generalize hscan : scan_overloads ir name types (ir.platform.instructions.drop first) first = s at *
  have hdl : (ir.platform.instructions.drop first).length = ir.platform.instructions.length - first := by
    simp
  rw [hdl] at s2
  refine ⟨s1, by omega, htake, hdrop, ?_, ?_, ?_, ?_⟩
  · intro id hid
    obtain ⟨k, hk, rfl⟩ := List.mem_take_iff_getElem.1 hid
    have hk2 : k < ir.platform.instructions.length := by omega
    by_cases hkf : k < first
    · have h1 := htake ir.platform.instructions[k]
        (List.mem_take_iff_getElem.2 ⟨k, by omega, rfl⟩)
      refine ⟨le_of_lt h1, ?_⟩
      simp [matches_overload, ne_of_lt h1]
    · obtain ⟨id, h1, h2, h3⟩ := s3 (k - first) (by omega)
      rw [List.getElem?_drop, show first + (k - first) = k by omega,
        List.getElem?_eq_getElem hk2] at h1
      simp only [Option.some.injEq] at h1
      subst h1
      exact ⟨le_of_eq h2, h3⟩
  · intro hf id hid
    obtain ⟨k, hk, rfl⟩ := List.mem_drop_iff_getElem.1 hid
    have hk2 : s.1 + k < ir.platform.instructions.length := by omega
    have h1 := s5 hf (s.1 + k - first) ir.platform.instructions[s.1 + k] (by omega)
      (by rw [List.getElem?_drop, show first + (s.1 + k - first) = s.1 + k by omega,
        List.getElem?_eq_getElem hk2])
    have h2 := hdrop ir.platform.instructions[s.1 + k]
      (List.mem_drop_iff_getElem.2 ⟨s.1 + k - first, by omega, by
        congr 1; omega⟩)
    exact lt_of_le_of_ne h2 (Ne.symm h1)
  · intro hf
    obtain ⟨id, h1, h2⟩ := s4 hf
    rw [List.getElem?_drop, show first + (s.1 - first) = s.1 by omega] at h1
    exact ⟨id, h1, h2⟩
  · intro hlt
    obtain ⟨id, h1, h2, _⟩ := s3 0 (by omega)
    rw [List.getElem?_drop, Nat.add_zero] at h1
    exact ⟨id, h1, h2⟩

theorem find?_matches_eq (ir : Root) (name : String) (types : List Link) (hs : ir.names_sorted) :
    ir.platform.instructions.find? (matches_overload ir name types) =
      if (search_overload ir name types).2 then
        ir.platform.instructions[(search_overload ir name types).1]?
      else none := by
  obtain ⟨h1, h2, h3, h4, h5, h6, h7, h8⟩ := scan_summary ir name types hs
  unfold search_overload at *
  have hs2 : ir.platform.instructions.Pairwise fun a b => (ir.node a).name ≤ (ir.node b).name := by
    have := hs
    unfold Root.names_sorted Root.instruction_names at this
    exact List.pairwise_map.1 this
  have hrest : ((ir.platform.instructions.drop (lower_bound ir.instruction_names name)).map
      fun id => (ir.node id).name).Pairwise (· ≤ ·) :=
    List.pairwise_map.2 (hs2.sublist (List.drop_sublist _ _))
  have key := find?_of_scan ir name types _ (lower_bound ir.instruction_names name) hrest h4
  have hsplit : ir.platform.instructions.find? (matches_overload ir name types) =
      (ir.platform.instructions.drop (lower_bound ir.instruction_names name)).find?
        (matches_overload ir name types) := by
    conv_lhs => rw [← List.take_append_drop (lower_bound ir.instruction_names name)
      ir.platform.instructions]
    rw [List.find?_append]
    have : (ir.platform.instructions.take (lower_bound ir.instruction_names name)).find?
        (matches_overload ir name types) = none := by
      rw [List.find?_eq_none]
      intro id hid
      have := h3 id hid
      simp [matches_overload, ne_of_lt this]
    rw [this]; rfl
  rw [hsplit, key]
  split
  · rw [List.getElem?_drop]
    congr 1
    omega
  · rfl

theorem names_of_extends {a b : Root} (hext : Extends a b)
    (hv : ∀ id ∈ a.platform.instructions, id < a.instruction_nodes.length) (l : List Nat)
    (hl : ∀ id ∈ l, id ∈ a.platform.instructions) :
    (l.map fun id => (b.node id).name) = l.map fun id => (a.node id).name := by
  apply List.map_congr_left
  intro id hid
  exact hext.name id (hv id (hl id hid))

/-- The registry invariant survives an extension of the state that keeps the collection. -/
theorem registry_extends (a b : Root)
    (hv : ∀ id ∈ a.platform.instructions, id < a.instruction_nodes.length)
    (hs : a.names_sorted) (hext : Extends a b)
    (hsame : b.platform.instructions = a.platform.instructions) :
    b.names_sorted ∧ (a.overloads_distinct → b.overloads_distinct) ∧
      (∀ id ∈ b.platform.instructions, id < b.instruction_nodes.length) := by
  refine ⟨?_, ?_, ?_⟩
  · unfold Root.names_sorted Root.instruction_names at hs ⊢
    rw [hsame, names_of_extends hext hv _ (fun _ h => h)]
    exact hs
  · intro hd
    unfold Root.overloads_distinct at hd ⊢
    rw [hsame]
    refine hd.imp_of_mem ?_
    intro x y hx hy hxy
    unfold same_overload at hxy ⊢
    rwa [hext.name x (hv x hx), hext.name y (hv y hy), hext.operand_types x (hv x hx),
      hext.operand_types y (hv y hy)]
  · intro id hid
    rw [hsame] at hid
    exact lt_of_lt_of_le (hv id hid) hext.length_le

/-- The registry invariant survives the insertion of a new overload at the position where
the search loop stopped without a match. -/
theorem registry_insert (a b : Root) (name : String) (types : List Link) (new : Nat)
    (hv : ∀ id ∈ a.platform.instructions, id < a.instruction_nodes.length)
    (hs : a.names_sorted) (hext : Extends a b)
    (hscan : (search_overload a name types).2 = false)
    (hins : b.platform.instructions = insert_at a.platform.instructions
      (search_overload a name types).1 new)
    (hnew : new < b.instruction_nodes.length)
    (hname : (b.node new).name = name)
    (htypes : operand_data_types (b.node new).operand_types = types) :
    b.names_sorted ∧ (a.overloads_distinct → b.overloads_distinct) ∧
      (∀ id ∈ b.platform.instructions, id < b.instruction_nodes.length) := by
  obtain ⟨h1, h2, h3, h4, h5, h6, h7, h8⟩ := scan_summary a name types hs
  generalize (search_overload a name types) = s at *
  have hs2 : a.platform.instructions.Pairwise fun x y => (a.node x).name ≤ (a.node y).name := by
    have := hs
    unfold Root.names_sorted Root.instruction_names at this
    exact List.pairwise_map.1 this
  have hvt : ∀ id ∈ a.platform.instructions.take s.1, id < a.instruction_nodes.length :=
    fun id hid => hv id (List.mem_of_mem_take hid)
  have hvd : ∀ id ∈ a.platform.instructions.drop s.1, id < a.instruction_nodes.length :=
    fun id hid => hv id (List.mem_of_mem_drop hid)
  refine ⟨?_, ?_, ?_⟩
  · unfold Root.names_sorted Root.instruction_names
    rw [hins, insert_at, List.pairwise_map, List.pairwise_append, List.pairwise_cons]
    refine ⟨?_, ⟨?_, ?_⟩, ?_⟩
    · refine (hs2.sublist (List.take_sublist _ _)).imp_of_mem ?_
      intro x y hx hy hxy
      rwa [hext.name x (hvt x hx), hext.name y (hvt y hy)]
    · intro y hy
      rw [hname, hext.name y (hvd y hy)]
      exact le_of_lt (h6 hscan y hy)
    · refine (hs2.sublist (List.drop_sublist _ _)).imp_of_mem ?_
      intro x y hx hy hxy
      rwa [hext.name x (hvd x hx), hext.name y (hvd y hy)]
    · intro x hx y hy
      rw [hext.name x (hvt x hx)]
      rcases List.mem_cons.1 hy with rfl | hy
      · rw [hname]; exact (h5 x hx).1
      · rw [hext.name y (hvd y hy)]
        exact le_trans (h5 x hx).1 (le_of_lt (h6 hscan y hy))
  · intro hd
    unfold Root.overloads_distinct at hd ⊢
    rw [hins, insert_at, List.pairwise_append, List.pairwise_cons]
    have hd2 : a.platform.instructions.Pairwise fun x y =>
        ¬ same_overload (a.node x) (a.node y) := hd
    rw [← List.take_append_drop s.1 a.platform.instructions, List.pairwise_append] at hd2
    refine ⟨?_, ⟨?_, ?_⟩, ?_⟩
    · refine hd2.1.imp_of_mem ?_
      intro x y hx hy hxy
      unfold same_overload at hxy ⊢
      rwa [hext.name x (hvt x hx), hext.name y (hvt y hy), hext.operand_types x (hvt x hx),
        hext.operand_types y (hvt y hy)]
    · intro y hy hso
      unfold same_overload at hso
      rw [hname, hext.name y (hvd y hy)] at hso
      exact absurd hso.1 (ne_of_lt (h6 hscan y hy))
    · refine hd2.2.1.imp_of_mem ?_
      intro x y hx hy hxy
      unfold same_overload at hxy ⊢
      rwa [hext.name x (hvd x hx), hext.name y (hvd y hy), hext.operand_types x (hvd x hx),
        hext.operand_types y (hvd y hy)]
    · intro x hx y hy
      rcases List.mem_cons.1 hy with rfl | hy
      · intro hso
        unfold same_overload at hso
        rw [hname, htypes, hext.name x (hvt x hx), hext.operand_types x (hvt x hx)] at hso
        have := (h5 x hx).2
        simp [matches_overload, hso.1, (data_types_match_iff _ _).2 hso.2] at this
      · have := hd2.2.2 x hx y hy
        unfold same_overload at this ⊢
        rwa [hext.name x (hvt x hx), hext.name y (hvd y hy), hext.operand_types x (hvt x hx),
          hext.operand_types y (hvd y hy)]
  · intro id hid
    rw [hins, insert_at] at hid
    rcases List.mem_append.1 hid with hid | hid
    · exact lt_of_lt_of_le (hvt id hid) hext.length_le
    · rcases List.mem_cons.1 hid with rfl | hid
      · exact hnew
      · exact lt_of_lt_of_le (hvd id hid) hext.length_le

/-! ## Element-wise value equality of lists -/

theorem equals_list_append {a b c d : List Expression} (h1 : Expression.equals_list a c = true)
    (h2 : Expression.equals_list b d = true) : Expression.equals_list (a ++ b) (c ++ d) = true := by
  rw [equals_list_iff] at h1 h2 ⊢
  exact List.rel_append h1 h2

theorem equals_list_of_forall₂ {a b : List Expression}
    (h : List.Forall₂ (fun c e => c.equals e = true) a b) : Expression.equals_list a b = true :=
  (equals_list_iff a b).2 h

theorem forall₂_snoc_right {α β : Type} {R : α → β → Prop} {xs : List α} {ys : List β} {e : β}
    (h : List.Forall₂ R xs (ys ++ [e])) :
    ∃ t x, xs = t ++ [x] ∧ List.Forall₂ R t ys ∧ R x e := by
  have h1 := List.forall₂_take_append xs ys [e] h
  have h2 := List.forall₂_drop_append xs ys [e] h
  rw [List.forall₂_cons_right_iff] at h2
  obtain ⟨x, u, hx, hu, hd⟩ := h2
  rw [List.forall₂_nil_right_iff] at hu
  subst hu
  exact ⟨xs.take ys.length, x, by rw [← hd, List.take_append_drop], h1, hx⟩

theorem equals_list_snoc_right {xs ys : List Expression} {e : Expression}
    (h : Expression.equals_list xs (ys ++ [e]) = true) :
    ∃ t x, xs = t ++ [x] ∧ Expression.equals_list t ys = true ∧ x.equals e = true := by
  rw [equals_list_iff] at h
  obtain ⟨t, x, h1, h2, h3⟩ := forall₂_snoc_right h
  exact ⟨t, x, h1, (equals_list_iff _ _).2 h2, h3⟩

theorem equals_list_singleton {x e : Expression} (h : x.equals e = true) :
    Expression.equals_list [x] [e] = true := by
  simp [Expression.equals_list, h]

theorem equals_list_length {a b : List Expression} (h : Expression.equals_list a b = true) :
    a.length = b.length :=
  ((equals_list_iff a b).1 h).length_eq

/-- A found specialization continues the template operands of its parent by the operand
looked for. -/
theorem found_specialization_operands {ir : Root} {cur c : Nat} {op : Expression}
    {done : List Expression} (htc : ir.tree_consistent) (hcur : cur < ir.instruction_nodes.length)
    (hfind : find_specialization ir (ir.node cur).specializations (some op) = some c)
    (hdone : Expression.equals_list (ir.node cur).template_operands done = true) :
    Expression.equals_list (ir.node c).template_operands (done ++ [op]) = true ∧
    (ir.node c).operand_types = (ir.node cur).operand_types.drop 1 := by
  obtain ⟨hmem, hlast⟩ := find_specialization_mem hfind
  obtain ⟨_, e, o, h1, h2, _⟩ := htc.children cur hcur c hmem
  obtain ⟨t, x, h3, h4, h5⟩ := equals_list_snoc_right h1
  rw [h3] at hlast ⊢
  simp only [List.getLast?_append, List.getLast?_singleton, Option.or_some,
    maybe_equals] at hlast
  refine ⟨equals_list_append (Expression.equals_list_trans _ _ _ h4 hdone)
    (equals_list_singleton ?_), by rw [h2]; rfl⟩
  simpa [maybe_equals] using hlast

theorem move_operands_last (ir : Root) (done : List Expression) (op : Expression)
    (spec : InstructionType) (next : Nat) (s : InstructionType) (n : Nat)
    (h : move_operands ir (done ++ [op]) spec next = .ok (s, n)) :
    (∃ o, spec.operand_types.drop done.length = o :: s.operand_types ∧
      get_type_of ir op = .ok o.data_type) ∧
    Expression.equals_list s.template_operands (spec.template_operands ++ (done ++ [op])) = true := by
  obtain ⟨_, _, _, _, _, _, ⟨front, hf1, hf2⟩, ⟨cl, hc1, hc2⟩⟩ := move_operands_spec ir _ _ _ _ _ h
  constructor
  · obtain ⟨t, o, h1, h2, h3⟩ := forall₂_snoc_right hf2
    refine ⟨o, ?_, h3⟩
    rw [hf1, h1, ← h2.length_eq, List.append_assoc, List.drop_left]
    rfl
  · rw [hc1]
    exact equals_list_append (Expression.equals_list_refl _) (equals_list_of_forall₂ hc2)

theorem tree_consistent_next_addr (ir : Root) (k : Nat) (h : ir.tree_consistent) :
    ({ ir with next_addr := k } : Root).tree_consistent :=
  ⟨h.top, h.roots, h.children, h.parents⟩

theorem tree_consistent_child_lt {ir : Root} (h : ir.tree_consistent) {p c : Nat}
    (hp : p < ir.instruction_nodes.length) (hc : c ∈ (ir.node p).specializations) :
    c < ir.instruction_nodes.length := by
  by_contra hlt
  have := (h.children p hp c hc).1
  rw [node_out_of_range ir c (by omega)] at this
  exact absurd this (by simp [show (default : InstructionType).generalization = none from rfl])

/-- Linking a new specialization whose template operands and operand types continue those
of the parent keeps the trees consistent. -/
theorem tree_consistent_add_specialization (ir : Root) (cur : Nat) (spec : InstructionType)
    (htc : ir.tree_consistent) (hcur : cur < ir.instruction_nodes.length)
    (hs : spec.specializations = [])
    (hshape : ∃ e o, Expression.equals_list spec.template_operands
        ((ir.node cur).template_operands ++ [e]) = true ∧
      (ir.node cur).operand_types = o :: spec.operand_types ∧
      get_type_of ir e = .ok o.data_type) :
    (ir.add_specialization cur spec).tree_consistent := by
  have hext := Extends.add_specialization ir cur spec hcur
  have hlen := length_add_specialization ir cur spec
  have hnew := node_add_specialization_new ir cur spec hcur
  have hpar := node_add_specialization_parent ir cur spec hcur
  constructor
  · intro id hid
    rw [hlen]
    exact Nat.lt_succ_of_lt (htc.top id hid)
  · intro id hid
    have hlt := htc.top id hid
    rw [hext.template_operands id hlt, hext.generalization id hlt]
    exact htc.roots id hid
  · intro p hp c hc
    rw [hlen] at hp
    have hold : ∀ p c, p < ir.instruction_nodes.length → c ∈ (ir.node p).specializations →
        ((ir.add_specialization cur spec).node c).generalization = some p ∧
        ∃ e o, Expression.equals_list ((ir.add_specialization cur spec).node c).template_operands
            (((ir.add_specialization cur spec).node p).template_operands ++ [e]) = true ∧
          ((ir.add_specialization cur spec).node p).operand_types =
            o :: ((ir.add_specialization cur spec).node c).operand_types ∧
          get_type_of (ir.add_specialization cur spec) e = .ok o.data_type := by
      intro p c hp hc
      have hcl := tree_consistent_child_lt htc hp hc
      rw [hext.generalization c hcl, hext.template_operands c hcl, hext.template_operands p hp,
        hext.operand_types c hcl, hext.operand_types p hp]
      obtain ⟨h1, e, o, h2, h3, h4⟩ := htc.children p hp c hc
      exact ⟨h1, e, o, h2, h3, by rw [get_type_of_congr ir _ hext.function_nodes]; exact h4⟩
    by_cases hpc : p = cur
    · subst hpc
      rw [hpar] at hc
      simp only [List.mem_append, List.mem_singleton] at hc
      rcases hc with hc | hc
      · exact hold p c hcur hc
      · subst hc
        rw [hnew, hext.template_operands p hcur, hext.operand_types p hcur]
        obtain ⟨e, o, h2, h3, h4⟩ := hshape
        exact ⟨rfl, e, o, h2, h3, by rw [get_type_of_congr ir _ hext.function_nodes]; exact h4⟩
    · by_cases hpl : p < ir.instruction_nodes.length
      · rw [node_add_specialization_other _ _ _ _ hpc hpl] at hc
        exact hold p c hpl hc
      · have : p = ir.instruction_nodes.length := by omega
        subst this
        rw [hnew] at hc
        simp [hs] at hc
  · intro c hc p hg
    rw [hlen] at hc ⊢
    by_cases hcl : c < ir.instruction_nodes.length
    · rw [hext.generalization c hcl] at hg
      obtain ⟨h1, h2⟩ := htc.parents c hcl p hg
      obtain ⟨extra, he, _⟩ := hext.specializations p h1
      exact ⟨Nat.lt_succ_of_lt h1, by rw [he]; exact List.mem_append_left _ h2⟩
    · have : c = ir.instruction_nodes.length := by omega
      subst this
      rw [hnew] at hg
      simp only [Option.some.injEq] at hg
      subst hg
      exact ⟨Nat.lt_succ_of_lt hcur, by rw [hpar]; simp⟩

theorem drop_succ_of_drop_eq_cons {α : Type} {l : List α} {n : Nat} {o : α} {t : List α}
    (h : l.drop n = o :: t) : l.drop (n + 1) = t := by
  have : l.drop (n + 1) = (l.drop n).drop 1 := by rw [List.drop_drop]
  rw [this, h]; rfl

theorem add_specializations_consistent (it : InstructionType) (tops : List Expression)
    (hit1 : it.specializations = []) (hit2 : it.template_operands = []) :
    ∀ (rest done : List Expression) (ir : Root) (cur : Nat) (added : Bool),
      tops = done ++ rest → ir.tree_consistent → cur < ir.instruction_nodes.length →
      (ir.node cur).operand_types = it.operand_types.drop done.length →
      Expression.equals_list (ir.node cur).template_operands done = true →
      (add_specializations it tops rest done.length ir cur added).1.tree_consistent ∧
      ∀ n a, (add_specializations it tops rest done.length ir cur added).2 = .ok (n, a) →
        ((add_specializations it tops rest done.length ir cur added).1.node n).operand_types =
          it.operand_types.drop tops.length ∧
        Expression.equals_list
          ((add_specializations it tops rest done.length ir cur added).1.node n).template_operands
          tops = true := by
  intro rest
  induction rest with
  | nil =>
    intro done ir cur added htops htc hcur hots heq
    simp only [List.append_nil] at htops
    subst htops
    refine ⟨htc, ?_⟩
    intro n a h
    simp only [add_specializations, Except.ok.injEq, Prod.mk.injEq] at h
    obtain ⟨rfl, rfl⟩ := h
    exact ⟨hots, heq⟩
  | cons op rest ih =>
    intro done ir cur added htops htc hcur hots heq
    have htops2 : tops = (done ++ [op]) ++ rest := by rw [htops]; simp
    have hlen2 : (done ++ [op]).length = done.length + 1 := by simp
    unfold add_specializations
    cases hfind : find_specialization ir (ir.node cur).specializations (some op) with
    | some c =>
      simp only []
      obtain ⟨f1, f2⟩ := found_specialization_operands htc hcur hfind heq
      have := ih (done ++ [op]) ir c added htops2 htc (find_specialization_lt hfind)
        (by rw [f2, hots, List.drop_drop, hlen2]) f1
      rwa [hlen2] at this
    | none =>
      simp only []
      have htake : tops.take (done.length + 1) = done ++ [op] := by
        rw [htops2, ← hlen2, List.take_left]
      rw [htake]
      cases hmove : move_operands ir (done ++ [op]) { it with decompositions := [] } ir.next_addr with
      | error e =>
        refine ⟨htc, ?_⟩
        intro n a h
        simp at h
      | ok p =>
        obtain ⟨spec, next⟩ := p
        simp only []
        obtain ⟨_, _, _, _, m5, _, _, _⟩ := move_operands_spec ir _ _ _ _ _ hmove
        simp only [] at m5
        rw [hit1] at m5
        obtain ⟨⟨o, l1, l2⟩, l3⟩ := move_operands_last ir done op _ _ _ _ hmove
        simp only [hit2, List.nil_append] at l1 l3
        have htc1 : (({ ir with next_addr := next } : Root).add_specialization cur spec).tree_consistent := by
          apply tree_consistent_add_specialization _ _ _ (tree_consistent_next_addr ir next htc) hcur m5
          refine ⟨op, o, ?_, ?_, l2⟩
          · exact Expression.equals_list_trans _ _ _ l3
              (equals_list_append (Expression.equals_list_symm _ _ heq)
                (Expression.equals_list_refl _))
          · show (ir.node cur).operand_types = o :: spec.operand_types
            rw [hots, l1]
        have hnew : (({ ir with next_addr := next } : Root).add_specialization cur spec).node
            ir.instruction_nodes.length = { spec with generalization := some cur } :=
          node_add_specialization_new ({ ir with next_addr := next } : Root) cur spec hcur
        have := ih (done ++ [op]) (({ ir with next_addr := next } : Root).add_specialization cur spec)
          ir.instruction_nodes.length true htops2 htc1
          (by rw [length_add_specialization]; exact Nat.lt_succ_self _)
          (by rw [hnew, hlen2]; exact (drop_succ_of_drop_eq_cons l1).symm)
          (by rw [hnew]; exact l3)
        rwa [hlen2] at this

/-! ## Overwriting the decompositions of a node -/

theorem set_decompositions_fields (ir : Root) (n : Nat) (d : List InstructionDecomposition) (j : Nat) :
    ((ir.set_node n { ir.node n with decompositions := d }).node j).name = (ir.node j).name ∧
    ((ir.set_node n { ir.node n with decompositions := d }).node j).operand_types =
      (ir.node j).operand_types ∧
    ((ir.set_node n { ir.node n with decompositions := d }).node j).template_operands =
      (ir.node j).template_operands ∧
    ((ir.set_node n { ir.node n with decompositions := d }).node j).generalization =
      (ir.node j).generalization ∧
    ((ir.set_node n { ir.node n with decompositions := d }).node j).specializations =
      (ir.node j).specializations := by
  by_cases hj : j = n
  · subst hj
    by_cases hl : j < ir.instruction_nodes.length
    · rw [node_set_node_same _ _ _ hl]; exact ⟨rfl, rfl, rfl, rfl, rfl⟩
    · have : ir.set_node j { ir.node j with decompositions := d } = ir := by
        simp only [Root.set_node]
        rw [List.set_eq_of_length_le (by omega)]
      rw [this]; exact ⟨rfl, rfl, rfl, rfl, rfl⟩
  · rw [node_set_node_other _ _ _ _ hj]; exact ⟨rfl, rfl, rfl, rfl, rfl⟩

theorem Extends.set_decompositions (ir : Root) (n : Nat) (d : List InstructionDecomposition) :
    Extends ir (ir.set_node n { ir.node n with decompositions := d }) :=
  ⟨by rw [length_set_node], rfl, rfl,
    fun j _ => (set_decompositions_fields ir n d j).1,
    fun j _ => (set_decompositions_fields ir n d j).2.1,
    fun j _ => (set_decompositions_fields ir n d j).2.2.1,
    fun j _ => (set_decompositions_fields ir n d j).2.2.2.1,
    fun j _ => ⟨[], by rw [(set_decompositions_fields ir n d j).2.2.2.2]; simp, by simp⟩⟩

theorem tree_consistent_set_decompositions (ir : Root) (n : Nat) (d : List InstructionDecomposition)
    (h : ir.tree_consistent) : (ir.set_node n { ir.node n with decompositions := d }).tree_consistent := by
  have hf := set_decompositions_fields ir n d
  constructor
  · intro id hid; rw [length_set_node]; exact h.top id hid
  · intro id hid
    rw [(hf id).2.2.1, (hf id).2.2.2.1]
    exact h.roots id hid
  · intro p hp c hc
    rw [length_set_node] at hp
    rw [(hf p).2.2.2.2] at hc
    rw [(hf c).2.2.2.1, (hf c).2.2.1, (hf p).2.2.1, (hf p).2.1, (hf c).2.1]
    obtain ⟨h1, e, o, h2, h3, h4⟩ := h.children p hp c hc
    exact ⟨h1, e, o, h2, h3, h4⟩
  · intro c hc p hg
    rw [length_set_node] at hc ⊢
    rw [(hf c).2.2.2.1] at hg
    rw [(hf p).2.2.2.2]
    exact h.parents c hc p hg

/-! ## The end of `add_or_find_instruction_type` -/

theorem attach_decompositions_ir (r : Root × Except Error (Nat × Bool)) (it : InstructionType) :
    (attach_decompositions r it).ir = r.1 ∨
    ∃ n, r.2 = .ok (n, true) ∧
      (attach_decompositions r it).ir = r.1.set_node n { r.1.node n with decompositions := it.decompositions } := by
  unfold attach_decompositions
  rcases r with ⟨ir, res⟩
  cases res with
  | error e => exact Or.inl rfl
  | ok p =>
    obtain ⟨n, a⟩ := p
    cases a with
    | false => exact Or.inl rfl
    | true => exact Or.inr ⟨n, rfl, rfl⟩

theorem attach_decompositions_result (r : Root × Except Error (Nat × Bool)) (it : InstructionType) :
    (attach_decompositions r it).result = r.2 ∧ (attach_decompositions r it).instruction_type = it := by
  unfold attach_decompositions
  rcases r with ⟨ir, res⟩
  cases res with
  | error e => exact ⟨rfl, rfl⟩
  | ok p =>
    obtain ⟨n, a⟩ := p
    cases a <;> exact ⟨rfl, rfl⟩

theorem attach_decompositions_extends (r : Root × Except Error (Nat × Bool)) (it : InstructionType) :
    Extends r.1 (attach_decompositions r it).ir ∧
    (attach_decompositions r it).ir.platform = r.1.platform ∧
    (r.1.tree_consistent → (attach_decompositions r it).ir.tree_consistent) := by
  rcases attach_decompositions_ir r it with h | ⟨n, _, h⟩
  · rw [h]; exact ⟨Extends.refl _, rfl, id⟩
  · rw [h]
    exact ⟨Extends.set_decompositions _ _ _, rfl, tree_consistent_set_decompositions _ _ _⟩

/-! ## The root of `add_or_find_instruction_type` -/

theorem copy_modes_eq (existing incoming : List OperandType)
    (h : operand_data_types existing = operand_data_types incoming) :
    copy_modes existing incoming = existing := by
  unfold copy_modes operand_data_types at *
  induction existing generalizing incoming with
  | nil => cases incoming <;> simp
  | cons e es ih =>
    cases incoming with
    | nil => simp at h
    | cons o os =>
      simp only [List.map_cons, List.cons.injEq] at h
      simp only [List.zipWith_cons_cons, List.cons.injEq]
      refine ⟨?_, ih os h.2⟩
      cases e; cases o; simp_all

theorem existing_root_spec (ir : Root) (it : InstructionType) (hs : ir.names_sorted)
    (hf : (find_root ir it).2 = true) :
    existing_root ir it ∈ ir.platform.instructions ∧
    (ir.node (existing_root ir it)).name = it.name ∧
    operand_data_types (ir.node (existing_root ir it)).operand_types =
      operand_data_types it.operand_types ∧
    ir.platform.instructions[(find_root ir it).1]? = some (existing_root ir it) := by
  obtain ⟨_, _, _, _, _, _, h7, _⟩ :=
    scan_summary ir it.name (operand_data_types it.operand_types) hs
  obtain ⟨id, h1, h2⟩ := h7 hf
  have he : existing_root ir it = id := by
    unfold existing_root find_root
    rw [List.getD_eq_getElem?_getD, h1]; rfl
  rw [he]
  simp only [matches_overload, Bool.and_eq_true, decide_eq_true_eq] at h2
  exact ⟨List.getElem?_mem h1, h2.1, (data_types_match_iff _ _).1 h2.2, h1⟩

theorem with_copied_modes_operand_types (ir : Root) (it : InstructionType) (hs : ir.names_sorted)
    (hf : (find_root ir it).2 = true) :
    (with_copied_modes ir it).operand_types = (ir.node (existing_root ir it)).operand_types := by
  unfold with_copied_modes
  exact copy_modes_eq _ _ (existing_root_spec ir it hs hf).2.2.1

theorem node_with_new_root_old (ir : Root) (it : InstructionType) (id : Nat)
    (h : id < ir.instruction_nodes.length) : (with_new_root ir it).node id = ir.node id := by
  unfold with_new_root
  show (ir.alloc _).1.node id = _
  exact node_alloc_old _ _ _ h

theorem node_with_new_root_new (ir : Root) (it : InstructionType) :
    (with_new_root ir it).node ir.instruction_nodes.length = { it with decompositions := [] } := by
  unfold with_new_root
  show (ir.alloc _).1.node _ = _
  exact node_alloc_new _ _

theorem length_with_new_root (ir : Root) (it : InstructionType) :
    (with_new_root ir it).instruction_nodes.length = ir.instruction_nodes.length + 1 := by
  unfold with_new_root
  show (ir.alloc _).1.instruction_nodes.length = _
  exact length_alloc _ _

theorem instructions_with_new_root (ir : Root) (it : InstructionType) :
    (with_new_root ir it).platform.instructions =
      insert_at ir.platform.instructions (find_root ir it).1 ir.instruction_nodes.length := rfl

theorem Extends.with_new_root (ir : Root) (it : InstructionType) : Extends ir (with_new_root ir it) :=
  (Extends.alloc ir _).trans (Extends.set_instructions _ _)

theorem mem_insert_at (l : List Nat) (pos x y : Nat) :
    y ∈ insert_at l pos x ↔ y = x ∨ y ∈ l := by
  unfold insert_at
  constructor
  · intro h
    rcases List.mem_append.1 h with h | h
    · exact Or.inr (List.mem_of_mem_take h)
    · rcases List.mem_cons.1 h with h | h
      · exact Or.inl h
      · exact Or.inr (List.mem_of_mem_drop h)
  · rintro (h | h)
    · subst h; simp
    · rw [← List.take_append_drop pos l] at h
      rcases List.mem_append.1 h with h | h
      · exact List.mem_append_left _ h
      · exact List.mem_append_right _ (List.mem_cons_of_mem _ h)

theorem tree_consistent_with_new_root (ir : Root) (it : InstructionType) (h : ir.tree_consistent)
    (h1 : it.specializations = []) (h2 : it.template_operands = []) (h3 : it.generalization = none) :
    (with_new_root ir it).tree_consistent := by
  have hlen := length_with_new_root ir it
  have hnew := node_with_new_root_new ir it
  have hold := node_with_new_root_old ir it
  constructor
  · intro id hid
    rw [instructions_with_new_root, mem_insert_at] at hid
    rw [hlen]
    rcases hid with rfl | hid
    · exact Nat.lt_succ_self _
    · exact Nat.lt_succ_of_lt (h.top id hid)
  · intro id hid
    rw [instructions_with_new_root, mem_insert_at] at hid
    rcases hid with rfl | hid
    · rw [hnew]; exact ⟨h2, h3⟩
    · rw [hold id (h.top id hid)]; exact h.roots id hid
  · intro p hp c hc
    rw [hlen] at hp
    by_cases hpl : p < ir.instruction_nodes.length
    · rw [hold p hpl] at hc ⊢
      rw [hold c (tree_consistent_child_lt h hpl hc)]
      obtain ⟨k1, e, o, k2, k3, k4⟩ := h.children p hpl c hc
      exact ⟨k1, e, o, k2, k3, k4⟩
    · have : p = ir.instruction_nodes.length := by omega
      subst this
      rw [hnew] at hc
      simp [h1] at hc
  · intro c hc p hg
    rw [hlen] at hc ⊢
    by_cases hcl : c < ir.instruction_nodes.length
    · rw [hold c hcl] at hg
      obtain ⟨k1, k2⟩ := h.parents c hcl p hg
      exact ⟨Nat.lt_succ_of_lt k1, by rw [hold p k1]; exact k2⟩
    · have : c = ir.instruction_nodes.length := by omega
      subst this
      rw [hnew] at hg
      simp [h3] at hg

theorem isEmpty_eq_nil {α : Type} {l : List α} (h : l.isEmpty = true) : l = [] := by
  cases l <;> simp_all

/-- The registry invariant is kept by `add_or_find_instruction_type`, whatever its outcome,
and the state it reaches extends the state it starts from. -/
theorem add_or_find_well_formed (ir : Root) (it : InstructionType) (tops : List Expression)
    (h : ir.well_formed) :
    (add_or_find_instruction_type ir it tops).ir.well_formed ∧
    Extends ir (add_or_find_instruction_type ir it tops).ir := by
  unfold add_or_find_instruction_type
  by_cases hpre : it.specializations = [] ∧ it.template_operands.isEmpty ∧ it.generalization = none
  · simp only [hpre, not_true_eq_false, if_false, and_self]
    obtain ⟨p1, p2, p3⟩ := hpre
    have p2 := isEmpty_eq_nil p2
    by_cases hid : is_identifier it.name = true
    · simp only [hid, not_true_eq_false, if_false]
      by_cases hf : (find_root ir it).2 = true
      · simp only [hf, if_true]
        obtain ⟨e1, e2, e3, e4⟩ := existing_root_spec ir it h.sorted hf
        have hroot := h.consistent.top _ e1
        have hfr := add_specializations_frame (with_copied_modes ir it) tops p1 tops 0 ir
          (existing_root ir it) false hroot
        have hco := add_specializations_consistent (with_copied_modes ir it) tops p1 p2 tops [] ir
          (existing_root ir it) false rfl h.consistent hroot
          (by rw [with_copied_modes_operand_types ir it h.sorted hf]; rfl)
          (by rw [(h.consistent.roots _ e1).1]; rfl)
        obtain ⟨a1, a2, a3⟩ := attach_decompositions_extends
          (add_specializations (with_copied_modes ir it) tops tops 0 ir (existing_root ir it) false)
          (with_copied_modes ir it)
        have hext := hfr.1.trans a1
        obtain ⟨r1, r2, r3⟩ := registry_extends ir _ h.consistent.top h.sorted hext
          (by rw [a2, hfr.2.2.1])
        exact ⟨⟨a3 hco.1, r1, r2 h.distinct⟩, hext⟩
      · simp only [hf, Bool.false_eq_true, if_false]
        have hf' : (find_root ir it).2 = false := by simpa using hf
        have htc1 := tree_consistent_with_new_root ir it h.consistent p1 p2 p3
        have hlen1 := length_with_new_root ir it
        have hfr := add_specializations_frame it tops p1 tops 0 (with_new_root ir it)
          ir.instruction_nodes.length true (by rw [hlen1]; exact Nat.lt_succ_self _)
        have hco := add_specializations_consistent it tops p1 p2 tops [] (with_new_root ir it)
          ir.instruction_nodes.length true rfl htc1 (by rw [hlen1]; exact Nat.lt_succ_self _)
          (by rw [node_with_new_root_new]; rfl)
          (by rw [node_with_new_root_new, p2]; rfl)
        obtain ⟨a1, a2, a3⟩ := attach_decompositions_extends
          (add_specializations it tops tops 0 (with_new_root ir it) ir.instruction_nodes.length true) it
        have hext1 := hfr.1.trans a1
        have hext := (Extends.with_new_root ir it).trans hext1
        obtain ⟨r1, r2, r3⟩ := registry_insert ir _ it.name (operand_data_types it.operand_types)
          ir.instruction_nodes.length h.consistent.top h.sorted hext hf'
          (by rw [a2, hfr.2.2.1]; rfl)
          (lt_of_lt_of_le (by rw [hlen1]; exact Nat.lt_succ_self _) hext1.length_le)
          (by rw [hext1.name _ (by rw [hlen1]; exact Nat.lt_succ_self _), node_with_new_root_new])
          (by rw [hext1.operand_types _ (by rw [hlen1]; exact Nat.lt_succ_self _),
            node_with_new_root_new])
        exact ⟨⟨a3 hco.1, r1, r2 h.distinct⟩, hext⟩
    · simp only [hid, not_false_eq_true, if_true]
      exact ⟨h, Extends.refl _⟩
  · simp only [hpre, not_false_eq_true, if_true]
    exact ⟨h, Extends.refl _⟩

theorem well_formed_set_decompositions (ir : Root) (n : Nat) (d : List InstructionDecomposition)
    (h : ir.well_formed) : (ir.set_node n { ir.node n with decompositions := d }).well_formed := by
  obtain ⟨r1, r2, _⟩ := registry_extends ir _ h.consistent.top h.sorted
    (Extends.set_decompositions ir n d) rfl
  exact ⟨tree_consistent_set_decompositions ir n d h.consistent, r1, r2 h.distinct⟩

theorem add_instruction_type_well_formed (ir : Root) (it : InstructionType) (tops : List Expression)
    (h : ir.well_formed) : (add_instruction_type ir it tops).1.well_formed := by
  rw [add_instruction_type_ir]
  exact (add_or_find_well_formed ir it tops h).1

theorem add_decomposition_rule_well_formed (ir : Root) (it : InstructionType)
    (tops : List Expression) (h : ir.well_formed) :
    (add_decomposition_rule ir it tops).1.well_formed := by
  have key := (add_or_find_well_formed ir it tops h).1
  unfold add_decomposition_rule
  simp only []
  cases hr : (add_or_find_instruction_type ir it tops).result with
  | error e => exact key
  | ok p =>
    obtain ⟨n, a⟩ := p
    cases a
    · exact well_formed_set_decompositions _ _ _ key
    · exact key

theorem well_formed_empty (ir : Root) (h1 : ir.platform.instructions = [])
    (h2 : ir.instruction_nodes = []) : ir.well_formed := by
  refine ⟨⟨?_, ?_, ?_, ?_⟩, ?_, ?_⟩
  · intro id hid; simp [h1] at hid
  · intro id hid; simp [h1] at hid
  · intro p hp; simp [h2] at hp
  · intro c hc; simp [h2] at hc
  · simp [Root.names_sorted, Root.instruction_names, h1]
  · simp [Root.overloads_distinct, h1]

theorem Built.well_formed {ir : Root} (h : Built ir) : ir.well_formed := by
  induction h with
  | empty ir h1 h2 => exact well_formed_empty ir h1 h2
  | add_instruction_type ir it tops _ ih => exact add_instruction_type_well_formed ir it tops ih
  | add_decomposition_rule ir it tops _ ih => exact add_decomposition_rule_well_formed ir it tops ih

/-- C2. Specialization tree consistency: in a platform built from an empty instruction
collection by `add_instruction_type` and `add_decomposition_rule`, every top-level entry has
no template operands and no generalization; every specialization has its owner as
generalization; and every node `t` whose generalization is `p` is one of the specializations
of `p`, its template operands are those of `p` followed by one expression `e`, the operand
types of `p` are one operand type `o` followed by those of `t`, and the data type of `o` is
the data type of `e`. -/
theorem specialization_tree_consistency (ir : Root) (h : Built ir) :
    (∀ id ∈ ir.platform.instructions,
      (ir.node id).template_operands = [] ∧ (ir.node id).generalization = none) ∧
    (∀ p c, p < ir.instruction_nodes.length → c ∈ (ir.node p).specializations →
      (ir.node c).generalization = some p) ∧
    (∀ t p, t < ir.instruction_nodes.length → (ir.node t).generalization = some p →
      t ∈ (ir.node p).specializations ∧
      ∃ e o, Expression.equals_list (ir.node t).template_operands
          ((ir.node p).template_operands ++ [e]) = true ∧
        (ir.node p).operand_types = o :: (ir.node t).operand_types ∧
        get_type_of ir e = .ok o.data_type) := by
  have htc := h.well_formed.consistent
  refine ⟨htc.roots, fun p c hp hc => (htc.children p hp c hc).1, ?_⟩
  intro t p ht hg
  obtain ⟨hp, hmem⟩ := htc.parents t ht p hg
  exact ⟨hmem, (htc.children p hp t hmem).2⟩

/-- Without overload generation `find_instruction_type` is the search for the first
matching entry and leaves the IR as it is. -/
theorem find_instruction_type_false_eq (ir : Root) (name : String) (types : List Link)
    (hs : ir.names_sorted) :
    find_instruction_type ir name types false =
      (ir, ir.platform.instructions.find? fun id =>
        decide ((ir.node id).name = name) &&
          decide (operand_data_types (ir.node id).operand_types = types)) := by
  have key := find?_matches_eq ir name types hs
  have hfun : (fun id => decide ((ir.node id).name = name) &&
      decide (operand_data_types (ir.node id).operand_types = types)) =
      matches_overload ir name types := by
    funext id
    unfold matches_overload
    congr 1
    rw [Bool.eq_iff_iff]
    simp [data_types_match_iff]
  rw [hfun, key]
  unfold find_instruction_type
  by_cases hf : (search_overload ir name types).2 = true
  · simp [hf]
  · simp [hf]

theorem get_types_of_length (ir : Root) :
    ∀ (ops : List Expression) (types : List Link), get_types_of ir ops = .ok types →
      types.length = ops.length
  | [], types, h => by
    simp only [get_types_of, Except.ok.injEq] at h
    subst h; rfl
  | op :: rest, types, h => by
    unfold get_types_of at h
    cases h1 : get_type_of ir op with
    | error e => simp [h1] at h
    | ok t =>
      simp only [h1] at h
      cases h2 : get_types_of ir rest with
      | error e => simp [h2] at h
      | ok ts =>
        simp only [h2, Except.ok.injEq] at h
        subst h
        simp [get_types_of_length ir rest ts h2]

/-- The specialization loop of `make_instruction` on consistent trees. -/
theorem specialize_instruction_spec (ir : Root) (htc : ir.tree_consistent) (root : Nat)
    (ops : List Expression) :
    ∀ (operands : List Expression) (fuel cur : Nat), operands.length < fuel →
      cur < ir.instruction_nodes.length → in_tree ir root cur →
      Expression.equals_list ((ir.node cur).template_operands ++ operands) ops = true →
      ∃ t rest, specialize_instruction ir fuel cur operands = some (t, rest) ∧
        in_tree ir root t ∧
        Expression.equals_list ((ir.node t).template_operands ++ rest) ops = true ∧
        find_specialization ir (ir.node t).specializations rest.head? = none := by
  intro operands
  induction operands with
  | nil =>
    intro fuel cur hfuel hcur htree heq
    cases fuel with
    | zero => omega
    | succ fuel =>
      have hnone : find_specialization ir (ir.node cur).specializations
          ([] : List Expression).head? = none := by
        unfold find_specialization
        rw [List.find?_eq_none]
        intro c hc
        obtain ⟨_, e, o, h1, _, _⟩ := htc.children cur hcur c hc
        obtain ⟨t, x, h3, _, _⟩ := equals_list_snoc_right h1
        rw [h3]
        simp [maybe_equals]
      refine ⟨cur, [], ?_, htree, heq, hnone⟩
      unfold specialize_instruction
      rw [hnone]
  | cons op rest ih =>
    intro fuel cur hfuel hcur htree heq
    cases fuel with
    | zero => omega
    | succ fuel =>
      unfold specialize_instruction
      cases hfind : find_specialization ir (ir.node cur).specializations (op :: rest).head? with
      | none => exact ⟨cur, op :: rest, rfl, htree, heq, hfind⟩
      | some c =>
        simp only [List.head?_cons] at hfind
        simp only [List.drop_succ_cons, List.drop_zero]
        obtain ⟨f1, _⟩ := found_specialization_operands htc hcur hfind
          (Expression.equals_list_refl _)
        apply ih fuel c (by simp only [List.length_cons] at hfuel; omega)
          (find_specialization_lt hfind)
          (in_tree.child cur c htree (find_specialization_mem hfind).1)
        have h1 : Expression.equals_list ((ir.node c).template_operands ++ rest)
            (((ir.node cur).template_operands ++ [op]) ++ rest) = true :=
          equals_list_append f1 (Expression.equals_list_refl _)
        rw [List.append_assoc] at h1
        exact Expression.equals_list_trans _ _ _ h1 heq

theorem set_condition_custom (ir : Root) (c : CustomInstruction) (condition : Option Expression)
    (insn : Instruction) (h : set_condition ir (.custom_instruction c) condition = .ok insn) :
    ∃ c2, insn = .custom_instruction c2 ∧ c2.instruction_type = c.instruction_type ∧
      c2.operands = c.operands := by
  cases condition with
  | some e =>
    simp only [set_condition, Except.ok.injEq] at h
    exact ⟨_, h.symm, rfl, rfl⟩
  | none =>
    simp only [set_condition] at h
    cases hb : make_bit_lit ir true with
    | error e => simp [hb] at h
    | ok t =>
      simp only [hb, Except.ok.injEq] at h
      exact ⟨_, h.symm, rfl, rfl⟩

theorem get_type_of_error (ir : Root) (e : Expression) (err : Error)
    (h : get_type_of ir e = .error err) : err = Error.empty_dereference := by
  cases e with
  | bit_literal v d => simp [get_type_of] at h
  | int_literal v d => simp [get_type_of] at h
  | string_literal v d => simp [get_type_of] at h
  | reference r => simp [get_type_of] at h
  | function_call f xs =>
    simp only [get_type_of] at h
    split at h
    · exact (Except.error.inj h).symm
    · split at h
      · exact (Except.error.inj h).symm
      · exact absurd h (by simp)

theorem get_types_of_error (ir : Root) :
    ∀ (l : List Expression) (err : Error), get_types_of ir l = .error err →
      err = Error.empty_dereference
  | [], err, h => by simp [get_types_of] at h
  | op :: rest, err, h => by
    unfold get_types_of at h
    cases h1 : get_type_of ir op with
    | error e =>
      simp only [h1, Except.error.injEq] at h
      subst h
      exact get_type_of_error ir op _ h1
    | ok t =>
      simp only [h1] at h
      cases h2 : get_types_of ir rest with
      | error e =>
        simp only [h2, Except.error.injEq] at h
        subst h
        exact get_types_of_error ir rest _ h2
      | ok ts => simp [h2] at h

theorem make_bit_lit_error (ir : Root) (b : Bool) (err : Error)
    (h : make_bit_lit ir b = .error err) :
    err = Error.empty_dereference ∨ err = Error.user_error "type is not bit-like" := by
  unfold make_bit_lit at h
  cases hd : ir.data_type ir.platform.default_bit_type with
  | error e =>
    simp only [hd, Except.error.injEq] at h
    subst h
    left
    unfold Root.data_type at hd
    split at hd
    · exact (Except.error.inj hd).symm
    · split at hd
      · exact (Except.error.inj hd).symm
      · exact absurd hd (by simp)
  | ok dt =>
    simp only [hd] at h
    split at h
    · exact absurd h (by simp)
    · exact Or.inr (Except.error.inj h).symm

theorem set_condition_custom_error (ir : Root) (c : CustomInstruction)
    (condition : Option Expression) (err : Error)
    (h : set_condition ir (.custom_instruction c) condition = .error err) :
    err = Error.empty_dereference ∨ err = Error.user_error "type is not bit-like" := by
  cases condition with
  | some e => simp [set_condition] at h
  | none =>
    simp only [set_condition] at h
    cases hb : make_bit_lit ir true with
    | error e =>
      simp only [hb, Except.error.injEq] at h
      subst h
      exact make_bit_lit_error ir true _ hb
    | ok t => simp [hb] at h

/-- C1. Specialization dispatch: on a platform built by `add_instruction_type` and
`add_decomposition_rule`, for a name other than set, wait and barrier, the specialization
loop of `make_instruction` always finishes, and whenever `make_instruction` (without
overload generation) builds an instruction, it leaves the IR as it is and the instruction is
a custom instruction whose type `t` is a node of the specialization tree of the top-level
overload `root` matching the name and the data types of the operands, the template operands
of `t` followed by the operands of the instruction are element-wise equal to the operands
given, and no specialization of `t` has a last template operand that equals the first
remaining operand. -/
theorem specialization_dispatch (ir : Root) (hb : Built ir) (name : String)
    (ops : List Expression) (condition : Option Expression) (return_empty_on_failure : Bool)
    (h1 : name ≠ "set") (h2 : name ≠ "wait") (h3 : name ≠ "barrier") :
    (make_instruction ir name ops condition false return_empty_on_failure).2 ≠
      .error (Error.internal_error "specialization loop bound reached") ∧
    ∀ insn, (make_instruction ir name ops condition false return_empty_on_failure).2 =
        .ok (some insn) →
      (make_instruction ir name ops condition false return_empty_on_failure).1 = ir ∧
      ∃ c t root types, insn = .custom_instruction c ∧ c.instruction_type = some t ∧
        get_types_of ir ops = .ok types ∧
        root ∈ ir.platform.instructions ∧ (ir.node root).name = name ∧
        operand_data_types (ir.node root).operand_types = types ∧
        in_tree ir root t ∧
        Expression.equals_list ((ir.node t).template_operands ++ c.operands) ops = true ∧
        ∀ s ∈ (ir.node t).specializations,
          maybe_equals (ir.node s).template_operands.getLast? c.operands.head? = false := by
  have hwf := hb.well_formed
  unfold make_instruction
  simp only [h1, h2, h3, if_false]
  cases hty : get_types_of ir ops with
  | error e =>
    simp only []
    refine ⟨?_, fun insn h => by simp at h⟩
    intro h
    simp only [Except.error.injEq] at h
    have := get_types_of_error ir ops _ hty
    rw [h] at this
    exact absurd this (by simp)
  | ok types =>
    simp only []
    rw [find_instruction_type_false_eq ir name types hwf.sorted]
    simp only []
    cases hfind : ir.platform.instructions.find? (fun id =>
        decide ((ir.node id).name = name) &&
          decide (operand_data_types (ir.node id).operand_types = types)) with
    | none =>
      simp only []
      cases return_empty_on_failure
      · simp only [Bool.false_eq_true, if_false]
        cases hu : unknown_instruction_types ir types true with
        | error e =>
          have := unknown_instruction_types_error ir types true e hu
          subst this
          simp
        | ok texts => simp
      · simp
    | some root =>
      simp only []
      have hmem : root ∈ ir.platform.instructions := List.mem_of_find?_eq_some hfind
      have hmatch := List.find?_some hfind
      simp only [Bool.and_eq_true, decide_eq_true_eq] at hmatch
      have hroot := hwf.consistent.top root hmem
      obtain ⟨t, rest, s1, s2, s3, s4⟩ := specialize_instruction_spec ir hwf.consistent root ops ops
        (ops.length + ir.instruction_nodes.length + 1) root (by omega) hroot in_tree.root
        (by rw [(hwf.consistent.roots root hmem).1]; exact Expression.equals_list_refl _)
      rw [s1]
      simp only []
      cases hc : set_condition ir
          (.custom_instruction { instruction_type := some t, operands := rest }) condition with
      | error e =>
        simp only []
        refine ⟨?_, fun insn h => by simp at h⟩
        intro h
        simp only [Except.error.injEq] at h
        rcases set_condition_custom_error ir _ condition _ hc with hk | hk <;>
          (rw [h] at hk; exact absurd hk (by simp))
      | ok insn2 =>
        simp only []
        refine ⟨by simp, ?_⟩
        intro insn h
        simp only [Except.ok.injEq, Option.some.injEq] at h
        subst h
        obtain ⟨c2, k1, k2, k3⟩ := set_condition_custom ir _ condition insn2 hc
        refine ⟨trivial, c2, t, root, types, k1, k2, rfl, hmem, hmatch.1, hmatch.2, s2, ?_, ?_⟩
        · rw [k3]; exact s3
        · rw [k3]
          intro s hs
          unfold find_specialization at s4
          rw [List.find?_eq_none] at s4
          simpa using s4 s hs

/-- In a sorted collection the search stops at the first matching entry. -/
theorem search_overload_eq_of (ir : Root) (name : String) (types : List Link)
    (hs : ir.names_sorted) (p id : Nat) (h1 : ir.platform.instructions[p]? = some id)
    (h2 : matches_overload ir name types id = true)
    (h3 : ∀ x ∈ ir.platform.instructions.take p, matches_overload ir name types x = false) :
    search_overload ir name types = (p, true) := by
  obtain ⟨_, _, _, _, s5, s6, s7, _⟩ := scan_summary ir name types hs
  obtain ⟨hp, hget⟩ := List.getElem?_eq_some_iff.1 h1
  have hname : (ir.node id).name = name := by
    simp only [matches_overload, Bool.and_eq_true, decide_eq_true_eq] at h2
    exact h2.1
  generalize search_overload ir name types = s at *
  have hs2 : s.2 = true := by
    by_contra hf
    have hf : s.2 = false := by simpa using hf
    by_cases hlt : p < s.1
    · have := (s5 id (List.mem_take_iff_getElem.2 ⟨p, by omega, hget⟩)).2
      rw [h2] at this; exact absurd this (by simp)
    · have := s6 hf id (List.mem_drop_iff_getElem.2 ⟨p - s.1, by omega, by
        rw [← hget]; congr 1; omega⟩)
      rw [hname] at this
      exact absurd this (lt_irrefl _)
  obtain ⟨id2, k1, k2⟩ := s7 hs2
  obtain ⟨hp2, hget2⟩ := List.getElem?_eq_some_iff.1 k1
  have hs1 : s.1 = p := by
    rcases Nat.lt_trichotomy s.1 p with hlt | heq | hgt
    · have := h3 id2 (List.mem_take_iff_getElem.2 ⟨s.1, by omega, hget2⟩)
      rw [k2] at this; exact absurd this (by simp)
    · exact heq
    · have := (s5 id (List.mem_take_iff_getElem.2 ⟨p, by omega, hget⟩)).2
      rw [h2] at this; exact absurd this (by simp)
  exact Prod.ext hs1 hs2

theorem matches_overload_extends {a b : Root} (hext : Extends a b) (name : String)
    (types : List Link) (id : Nat) (h : id < a.instruction_nodes.length) :
    matches_overload b name types id = matches_overload a name types id := by
  unfold matches_overload
  rw [hext.name id h, hext.operand_types id h]

theorem getElem?_insert_at (l : List Nat) (pos x : Nat) (h : pos ≤ l.length) :
    (insert_at l pos x)[pos]? = some x := by
  unfold insert_at
  rw [List.getElem?_append_right (by simp [h])]
  simp [h]

theorem take_insert_at (l : List Nat) (pos x : Nat) (h : pos ≤ l.length) :
    (insert_at l pos x).take pos = l.take pos := by
  unfold insert_at
  rw [List.take_append_of_le_length (by simp [h])]
  simp [h]

theorem add_or_find_result_ok (ir : Root) (it : InstructionType) (tops : List Expression)
    (n : Nat) (added : Bool) (h : (add_or_find_instruction_type ir it tops).result = .ok (n, added)) :
    (it.specializations = [] ∧ it.template_operands.isEmpty = true ∧ it.generalization = none) ∧
    is_identifier it.name = true := by
  unfold add_or_find_instruction_type at h
  by_cases hpre : it.specializations = [] ∧ it.template_operands.isEmpty ∧ it.generalization = none
  · refine ⟨hpre, ?_⟩
    by_contra hid
    simp [hpre, hid] at h
  · rw [if_pos hpre] at h
    simp at h

/-- The first call written out: the loop it runs and the state it reaches. -/
theorem add_or_find_eq (ir : Root) (it : InstructionType) (tops : List Expression)
    (hpre : it.specializations = [] ∧ it.template_operands.isEmpty = true ∧ it.generalization = none)
    (hid : is_identifier it.name = true) :
    add_or_find_instruction_type ir it tops =
      attach_decompositions
        (add_specializations (if (find_root ir it).2 then with_copied_modes ir it else it) tops tops 0
          (if (find_root ir it).2 then ir else with_new_root ir it)
          (if (find_root ir it).2 then existing_root ir it else ir.instruction_nodes.length)
          (!(find_root ir it).2))
        (if (find_root ir it).2 then with_copied_modes ir it else it) := by
  unfold add_or_find_instruction_type
  simp only [hpre, hid, and_self, not_true_eq_false, if_false]
  cases (find_root ir it).2 <;> simp

/-- The incoming instruction type object after a successful call: only the access modes of
its operand types can have changed. -/
theorem add_or_find_incoming (ir : Root) (it : InstructionType) (tops : List Expression)
    (hs : ir.names_sorted) (n : Nat) (added : Bool)
    (h : (add_or_find_instruction_type ir it tops).result = .ok (n, added)) :
    (add_or_find_instruction_type ir it tops).instruction_type.name = it.name ∧
    operand_data_types (add_or_find_instruction_type ir it tops).instruction_type.operand_types =
      operand_data_types it.operand_types ∧
    (add_or_find_instruction_type ir it tops).instruction_type.specializations = it.specializations ∧
    (add_or_find_instruction_type ir it tops).instruction_type.template_operands =
      it.template_operands ∧
    (add_or_find_instruction_type ir it tops).instruction_type.generalization = it.generalization ∧
    (add_or_find_instruction_type ir it tops).instruction_type.decompositions = it.decompositions := by
  obtain ⟨hpre, hid⟩ := add_or_find_result_ok ir it tops n added h
  rw [add_or_find_eq ir it tops hpre hid, (attach_decompositions_result _ _).2]
  by_cases hf : (find_root ir it).2 = true
  · simp only [hf, if_true]
    refine ⟨rfl, ?_, rfl, rfl, rfl, rfl⟩
    rw [with_copied_modes_operand_types ir it hs hf]
    exact (existing_root_spec ir it hs hf).2.2.1
  · simp only [hf, if_false]
    exact ⟨rfl, rfl, rfl, rfl, rfl, rfl⟩

theorem add_specializations_of_lookup (it : InstructionType) (tops : List Expression) :
    ∀ (rest : List Expression) (i : Nat) (ir : Root) (cur : Nat) (added : Bool) (n : Nat),
      lookup_specialization ir rest cur = some n →
      add_specializations it tops rest i ir cur added = (ir, .ok (n, added)) := by
  intro rest
  induction rest with
  | nil =>
    intro i ir cur added n h
    simp only [lookup_specialization, Option.some.injEq] at h
    simp [add_specializations, h]
  | cons op rest ih =>
    intro i ir cur added n h
    unfold lookup_specialization at h
    unfold add_specializations
    cases hfind : find_specialization ir (ir.node cur).specializations (some op) with
    | some c =>
      simp only [hfind] at h ⊢
      exact ih (i + 1) ir c added n h
    | none => simp [hfind] at h

theorem add_specializations_of_no_lookup (it : InstructionType) (tops : List Expression)
    (hit : it.specializations = []) :
    ∀ (rest : List Expression) (i : Nat) (ir : Root) (cur : Nat) (added : Bool) (n : Nat) (a : Bool),
      cur < ir.instruction_nodes.length →
      lookup_specialization ir rest cur = none →
      (add_specializations it tops rest i ir cur added).2 = .ok (n, a) → a = true := by
  intro rest
  induction rest with
  | nil =>
    intro i ir cur added n a _ h
    simp [lookup_specialization] at h
  | cons op rest ih =>
    intro i ir cur added n a hcur h hr
    unfold lookup_specialization at h
    unfold add_specializations at hr
    cases hfind : find_specialization ir (ir.node cur).specializations (some op) with
    | some c =>
      simp only [hfind] at h hr
      exact ih (i + 1) ir c added n a (find_specialization_lt hfind) h hr
    | none =>
      simp only [hfind] at hr
      cases hmove : move_operands ir (tops.take (i + 1)) { it with decompositions := [] } ir.next_addr with
      | error e => simp [hmove] at hr
      | ok p =>
        obtain ⟨spec, next⟩ := p
        simp only [hmove] at hr
        have hfr := add_specializations_frame it tops hit rest (i + 1)
          (({ ir with next_addr := next } : Root).add_specialization cur spec)
          ir.instruction_nodes.length true
          (by rw [length_add_specialization]; exact Nat.lt_succ_self _)
        exact (hfr.2.2.2.2.2 n a hr).2.1 rfl

theorem existing_instruction_type_eq (ir : Root) (it : InstructionType) (tops : List Expression)
    (hs : ir.names_sorted) :
    existing_instruction_type ir it tops =
      if (find_root ir it).2 then lookup_specialization ir tops (existing_root ir it) else none := by
  unfold existing_instruction_type
  have hfun : (fun id => decide ((ir.node id).name = it.name) &&
      decide (operand_data_types (ir.node id).operand_types = operand_data_types it.operand_types)) =
      matches_overload ir it.name (operand_data_types it.operand_types) := by
    funext id
    unfold matches_overload
    congr 1
    rw [Bool.eq_iff_iff]
    simp [data_types_match_iff]
  rw [hfun, find?_matches_eq ir _ _ hs]
  by_cases hf : (find_root ir it).2 = true
  · have hf2 : (search_overload ir it.name (operand_data_types it.operand_types)).2 = true := hf
    obtain ⟨_, _, _, e4⟩ := existing_root_spec ir it hs hf
    have e5 : ir.platform.instructions[(search_overload ir it.name
        (operand_data_types it.operand_types)).1]? = some (existing_root ir it) := e4
    simp only [hf, hf2, if_true, e5]
  · have hf2 : ¬ (search_overload ir it.name (operand_data_types it.operand_types)).2 = true := hf
    simp [hf, hf2]

theorem attach_decompositions_false (q : Root × Except Error (Nat × Bool)) (it : InstructionType)
    (n : Nat) (h : q.2 = .ok (n, false)) : attach_decompositions q it = ⟨q.1, it, .ok (n, false)⟩ := by
  unfold attach_decompositions
  rw [h]
  rfl

theorem attach_decompositions_true (q : Root × Except Error (Nat × Bool)) (it : InstructionType)
    (n : Nat) (h : q.2 = .ok (n, true)) :
    attach_decompositions q it =
      ⟨q.1.set_node n { q.1.node n with decompositions := it.decompositions }, it, .ok (n, true)⟩ := by
  unfold attach_decompositions
  rw [h]
  rfl

/-- What a successful call of `add_or_find_instruction_type` does. When nothing is added,
the node returned is the existing node for the instruction type and template operands and
the IR is unchanged. When something is added, that node did not exist, the node returned
is new, has no specializations and holds the incoming decomposition rules, every other new
node has no decomposition rules, and the existing nodes keep theirs. -/
theorem add_or_find_summary (ir : Root) (it : InstructionType) (tops : List Expression)
    (hv : ir.links_valid) (hs : ir.names_sorted) (n : Nat) (added : Bool)
    (h : (add_or_find_instruction_type ir it tops).result = .ok (n, added)) :
    Extends ir (add_or_find_instruction_type ir it tops).ir ∧
    (added = false →
      (add_or_find_instruction_type ir it tops).ir = ir ∧
      existing_instruction_type ir it tops = some n) ∧
    (added = true →
      existing_instruction_type ir it tops = none ∧
      ir.instruction_nodes.length ≤ n ∧
      n < (add_or_find_instruction_type ir it tops).ir.instruction_nodes.length ∧
      ((add_or_find_instruction_type ir it tops).ir.node n).decompositions = it.decompositions ∧
      ((add_or_find_instruction_type ir it tops).ir.node n).specializations = [] ∧
      (∀ id, id < ir.instruction_nodes.length →
        ((add_or_find_instruction_type ir it tops).ir.node id).decompositions =
          (ir.node id).decompositions) ∧
      (∀ id, ir.instruction_nodes.length ≤ id →
        id < (add_or_find_instruction_type ir it tops).ir.instruction_nodes.length → id ≠ n →
        ((add_or_find_instruction_type ir it tops).ir.node id).decompositions = [])) := by
  obtain ⟨hpre, hid⟩ := add_or_find_result_ok ir it tops n added h
  have heq := add_or_find_eq ir it tops hpre hid
  rw [existing_instruction_type_eq ir it tops hs]
  rw [heq] at h ⊢
  rw [(attach_decompositions_result _ _).1] at h
  by_cases hf : (find_root ir it).2 = true
  · simp only [hf, if_true, Bool.not_true] at h ⊢
    obtain ⟨e1, _, _, _⟩ := existing_root_spec ir it hs hf
    have hroot := hv.top _ e1
    obtain ⟨f1, _, f3, f4, f5, f6⟩ := add_specializations_frame (with_copied_modes ir it) tops hpre.1
      tops 0 ir (existing_root ir it) false hroot
    obtain ⟨k1, _, k3, k4, _, k5⟩ := f6 n added h
    cases hl : lookup_specialization ir tops (existing_root ir it) with
    | some m =>
      have := add_specializations_of_lookup (with_copied_modes ir it) tops tops 0 ir
        (existing_root ir it) false m hl
      rw [this] at h
      simp only [Except.ok.injEq, Prod.mk.injEq] at h
      obtain ⟨rfl, rfl⟩ := h
      rw [this, attach_decompositions_false _ _ m rfl]
      exact ⟨Extends.refl _, fun _ => ⟨rfl, rfl⟩, fun h => by simp at h⟩
    | none =>
      have ha := add_specializations_of_no_lookup (with_copied_modes ir it) tops hpre.1 tops 0 ir
        (existing_root ir it) false n added hroot hl h
      subst ha
      rw [attach_decompositions_true _ _ n h]
      simp only []
      refine ⟨f1.trans (Extends.set_decompositions _ _ _), fun h => by simp at h, fun _ => ?_⟩
      refine ⟨trivial, k4 rfl rfl, by rw [length_set_node]; exact k1, ?_, ?_, ?_, ?_⟩
      · rw [node_set_node_same _ _ _ k1]; rfl
      · rw [(set_decompositions_fields _ _ _ _).2.2.2.2]
        exact k5 rfl (fun h => by simp at h)
      · intro id hid
        rw [node_set_node_other _ _ _ _ (by have := k4 rfl rfl; omega)]
        exact f4 id hid
      · intro id h1 h2 h3
        rw [length_set_node] at h2
        rw [node_set_node_other _ _ _ _ h3]
        exact f5 id h1 h2
  · have hf' : (find_root ir it).2 = false := by simpa using hf
    simp only [hf', Bool.false_eq_true, if_false, Bool.not_false] at h ⊢
    have hlen1 := length_with_new_root ir it
    have hnew := node_with_new_root_new ir it
    obtain ⟨f1, _, f3, f4, f5, f6⟩ := add_specializations_frame it tops hpre.1 tops 0
      (with_new_root ir it) ir.instruction_nodes.length true (by rw [hlen1]; exact Nat.lt_succ_self _)
    obtain ⟨k1, k2, _, _, k4, k5⟩ := f6 n added h
    have ha := k2 rfl
    subst ha
    rw [attach_decompositions_true _ _ n h]
    simp only []
    have hge : ir.instruction_nodes.length ≤ n := by
      rcases k4 rfl (by rw [hnew]; exact hpre.1) with h1 | h1
      · omega
      · rw [hlen1] at h1; omega
    refine ⟨((Extends.with_new_root ir it).trans f1).trans (Extends.set_decompositions _ _ _),
      fun h => by simp at h, fun _ => ?_⟩
    refine ⟨trivial, hge, by rw [length_set_node]; exact k1, ?_, ?_, ?_, ?_⟩
    · rw [node_set_node_same _ _ _ k1]
    · rw [(set_decompositions_fields _ _ _ _).2.2.2.2]
      exact k5 rfl (fun _ => by rw [hnew]; exact hpre.1)
    · intro id hid
      rw [node_set_node_other _ _ _ _ (by omega), f4 id (by rw [hlen1]; omega),
        node_with_new_root_old ir it id hid]
    · intro id h1 h2 h3
      rw [length_set_node] at h2
      rw [node_set_node_other _ _ _ _ h3]
      by_cases hid : id = ir.instruction_nodes.length
      · rw [f4 id (by rw [hlen1]; omega), hid, hnew]
      · exact f5 id (by rw [hlen1]; omega) h2

/-- C8. `add_decomposition_rule`: on an IR without dangling owners whose instruction
collection is sorted by name, when the call succeeds with node `n`: if the top-level
overload and the complete specialization path for the template operands existed, `n` is that
existing node and the IR afterwards is the IR before with the decompositions of `n` replaced
by its previous list followed by the incoming rules (no node added, nothing else changed);
otherwise `n` is a new node whose decompositions are exactly the incoming rules, and the
nodes that existed keep their names, prototypes, template operands, parents and
decompositions. -/
theorem add_decomposition_rule_spec (ir : Root) (it : InstructionType) (tops : List Expression)
    (hv : ir.links_valid) (hs : ir.names_sorted) (n : Nat)
    (h : (add_decomposition_rule ir it tops).2 = .ok n) :
    (∀ m, existing_instruction_type ir it tops = some m →
      n = m ∧
      (add_decomposition_rule ir it tops).1 =
        ir.set_node m
          { ir.node m with decompositions := (ir.node m).decompositions ++ it.decompositions }) ∧
    (existing_instruction_type ir it tops = none →
      ir.instruction_nodes.length ≤ n ∧
      n < (add_decomposition_rule ir it tops).1.instruction_nodes.length ∧
      ((add_decomposition_rule ir it tops).1.node n).decompositions = it.decompositions ∧
      Extends ir (add_decomposition_rule ir it tops).1 ∧
      ∀ id, id < ir.instruction_nodes.length →
        ((add_decomposition_rule ir it tops).1.node id).decompositions =
          (ir.node id).decompositions) := by
  unfold add_decomposition_rule at h ⊢
  simp only [] at h ⊢
  cases hr : (add_or_find_instruction_type ir it tops).result with
  | error e => simp [hr] at h
  | ok p =>
    obtain ⟨m, added⟩ := p
    obtain ⟨s1, s2, s3⟩ := add_or_find_summary ir it tops hv hs m added hr
    have hdec := (add_or_find_incoming ir it tops hs m added hr).2.2.2.2.2
    cases added with
    | false =>
      obtain ⟨t1, t2⟩ := s2 rfl
      simp only [hr, Bool.false_eq_true, not_false_eq_true, if_true, Except.ok.injEq] at h ⊢
      subst h
      rw [t2, t1, hdec]
      exact ⟨fun k hk => by simp only [Option.some.injEq] at hk; subst hk; exact ⟨rfl, rfl⟩,
        fun hk => by simp at hk⟩
    | true =>
      obtain ⟨t1, t2, t3, t4, _, t6, _⟩ := s3 rfl
      simp only [hr, not_true_eq_false, if_false, Except.ok.injEq] at h ⊢
      subst h
      rw [t1]
      exact ⟨fun k hk => by simp at hk, fun _ => ⟨t2, t3, t4, s1, t6⟩⟩

/-- C4, as amended. In a successful call of `add_or_find_instruction_type` on an IR without
dangling owners whose collection is sorted by name, every node the call creates other than
the node it returns has no decomposition rules; a returned node that the call created has no
specializations and holds exactly the incoming decomposition rules; and the nodes that
existed before the call keep their decomposition rules. -/
theorem new_nodes_decompositions (ir : Root) (it : InstructionType) (tops : List Expression)
    (hv : ir.links_valid) (hs : ir.names_sorted) (n : Nat) (added : Bool)
    (h : (add_or_find_instruction_type ir it tops).result = .ok (n, added)) :
    (∀ id, ir.instruction_nodes.length ≤ id →
      id < (add_or_find_instruction_type ir it tops).ir.instruction_nodes.length → id ≠ n →
      ((add_or_find_instruction_type ir it tops).ir.node id).decompositions = []) ∧
    (ir.instruction_nodes.length ≤ n →
      ((add_or_find_instruction_type ir it tops).ir.node n).specializations = [] ∧
      ((add_or_find_instruction_type ir it tops).ir.node n).decompositions = it.decompositions) ∧
    (∀ id, id < ir.instruction_nodes.length →
      ((add_or_find_instruction_type ir it tops).ir.node id).decompositions =
        (ir.node id).decompositions) := by
  obtain ⟨s1, s2, s3⟩ := add_or_find_summary ir it tops hv hs n added h
  cases added with
  | false =>
    obtain ⟨t1, t2⟩ := s2 rfl
    rw [t1]
    refine ⟨fun id h1 h2 _ => by omega, fun hn => ?_, fun _ _ => rfl⟩
    -- the node returned exists already
    exfalso
    have hlt : n < ir.instruction_nodes.length := by
      have heq := add_or_find_eq ir it tops (add_or_find_result_ok ir it tops n false h).1
        (add_or_find_result_ok ir it tops n false h).2
      rw [heq, (attach_decompositions_result _ _).1] at h
      by_cases hf : (find_root ir it).2 = true
      · simp only [hf, if_true, Bool.not_true] at h
        have hroot := hv.top _ (existing_root_spec ir it hs hf).1
        obtain ⟨_, _, _, _, _, f6⟩ := add_specializations_frame (with_copied_modes ir it) tops
          (add_or_find_result_ok ir it tops n false (by rw [heq, (attach_decompositions_result _ _).1]; simp only [hf, if_true, Bool.not_true]; exact h)).1.1
          tops 0 ir (existing_root ir it) false hroot
        obtain ⟨k1, _, k3, _⟩ := f6 n false h
        rw [k3 rfl] at k1
        exact k1
      · have hf' : (find_root ir it).2 = false := by simpa using hf
        simp only [hf', Bool.false_eq_true, if_false, Bool.not_false] at h
        obtain ⟨_, _, _, _, _, f6⟩ := add_specializations_frame it tops
          (add_or_find_result_ok ir it tops n false (by rw [heq, (attach_decompositions_result _ _).1]; simp only [hf', Bool.false_eq_true, if_false, Bool.not_false]; exact h)).1.1
          tops 0 (with_new_root ir it) ir.instruction_nodes.length true
          (by rw [length_with_new_root]; exact Nat.lt_succ_self _)
        have := (f6 n false h).2.1 rfl
        simp at this
    omega
  | true =>
    obtain ⟨_, t2, t3, t4, t5, t6, t7⟩ := s3 rfl
    exact ⟨t7, fun _ => ⟨t5, t4⟩, t6⟩

/-- C4, counterexample: after `g` has been registered with a decomposition rule and then
its specialization `g q[3]`, the node of `g` has a specialization and still holds the rule. -/
theorem decompositions_on_inner_node :
    ¬ (∀ ir, Built ir → ∀ p, p < ir.instruction_nodes.length →
      (ir.node p).specializations ≠ [] → (ir.node p).decompositions = []) := by
  intro hall
  have hb : Built example_ir3 :=
    Built.add_instruction_type _ _ _
      (Built.add_instruction_type _ _ _ (Built.empty example_ir0 rfl rfl))
  have h := hall example_ir3 hb 0 (by decide) (by decide)
  exact absurd h (by decide)

/-- Overwriting a node that is new in `b` keeps `b` an extension of `a`. -/
theorem Extends.set_node_new {a b : Root} (h : Extends a b) (j : Nat) (n : InstructionType)
    (hj : a.instruction_nodes.length ≤ j) : Extends a (b.set_node j n) := by
  refine ⟨by rw [length_set_node]; exact h.length_le, h.function_nodes, h.data_type_nodes,
    ?_, ?_, ?_, ?_, ?_⟩ <;> intro id hid <;> rw [node_set_node_other _ _ _ _ (by omega)]
  · exact h.name id hid
  · exact h.operand_types id hid
  · exact h.template_operands id hid
  · exact h.generalization id hid
  · exact h.specializations id hid

theorem clone_tree_frame :
    ∀ (fuel : Nat) (ir : Root) (id : Nat),
      Extends ir (clone_tree fuel ir id).1 ∧
      (clone_tree fuel ir id).2 = ir.instruction_nodes.length ∧
      ir.instruction_nodes.length < (clone_tree fuel ir id).1.instruction_nodes.length ∧
      (clone_tree fuel ir id).1.platform = ir.platform ∧
      ((clone_tree fuel ir id).1.node ir.instruction_nodes.length).name = (ir.node id).name := by
  intro fuel
  induction fuel with
  | zero =>
    intro ir id
    unfold clone_tree
    refine ⟨(Extends.next_addr ir _).trans (Extends.alloc _ _), rfl, ?_, rfl, ?_⟩
    · rw [length_alloc]; exact Nat.lt_succ_self _
    · have := node_alloc_new ({ ir with next_addr :=
        (Expression.clone_list (ir.node id).template_operands ir.next_addr).2 } : Root)
        { ir.node id with
          template_operands := (Expression.clone_list (ir.node id).template_operands ir.next_addr).1
          specializations := [] }
      exact (congrArg InstructionType.name this).trans rfl
  | succ fuel ih =>
    intro ir id
    have hfold : ∀ (specs : List Nat) (acc : Root × List Nat),
        Extends acc.1 (specs.foldl (fun (acc : Root × List Nat) c =>
          ((clone_tree fuel acc.1 c).1, acc.2 ++ [(clone_tree fuel acc.1 c).2])) acc).1 ∧
        (specs.foldl (fun (acc : Root × List Nat) c =>
          ((clone_tree fuel acc.1 c).1, acc.2 ++ [(clone_tree fuel acc.1 c).2])) acc).1.platform =
          acc.1.platform := by
      intro specs
      induction specs with
      | nil => intro acc; exact ⟨Extends.refl _, rfl⟩
      | cons c cs ihs =>
        intro acc
        simp only [List.foldl_cons]
        obtain ⟨e1, e2⟩ := ihs ((clone_tree fuel acc.1 c).1, acc.2 ++ [(clone_tree fuel acc.1 c).2])
        obtain ⟨k1, _, _, k4, _⟩ := ih acc.1 c
        exact ⟨k1.trans e1, by rw [e2, k4]⟩
    unfold clone_tree
    simp only []
    generalize hbase : (({ ir with next_addr :=
        (Expression.clone_list (ir.node id).template_operands ir.next_addr).2 } : Root).alloc
        { ir.node id with
          template_operands := (Expression.clone_list (ir.node id).template_operands ir.next_addr).1
          specializations := [] }) = base
    have hb1 : Extends ir base.1 := by
      rw [← hbase]; exact (Extends.next_addr ir _).trans (Extends.alloc _ _)
    have hb2 : base.1.instruction_nodes.length = ir.instruction_nodes.length + 1 := by
      rw [← hbase]; exact length_alloc _ _
    have hb3 : (base.1.node ir.instruction_nodes.length).name = (ir.node id).name := by
      rw [← hbase]
      exact (congrArg InstructionType.name (node_alloc_new ({ ir with next_addr :=
        (Expression.clone_list (ir.node id).template_operands ir.next_addr).2 } : Root)
        { ir.node id with
          template_operands := (Expression.clone_list (ir.node id).template_operands ir.next_addr).1
          specializations := [] })).trans rfl
    have hb4 : base.1.platform = ir.platform := by rw [← hbase]; rfl
    obtain ⟨f1, f2⟩ := hfold (ir.node id).specializations (base.1, [])
    generalize ((ir.node id).specializations.foldl (fun (acc : Root × List Nat) c =>
          ((clone_tree fuel acc.1 c).1, acc.2 ++ [(clone_tree fuel acc.1 c).2])) (base.1, [])) = copies at *
    have hlt : ir.instruction_nodes.length < copies.1.instruction_nodes.length :=
      lt_of_lt_of_le (by rw [hb2]; exact Nat.lt_succ_self _) f1.length_le
    refine ⟨(hb1.trans f1).set_node_new _ _ (le_refl _), trivial, by rw [length_set_node]; exact hlt,
      by rw [← hb4, ← f2]; rfl, ?_⟩
    rw [node_set_node_same _ _ _ hlt]
    show (copies.1.node ir.instruction_nodes.length).name = _
    rw [f1.name _ (by rw [hb2]; exact Nat.lt_succ_self _)]
    exact hb3

/-- The branch of `find_instruction_type` that generates an overload. -/
theorem find_instruction_type_generate (ir : Root) (name : String) (types : List Link)
    (hv : ∀ id ∈ ir.platform.instructions, id < ir.instruction_nodes.length)
    (hs : ir.names_sorted) (hnf : (search_overload ir name types).2 = false)
    (hne : (search_overload ir name types).1 ≠ lower_bound ir.instruction_names name) :
    (find_instruction_type ir name types true).2 = some ir.instruction_nodes.length ∧
    Extends ir (find_instruction_type ir name types true).1 ∧
    (find_instruction_type ir name types true).1.platform.instructions =
      insert_at ir.platform.instructions (search_overload ir name types).1
        ir.instruction_nodes.length ∧
    ir.instruction_nodes.length <
      (find_instruction_type ir name types true).1.instruction_nodes.length ∧
    ((find_instruction_type ir name types true).1.node ir.instruction_nodes.length).name = name ∧
    ((find_instruction_type ir name types true).1.node ir.instruction_nodes.length).operand_types =
      types.map (fun t => { mode := AccessMode.WRITE, data_type := t }) ∧
    (find_instruction_type ir name types true).1.names_sorted ∧
    (ir.overloads_distinct → (find_instruction_type ir name types true).1.overloads_distinct) ∧
    (∀ id ∈ (find_instruction_type ir name types true).1.platform.instructions,
      id < (find_instruction_type ir name types true).1.instruction_nodes.length) := by
  obtain ⟨s1, _, _, _, _, _, _, s8⟩ := scan_summary ir name types hs
  obtain ⟨src, hsrc1, hsrc2⟩ := s8 (lt_of_le_of_ne s1 (Ne.symm hne))
  have hsrc : ir.platform.instructions.getD (lower_bound ir.instruction_names name) 0 = src := by
    rw [List.getD_eq_getElem?_getD, hsrc1]; rfl
  have hfi : find_instruction_type ir name types true =
      ((((clone_tree ir.instruction_nodes.length ir src).1.set_node ir.instruction_nodes.length
      { (clone_tree ir.instruction_nodes.length ir src).1.node ir.instruction_nodes.length with
        operand_types := types.map fun t => { mode := AccessMode.WRITE, data_type := t } }
      ).set_instructions (insert_at ir.platform.instructions (search_overload ir name types).1
        ir.instruction_nodes.length)), some ir.instruction_nodes.length) := by
    unfold find_instruction_type
    simp only [hnf, Bool.false_eq_true, if_false, hne, not_true_eq_false, hsrc]
  rw [hfi]
  obtain ⟨c1, c2, c3, c4, c5⟩ := clone_tree_frame ir.instruction_nodes.length ir src
  generalize clone_tree ir.instruction_nodes.length ir src = c at *
  have hnode : ((c.1.set_node ir.instruction_nodes.length
      { c.1.node ir.instruction_nodes.length with
        operand_types := types.map fun t => { mode := AccessMode.WRITE, data_type := t } }
      ).set_instructions (insert_at ir.platform.instructions (search_overload ir name types).1
        ir.instruction_nodes.length)).node ir.instruction_nodes.length =
      { c.1.node ir.instruction_nodes.length with
        operand_types := types.map fun t => { mode := AccessMode.WRITE, data_type := t } } :=
    node_set_node_same c.1 _ _ c3
  have hext : Extends ir ((c.1.set_node ir.instruction_nodes.length
      { c.1.node ir.instruction_nodes.length with
        operand_types := types.map fun t => { mode := AccessMode.WRITE, data_type := t } }
      ).set_instructions (insert_at ir.platform.instructions (search_overload ir name types).1
        ir.instruction_nodes.length)) :=
    (c1.set_node_new _ _ (le_refl _)).trans (Extends.set_instructions _ _)
  have hlt : ir.instruction_nodes.length < ((c.1.set_node ir.instruction_nodes.length
      { c.1.node ir.instruction_nodes.length with
        operand_types := types.map fun t => { mode := AccessMode.WRITE, data_type := t } }
      ).set_instructions (insert_at ir.platform.instructions (search_overload ir name types).1
        ir.instruction_nodes.length)).instruction_nodes.length := by
    show _ < (c.1.set_node _ _).instruction_nodes.length
    rw [length_set_node]; exact c3
  have hname : (((c.1.set_node ir.instruction_nodes.length
      { c.1.node ir.instruction_nodes.length with
        operand_types := types.map fun t => { mode := AccessMode.WRITE, data_type := t } }
      ).set_instructions (insert_at ir.platform.instructions (search_overload ir name types).1
        ir.instruction_nodes.length)).node ir.instruction_nodes.length).name = name := by
    rw [hnode]; exact c5.trans hsrc2
  obtain ⟨r1, r2, r3⟩ := registry_insert ir _ name types ir.instruction_nodes.length hv hs hext hnf
    rfl hlt hname (by
      rw [hnode]
      simp [operand_data_types, List.map_map, Function.comp_def])
  exact ⟨rfl, hext, rfl, hlt, hname, by rw [hnode], r1, r2, r3⟩

/-- C7. Overload generation: on a name-sorted instruction collection without dangling
entries in which no entry matches `(name, types)`: if an entry has that name,
`find_instruction_type name types true` inserts exactly one new top-level entry, whose name
is `name` and whose operand types are the requested types in order, each with mode WRITE,
returns it, keeps the names and prototypes of the existing nodes, and a following
`find_instruction_type` with the same arguments returns the same entry without changing the
IR; if no entry has that name, it returns the empty link and leaves the IR unchanged. -/
theorem overload_generation (ir : Root) (name : String) (types : List Link)
    (hv : ∀ id ∈ ir.platform.instructions, id < ir.instruction_nodes.length)
    (hs : ir.names_sorted)
    (hno : ∀ id ∈ ir.platform.instructions,
      ¬ ((ir.node id).name = name ∧ operand_data_types (ir.node id).operand_types = types)) :
    ((∃ id ∈ ir.platform.instructions, (ir.node id).name = name) →
      ∃ pos e, (find_instruction_type ir name types true).2 = some e ∧
        e ∉ ir.platform.instructions ∧ pos ≤ ir.platform.instructions.length ∧
        (find_instruction_type ir name types true).1.platform.instructions =
          ir.platform.instructions.take pos ++ e :: ir.platform.instructions.drop pos ∧
        ((find_instruction_type ir name types true).1.node e).name = name ∧
        ((find_instruction_type ir name types true).1.node e).operand_types =
          types.map (fun t => { mode := AccessMode.WRITE, data_type := t }) ∧
        Extends ir (find_instruction_type ir name types true).1 ∧
        ∀ g, find_instruction_type (find_instruction_type ir name types true).1 name types g =
          ((find_instruction_type ir name types true).1, some e)) ∧
    ((∀ id ∈ ir.platform.instructions, (ir.node id).name ≠ name) →
      find_instruction_type ir name types true = (ir, none)) := by
  obtain ⟨s1, s2, s3, s4, s5, s6, s7, s8⟩ := scan_summary ir name types hs
  have hnf : (search_overload ir name types).2 = false := by
    by_contra hf
    have hf : (search_overload ir name types).2 = true := by simpa using hf
    obtain ⟨id, h1, h2⟩ := s7 hf
    simp only [matches_overload, Bool.and_eq_true, decide_eq_true_eq] at h2
    exact hno id (List.getElem?_mem h1) ⟨h2.1, (data_types_match_iff _ _).1 h2.2⟩
  constructor
  · rintro ⟨id, hid, hname⟩
    have hne : (search_overload ir name types).1 ≠ lower_bound ir.instruction_names name := by
      intro heq
      rw [← List.take_append_drop (lower_bound ir.instruction_names name)
        ir.platform.instructions] at hid
      rcases List.mem_append.1 hid with h | h
      · exact absurd hname (ne_of_lt (s3 id h))
      · rw [← heq] at h
        exact absurd hname.symm (ne_of_lt (s6 hnf id h))
    obtain ⟨g1, g2, g3, g4, g5, g6, g7, _, g9⟩ :=
      find_instruction_type_generate ir name types hv hs hnf hne
    refine ⟨(search_overload ir name types).1, ir.instruction_nodes.length, g1, ?_, s2, g3, g5, g6,
      g2, ?_⟩
    · intro hmem
      exact absurd (hv _ hmem) (lt_irrefl _)
    · intro g
      generalize find_instruction_type ir name types true = r at *
      have hsearch : search_overload r.1 name types = ((search_overload ir name types).1, true) := by
        apply search_overload_eq_of r.1 name types g7 _ ir.instruction_nodes.length
        · rw [g3]; exact getElem?_insert_at _ _ _ s2
        · simp [matches_overload, g5, g6, data_types_match_iff, operand_data_types, List.map_map,
            Function.comp_def]
        · intro x hx
          rw [g3, take_insert_at _ _ _ s2] at hx
          rw [matches_overload_extends g2 _ _ _ (hv x (List.mem_of_mem_take hx))]
          exact (s5 x hx).2
      unfold find_instruction_type
      simp only [hsearch, if_true]
      rw [List.get?_eq_getElem?, g3, getElem?_insert_at _ _ _ s2]
  · intro hall
    have heq : (search_overload ir name types).1 = lower_bound ir.instruction_names name := by
      by_contra hne
      obtain ⟨id, h1, h2⟩ := s8 (lt_of_le_of_ne s1 (Ne.symm hne))
      exact hall id (List.getElem?_mem h1) h2
    unfold find_instruction_type
    simp [hnf, heq]

/-- The invariant of the instruction collection is kept by `add_or_find_instruction_type`,
whatever its outcome. -/
theorem add_or_find_registry (ir : Root) (it : InstructionType) (tops : List Expression)
    (h : ir.registry_invariant) :
    (add_or_find_instruction_type ir it tops).ir.registry_invariant := by
  unfold add_or_find_instruction_type
  by_cases hpre : it.specializations = [] ∧ it.template_operands.isEmpty ∧ it.generalization = none
  · simp only [hpre, not_true_eq_false, if_false, and_self]
    obtain ⟨p1, p2, p3⟩ := hpre
    by_cases hid : is_identifier it.name = true
    · simp only [hid, not_true_eq_false, if_false]
      by_cases hf : (find_root ir it).2 = true
      · simp only [hf, if_true]
        obtain ⟨e1, e2, e3, e4⟩ := existing_root_spec ir it h.sorted hf
        have hroot := h.top _ e1
        have hfr := add_specializations_frame (with_copied_modes ir it) tops p1 tops 0 ir
          (existing_root ir it) false hroot
        obtain ⟨a1, a2, a3⟩ := attach_decompositions_extends
          (add_specializations (with_copied_modes ir it) tops tops 0 ir (existing_root ir it) false)
          (with_copied_modes ir it)
        have hext := hfr.1.trans a1
        obtain ⟨r1, r2, r3⟩ := registry_extends ir _ h.top h.sorted hext
          (by rw [a2, hfr.2.2.1])
        exact ⟨r3, r1, r2 h.distinct⟩
      · simp only [hf, Bool.false_eq_true, if_false]
        have hf' : (find_root ir it).2 = false := by simpa using hf
        have hlen1 := length_with_new_root ir it
        have hfr := add_specializations_frame it tops p1 tops 0 (with_new_root ir it)
          ir.instruction_nodes.length true (by rw [hlen1]; exact Nat.lt_succ_self _)
        obtain ⟨a1, a2, a3⟩ := attach_decompositions_extends
          (add_specializations it tops tops 0 (with_new_root ir it) ir.instruction_nodes.length true) it
        have hext1 := hfr.1.trans a1
        have hext := (Extends.with_new_root ir it).trans hext1
        obtain ⟨r1, r2, r3⟩ := registry_insert ir _ it.name (operand_data_types it.operand_types)
          ir.instruction_nodes.length h.top h.sorted hext hf'
          (by rw [a2, hfr.2.2.1]; rfl)
          (lt_of_lt_of_le (by rw [hlen1]; exact Nat.lt_succ_self _) hext1.length_le)
          (by rw [hext1.name _ (by rw [hlen1]; exact Nat.lt_succ_self _), node_with_new_root_new])
          (by rw [hext1.operand_types _ (by rw [hlen1]; exact Nat.lt_succ_self _),
            node_with_new_root_new])
        exact ⟨r3, r1, r2 h.distinct⟩
    · simp only [hid, not_false_eq_true, if_true]
      exact h
  · simp only [hpre, not_false_eq_true, if_true]
    exact h

theorem registry_set_decompositions (ir : Root) (n : Nat) (d : List InstructionDecomposition)
    (h : ir.registry_invariant) :
    (ir.set_node n { ir.node n with decompositions := d }).registry_invariant := by
  obtain ⟨r1, r2, r3⟩ := registry_extends ir _ h.top h.sorted
    (Extends.set_decompositions ir n d) rfl
  exact ⟨r3, r1, r2 h.distinct⟩

theorem add_instruction_type_registry (ir : Root) (it : InstructionType) (tops : List Expression)
    (h : ir.registry_invariant) : (add_instruction_type ir it tops).1.registry_invariant := by
  rw [add_instruction_type_ir]
  exact add_or_find_registry ir it tops h

theorem add_decomposition_rule_registry (ir : Root) (it : InstructionType)
    (tops : List Expression) (h : ir.registry_invariant) :
    (add_decomposition_rule ir it tops).1.registry_invariant := by
  have key := add_or_find_registry ir it tops h
  unfold add_decomposition_rule
  simp only []
  cases hr : (add_or_find_instruction_type ir it tops).result with
  | error e => exact key
  | ok p =>
    obtain ⟨n, a⟩ := p
    cases a
    · exact registry_set_decompositions _ _ _ key
    · exact key

theorem find_instruction_type_registry (ir : Root) (name : String) (types : List Link)
    (g : Bool) (h : ir.registry_invariant) :
    (find_instruction_type ir name types g).1.registry_invariant := by
  by_cases hgen : (search_overload ir name types).2 = false ∧ g = true ∧
      (search_overload ir name types).1 ≠ lower_bound ir.instruction_names name
  · obtain ⟨h1, h2, h3⟩ := hgen
    subst h2
    obtain ⟨_, _, _, _, _, _, g7, g8, g9⟩ :=
      find_instruction_type_generate ir name types h.top h.sorted h1 h3
    exact ⟨g9, g7, g8 h.distinct⟩
  · have : (find_instruction_type ir name types g).1 = ir := by
      unfold find_instruction_type
      by_cases h1 : (search_overload ir name types).2 = true
      · simp [h1]
      · have h1 : (search_overload ir name types).2 = false := by simpa using h1
        cases g
        · simp [h1]
        · have h3 : (search_overload ir name types).1 = lower_bound ir.instruction_names name := by
            by_contra h3
            exact hgen ⟨h1, rfl, h3⟩
          simp [h1, h3]
    rw [this]; exact h

theorem Registered.registry_invariant {ir : Root} (h : Registered ir) :
    ir.registry_invariant := by
  induction h with
  | empty ir h1 h2 =>
    refine ⟨?_, ?_, ?_⟩
    · intro id hid; simp [h1] at hid
    · simp [Root.names_sorted, Root.instruction_names, h1]
    · simp [Root.overloads_distinct, h1]
  | add_instruction_type ir it tops _ ih => exact add_instruction_type_registry ir it tops ih
  | add_decomposition_rule ir it tops _ ih => exact add_decomposition_rule_registry ir it tops ih
  | find_instruction_type ir name types g _ ih =>
    exact find_instruction_type_registry ir name types g ih

/-- C5. Instruction registry invariant: after any sequence of `add_instruction_type`,
`add_decomposition_rule` and `find_instruction_type` calls (with either value of
`generate_overload_if_needed`, calls that throw included) starting from an empty collection,
the names of the top-level instruction collection are non-decreasing, and no two entries at
different positions have the same name together with the same list of operand data types
(same length, same data type at every position). -/
theorem instruction_registry_invariant (ir : Root) (h : Registered ir) :
    (ir.platform.instructions.map fun id => (ir.node id).name).Pairwise (· ≤ ·) ∧
    ir.platform.instructions.Pairwise fun a b =>
      ¬ ((ir.node a).name = (ir.node b).name ∧
        (ir.node a).operand_types.length = (ir.node b).operand_types.length ∧
        ∀ i, ((ir.node a).operand_types.get? i).map OperandType.data_type =
          ((ir.node b).operand_types.get? i).map OperandType.data_type) := by
  have hr := h.registry_invariant
  refine ⟨hr.sorted, ?_⟩
  refine hr.distinct.imp ?_
  intro a b hab hcon
  apply hab
  refine ⟨hcon.1, ?_⟩
  unfold operand_data_types
  apply List.ext_getElem?
  intro i
  rw [List.getElem?_map, List.getElem?_map]
  have key := hcon.2.2 i
  rw [List.get?_eq_getElem?, List.get?_eq_getElem?] at key
  exact key

theorem link_lt_irrefl (a : Link) : Link.lt a a = false := by
  cases a <;> simp [Link.lt]

theorem link_lt_total (a b : Link) (h : a ≠ b) : Link.lt a b = true ∨ Link.lt b a = true := by
  cases a <;> cases b <;> simp_all [Link.lt]

theorem indices_lt_irrefl : ∀ l : List IntLiteral, indices_lt l l = false
  | [] => rfl
  | a :: l => by simp [indices_lt, indices_lt_irrefl l]

theorem wrapper_lt_irrefl (r : ReferenceWrapper) : r.lt r = false := by
  simp [ReferenceWrapper.lt, link_lt_irrefl, indices_lt_irrefl]

/-- What `Accesses.find` returns: the lower bound position, when the entry there is not
above the key; the entry is then equivalent to the key. -/
theorem Accesses.find_spec (m : Accesses) (k : ReferenceWrapper) :
    (m.find k = none ∨
      ∃ e, m.find k = some (m.lower_bound k) ∧ m.get? (m.lower_bound k) = some e ∧
        k.lt e.1 = false ∧ e.1.lt k = false) := by
  unfold Accesses.find
  cases hg : m.get? (m.lower_bound k) with
  | none => exact Or.inl rfl
  | some e =>
    by_cases hlt : k.lt e.1 = true
    · left; simp [hlt]
    · right
      have hlt : k.lt e.1 = false := by simpa using hlt
      refine ⟨e, by simp [hlt], rfl, hlt, ?_⟩
      rw [List.get?_eq_getElem?] at hg
      obtain ⟨hi, he⟩ := List.getElem?_eq_some.1 hg
      have hi2 : List.findIdx (fun e => !(e.1.lt k)) m < m.length := hi
      have key := List.findIdx_getElem (w := hi2)
      have he2 : m[List.findIdx (fun e => !(e.1.lt k)) m] = e := he
      rw [he2] at key
      simpa using key

theorem set_getElem_same {α : Type} (l : List α) (i : Nat) (h : i < l.length) :
    l.set i l[i] = l := by
  apply List.ext_getElem
  · simp
  · intro n h1 h2
    by_cases hn : i = n
    · subst hn; simp
    · simp [List.getElem_set, hn]

theorem Accesses.lower_bound_le (m : Accesses) (k : ReferenceWrapper) :
    m.lower_bound k ≤ m.length :=
  List.findIdx_le_length _

/-- After inserting an entry for `k` at the lower bound position, `find` sees that entry. -/
theorem Accesses.find_insert (m : Accesses) (k : ReferenceWrapper) (mode : AccessMode) :
    Accesses.find (m.take (m.lower_bound k) ++ (k, mode) :: m.drop (m.lower_bound k)) k =
      some (m.lower_bound k) ∧
    List.getD (m.take (m.lower_bound k) ++ (k, mode) :: m.drop (m.lower_bound k))
      (m.lower_bound k) default = (k, mode) := by
  have hle := Accesses.lower_bound_le m k
  have hlen : (m.take (m.lower_bound k)).length = m.lower_bound k := by
    rw [List.length_take]; omega
  have hlb : Accesses.lower_bound
      (m.take (m.lower_bound k) ++ (k, mode) :: m.drop (m.lower_bound k)) k =
      m.lower_bound k := by
    show List.findIdx _ _ = _
    rw [List.findIdx_append]
    have hall : List.findIdx (fun e : ReferenceWrapper × AccessMode => !(e.1.lt k))
        (m.take (m.lower_bound k)) = (m.take (m.lower_bound k)).length := by
      apply List.findIdx_eq_length_of_false
      intro x hx
      obtain ⟨i, hi, rfl⟩ := List.mem_take_iff_getElem.1 hx
      exact List.not_of_lt_findIdx (lt_of_lt_of_le hi (min_le_left _ _))
    rw [hall, if_neg (lt_irrefl _), List.findIdx_cons]
    simp [wrapper_lt_irrefl, hlen]
  have hget : (m.take (m.lower_bound k) ++ (k, mode) :: m.drop (m.lower_bound k))[
      m.lower_bound k]? = some (k, mode) := by
    rw [List.getElem?_append_right (by omega), hlen]
    simp
  constructor
  · unfold Accesses.find
    rw [hlb, List.get?_eq_getElem?, hget]
    simp [wrapper_lt_irrefl]
  · rw [List.getD_eq_getElem?_getD, hget]; rfl

theorem ObjectAccesses.record_none (self : ObjectAccesses) (mode : AccessMode)
    (r : ReferenceWrapper) (h : self.accesses.find r = none) :
    self.record mode r = { self with
      accesses := self.accesses.take (self.accesses.lower_bound r) ++
        (r, mode) :: self.accesses.drop (self.accesses.lower_bound r) } := by
  unfold ObjectAccesses.record
  rw [h]

theorem ObjectAccesses.record_some (self : ObjectAccesses) (mode : AccessMode)
    (r : ReferenceWrapper) (i : Nat) (h : self.accesses.find r = some i) :
    ∃ e, self.accesses.get? i = some e ∧ r.lt e.1 = false ∧ e.1.lt r = false ∧
      self.record mode r = { self with
        accesses := self.accesses.set i (e.1, if e.2 = mode then e.2 else AccessMode.WRITE) } := by
  rcases Accesses.find_spec self.accesses r with hn | ⟨e, h1, h2, h3, h4⟩
  · rw [hn] at h; cases h
  · rw [h1] at h
    have hi : self.accesses.lower_bound r = i := by injection h
    rw [hi] at h1 h2
    refine ⟨e, h2, h3, h4, ?_⟩
    unfold ObjectAccesses.record
    rw [h1]
    have hd : self.accesses.getD i default = e := by
      rw [List.get?_eq_getElem?] at h2
      rw [List.getD_eq_getElem?_getD, h2]; rfl
    simp only [hd]
    by_cases hm : e.2 = mode
    · rw [if_neg (by simpa using hm), if_pos hm]
      have : self.accesses.set i (e.1, e.2) = self.accesses := by
        rw [List.get?_eq_getElem?] at h2
        obtain ⟨hlt, he⟩ := List.getElem?_eq_some.1 h2
        have : (e.1, e.2) = self.accesses[i] := by rw [he]
        rw [this]
        exact set_getElem_same _ _ hlt
      rw [this]
    · rw [if_pos (by simpa using hm), if_neg hm]

theorem link_lt_asymm (a b : Link) (h : Link.lt a b = true) : Link.lt b a = false := by
  cases a <;> cases b <;> simp_all [Link.lt]
  omega

theorem ObjectAccesses.add_access_eq_record (ir : Root) (self : ObjectAccesses) (m : AccessMode)
    (r : ReferenceWrapper) (hm : m ≠ AccessMode.MEASURE) :
    self.add_access ir m r =
      self.record (if m = AccessMode.LITERAL then AccessMode.READ else m) r := by
  unfold ObjectAccesses.add_access
  by_cases h : m = AccessMode.LITERAL
  · simp [h]
  · simp [h, hm]

theorem set_insert_at {α : Type} (l : List α) (n : Nat) (x y : α) (h : n ≤ l.length) :
    (l.take n ++ x :: l.drop n).set n y = l.take n ++ y :: l.drop n := by
  have hlen : (l.take n).length = n := by rw [List.length_take]; omega
  rw [List.set_append_right _ _ (by omega), hlen]
  simp

/-- C9. Access-mode merge: for a mode other than MEASURE, `add_access` first replaces
LITERAL by READ. When the map has no entry for the reference, it inserts the reference with
that mode at its place in key order and changes nothing else. When the map has an entry for
the reference, that entry keeps its mode if it is the new mode and gets mode WRITE
otherwise, and nothing else changes. Hence two accesses in a row to a reference that was
not recorded leave one entry for it, with the common mode when the two (adjusted) modes are
the same and with WRITE otherwise. -/
theorem access_mode_merge (ir : Root) (self : ObjectAccesses) (m : AccessMode)
    (r : ReferenceWrapper) (hm : m ≠ AccessMode.MEASURE) :
    (self.accesses.find r = none →
      self.add_access ir m r = { self with
        accesses := self.accesses.take (self.accesses.lower_bound r) ++
          (r, if m = AccessMode.LITERAL then AccessMode.READ else m) ::
            self.accesses.drop (self.accesses.lower_bound r) }) ∧
    (∀ i, self.accesses.find r = some i →
      ∃ e, self.accesses.get? i = some e ∧ r.lt e.1 = false ∧ e.1.lt r = false ∧
        self.add_access ir m r = { self with
          accesses := self.accesses.set i
            (e.1, if e.2 = (if m = AccessMode.LITERAL then AccessMode.READ else m) then e.2
              else AccessMode.WRITE) }) ∧
    (∀ m2, m2 ≠ AccessMode.MEASURE → self.accesses.find r = none →
      ((self.add_access ir m r).add_access ir m2 r).accesses =
        self.accesses.take (self.accesses.lower_bound r) ++
          (r, if (if m = AccessMode.LITERAL then AccessMode.READ else m) =
              (if m2 = AccessMode.LITERAL then AccessMode.READ else m2)
            then (if m = AccessMode.LITERAL then AccessMode.READ else m)
            else AccessMode.WRITE) ::
            self.accesses.drop (self.accesses.lower_bound r)) := by
  rw [ObjectAccesses.add_access_eq_record ir self m r hm]
  refine ⟨fun h => ObjectAccesses.record_none self _ r h,
    fun i h => ObjectAccesses.record_some self _ r i h, ?_⟩
  intro m2 hm2 h
  rw [ObjectAccesses.add_access_eq_record ir _ m2 r hm2, ObjectAccesses.record_none self _ r h]
  obtain ⟨f1, f2⟩ := Accesses.find_insert self.accesses r
    (if m = AccessMode.LITERAL then AccessMode.READ else m)
  obtain ⟨e, e1, _, _, e4⟩ := ObjectAccesses.record_some
    { self with accesses := self.accesses.take (self.accesses.lower_bound r) ++
      (r, if m = AccessMode.LITERAL then AccessMode.READ else m) ::
        self.accesses.drop (self.accesses.lower_bound r) }
    (if m2 = AccessMode.LITERAL then AccessMode.READ else m2) r _ f1
  rw [e4]
  have he : e = (r, if m = AccessMode.LITERAL then AccessMode.READ else m) := by
    rw [List.getD_eq_getElem?_getD, ← List.get?_eq_getElem?] at f2
    have e1 : List.get? (self.accesses.take (self.accesses.lower_bound r) ++
      (r, if m = AccessMode.LITERAL then AccessMode.READ else m) ::
        self.accesses.drop (self.accesses.lower_bound r)) (self.accesses.lower_bound r) =
        some e := e1
    rw [e1] at f2
    exact f2
  subst he
  exact set_insert_at _ _ _ _ (Accesses.lower_bound_le _ _)

theorem ObjectAccesses.record_empty (self : ObjectAccesses) (mode : AccessMode)
    (k : ReferenceWrapper) (h : self.accesses = []) :
    (self.record mode k).accesses = [(k, mode)] := by
  unfold ObjectAccesses.record
  simp [h, Accesses.find, Accesses.lower_bound]

theorem ObjectAccesses.record_after (self : ObjectAccesses) (mode m1 : AccessMode)
    (k c : ReferenceWrapper) (h : self.accesses = [(c, m1)]) (h1 : c.lt k = true) :
    (self.record mode k).accesses = [(c, m1), (k, mode)] := by
  unfold ObjectAccesses.record
  simp [h, Accesses.find, Accesses.lower_bound, List.findIdx_cons, h1]

theorem ObjectAccesses.record_before (self : ObjectAccesses) (mode m1 : AccessMode)
    (k c : ReferenceWrapper) (h : self.accesses = [(c, m1)]) (h1 : c.lt k = false)
    (h2 : k.lt c = true) :
    (self.record mode k).accesses = [(k, mode), (c, m1)] := by
  unfold ObjectAccesses.record
  simp [h, Accesses.find, Accesses.lower_bound, List.findIdx_cons, h1, h2]

/-- C10. MEASURE split: on an access map without entries, `add_access` with mode MEASURE
for a reference `r` whose data type is not the implicit bit type of the platform records
exactly two entries, both with mode WRITE: `r` itself, as it was passed in, and a reference
with the target of `r`, with index literals equal in value to those of `r`, and with the
implicit bit type as data type; the two entries are in key order. -/
theorem measure_split (ir : Root) (self : ObjectAccesses) (r : ReferenceWrapper)
    (hempty : self.accesses = [])
    (hdiff : r.reference.data_type ≠ ir.platform.implicit_bit_type) :
    ∃ copy : ReferenceWrapper,
      copy.reference.target = r.reference.target ∧
      copy.reference.data_type = ir.platform.implicit_bit_type ∧
      indices_equal copy.reference.indices r.reference.indices = true ∧
      (self.add_access ir AccessMode.MEASURE r).accesses =
        (if Link.lt r.reference.data_type ir.platform.implicit_bit_type
          then [(r, AccessMode.WRITE), (copy, AccessMode.WRITE)]
          else [(copy, AccessMode.WRITE), (r, AccessMode.WRITE)]) := by
  refine ⟨{ reference := { (r.reference.clone self.next_addr).1 with
      data_type := ir.platform.implicit_bit_type } }, rfl, rfl, indices_equal_clone _ _, ?_⟩
  unfold ObjectAccesses.add_access
  simp only [reduceCtorEq, if_false, if_true]
  have h1 := ObjectAccesses.record_empty { self with
      next_addr := (r.reference.clone self.next_addr).2 } AccessMode.WRITE
      { reference := { (r.reference.clone self.next_addr).1 with
          data_type := ir.platform.implicit_bit_type } } hempty
  rcases link_lt_total _ _ hdiff with hlt | hlt
  · have hlt2 := link_lt_asymm _ _ hlt
    rw [if_pos hlt]
    apply ObjectAccesses.record_before _ _ _ _ _ h1
    · simp [ReferenceWrapper.lt, Reference.clone, link_lt_irrefl, hlt]
    · simp [ReferenceWrapper.lt, Reference.clone, link_lt_irrefl, hlt, hlt2]
  · have hlt2 := link_lt_asymm _ _ hlt
    rw [if_neg (by simp [hlt2])]
    apply ObjectAccesses.record_after _ _ _ _ _ h1
    simp [ReferenceWrapper.lt, Reference.clone, link_lt_irrefl, hlt, hlt2]

theorem Root.well_formed.links_valid {ir : Root} (h : ir.well_formed) : ir.links_valid :=
  ⟨h.consistent.top, fun _ hp _ hc => tree_consistent_child_lt h.consistent hp hc⟩

theorem example_ir1_built : Built example_ir1 :=
  Built.add_instruction_type _ _ _ (Built.empty example_ir0 rfl rfl)

theorem example_ir2_built : Built example_ir2 :=
  Built.add_instruction_type _ _ _ example_ir1_built

theorem example_ir4_registered : Registered example_ir4 :=
  Registered.find_instruction_type _ _ _ _
    (Registered.add_instruction_type _ _ _
      (Registered.add_instruction_type _ _ _ (Registered.empty example_ir0 rfl rfl)))

/-- C6. `find_instruction_type` without overload generation: on a name-sorted
instruction collection it does not modify the IR and returns the first entry, in collection
order, with the given name and with the given operand data types position by position, or
the empty link when there is no such entry. -/
theorem find_instruction_type_without_generation (ir : Root) (name : String) (types : List Link)
    (hs : ir.names_sorted) :
    find_instruction_type ir name types false =
      (ir, ir.platform.instructions.find? fun id =>
        decide ((ir.node id).name = name) &&
          decide (operand_data_types (ir.node id).operand_types = types)) :=
  find_instruction_type_false_eq ir name types hs

/-- C1, witness: on the platform with `g` and `g q[3]`, the operand `q[3]` gives the
specialized node with no operands left, and the operand `q[4]` gives the general node with
the operand kept. -/
theorem specialization_dispatch_witness :
    Built example_ir2 ∧ "g" ≠ "set" ∧ "g" ≠ "wait" ∧ "g" ≠ "barrier" ∧
    (∃ c, (make_instruction example_ir2 "g" [example_qubit_ref 7 3] none false false).2 =
        .ok (some (.custom_instruction c)) ∧
      c.instruction_type = some 1 ∧ c.operands = []) ∧
    (∃ c, (make_instruction example_ir2 "g" [example_qubit_ref 7 4] none false false).2 =
        .ok (some (.custom_instruction c)) ∧
      c.instruction_type = some 0 ∧ c.operands = [example_qubit_ref 7 4]) ∧
    (make_instruction example_ir2 "g" [example_qubit_ref 7 3] none false false).1 =
      example_ir2 :=
  ⟨example_ir2_built, by decide, by decide, by decide, ⟨_, rfl, rfl, rfl⟩, ⟨_, rfl, rfl, rfl⟩,
    ((specialization_dispatch example_ir2 example_ir2_built "g" [example_qubit_ref 7 3] none
      false (by decide) (by decide) (by decide)).2 _ rfl).1⟩

/-- C2, witness: on the platform with `g` and `g q[3]`, the specialization (node 1) is
owned by the node of `g` (node 0) and is consistent with it. -/
theorem specialization_tree_consistency_witness :
    Built example_ir2 ∧ (example_ir2.node 1).generalization = some 0 ∧
    1 ∈ (example_ir2.node 0).specializations ∧
    ∃ e o, Expression.equals_list (example_ir2.node 1).template_operands
        ((example_ir2.node 0).template_operands ++ [e]) = true ∧
      (example_ir2.node 0).operand_types = o :: (example_ir2.node 1).operand_types ∧
      get_type_of example_ir2 e = .ok o.data_type :=
  ⟨example_ir2_built, rfl,
    (specialization_tree_consistency example_ir2 example_ir2_built).2.2 1 0 (by decide) rfl⟩

/-- C4 as amended, witness: registering `g q[3]` with a rule creates node 1, which has no
specializations and holds the rule. -/
theorem new_nodes_decompositions_witness :
    example_ir1.links_valid ∧ example_ir1.names_sorted ∧
    (add_or_find_instruction_type example_ir1 example_g_rule [example_qubit_ref 0 3]).result =
      .ok (1, true) ∧
    ((add_or_find_instruction_type example_ir1 example_g_rule
        [example_qubit_ref 0 3]).ir.node 1).specializations = [] ∧
    ((add_or_find_instruction_type example_ir1 example_g_rule
        [example_qubit_ref 0 3]).ir.node 1).decompositions = example_g_rule.decompositions :=
  ⟨example_ir1_built.well_formed.links_valid, example_ir1_built.well_formed.sorted, rfl,
    (new_nodes_decompositions example_ir1 example_g_rule [example_qubit_ref 0 3]
      example_ir1_built.well_formed.links_valid example_ir1_built.well_formed.sorted
      1 true rfl).2.1 (by decide)⟩

/-- C5, witness: the invariant on the platform reached by two registrations and one
overload generation. -/
theorem instruction_registry_invariant_witness :
    Registered example_ir4 ∧ example_ir4.platform.instructions = [0, 2] ∧
    (example_ir4.platform.instructions.map fun id => (example_ir4.node id).name).Pairwise
      (· ≤ ·) :=
  ⟨example_ir4_registered, by decide,
    (instruction_registry_invariant example_ir4 example_ir4_registered).1⟩

/-- C6, witness: `g` on a qubit operand is found as entry 0 and the IR is kept. -/
theorem find_instruction_type_without_generation_witness :
    example_ir2.names_sorted ∧
    find_instruction_type example_ir2 "g" [some 0] false =
      (example_ir2, example_ir2.platform.instructions.find? fun id =>
        decide ((example_ir2.node id).name = "g") &&
          decide (operand_data_types (example_ir2.node id).operand_types = [some 0])) ∧
    (find_instruction_type example_ir2 "g" [some 0] false).2 = some 0 :=
  ⟨example_ir2_built.well_formed.sorted,
    find_instruction_type_without_generation example_ir2 "g" [some 0]
      example_ir2_built.well_formed.sorted, by decide⟩

/-- C7, witness: on the platform with `g` on a qubit operand, asking for `g` on a bit
operand with overload generation inserts and returns node 2, whose operand type is the bit
type with mode WRITE, and asking again returns node 2 without a change. -/
theorem overload_generation_witness :
    (∀ id ∈ example_ir2.platform.instructions, id < example_ir2.instruction_nodes.length) ∧
    example_ir2.names_sorted ∧
    (∀ id ∈ example_ir2.platform.instructions,
      ¬ ((example_ir2.node id).name = "g" ∧
        operand_data_types (example_ir2.node id).operand_types = [some 1])) ∧
    (find_instruction_type example_ir2 "g" [some 1] true).2 = some 2 ∧
    (find_instruction_type example_ir2 "g" [some 1] true).1.platform.instructions = [0, 2] ∧
    ∃ pos e, (find_instruction_type example_ir2 "g" [some 1] true).2 = some e ∧
      e ∉ example_ir2.platform.instructions ∧ pos ≤ example_ir2.platform.instructions.length ∧
      (find_instruction_type example_ir2 "g" [some 1] true).1.platform.instructions =
        example_ir2.platform.instructions.take pos ++
          e :: example_ir2.platform.instructions.drop pos ∧
      ((find_instruction_type example_ir2 "g" [some 1] true).1.node e).name = "g" ∧
      ((find_instruction_type example_ir2 "g" [some 1] true).1.node e).operand_types =
        [some 1].map (fun t => { mode := AccessMode.WRITE, data_type := t }) ∧
      Extends example_ir2 (find_instruction_type example_ir2 "g" [some 1] true).1 ∧
      ∀ g, find_instruction_type (find_instruction_type example_ir2 "g" [some 1] true).1
          "g" [some 1] g =
        ((find_instruction_type example_ir2 "g" [some 1] true).1, some e) :=
  ⟨by decide, example_ir2_built.well_formed.sorted, by decide, by decide, by decide,
    (overload_generation example_ir2 "g" [some 1] (by decide)
      example_ir2_built.well_formed.sorted (by decide)).1 ⟨0, by decide, by decide⟩⟩

/-- C8, witness: a rule for `g q[3]`, which exists as node 1, is appended to the rules of
node 1 and nothing else changes. -/
theorem add_decomposition_rule_spec_witness :
    example_ir2.links_valid ∧ example_ir2.names_sorted ∧
    (add_decomposition_rule example_ir2 example_g_rule [example_qubit_ref 0 3]).2 = .ok 1 ∧
    existing_instruction_type example_ir2 example_g_rule [example_qubit_ref 0 3] = some 1 ∧
    (add_decomposition_rule example_ir2 example_g_rule [example_qubit_ref 0 3]).1 =
      example_ir2.set_node 1
        { example_ir2.node 1 with
          decompositions := (example_ir2.node 1).decompositions ++
            example_g_rule.decompositions } :=
  ⟨example_ir2_built.well_formed.links_valid, example_ir2_built.well_formed.sorted, rfl, rfl,
    ((add_decomposition_rule_spec example_ir2 example_g_rule [example_qubit_ref 0 3]
      example_ir2_built.well_formed.links_valid example_ir2_built.well_formed.sorted 1 rfl).1
      1 rfl).2⟩

/-- C9, witness: READ then WRITE gives WRITE, READ then READ gives READ, LITERAL then READ
gives READ, and COMMUTE_Z then COMMUTE_Z gives COMMUTE_Z. -/
theorem access_mode_merge_witness :
    AccessMode.READ ≠ AccessMode.MEASURE ∧
    ((ObjectAccesses.add_access example_ir0 {} AccessMode.READ example_key).add_access
      example_ir0 AccessMode.WRITE example_key).accesses = [(example_key, AccessMode.WRITE)] ∧
    ((ObjectAccesses.add_access example_ir0 {} AccessMode.READ example_key).add_access
      example_ir0 AccessMode.READ example_key).accesses = [(example_key, AccessMode.READ)] ∧
    ((ObjectAccesses.add_access example_ir0 {} AccessMode.LITERAL example_key).add_access
      example_ir0 AccessMode.READ example_key).accesses = [(example_key, AccessMode.READ)] ∧
    ((ObjectAccesses.add_access example_ir0 {} AccessMode.COMMUTE_Z example_key).add_access
      example_ir0 AccessMode.COMMUTE_Z example_key).accesses =
        [(example_key, AccessMode.COMMUTE_Z)] :=
  ⟨by decide,
    (access_mode_merge example_ir0 {} AccessMode.READ example_key (by decide)).2.2
      AccessMode.WRITE (by decide) rfl,
    (access_mode_merge example_ir0 {} AccessMode.READ example_key (by decide)).2.2
      AccessMode.READ (by decide) rfl,
    (access_mode_merge example_ir0 {} AccessMode.LITERAL example_key (by decide)).2.2
      AccessMode.READ (by decide) rfl,
    (access_mode_merge example_ir0 {} AccessMode.COMMUTE_Z example_key (by decide)).2.2
      AccessMode.COMMUTE_Z (by decide) rfl⟩

/-- C10, witness: measuring `q[3]` on an empty access map records `q[3]` and its view as
the implicit bit, both with mode WRITE. -/
theorem measure_split_witness :
    ({} : ObjectAccesses).accesses = [] ∧
    example_key.reference.data_type ≠ example_ir0.platform.implicit_bit_type ∧
    ∃ copy : ReferenceWrapper,
      copy.reference.target = example_key.reference.target ∧
      copy.reference.data_type = example_ir0.platform.implicit_bit_type ∧
      indices_equal copy.reference.indices example_key.reference.indices = true ∧
      (ObjectAccesses.add_access example_ir0 {} AccessMode.MEASURE example_key).accesses =
        (if Link.lt example_key.reference.data_type example_ir0.platform.implicit_bit_type
          then [(example_key, AccessMode.WRITE), (copy, AccessMode.WRITE)]
          else [(copy, AccessMode.WRITE), (example_key, AccessMode.WRITE)]) :=
  ⟨rfl, by decide, measure_split example_ir0 {} example_key rfl (by decide)⟩

theorem link_lt_none (a : Link) : Link.lt a none = false := by
  cases a <;> rfl

theorem indices_lt_nil (l : List IntLiteral) : indices_lt l [] = false := by
  cases l <;> rfl

/-- No key is below the empty reference. -/
theorem lt_empty (r : ReferenceWrapper) : r.lt {} = false := by
  simp only [ReferenceWrapper.lt, link_lt_none, indices_lt_nil]
  cases hr : Link.lt none r.reference.target <;> cases hd : Link.lt none r.reference.data_type <;>
    simp_all [show ({} : ReferenceWrapper).reference.target = none from rfl,
      show ({} : ReferenceWrapper).reference.data_type = none from rfl,
      show ({} : ReferenceWrapper).reference.indices = [] from rfl, link_lt_none, indices_lt_nil]

/-- The empty reference is below every reference with a target. -/
theorem empty_lt_of_target (r : ReferenceWrapper) (h : r.reference.target ≠ none) :
    ReferenceWrapper.lt {} r = true := by
  cases ht : r.reference.target with
  | none => exact absurd ht h
  | some t =>
    simp [ReferenceWrapper.lt, ht, Link.lt,
      show ({} : ReferenceWrapper).reference.target = none from rfl]

/-- A key that the empty reference is not below is the empty reference. -/
theorem eq_empty_of_not_empty_lt (r : ReferenceWrapper) (h : ReferenceWrapper.lt {} r = false) :
    r = {} := by
  obtain ⟨⟨t, d, i⟩⟩ := r
  cases t <;> cases d <;> cases i <;>
    simp_all [ReferenceWrapper.lt, Link.lt, indices_lt,
      show ({} : ReferenceWrapper).reference.target = none from rfl,
      show ({} : ReferenceWrapper).reference.data_type = none from rfl,
      show ({} : ReferenceWrapper).reference.indices = [] from rfl]

theorem lower_bound_empty (l : Accesses) : l.lower_bound {} = 0 := by
  cases l with
  | nil => rfl
  | cons e t => simp [Accesses.lower_bound, List.findIdx_cons, lt_empty]

/-- The mode recorded for the empty reference is read off the first entry. -/
theorem mode_empty_eq (l : Accesses) :
    l.mode {} = match l with
      | [] => none
      | e :: _ => if ReferenceWrapper.lt {} e.1 then none else some e.2 := by
  unfold Accesses.mode Accesses.find
  rw [lower_bound_empty]
  cases l with
  | nil => rfl
  | cons e t =>
    simp only [List.get?_cons_zero]
    by_cases h : ReferenceWrapper.lt {} e.1 = true
    · simp [h]
    · simp [h]

/-- Recording a key that is above the empty reference does not change what is recorded for
the empty reference. -/
theorem mode_empty_record_other (self : ObjectAccesses) (m : AccessMode) (r : ReferenceWrapper)
    (hlt : ReferenceWrapper.lt {} r = true) :
    (self.record m r).accesses.mode {} = self.accesses.mode {} := by
  rw [mode_empty_eq, mode_empty_eq]
  cases hl : self.accesses with
  | nil =>
    have : (self.record m r).accesses = [(r, m)] := ObjectAccesses.record_empty self m r hl
    rw [this]
    simp [hlt]
  | cons e t =>
    have hkey : ReferenceWrapper.lt e.1 r = false → ReferenceWrapper.lt {} e.1 = true := by
      intro h
      by_contra hne
      have := eq_empty_of_not_empty_lt e.1 (by simpa using hne)
      rw [this, hlt] at h
      cases h
    cases hf : self.accesses.find r with
    | none =>
      rw [ObjectAccesses.record_none self m r hf]
      simp only [hl]
      by_cases he : ReferenceWrapper.lt e.1 r = true
      · have hlb : Accesses.lower_bound (e :: t) r = Accesses.lower_bound t r + 1 := by
          simp [Accesses.lower_bound, List.findIdx_cons, he]
        rw [hlb]
        simp
      · have he : ReferenceWrapper.lt e.1 r = false := by simpa using he
        have hlb : Accesses.lower_bound (e :: t) r = 0 := by
          simp [Accesses.lower_bound, List.findIdx_cons, he]
        rw [hlb]
        simp [hlt, hkey he]
    | some i =>
      obtain ⟨e', h1, h2, h3, h4⟩ := ObjectAccesses.record_some self m r i hf
      rw [h4]
      simp only [hl]
      cases i with
      | zero =>
        rw [hl] at h1
        simp only [List.get?_cons_zero, Option.some.injEq] at h1
        subst h1
        simp [hkey h3]
      | succ j => simp

/-- Recording the empty reference merges the mode into what is recorded for it. -/
theorem mode_empty_record_self (self : ObjectAccesses) (m : AccessMode) :
    (self.record m {}).accesses.mode {} = some (merged_mode (self.accesses.mode {}) m) := by
  cases hf : self.accesses.find {} with
  | none =>
    have hm : self.accesses.mode {} = none := by simp [Accesses.mode, hf]
    rw [ObjectAccesses.record_none self m {} hf, hm, lower_bound_empty, mode_empty_eq]
    simp [lt_empty, merged_mode]
  | some i =>
    obtain ⟨e, h1, h2, h3, h4⟩ := ObjectAccesses.record_some self m {} i hf
    have hm : self.accesses.mode {} = some e.2 := by
      unfold Accesses.mode
      rw [hf]
      simp only []
      rw [h1]
      rfl
    have hi : i = 0 := by
      rcases Accesses.find_spec self.accesses {} with hn | ⟨_, k1, _⟩
      · rw [hn] at hf; cases hf
      · rw [k1, lower_bound_empty] at hf
        injection hf with hf
        exact hf.symm
    subst hi
    rw [h4, hm, mode_empty_eq]
    cases hl : self.accesses with
    | nil => rw [hl] at h1; cases h1
    | cons e0 t =>
      rw [hl] at h1
      simp only [List.get?_cons_zero, Option.some.injEq] at h1
      subst h1
      simp [h2, merged_mode]

theorem BarrierStep.step_refl (self : ObjectAccesses) (wf : Bool) : BarrierStep self self wf false :=
  ⟨fun h => h, fun _ h => h, fun _ _ => by simp⟩

theorem BarrierStep.step_trans {a b c : ObjectAccesses} {w1 w2 b1 b2 : Bool}
    (h1 : BarrierStep a b w1 b1) (h2 : BarrierStep b c w2 b2) :
    BarrierStep a c (w1 && w2) (b1 || b2) := by
  refine ⟨fun h => h2.write_stays (h1.write_stays h), ?_, ?_⟩
  · intro hw hv
    simp only [Bool.and_eq_true] at hw
    exact h2.valid hw.2 (h1.valid hw.1 hv)
  · intro hw hv
    simp only [Bool.and_eq_true] at hw
    rw [h2.write_iff hw.2 (h1.valid hw.1 hv), h1.write_iff hw.1 hv]
    simp only [Bool.or_eq_true]
    tauto

/-- A step whose result has the same entry for the empty reference when it is
well-formed, and that keeps an entry with mode WRITE in any case. -/
theorem BarrierStep.of_same {self acc : ObjectAccesses} {wf : Bool}
    (hw : self.accesses.mode {} = some AccessMode.WRITE →
      acc.accesses.mode {} = some AccessMode.WRITE)
    (hs : wf = true → acc.accesses.mode {} = self.accesses.mode {}) :
    BarrierStep self acc wf false :=
  ⟨hw, fun h hv => by rw [hs h]; exact hv, fun h _ => by rw [hs h]; simp⟩

theorem BarrierStep.weaken {self acc : ObjectAccesses} {wf wf' b b' : Bool}
    (h : BarrierStep self acc wf b) (hw : wf' = true → wf = true) (hb : b' = b) :
    BarrierStep self acc wf' b' := by
  subst hb
  exact ⟨h.write_stays, fun h1 => h.valid (hw h1), fun h1 => h.write_iff (hw h1)⟩

theorem record_write_stays (self : ObjectAccesses) (m : AccessMode) (r : ReferenceWrapper)
    (h : self.accesses.mode {} = some AccessMode.WRITE) :
    (self.record m r).accesses.mode {} = some AccessMode.WRITE := by
  by_cases hlt : ReferenceWrapper.lt {} r = true
  · rw [mode_empty_record_other self m r hlt, h]
  · have hr := eq_empty_of_not_empty_lt r (by simpa using hlt)
    subst hr
    rw [mode_empty_record_self, h]
    simp [merged_mode]

theorem clone_target (r : Reference) (next : Nat) : (r.clone next).1.target = r.target := rfl

/-- The step of `add_access`. -/
theorem BarrierStep.add_access (ir : Root) (self : ObjectAccesses) (m : AccessMode)
    (r : ReferenceWrapper) :
    BarrierStep self (self.add_access ir m r) r.reference.target.isSome false := by
  apply BarrierStep.of_same
  · intro h
    unfold ObjectAccesses.add_access
    split
    · exact record_write_stays _ _ _ h
    · split
      · exact record_write_stays _ _ _ (record_write_stays _ _ _ h)
      · exact record_write_stays _ _ _ h
  · intro ht
    have ht : r.reference.target ≠ none := by
      intro hn; rw [hn] at ht; cases ht
    have hlt := empty_lt_of_target r ht
    unfold ObjectAccesses.add_access
    split
    · exact mode_empty_record_other _ _ _ hlt
    · split
      · rw [mode_empty_record_other _ _ _ hlt, mode_empty_record_other]
        exact empty_lt_of_target _ ht
      · exact mode_empty_record_other _ _ _ hlt

/-- The step of the final access of `add_statement`; afterwards the empty reference has an
entry. -/
theorem BarrierStep.add_barrier_access (ir : Root) (self : ObjectAccesses) (barrier : Bool) :
    BarrierStep self (self.add_barrier_access ir barrier) true barrier ∧
    (self.add_barrier_access ir barrier).accesses.mode {} ≠ none := by
  have key : (self.add_barrier_access ir barrier).accesses.mode {} =
      some (merged_mode (self.accesses.mode {})
        (if barrier then AccessMode.WRITE else AccessMode.READ)) := by
    unfold ObjectAccesses.add_barrier_access ObjectAccesses.add_access
    cases barrier <;> simp [mode_empty_record_self]
  refine ⟨⟨?_, ?_, ?_⟩, ?_⟩
  · intro h
    rw [key, h]
    cases barrier <;> simp [merged_mode]
  · intro _ hv
    rw [key]
    rcases hv with h | h | h <;> rw [h] <;> cases barrier <;>
      simp [barrier_mode_valid, merged_mode]
  · intro _ hv
    rw [key]
    rcases hv with h | h | h <;> rw [h] <;> cases barrier <;> simp [merged_mode]
  · rw [key]
    simp

mutual
/-- The step of `add_expression`. -/
theorem add_expression_step (ir : Root) :
    ∀ (e : Expression) (self : ObjectAccesses) (m : AccessMode) (acc : ObjectAccesses),
      self.add_expression ir m e = .ok acc → BarrierStep self acc (e.well_formed ir) false
  | .reference r, self, m, acc, h => by
    simp only [ObjectAccesses.add_expression, Except.ok.injEq] at h
    subst h
    exact BarrierStep.add_access ir self m { reference := r }
  | .bit_literal _ _, self, m, acc, h => by
    simp only [ObjectAccesses.add_expression, Except.ok.injEq] at h
    subst h
    exact BarrierStep.step_refl _ _
  | .int_literal _ _, self, m, acc, h => by
    simp only [ObjectAccesses.add_expression, Except.ok.injEq] at h
    subst h
    exact BarrierStep.step_refl _ _
  | .string_literal _ _, self, m, acc, h => by
    simp only [ObjectAccesses.add_expression, Except.ok.injEq] at h
    subst h
    exact BarrierStep.step_refl _ _
  | .function_call f operands, self, m, acc, h => by
    simp only [ObjectAccesses.add_expression] at h
    cases f with
    | none => simp at h
    | some p =>
      simp only [] at h
      cases hft : ir.function_nodes.get? p with
      | none => rw [hft] at h; simp at h
      | some ft =>
        rw [hft] at h
        simp only [] at h
        cases hc : count_qubit_types ir ft.operand_types with
        | error e => simp [hc] at h
        | ok n =>
          simp only [hc] at h
          refine (add_operands_loop_step ir operands self _ _ acc h).weaken ?_ rfl
          intro hw
          simp only [Expression.well_formed, Bool.and_eq_true] at hw
          exact hw.2
/-- The step of the loop of `add_operands`. -/
theorem add_operands_loop_step (ir : Root) :
    ∀ (operands : List Expression) (self : ObjectAccesses) (disable : Bool)
      (prototype : List OperandType) (acc : ObjectAccesses),
      ObjectAccesses.add_operands_loop ir self disable prototype operands = .ok acc →
      BarrierStep self acc (Expression.well_formed_list ir operands) false
  | [], self, disable, prototype, acc, h => by
    cases prototype with
    | nil =>
      simp only [ObjectAccesses.add_operands_loop, Except.ok.injEq] at h
      subst h
      exact BarrierStep.step_refl _ _
    | cons o os => simp [ObjectAccesses.add_operands_loop] at h
  | e :: rest, self, disable, prototype, acc, h => by
    cases prototype with
    | nil =>
      simp only [ObjectAccesses.add_operands_loop, Except.ok.injEq] at h
      subst h
      exact (BarrierStep.step_refl _ true).weaken (fun _ => rfl) rfl
    | cons o os =>
      simp only [ObjectAccesses.add_operands_loop] at h
      cases h1 : self.add_expression ir (demote_commutation disable o.mode) e with
      | error err => simp [h1] at h
      | ok next =>
        simp only [h1] at h
        exact ((add_expression_step ir e self _ next h1).step_trans
          (add_operands_loop_step ir rest next disable os acc h)).weaken
          (fun hw => by simpa [Expression.well_formed_list] using hw) rfl
end

theorem add_operands_step (ir : Root) (self : ObjectAccesses) (prototype : List OperandType)
    (operands : List Expression) (acc : ObjectAccesses)
    (h : self.add_operands ir prototype operands = .ok acc) :
    BarrierStep self acc (Expression.well_formed_list ir operands) false := by
  unfold ObjectAccesses.add_operands at h
  cases hc : count_qubit_types ir prototype with
  | error e => simp [hc] at h
  | ok n =>
    simp only [hc] at h
    exact add_operands_loop_step ir operands self _ _ acc h

theorem add_template_operands_step (ir : Root) :
    ∀ (template_operands : List Expression) (self : ObjectAccesses)
      (operand_types : List OperandType) (acc : ObjectAccesses),
      self.add_template_operands ir operand_types template_operands = .ok acc →
      BarrierStep self acc (Expression.well_formed_list ir template_operands) false
  | [], self, operand_types, acc, h => by
    simp only [ObjectAccesses.add_template_operands, Except.ok.injEq] at h
    subst h
    exact BarrierStep.step_refl _ _
  | e :: rest, self, operand_types, acc, h => by
    cases operand_types with
    | nil => simp [ObjectAccesses.add_template_operands] at h
    | cons o os =>
      simp only [ObjectAccesses.add_template_operands] at h
      cases h1 : self.add_expression ir o.mode e with
      | error err => simp [h1] at h
      | ok next =>
        simp only [h1] at h
        exact ((add_expression_step ir e self _ next h1).step_trans
          (add_template_operands_step ir rest next os acc h)).weaken
          (fun hw => by simpa [Expression.well_formed_list] using hw) rfl

theorem add_condition_step (ir : Root) (self : ObjectAccesses) (condition : Option Expression)
    (acc : ObjectAccesses) (h : self.add_condition ir condition = .ok acc) :
    BarrierStep self acc (condition_well_formed ir condition) false := by
  cases condition with
  | none => simp [ObjectAccesses.add_condition] at h
  | some c => exact add_expression_step ir c self _ acc h

theorem add_custom_instruction_step (ir : Root) (self : ObjectAccesses)
    (custom : CustomInstruction) (acc : ObjectAccesses)
    (h : self.add_custom_instruction ir custom = .ok acc) :
    BarrierStep self acc (custom.well_formed ir) false := by
  unfold ObjectAccesses.add_custom_instruction at h
  cases h1 : self.add_condition ir custom.condition with
  | error e => simp [h1] at h
  | ok s1 =>
    simp only [h1] at h
    have st1 := add_condition_step ir self _ s1 h1
    cases ht : custom.instruction_type with
    | none => simp [ht] at h
    | some t =>
      simp only [ht] at h
      cases h2 : s1.add_operands ir (ir.node t).operand_types custom.operands with
      | error e => simp [h2] at h
      | ok s2 =>
        simp only [h2] at h
        have st2 := add_operands_step ir s1 _ _ s2 h2
        have hwf : custom.well_formed ir = true →
            condition_well_formed ir custom.condition = true ∧
            Expression.well_formed_list ir custom.operands = true ∧
            Expression.well_formed_list ir (ir.node t).template_operands = true := by
          intro hw
          simp only [CustomInstruction.well_formed, ht, Bool.and_eq_true, decide_eq_true_eq] at hw
          exact ⟨hw.1.1, hw.2, hw.1.2.1.2⟩
        by_cases hte : (ir.node t).template_operands.isEmpty = true
        · simp only [hte, if_true, Except.ok.injEq] at h
          subst h
          exact (st1.step_trans st2).weaken
            (fun hw => by simp [(hwf hw).1, (hwf hw).2.1]) rfl
        · simp only [hte, Bool.false_eq_true, if_false] at h
          cases hg : find_generalization ir
              ((ir.node t).template_operands.length + ir.instruction_nodes.length + 1) t with
          | none => simp [hg] at h
          | some gen =>
            simp only [hg] at h
            have st3 := add_template_operands_step ir _ s2 _ acc h
            exact ((st1.step_trans st2).step_trans st3).weaken
              (fun hw => by simp [(hwf hw).1, (hwf hw).2.1, (hwf hw).2.2]) rfl

theorem add_set_instruction_step (ir : Root) (self : ObjectAccesses) (set : SetInstruction)
    (acc : ObjectAccesses) (h : self.add_set_instruction ir set = .ok acc) :
    BarrierStep self acc (set.well_formed ir) false ∧ acc.accesses.mode {} ≠ none := by
  unfold ObjectAccesses.add_set_instruction at h
  cases h1 : self.add_condition ir set.condition with
  | error e => simp [h1] at h
  | ok s1 =>
    simp only [h1] at h
    cases h2 : s1.add_expression ir AccessMode.WRITE (.reference set.lhs) with
    | error e => simp [h2] at h
    | ok s2 =>
      simp only [h2] at h
      cases h3 : s2.add_expression ir AccessMode.READ set.rhs with
      | error e => simp [h3] at h
      | ok s3 =>
        simp only [h3, Except.ok.injEq] at h
        subst h
        have st1 := add_condition_step ir self _ s1 h1
        have st2 := add_expression_step ir _ s1 _ s2 h2
        have st3 := add_expression_step ir _ s2 _ s3 h3
        obtain ⟨st4, hn⟩ := BarrierStep.add_barrier_access ir s3 false
        refine ⟨(((st1.step_trans st2).step_trans st3).step_trans st4).weaken ?_ rfl, hn⟩
        intro hw
        simp only [SetInstruction.well_formed, Bool.and_eq_true] at hw
        simp [hw.1.1, hw.1.2, hw.2, Expression.well_formed]

theorem add_optional_set_step (ir : Root) (self : ObjectAccesses) (set : Option SetInstruction)
    (acc : ObjectAccesses) (h : self.add_optional_set ir set = .ok acc) :
    BarrierStep self acc (optional_set_well_formed ir set) false ∧
      acc.accesses.mode {} ≠ none := by
  cases set with
  | none => simp [ObjectAccesses.add_optional_set] at h
  | some s => exact add_set_instruction_step ir self s acc h

theorem add_wait_objects_step (ir : Root) :
    ∀ (objects : List Reference) (self : ObjectAccesses),
      BarrierStep self (self.add_wait_objects ir objects)
        (objects.all fun r => r.target.isSome) false
  | [], self => BarrierStep.step_refl _ _
  | r :: rest, self => by
    simp only [ObjectAccesses.add_wait_objects]
    exact ((BarrierStep.add_access ir self AccessMode.WRITE { reference := r }).step_trans
      (add_wait_objects_step ir rest _)).weaken
      (fun hw => by simpa using hw) rfl

mutual
/-- The step of `add_statement`; afterwards the empty reference has an entry. -/
theorem add_statement_step (ir : Root) :
    ∀ (s : Statement) (self acc : ObjectAccesses),
      ObjectAccesses.add_statement ir self s = .ok acc →
      BarrierStep self acc (s.well_formed ir) s.has_barrier ∧ acc.accesses.mode {} ≠ none
  | .custom_instruction custom, self, acc, h => by
    simp only [ObjectAccesses.add_statement] at h
    cases h1 : self.add_custom_instruction ir custom with
    | error e => simp [h1] at h
    | ok s1 =>
      simp only [h1, Except.ok.injEq] at h
      subst h
      obtain ⟨st, hn⟩ := BarrierStep.add_barrier_access ir s1 false
      exact ⟨((add_custom_instruction_step ir self custom s1 h1).step_trans st).weaken
        (fun hw => by simpa [Statement.well_formed] using hw) rfl, hn⟩
  | .set_instruction set, self, acc, h => by
    simp only [ObjectAccesses.add_statement] at h
    obtain ⟨st, hn⟩ := add_set_instruction_step ir self set acc h
    exact ⟨st.weaken (fun hw => by simpa [Statement.well_formed] using hw) rfl, hn⟩
  | .goto_instruction goto, self, acc, h => by
    simp only [ObjectAccesses.add_statement] at h
    cases h1 : self.add_condition ir goto.condition with
    | error e => simp [h1] at h
    | ok s1 =>
      simp only [h1, Except.ok.injEq] at h
      subst h
      obtain ⟨st, hn⟩ := BarrierStep.add_barrier_access ir s1 true
      exact ⟨((add_condition_step ir self _ s1 h1).step_trans st).weaken
        (fun hw => by simpa [Statement.well_formed] using hw) rfl, hn⟩
  | .wait_instruction wait, self, acc, h => by
    simp only [ObjectAccesses.add_statement] at h
    by_cases he : wait.objects.isEmpty = true
    · simp only [he, if_true, Except.ok.injEq] at h
      subst h
      obtain ⟨st, hn⟩ := BarrierStep.add_barrier_access ir self true
      exact ⟨st.weaken (fun _ => rfl) (by simp [Statement.has_barrier, he]), hn⟩
    · simp only [he, Bool.false_eq_true, if_false, Except.ok.injEq] at h
      subst h
      obtain ⟨st, hn⟩ := BarrierStep.add_barrier_access ir
        (self.add_wait_objects ir wait.objects) false
      exact ⟨((add_wait_objects_step ir wait.objects self).step_trans st).weaken
        (fun hw => by simpa [Statement.well_formed] using hw)
        (by simp [Statement.has_barrier, he]), hn⟩
  | .dummy_instruction _, self, acc, h => by
    simp only [ObjectAccesses.add_statement, Except.ok.injEq] at h
    subst h
    exact BarrierStep.add_barrier_access ir self true
  | .break_statement, self, acc, h => by
    simp only [ObjectAccesses.add_statement, Except.ok.injEq] at h
    subst h
    exact BarrierStep.add_barrier_access ir self true
  | .continue_statement, self, acc, h => by
    simp only [ObjectAccesses.add_statement, Except.ok.injEq] at h
    subst h
    exact BarrierStep.add_barrier_access ir self true
  | .if_else branches otherwise, self, acc, h => by
    simp only [ObjectAccesses.add_statement] at h
    cases h1 : ObjectAccesses.add_branches ir self branches with
    | error e => simp [h1] at h
    | ok s1 =>
      simp only [h1] at h
      cases h2 : ObjectAccesses.add_otherwise ir s1 otherwise with
      | error e => simp [h2] at h
      | ok s2 =>
        simp only [h2, Except.ok.injEq] at h
        subst h
        obtain ⟨st, hn⟩ := BarrierStep.add_barrier_access ir s2 false
        exact ⟨(((add_branches_step ir branches self s1 h1).step_trans
          (add_otherwise_step ir otherwise s1 s2 h2)).step_trans st).weaken
          (fun hw => by simpa [Statement.well_formed] using hw)
          (by simp [Statement.has_barrier]), hn⟩
  | .static_loop lhs frm to_ body, self, acc, h => by
    simp only [ObjectAccesses.add_statement] at h
    cases h1 : ObjectAccesses.add_block ir self body with
    | error e => simp [h1] at h
    | ok s1 =>
      simp only [h1, Except.ok.injEq] at h
      subst h
      obtain ⟨st, hn⟩ := BarrierStep.add_barrier_access ir
        (s1.add_access ir AccessMode.WRITE { reference := lhs }) false
      exact ⟨(((add_block_step ir body self s1 h1).step_trans
        (BarrierStep.add_access ir s1 AccessMode.WRITE { reference := lhs })).step_trans st).weaken
        (fun hw => by
          simp only [Statement.well_formed, Bool.and_eq_true] at hw
          simp [hw.1, hw.2])
        (by simp [Statement.has_barrier]), hn⟩
  | .for_loop init condition update body, self, acc, h => by
    simp only [ObjectAccesses.add_statement] at h
    cases h1 : ObjectAccesses.add_block ir self body with
    | error e => simp [h1] at h
    | ok s1 =>
      simp only [h1] at h
      cases h2 : s1.add_expression ir AccessMode.READ condition with
      | error e => simp [h2] at h
      | ok s2 =>
        simp only [h2] at h
        cases h3 : s2.add_optional_set ir init with
        | error e => simp [h3] at h
        | ok s3 =>
          simp only [h3] at h
          cases h4 : s3.add_optional_set ir update with
          | error e => simp [h4] at h
          | ok s4 =>
            simp only [h4, Except.ok.injEq] at h
            subst h
            obtain ⟨st, hn⟩ := BarrierStep.add_barrier_access ir s4 false
            exact ⟨(((((add_block_step ir body self s1 h1).step_trans
              (add_expression_step ir condition s1 _ s2 h2)).step_trans
              (add_optional_set_step ir s2 init s3 h3).1).step_trans
              (add_optional_set_step ir s3 update s4 h4).1).step_trans st).weaken
              (fun hw => by
                simp only [Statement.well_formed, Bool.and_eq_true] at hw
                simp [hw.1.1.1, hw.1.1.2, hw.1.2, hw.2])
              (by simp [Statement.has_barrier]), hn⟩
  | .repeat_until_loop condition body, self, acc, h => by
    simp only [ObjectAccesses.add_statement] at h
    cases h1 : ObjectAccesses.add_block ir self body with
    | error e => simp [h1] at h
    | ok s1 =>
      simp only [h1] at h
      cases h2 : s1.add_expression ir AccessMode.READ condition with
      | error e => simp [h2] at h
      | ok s2 =>
        simp only [h2, Except.ok.injEq] at h
        subst h
        obtain ⟨st, hn⟩ := BarrierStep.add_barrier_access ir s2 false
        exact ⟨(((add_block_step ir body self s1 h1).step_trans
          (add_expression_step ir condition s1 _ s2 h2)).step_trans st).weaken
          (fun hw => by
            simp only [Statement.well_formed, Bool.and_eq_true] at hw
            simp [hw.1, hw.2])
          (by simp [Statement.has_barrier]), hn⟩
/-- The step of `add_block`. -/
theorem add_block_step (ir : Root) :
    ∀ (block : List Statement) (self acc : ObjectAccesses),
      ObjectAccesses.add_block ir self block = .ok acc →
      BarrierStep self acc (Statement.block_well_formed ir block)
        (Statement.block_has_barrier block)
  | [], self, acc, h => by
    simp only [ObjectAccesses.add_block, Except.ok.injEq] at h
    subst h
    exact BarrierStep.step_refl _ _
  | stmt :: rest, self, acc, h => by
    simp only [ObjectAccesses.add_block] at h
    cases h1 : ObjectAccesses.add_statement ir self stmt with
    | error e => simp [h1] at h
    | ok s1 =>
      simp only [h1] at h
      exact ((add_statement_step ir stmt self s1 h1).1.step_trans
        (add_block_step ir rest s1 acc h)).weaken
        (fun hw => by simpa [Statement.block_well_formed] using hw)
        (by simp [Statement.block_has_barrier])
/-- The step of the loop over the branches. -/
theorem add_branches_step (ir : Root) :
    ∀ (branches : List IfElseBranch) (self acc : ObjectAccesses),
      ObjectAccesses.add_branches ir self branches = .ok acc →
      BarrierStep self acc (Statement.branches_well_formed ir branches)
        (Statement.branches_have_barrier branches)
  | [], self, acc, h => by
    simp only [ObjectAccesses.add_branches, Except.ok.injEq] at h
    subst h
    exact BarrierStep.step_refl _ _
  | branch :: rest, self, acc, h => by
    simp only [ObjectAccesses.add_branches] at h
    cases h1 : ObjectAccesses.add_branch ir self branch with
    | error e => simp [h1] at h
    | ok s1 =>
      simp only [h1] at h
      exact ((add_branch_step ir branch self s1 h1).step_trans
        (add_branches_step ir rest s1 acc h)).weaken
        (fun hw => by simpa [Statement.branches_well_formed] using hw)
        (by simp [Statement.branches_have_barrier])
/-- The step of one branch. -/
theorem add_branch_step (ir : Root) :
    ∀ (branch : IfElseBranch) (self acc : ObjectAccesses),
      ObjectAccesses.add_branch ir self branch = .ok acc →
      BarrierStep self acc (Statement.branch_well_formed ir branch)
        (Statement.branch_has_barrier branch)
  | .mk condition body, self, acc, h => by
    simp only [ObjectAccesses.add_branch] at h
    cases h1 : self.add_expression ir AccessMode.READ condition with
    | error e => simp [h1] at h
    | ok s1 =>
      simp only [h1] at h
      exact ((add_expression_step ir condition self _ s1 h1).step_trans
        (add_block_step ir body s1 acc h)).weaken
        (fun hw => by simpa [Statement.branch_well_formed] using hw)
        (by simp [Statement.branch_has_barrier])
/-- The step of the final block. -/
theorem add_otherwise_step (ir : Root) :
    ∀ (otherwise : Option (List Statement)) (self acc : ObjectAccesses),
      ObjectAccesses.add_otherwise ir self otherwise = .ok acc →
      BarrierStep self acc (Statement.otherwise_well_formed ir otherwise)
        (Statement.otherwise_has_barrier otherwise)
  | none, self, acc, h => by
    simp only [ObjectAccesses.add_otherwise, Except.ok.injEq] at h
    subst h
    exact BarrierStep.step_refl _ _
  | some block, self, acc, h => by
    simp only [ObjectAccesses.add_otherwise] at h
    exact (add_block_step ir block self acc h).weaken
      (fun hw => by simpa [Statement.otherwise_well_formed] using hw)
      (by simp [Statement.otherwise_has_barrier])
end

theorem count_qubit_types_ok (ir : Root) :
    ∀ prototype : List OperandType, types_resolve ir prototype = true →
      ∃ n, count_qubit_types ir prototype = .ok n
  | [], _ => ⟨0, rfl⟩
  | o :: rest, h => by
    simp only [types_resolve, List.all_cons, Bool.and_eq_true] at h
    obtain ⟨n, hn⟩ := count_qubit_types_ok ir rest h.2
    cases hd : ir.data_type o.data_type with
    | error e => simp [hd] at h
    | ok dt =>
      exact ⟨if dt.kind = DataTypeKind.qubit then n + 1 else n, by
        simp only [count_qubit_types, hd, hn]⟩

mutual
/-- On a well-formed expression `add_expression` returns. -/
theorem add_expression_ok (ir : Root) :
    ∀ (e : Expression) (self : ObjectAccesses) (m : AccessMode), e.well_formed ir = true →
      ∃ acc, self.add_expression ir m e = .ok acc
  | .reference r, self, m, _ =>
    ⟨self.add_access ir m { reference := r }, by simp only [ObjectAccesses.add_expression]⟩
  | .bit_literal _ _, self, m, _ => ⟨self, by simp only [ObjectAccesses.add_expression]⟩
  | .int_literal _ _, self, m, _ => ⟨self, by simp only [ObjectAccesses.add_expression]⟩
  | .string_literal _ _, self, m, _ => ⟨self, by simp only [ObjectAccesses.add_expression]⟩
  | .function_call f operands, self, m, h => by
    simp only [Expression.well_formed, Bool.and_eq_true] at h
    obtain ⟨h1, h2⟩ := h
    cases f with
    | none => simp at h1
    | some p =>
      simp only [] at h1
      cases hft : ir.function_nodes.get? p with
      | none => rw [hft] at h1; simp at h1
      | some ft =>
        rw [hft] at h1
        simp only [Bool.and_eq_true, decide_eq_true_eq] at h1
        obtain ⟨n, hn⟩ := count_qubit_types_ok ir ft.operand_types h1.1
        obtain ⟨acc, hacc⟩ := add_operands_loop_ok ir operands self
          (self.disable_qubit_commutation n) ft.operand_types h2 h1.2
        exact ⟨acc, by simp only [ObjectAccesses.add_expression, hft, hn, hacc]⟩
/-- On well-formed operands, one for every entry of the prototype, the loop of
`add_operands` returns. -/
theorem add_operands_loop_ok (ir : Root) :
    ∀ (operands : List Expression) (self : ObjectAccesses) (disable : Bool)
      (prototype : List OperandType), Expression.well_formed_list ir operands = true →
      prototype.length ≤ operands.length →
      ∃ acc, ObjectAccesses.add_operands_loop ir self disable prototype operands = .ok acc
  | [], self, disable, prototype, _, hl => by
    cases prototype with
    | nil => exact ⟨self, by simp only [ObjectAccesses.add_operands_loop]⟩
    | cons o os => simp at hl
  | e :: rest, self, disable, prototype, h, hl => by
    cases prototype with
    | nil => exact ⟨self, by simp only [ObjectAccesses.add_operands_loop]⟩
    | cons o os =>
      simp only [Expression.well_formed_list, Bool.and_eq_true] at h
      obtain ⟨next, hnext⟩ := add_expression_ok ir e self (demote_commutation disable o.mode) h.1
      obtain ⟨acc, hacc⟩ := add_operands_loop_ok ir rest next disable os h.2
        (by simpa using hl)
      exact ⟨acc, by simp only [ObjectAccesses.add_operands_loop, hnext, hacc]⟩
end

theorem add_operands_ok (ir : Root) (self : ObjectAccesses) (prototype : List OperandType)
    (operands : List Expression) (h1 : types_resolve ir prototype = true)
    (h2 : Expression.well_formed_list ir operands = true)
    (h3 : prototype.length ≤ operands.length) :
    ∃ acc, self.add_operands ir prototype operands = .ok acc := by
  obtain ⟨n, hn⟩ := count_qubit_types_ok ir prototype h1
  obtain ⟨acc, hacc⟩ := add_operands_loop_ok ir operands self
    (self.disable_qubit_commutation n) prototype h2 h3
  exact ⟨acc, by simp only [ObjectAccesses.add_operands, hn, hacc]⟩

theorem add_template_operands_ok (ir : Root) :
    ∀ (template_operands : List Expression) (self : ObjectAccesses)
      (operand_types : List OperandType),
      Expression.well_formed_list ir template_operands = true →
      template_operands.length ≤ operand_types.length →
      ∃ acc, self.add_template_operands ir operand_types template_operands = .ok acc
  | [], self, operand_types, _, _ =>
    ⟨self, by simp only [ObjectAccesses.add_template_operands]⟩
  | e :: rest, self, operand_types, h, hl => by
    cases operand_types with
    | nil => simp at hl
    | cons o os =>
      simp only [Expression.well_formed_list, Bool.and_eq_true] at h
      obtain ⟨next, hnext⟩ := add_expression_ok ir e self o.mode h.1
      obtain ⟨acc, hacc⟩ := add_template_operands_ok ir rest next os h.2 (by simpa using hl)
      exact ⟨acc, by simp only [ObjectAccesses.add_template_operands, hnext, hacc]⟩

theorem add_condition_ok (ir : Root) (self : ObjectAccesses) (condition : Option Expression)
    (h : condition_well_formed ir condition = true) :
    ∃ acc, self.add_condition ir condition = .ok acc := by
  cases condition with
  | none => simp [condition_well_formed] at h
  | some c => exact add_expression_ok ir c self _ h

theorem add_custom_instruction_ok (ir : Root) (self : ObjectAccesses)
    (custom : CustomInstruction) (h : custom.well_formed ir = true) :
    ∃ acc, self.add_custom_instruction ir custom = .ok acc := by
  unfold CustomInstruction.well_formed at h
  cases ht : custom.instruction_type with
  | none => simp [ht] at h
  | some t =>
    simp only [ht, Bool.and_eq_true, decide_eq_true_eq] at h
    obtain ⟨⟨hc, ⟨⟨⟨⟨_, hres⟩, hlen⟩, htops⟩, hgen⟩⟩, hops⟩ := h
    obtain ⟨s1, h1⟩ := add_condition_ok ir self _ hc
    obtain ⟨s2, h2⟩ := add_operands_ok ir s1 _ _ hres hops hlen
    unfold ObjectAccesses.add_custom_instruction
    simp only [h1, ht, h2]
    by_cases hte : (ir.node t).template_operands.isEmpty = true
    · exact ⟨s2, by simp [hte]⟩
    · simp only [hte, Bool.false_eq_true, if_false]
      unfold generalization_ok at hgen
      simp only [hte, Bool.false_or] at hgen
      cases hg : find_generalization ir
          ((ir.node t).template_operands.length + ir.instruction_nodes.length + 1) t with
      | none => simp [hg] at hgen
      | some gen =>
        simp only [hg, decide_eq_true_eq] at hgen
        exact add_template_operands_ok ir _ s2 _ htops hgen

theorem add_set_instruction_ok (ir : Root) (self : ObjectAccesses) (set : SetInstruction)
    (h : set.well_formed ir = true) : ∃ acc, self.add_set_instruction ir set = .ok acc := by
  simp only [SetInstruction.well_formed, Bool.and_eq_true] at h
  obtain ⟨s1, h1⟩ := add_condition_ok ir self _ h.1.1
  obtain ⟨s3, h3⟩ := add_expression_ok ir set.rhs
    (s1.add_access ir AccessMode.WRITE { reference := set.lhs }) AccessMode.READ h.2
  exact ⟨s3.add_barrier_access ir false, by
    simp only [ObjectAccesses.add_set_instruction, h1, ObjectAccesses.add_expression, h3]⟩

theorem add_optional_set_ok (ir : Root) (self : ObjectAccesses) (set : Option SetInstruction)
    (h : optional_set_well_formed ir set = true) :
    ∃ acc, self.add_optional_set ir set = .ok acc := by
  cases set with
  | none => simp [optional_set_well_formed] at h
  | some s => exact add_set_instruction_ok ir self s h

mutual
/-- On a well-formed statement `add_statement` returns. -/
theorem add_statement_ok (ir : Root) :
    ∀ (s : Statement) (self : ObjectAccesses), s.well_formed ir = true →
      ∃ acc, ObjectAccesses.add_statement ir self s = .ok acc
  | .custom_instruction custom, self, h => by
    obtain ⟨s1, h1⟩ := add_custom_instruction_ok ir self custom
      (by simpa [Statement.well_formed] using h)
    exact ⟨s1.add_barrier_access ir false, by simp only [ObjectAccesses.add_statement, h1]⟩
  | .set_instruction set, self, h => by
    obtain ⟨s1, h1⟩ := add_set_instruction_ok ir self set
      (by simpa [Statement.well_formed] using h)
    exact ⟨s1, by simp only [ObjectAccesses.add_statement, h1]⟩
  | .goto_instruction goto, self, h => by
    obtain ⟨s1, h1⟩ := add_condition_ok ir self goto.condition
      (by simpa [Statement.well_formed] using h)
    exact ⟨s1.add_barrier_access ir true, by simp only [ObjectAccesses.add_statement, h1]⟩
  | .wait_instruction wait, self, _ => by
    simp only [ObjectAccesses.add_statement]
    split
    · exact ⟨_, rfl⟩
    · exact ⟨_, rfl⟩
  | .dummy_instruction _, self, _ =>
    ⟨self.add_barrier_access ir true, by simp only [ObjectAccesses.add_statement]⟩
  | .break_statement, self, _ =>
    ⟨self.add_barrier_access ir true, by simp only [ObjectAccesses.add_statement]⟩
  | .continue_statement, self, _ =>
    ⟨self.add_barrier_access ir true, by simp only [ObjectAccesses.add_statement]⟩
  | .if_else branches otherwise, self, h => by
    simp only [Statement.well_formed, Bool.and_eq_true] at h
    obtain ⟨s1, h1⟩ := add_branches_ok ir branches self h.1
    obtain ⟨s2, h2⟩ := add_otherwise_ok ir otherwise s1 h.2
    exact ⟨s2.add_barrier_access ir false, by simp only [ObjectAccesses.add_statement, h1, h2]⟩
  | .static_loop lhs frm to_ body, self, h => by
    simp only [Statement.well_formed, Bool.and_eq_true] at h
    obtain ⟨s1, h1⟩ := add_block_ok ir body self h.2
    exact ⟨(s1.add_access ir AccessMode.WRITE { reference := lhs }).add_barrier_access ir false,
      by simp only [ObjectAccesses.add_statement, h1]⟩
  | .for_loop init condition update body, self, h => by
    simp only [Statement.well_formed, Bool.and_eq_true] at h
    obtain ⟨s1, h1⟩ := add_block_ok ir body self h.2
    obtain ⟨s2, h2⟩ := add_expression_ok ir condition s1 AccessMode.READ h.1.1.2
    obtain ⟨s3, h3⟩ := add_optional_set_ok ir s2 init h.1.1.1
    obtain ⟨s4, h4⟩ := add_optional_set_ok ir s3 update h.1.2
    exact ⟨s4.add_barrier_access ir false,
      by simp only [ObjectAccesses.add_statement, h1, h2, h3, h4]⟩
  | .repeat_until_loop condition body, self, h => by
    simp only [Statement.well_formed, Bool.and_eq_true] at h
    obtain ⟨s1, h1⟩ := add_block_ok ir body self h.2
    obtain ⟨s2, h2⟩ := add_expression_ok ir condition s1 AccessMode.READ h.1
    exact ⟨s2.add_barrier_access ir false, by simp only [ObjectAccesses.add_statement, h1, h2]⟩
/-- On a well-formed block `add_block` returns. -/
theorem add_block_ok (ir : Root) :
    ∀ (block : List Statement) (self : ObjectAccesses),
      Statement.block_well_formed ir block = true →
      ∃ acc, ObjectAccesses.add_block ir self block = .ok acc
  | [], self, _ => ⟨self, by simp only [ObjectAccesses.add_block]⟩
  | stmt :: rest, self, h => by
    simp only [Statement.block_well_formed, Bool.and_eq_true] at h
    obtain ⟨s1, h1⟩ := add_statement_ok ir stmt self h.1
    obtain ⟨s2, h2⟩ := add_block_ok ir rest s1 h.2
    exact ⟨s2, by simp only [ObjectAccesses.add_block, h1, h2]⟩
/-- On well-formed branches the loop over the branches returns. -/
theorem add_branches_ok (ir : Root) :
    ∀ (branches : List IfElseBranch) (self : ObjectAccesses),
      Statement.branches_well_formed ir branches = true →
      ∃ acc, ObjectAccesses.add_branches ir self branches = .ok acc
  | [], self, _ => ⟨self, by simp only [ObjectAccesses.add_branches]⟩
  | branch :: rest, self, h => by
    simp only [Statement.branches_well_formed, Bool.and_eq_true] at h
    obtain ⟨s1, h1⟩ := add_branch_ok ir branch self h.1
    obtain ⟨s2, h2⟩ := add_branches_ok ir rest s1 h.2
    exact ⟨s2, by simp only [ObjectAccesses.add_branches, h1, h2]⟩
/-- On a well-formed branch the analysis of the branch returns. -/
theorem add_branch_ok (ir : Root) :
    ∀ (branch : IfElseBranch) (self : ObjectAccesses),
      Statement.branch_well_formed ir branch = true →
      ∃ acc, ObjectAccesses.add_branch ir self branch = .ok acc
  | .mk condition body, self, h => by
    simp only [Statement.branch_well_formed, Bool.and_eq_true] at h
    obtain ⟨s1, h1⟩ := add_expression_ok ir condition self AccessMode.READ h.1
    obtain ⟨s2, h2⟩ := add_block_ok ir body s1 h.2
    exact ⟨s2, by simp only [ObjectAccesses.add_branch, h1, h2]⟩
/-- On a well-formed final block the analysis of it returns. -/
theorem add_otherwise_ok (ir : Root) :
    ∀ (otherwise : Option (List Statement)) (self : ObjectAccesses),
      Statement.otherwise_well_formed ir otherwise = true →
      ∃ acc, ObjectAccesses.add_otherwise ir self otherwise = .ok acc
  | none, self, _ => ⟨self, by simp only [ObjectAccesses.add_otherwise]⟩
  | some block, self, h => by
    simp only [Statement.otherwise_well_formed] at h
    obtain ⟨s1, h1⟩ := add_block_ok ir block self h
    exact ⟨s1, by simp only [ObjectAccesses.add_otherwise, h1]⟩
end

/-- In consistent specialization trees the generalization links of a node of the tree of a
top-level entry lead to that entry within one step per template operand, and the entry has
an operand type for every template operand of the node and every operand type of it. -/
theorem find_generalization_of_in_tree (ir : Root) (h : ir.tree_consistent) (root : Nat)
    (hroot : root ∈ ir.platform.instructions) (t : Nat) (ht : in_tree ir root t) :
    t < ir.instruction_nodes.length ∧
    ∀ fuel, (ir.node t).template_operands.length < fuel →
      find_generalization ir fuel t = some root ∧
      (ir.node root).operand_types.length =
        (ir.node t).template_operands.length + (ir.node t).operand_types.length := by
  induction ht with
  | root =>
    refine ⟨h.top root hroot, ?_⟩
    intro fuel hf
    obtain ⟨r1, r2⟩ := h.roots root hroot
    cases fuel with
    | zero => omega
    | succ n =>
      simp only [find_generalization, r2, r1, List.length_nil, zero_add, and_self]
  | child p c _ hc ih =>
    obtain ⟨hp, ihp⟩ := ih
    have hclt := tree_consistent_child_lt h hp hc
    refine ⟨hclt, ?_⟩
    intro fuel hf
    obtain ⟨c1, e, o, c2, c3, _⟩ := h.children p hp c hc
    have hlen := equals_list_length c2
    simp only [List.length_append, List.length_singleton] at hlen
    cases fuel with
    | zero => omega
    | succ n =>
      obtain ⟨g1, g2⟩ := ihp n (by omega)
      simp only [find_generalization, c1, g1, true_and]
      rw [g2, c3, hlen]
      simp only [List.length_cons]
      omega

/-- In consistent specialization trees the check `generalization_ok` holds for the nodes of
the trees of the top-level entries. -/
theorem generalization_ok_of_in_tree (ir : Root) (h : ir.tree_consistent) (root : Nat)
    (hroot : root ∈ ir.platform.instructions) (t : Nat) (ht : in_tree ir root t) :
    generalization_ok ir t = true := by
  obtain ⟨_, key⟩ := find_generalization_of_in_tree ir h root hroot t ht
  obtain ⟨g1, g2⟩ := key ((ir.node t).template_operands.length + ir.instruction_nodes.length + 1)
    (by omega)
  unfold generalization_ok
  rw [g1]
  simp only [Bool.or_eq_true, decide_eq_true_eq]
  right
  omega

theorem mode_empty_of_nil (self : ObjectAccesses) (h : self.accesses = []) :
    self.accesses.mode {} = none := by
  rw [h]; rfl

/-- C11. Barrier rule: on a well-formed statement `add_statement` returns, and when it
starts from an access map without entries, the empty reference is recorded afterwards with
mode WRITE if the statement is, or contains nested in its branches or loop bodies, a goto
instruction, a wait instruction without objects, a dummy instruction or a break or continue
statement, and with mode READ otherwise. Moreover, whatever the statement, an entry of the
empty reference with mode WRITE still has mode WRITE after `add_statement`. -/
theorem barrier_rule (ir : Root) (s : Statement) (self : ObjectAccesses)
    (hwf : s.well_formed ir = true) (hempty : self.accesses = []) :
    (∃ acc, self.add_statement ir s = .ok acc ∧
      acc.accesses.mode {} =
        some (if s.has_barrier = true then AccessMode.WRITE else AccessMode.READ)) ∧
    (∀ (before after : ObjectAccesses) (next : Statement),
      before.accesses.mode {} = some AccessMode.WRITE →
      before.add_statement ir next = .ok after →
      after.accesses.mode {} = some AccessMode.WRITE) := by
  refine ⟨?_, fun before after next hw h => (add_statement_step ir next before after h).1.write_stays hw⟩
  obtain ⟨acc, hacc⟩ := add_statement_ok ir s self hwf
  refine ⟨acc, hacc, ?_⟩
  obtain ⟨st, hn⟩ := add_statement_step ir s self acc hacc
  have h0 := mode_empty_of_nil self hempty
  have hv : barrier_mode_valid (self.accesses.mode {}) := Or.inl h0
  have hiff := st.write_iff hwf hv
  rw [h0] at hiff
  by_cases hb : s.has_barrier = true
  · rw [if_pos hb]
    exact hiff.2 (Or.inr hb)
  · rw [if_neg hb]
    rcases st.valid hwf hv with h | h | h
    · exact absurd h hn
    · exact h
    · rcases hiff.1 h with h' | h'
      · cases h'
      · exact absurd h' hb

theorem link_lt_trans (a b c : Link) (h1 : Link.lt a b = true) (h2 : Link.lt b c = true) :
    Link.lt a c = true := by
  cases a <;> cases b <;> cases c <;> simp_all [Link.lt]
  omega

theorem link_eq_of_not_lt (a b : Link) (h1 : Link.lt a b = false) (h2 : Link.lt b a = false) :
    a = b := by
  by_contra hne
  rcases link_lt_total a b hne with h | h
  · rw [h] at h1; cases h1
  · rw [h] at h2; cases h2

theorem indices_lt_trans : ∀ (a b c : List IntLiteral), indices_lt a b = true →
    indices_lt b c = true → indices_lt a c = true
  | _, _, [], _, h2 => by simp [indices_lt_nil] at h2
  | _, [], _ :: _, h1, _ => by simp [indices_lt_nil] at h1
  | [], _ :: _, _ :: _, _, _ => rfl
  | x :: xs, y :: ys, z :: zs, h1, h2 => by
    simp only [indices_lt] at h1 h2 ⊢
    by_cases hxy : x.addr = y.addr
    · by_cases hyz : y.addr = z.addr
      · simp only [hxy, hyz, gt_iff_lt, lt_self_iff_false, if_false] at h1 h2 ⊢
        exact indices_lt_trans xs ys zs h1 h2
      · have : y.addr < z.addr := by
          by_contra hlt
          have : z.addr < y.addr := by omega
          simp [this] at h2
        simp [hxy, this, Nat.lt_asymm this]
    · have hlt : x.addr < y.addr := by
        by_contra hlt
        have : y.addr < x.addr := by omega
        simp [this] at h1
      by_cases hyz : y.addr = z.addr
      · simp [← hyz, hlt, Nat.lt_asymm hlt]
      · have : y.addr < z.addr := by
          by_contra hlt2
          have : z.addr < y.addr := by omega
          simp [this] at h2
        have hxz : x.addr < z.addr := by omega
        simp [hxz, Nat.lt_asymm hxz]

theorem indices_lt_asymm : ∀ (a b : List IntLiteral), indices_lt a b = true →
    indices_lt b a = false
  | _, [], h => by simp [indices_lt_nil] at h
  | [], _ :: _, _ => rfl
  | x :: xs, y :: ys, h => by
    simp only [indices_lt] at h ⊢
    by_cases hxy : x.addr = y.addr
    · simp only [hxy, gt_iff_lt, lt_self_iff_false, if_false] at h ⊢
      exact indices_lt_asymm xs ys h
    · have hlt : x.addr < y.addr := by
        by_contra hlt
        have : y.addr < x.addr := by omega
        simp [this] at h
      simp [hlt]

theorem indices_addr_eq_of_not_lt : ∀ (a b : List IntLiteral), indices_lt a b = false →
    indices_lt b a = false → a.map (fun i => i.addr) = b.map (fun i => i.addr)
  | [], [], _, _ => rfl
  | [], _ :: _, h, _ => by simp [indices_lt] at h
  | _ :: _, [], _, h => by simp [indices_lt] at h
  | x :: xs, y :: ys, h1, h2 => by
    simp only [indices_lt] at h1 h2
    by_cases hxy : x.addr = y.addr
    · simp only [hxy, gt_iff_lt, lt_self_iff_false, if_false] at h1 h2
      simp [hxy, indices_addr_eq_of_not_lt xs ys h1 h2]
    · rcases Nat.lt_or_gt_of_ne hxy with hlt | hlt
      · simp [hlt, Nat.lt_asymm hlt] at h1
      · simp [hlt, Nat.lt_asymm hlt] at h2

theorem indices_not_lt_of_addr_eq : ∀ (a b : List IntLiteral),
    a.map (fun i => i.addr) = b.map (fun i => i.addr) → indices_lt a b = false
  | [], [], _ => rfl
  | [], _ :: _, h => by simp at h
  | _ :: _, [], h => by simp at h
  | x :: xs, y :: ys, h => by
    simp only [List.map_cons, List.cons.injEq] at h
    simp [indices_lt, h.1, indices_not_lt_of_addr_eq xs ys h.2]

/-- An index list is below each of its proper extensions. -/
theorem indices_lt_append : ∀ (a : List IntLiteral) (x : IntLiteral) (b : List IntLiteral),
    indices_lt a (a ++ x :: b) = true
  | [], _, _ => rfl
  | y :: ys, x, b => by simp [indices_lt, indices_lt_append ys x b]

/-- The operator `<` of the keys is the lexicographic order over the target link, the data
type link and the index list. -/
theorem wrapper_lt_iff (a b : ReferenceWrapper) :
    a.lt b = true ↔
      Link.lt a.reference.target b.reference.target = true ∨
      (a.reference.target = b.reference.target ∧
        (Link.lt a.reference.data_type b.reference.data_type = true ∨
          (a.reference.data_type = b.reference.data_type ∧
            indices_lt a.reference.indices b.reference.indices = true))) := by
  unfold ReferenceWrapper.lt
  by_cases h1 : Link.lt b.reference.target a.reference.target = true
  · have h1' := link_lt_asymm _ _ h1
    have hne : a.reference.target ≠ b.reference.target := by
      intro he; rw [he, link_lt_irrefl] at h1; cases h1
    simp [h1, h1', hne]
  · have h1 : Link.lt b.reference.target a.reference.target = false := by simpa using h1
    by_cases h2 : Link.lt a.reference.target b.reference.target = true
    · simp [h1, h2]
    · have h2 : Link.lt a.reference.target b.reference.target = false := by simpa using h2
      have ht := link_eq_of_not_lt _ _ h2 h1
      by_cases h3 : Link.lt b.reference.data_type a.reference.data_type = true
      · have h3' := link_lt_asymm _ _ h3
        have hne : a.reference.data_type ≠ b.reference.data_type := by
          intro he; rw [he, link_lt_irrefl] at h3; cases h3
        simp [h1, h2, h3, h3', hne]
      · have h3 : Link.lt b.reference.data_type a.reference.data_type = false := by
          simpa using h3
        by_cases h4 : Link.lt a.reference.data_type b.reference.data_type = true
        · simp [h1, h2, h3, h4, ht, link_lt_irrefl]
        · have h4 : Link.lt a.reference.data_type b.reference.data_type = false := by
            simpa using h4
          have hd := link_eq_of_not_lt _ _ h4 h3
          simp [h1, h2, h3, h4, ht, hd, link_lt_irrefl]

theorem wrapper_lt_trans (a b c : ReferenceWrapper) (h1 : a.lt b = true) (h2 : b.lt c = true) :
    a.lt c = true := by
  rw [wrapper_lt_iff] at h1 h2 ⊢
  rcases h1 with h1 | ⟨e1, h1 | ⟨d1, h1⟩⟩ <;> rcases h2 with h2 | ⟨e2, h2 | ⟨d2, h2⟩⟩
  · exact Or.inl (link_lt_trans _ _ _ h1 h2)
  · exact Or.inl (e2 ▸ h1)
  · exact Or.inl (e2 ▸ h1)
  · exact Or.inl (e1 ▸ h2)
  · exact Or.inr ⟨e1.trans e2, Or.inl (link_lt_trans _ _ _ h1 h2)⟩
  · exact Or.inr ⟨e1.trans e2, Or.inl (d2 ▸ h1)⟩
  · exact Or.inl (e1 ▸ h2)
  · exact Or.inr ⟨e1.trans e2, Or.inl (d1 ▸ h2)⟩
  · exact Or.inr ⟨e1.trans e2, Or.inr ⟨d1.trans d2, indices_lt_trans _ _ _ h1 h2⟩⟩

theorem wrapper_lt_asymm (a b : ReferenceWrapper) (h : a.lt b = true) : b.lt a = false := by
  by_contra h2
  have h2 : b.lt a = true := by simpa using h2
  have := wrapper_lt_trans a b a h h2
  rw [wrapper_lt_irrefl] at this
  cases this

/-- Two keys of which neither is below the other have the same target, the same data type
and the same index nodes. -/
theorem key_eq_of_not_lt (a b : ReferenceWrapper) (h1 : a.lt b = false) (h2 : b.lt a = false) :
    a.key = b.key := by
  have n1 : ¬ a.lt b = true := by simp [h1]
  have n2 : ¬ b.lt a = true := by simp [h2]
  rw [wrapper_lt_iff] at n1 n2
  push_neg at n1 n2
  have t1 : Link.lt a.reference.target b.reference.target = false := by simpa using n1.1
  have t2 : Link.lt b.reference.target a.reference.target = false := by simpa using n2.1
  have ht := link_eq_of_not_lt _ _ t1 t2
  have d1 : Link.lt a.reference.data_type b.reference.data_type = false := by
    simpa using (n1.2 ht).1
  have d2 : Link.lt b.reference.data_type a.reference.data_type = false := by
    simpa using (n2.2 ht.symm).1
  have hd := link_eq_of_not_lt _ _ d1 d2
  have i1 : indices_lt a.reference.indices b.reference.indices = false := by
    simpa using (n1.2 ht).2 hd
  have i2 : indices_lt b.reference.indices a.reference.indices = false := by
    simpa using (n2.2 ht.symm).2 hd.symm
  simp only [ReferenceWrapper.key, ht, hd, indices_addr_eq_of_not_lt _ _ i1 i2]

theorem not_lt_of_key_eq (a b : ReferenceWrapper) (h : a.key = b.key) : a.lt b = false := by
  simp only [ReferenceWrapper.key, Prod.mk.injEq] at h
  have n : ¬ a.lt b = true := by
    rw [wrapper_lt_iff, h.1, h.2.1, link_lt_irrefl, link_lt_irrefl,
      indices_not_lt_of_addr_eq _ _ h.2.2]
    simp
  simpa using n

theorem indices_eq_of_addr_eq : ∀ (a b : List IntLiteral),
    a.map (fun i => i.addr) = b.map (fun i => i.addr) →
    (∀ i j, i ∈ a → j ∈ b → i.addr = j.addr → i = j) → a = b
  | [], [], _, _ => rfl
  | [], _ :: _, h, _ => by simp at h
  | _ :: _, [], h, _ => by simp at h
  | x :: xs, y :: ys, h, hn => by
    simp only [List.map_cons, List.cons.injEq] at h
    rw [hn x y (List.mem_cons_self _ _) (List.mem_cons_self _ _) h.1,
      indices_eq_of_addr_eq xs ys h.2 (fun i j hi hj =>
        hn i j (List.mem_cons_of_mem _ hi) (List.mem_cons_of_mem _ hj))]

/-- The order of the keys of the access map: `operator<` of `ReferenceWrapper` is
irreflexive and transitive; for two references exactly one of `a < b`, `b < a` and "same
target, same data type and the same index nodes" holds; it is the lexicographic order over
the target link, the data type link and the index list, in which the index nodes are
compared by identity and a list is below its proper extensions; and two references with the
same target, data type and index nodes are equal for `operator==`. The comparison of the
index lists is a total function. -/
theorem reference_key_order (a b c : ReferenceWrapper) :
    a.lt a = false ∧
    (a.lt b = true → b.lt c = true → a.lt c = true) ∧
    ((a.lt b = true ∧ b.lt a = false ∧ a.key ≠ b.key) ∨
      (a.lt b = false ∧ b.lt a = true ∧ a.key ≠ b.key) ∨
      (a.lt b = false ∧ b.lt a = false ∧ a.key = b.key)) ∧
    (a.lt b = true ↔
      Link.lt a.reference.target b.reference.target = true ∨
      (a.reference.target = b.reference.target ∧
        (Link.lt a.reference.data_type b.reference.data_type = true ∨
          (a.reference.data_type = b.reference.data_type ∧
            indices_lt a.reference.indices b.reference.indices = true)))) ∧
    (∀ (l : List IntLiteral) (x : IntLiteral) (m : List IntLiteral),
      indices_lt l (l ++ x :: m) = true) ∧
    (a.key = b.key →
      (∀ i j, i ∈ a.reference.indices → j ∈ b.reference.indices → i.addr = j.addr → i = j) →
      a.eq b = true) := by
  refine ⟨wrapper_lt_irrefl a, wrapper_lt_trans a b c, ?_, wrapper_lt_iff a b,
    indices_lt_append, ?_⟩
  · by_cases h1 : a.lt b = true
    · refine Or.inl ⟨h1, wrapper_lt_asymm a b h1, fun hk => ?_⟩
      rw [not_lt_of_key_eq a b hk] at h1
      cases h1
    · have h1 : a.lt b = false := by simpa using h1
      by_cases h2 : b.lt a = true
      · refine Or.inr (Or.inl ⟨h1, h2, fun hk => ?_⟩)
        rw [not_lt_of_key_eq b a hk.symm] at h2
        cases h2
      · have h2 : b.lt a = false := by simpa using h2
        exact Or.inr (Or.inr ⟨h1, h2, key_eq_of_not_lt a b h1 h2⟩)
  · intro hk hn
    simp only [ReferenceWrapper.key, Prod.mk.injEq] at hk
    have hi := indices_eq_of_addr_eq _ _ hk.2.2 hn
    simp [ReferenceWrapper.eq, Reference.equals, hk.1, hk.2.1, hi, indices_equal_refl]

theorem wrapper_lt_or_key_eq (a b : ReferenceWrapper) :
    a.lt b = true ∨ b.lt a = true ∨ a.key = b.key := by
  by_cases h1 : a.lt b = true
  · exact Or.inl h1
  · by_cases h2 : b.lt a = true
    · exact Or.inr (Or.inl h2)
    · exact Or.inr (Or.inr (key_eq_of_not_lt a b (by simpa using h1) (by simpa using h2)))

/-- The comparison depends on the key of its left argument only. -/
theorem wrapper_lt_congr_left (a a' b : ReferenceWrapper) (h : a.key = a'.key) :
    a.lt b = a'.lt b := by
  have key : ∀ x y : ReferenceWrapper, x.key = y.key → x.lt b = true → y.lt b = true := by
    intro x y hxy hx
    rcases wrapper_lt_or_key_eq y b with h1 | h1 | h1
    · exact h1
    · have := wrapper_lt_trans x b y hx h1
      rw [not_lt_of_key_eq x y hxy] at this
      cases this
    · rw [not_lt_of_key_eq x b (hxy.trans h1)] at hx
      cases hx
  cases h1 : a.lt b <;> cases h2 : a'.lt b <;> try rfl
  · rw [key a' a h.symm h2] at h1; cases h1
  · rw [key a a' h h1] at h2; cases h2

/-- The comparison depends on the key of its right argument only. -/
theorem wrapper_lt_congr_right (a b b' : ReferenceWrapper) (h : b.key = b'.key) :
    a.lt b = a.lt b' := by
  have key : ∀ x y : ReferenceWrapper, x.key = y.key → a.lt x = true → a.lt y = true := by
    intro x y hxy hx
    rcases wrapper_lt_or_key_eq a y with h1 | h1 | h1
    · exact h1
    · have := wrapper_lt_trans y a x h1 hx
      rw [not_lt_of_key_eq y x hxy.symm] at this
      cases this
    · rw [not_lt_of_key_eq a x (h1.trans hxy.symm)] at hx
      cases hx
  cases h1 : a.lt b <;> cases h2 : a.lt b' <;> try rfl
  · rw [key b' b h.symm h2] at h1; cases h1
  · rw [key b b' h h1] at h2; cases h2

theorem lower_bound_congr (l : Accesses) (k k' : ReferenceWrapper) (h : k.key = k'.key) :
    l.lower_bound k = l.lower_bound k' := by
  unfold Accesses.lower_bound
  congr 1
  funext e
  rw [wrapper_lt_congr_right e.1 k k' h]

theorem find_congr (l : Accesses) (k k' : ReferenceWrapper) (h : k.key = k'.key) :
    l.find k = l.find k' := by
  unfold Accesses.find
  rw [lower_bound_congr l k k' h]
  cases l.get? (l.lower_bound k') with
  | none => rfl
  | some e => simp only [wrapper_lt_congr_left k k' e.1 h]

/-- The mode recorded for a reference depends on its key only. -/
theorem mode_congr (l : Accesses) (k k' : ReferenceWrapper) (h : k.key = k'.key) :
    l.mode k = l.mode k' := by
  unfold Accesses.mode
  rw [find_congr l k k' h]

/-- The entries before the lower bound position are below the key. -/
theorem lt_of_mem_take_lower_bound (l : Accesses) (k : ReferenceWrapper)
    (x : ReferenceWrapper × AccessMode) (hx : x ∈ l.take (l.lower_bound k)) :
    x.1.lt k = true := by
  obtain ⟨i, hi, rfl⟩ := List.mem_take_iff_getElem.1 hx
  have := @List.not_of_lt_findIdx _ (fun e : ReferenceWrapper × AccessMode => !(e.1.lt k))
    l i (lt_of_lt_of_le hi (min_le_left _ _))
  simpa using this

/-- In a sorted map the entries from the lower bound position on are not below the key. -/
theorem not_lt_of_mem_drop_lower_bound (l : Accesses) (hs : l.sorted) (k : ReferenceWrapper)
    (y : ReferenceWrapper × AccessMode) (hy : y ∈ l.drop (l.lower_bound k)) :
    y.1.lt k = false := by
  have hle := Accesses.lower_bound_le l k
  rcases Nat.lt_or_ge (l.lower_bound k) l.length with hlt | hge
  · have h0 : (l[l.lower_bound k]).1.lt k = false := by
      have key := @List.findIdx_getElem _ (fun e : ReferenceWrapper × AccessMode => !(e.1.lt k))
        l hlt
      simpa using key
    rw [List.drop_eq_getElem_cons hlt] at hy
    rcases List.mem_cons.1 hy with rfl | hy
    · exact h0
    · have hsd : (l.drop (l.lower_bound k)).Pairwise fun x y => x.1.lt y.1 = true :=
        List.Pairwise.sublist (List.drop_sublist _ _) hs
      rw [List.drop_eq_getElem_cons hlt, List.pairwise_cons] at hsd
      have h1 := hsd.1 y hy
      by_contra hc
      have hc : y.1.lt k = true := by simpa using hc
      rw [wrapper_lt_trans _ _ _ h1 hc] at h0
      cases h0
  · rw [List.drop_eq_nil_of_le hge] at hy
    cases hy

/-- In a sorted map an entry with the key of a reference gives the mode recorded for the
reference. -/
theorem mode_of_mem (l : Accesses) (hs : l.sorted) (k : ReferenceWrapper)
    (e : ReferenceWrapper × AccessMode) (he : e ∈ l) (hk : e.1.key = k.key) :
    l.mode k = some e.2 := by
  have hnlt : e.1.lt k = false := not_lt_of_key_eq _ _ hk
  have hnlt2 : k.lt e.1 = false := not_lt_of_key_eq _ _ hk.symm
  rw [← List.take_append_drop (l.lower_bound k) l] at he
  rcases List.mem_append.1 he with h | h
  · rw [lt_of_mem_take_lower_bound l k e h] at hnlt
    cases hnlt
  · have hlt : l.lower_bound k < l.length := by
      by_contra hge
      rw [List.drop_eq_nil_of_le (by omega)] at h
      cases h
    have h0 : (l[l.lower_bound k]).1.lt k = false :=
      not_lt_of_mem_drop_lower_bound l hs k _ (by
        rw [List.drop_eq_getElem_cons hlt]; exact List.mem_cons_self _ _)
    have heq : e = l[l.lower_bound k] := by
      rw [List.drop_eq_getElem_cons hlt] at h
      rcases List.mem_cons.1 h with h | h
      · exact h
      · have hsd : (l.drop (l.lower_bound k)).Pairwise fun x y => x.1.lt y.1 = true :=
          List.Pairwise.sublist (List.drop_sublist _ _) hs
        rw [List.drop_eq_getElem_cons hlt, List.pairwise_cons] at hsd
        have h1 := hsd.1 e h
        rw [wrapper_lt_congr_right _ e.1 k hk, h0] at h1
        cases h1
    unfold Accesses.mode Accesses.find
    rw [List.get?_eq_getElem?, List.getElem?_eq_getElem hlt, ← heq]
    simp [hnlt2, List.getElem?_eq_getElem hlt, ← heq]

/-- A map without an entry with the key of a reference records nothing for it. -/
theorem mode_none_of_no_key (l : Accesses) (k : ReferenceWrapper)
    (h : ∀ e ∈ l, e.1.key ≠ k.key) : l.mode k = none := by
  rcases Accesses.find_spec l k with hn | ⟨e, _, h2, h3, h4⟩
  · simp [Accesses.mode, hn]
  · rw [List.get?_eq_getElem?] at h2
    exact absurd (key_eq_of_not_lt _ _ h4 h3) (h e (List.getElem?_mem h2))

/-- The mode recorded for a reference is the mode of an entry with its key. -/
theorem mem_of_mode (l : Accesses) (k : ReferenceWrapper) (m : AccessMode)
    (h : l.mode k = some m) : ∃ e ∈ l, e.1.key = k.key ∧ e.2 = m := by
  rcases Accesses.find_spec l k with hn | ⟨e, h1, h2, h3, h4⟩
  · simp [Accesses.mode, hn] at h
  · unfold Accesses.mode at h
    rw [h1] at h
    simp only [] at h
    rw [h2] at h
    simp only [Option.map_some', Option.some.injEq] at h
    rw [List.get?_eq_getElem?] at h2
    exact ⟨e, List.getElem?_mem h2, key_eq_of_not_lt _ _ h4 h3, h⟩

theorem no_key_of_mode_none (l : Accesses) (hs : l.sorted) (k : ReferenceWrapper)
    (h : l.mode k = none) : ∀ e ∈ l, e.1.key ≠ k.key := by
  intro e he hk
  rw [mode_of_mem l hs k e he hk] at h
  cases h

theorem mem_set_of_ne {α : Type} (l : List α) (i : Nat) (x e : α) (he : e ∈ l)
    (hne : ∀ h : i < l.length, l[i] ≠ e) : e ∈ l.set i x := by
  obtain ⟨j, hj, rfl⟩ := List.mem_iff_getElem.1 he
  have hij : i ≠ j := by
    intro hij
    subst hij
    exact hne hj rfl
  have : (l.set i x)[j]? = some l[j] := by
    rw [List.getElem?_set_ne hij, List.getElem?_eq_getElem hj]
  exact List.getElem?_mem this

/-- The shape of the map after `record`: the new entry inserted, or the mode of the entry
of the reference replaced. -/
theorem record_cases (self : ObjectAccesses) (m : AccessMode) (r : ReferenceWrapper) :
    (self.accesses.find r = none ∧
      (self.record m r).accesses =
        self.accesses.take (self.accesses.lower_bound r) ++
          (r, m) :: self.accesses.drop (self.accesses.lower_bound r)) ∨
    (∃ i e, self.accesses.find r = some i ∧ self.accesses.get? i = some e ∧
      e.1.key = r.key ∧ i = self.accesses.lower_bound r ∧
      (self.record m r).accesses =
        self.accesses.set i (e.1, if e.2 = m then e.2 else AccessMode.WRITE)) := by
  cases hf : self.accesses.find r with
  | none =>
    left
    rw [ObjectAccesses.record_none self m r hf]
    exact ⟨rfl, rfl⟩
  | some i =>
    right
    obtain ⟨e, h1, h2, h3, h4⟩ := ObjectAccesses.record_some self m r i hf
    have hi : i = self.accesses.lower_bound r := by
      rcases Accesses.find_spec self.accesses r with hn | ⟨_, k1, _⟩
      · rw [hn] at hf; cases hf
      · rw [k1] at hf; injection hf with hf; exact hf.symm
    exact ⟨i, e, rfl, h1, key_eq_of_not_lt _ _ h3 h2, hi, by rw [h4]⟩

/-- The method `record` keeps the map sorted. -/
theorem record_sorted (self : ObjectAccesses) (m : AccessMode) (r : ReferenceWrapper)
    (hs : self.accesses.sorted) : (self.record m r).accesses.sorted := by
  rcases record_cases self m r with ⟨hf, heq⟩ | ⟨i, e, hf, hg, hk, hi, heq⟩
  · rw [heq]
    unfold Accesses.sorted at hs ⊢
    have hsplit := hs
    rw [← List.take_append_drop (self.accesses.lower_bound r) self.accesses,
      List.pairwise_append] at hsplit
    obtain ⟨p1, p2, p3⟩ := hsplit
    have hdrop : ∀ y ∈ self.accesses.drop (self.accesses.lower_bound r), r.lt y.1 = true := by
      intro y hy
      have hny := not_lt_of_mem_drop_lower_bound self.accesses hs r y hy
      rcases wrapper_lt_or_key_eq r y.1 with h | h | h
      · exact h
      · rw [h] at hny; cases hny
      · have hmem : y ∈ self.accesses := List.mem_of_mem_drop hy
        have := mode_of_mem self.accesses hs r y hmem h.symm
        simp [Accesses.mode, hf] at this
    rw [List.pairwise_append]
    refine ⟨p1, List.pairwise_cons.2 ⟨hdrop, p2⟩, ?_⟩
    intro x hx y hy
    rcases List.mem_cons.1 hy with rfl | hy
    · exact lt_of_mem_take_lower_bound _ _ x hx
    · exact p3 x hx y hy
  · rw [heq]
    unfold Accesses.sorted at hs ⊢
    rw [List.get?_eq_getElem?] at hg
    obtain ⟨hlt, hge⟩ := List.getElem?_eq_some.1 hg
    have hmap : (self.accesses.set i (e.1, if e.2 = m then e.2 else AccessMode.WRITE)).map
        (fun x => x.1) = self.accesses.map (fun x => x.1) := by
      rw [List.map_set]
      apply List.ext_getElem
      · simp
      · intro n h1 h2
        by_cases hn : i = n
        · subst hn
          simp [hge]
        · simp [List.getElem_set, hn]
    have h1 := (List.pairwise_map (f := fun x : ReferenceWrapper × AccessMode => x.1)
      (R := fun a b => a.lt b = true)).2 hs
    rw [← hmap] at h1
    exact (List.pairwise_map (f := fun x : ReferenceWrapper × AccessMode => x.1)
      (R := fun a b => a.lt b = true)).1 h1

/-- Recording a reference does not change what is recorded for a reference with another
key. -/
theorem mode_record_other (self : ObjectAccesses) (m : AccessMode) (r k : ReferenceWrapper)
    (hs : self.accesses.sorted) (hne : r.key ≠ k.key) :
    (self.record m r).accesses.mode k = self.accesses.mode k := by
  have hs2 := record_sorted self m r hs
  cases hm : self.accesses.mode k with
  | none =>
    have hno := no_key_of_mode_none _ hs k hm
    apply mode_none_of_no_key
    intro e he
    rcases record_cases self m r with ⟨_, heq⟩ | ⟨i, e0, _, hg, hk, _, heq⟩
    · rw [heq] at he
      rcases List.mem_append.1 he with h | h
      · exact hno e (List.mem_of_mem_take h)
      · rcases List.mem_cons.1 h with rfl | h
        · exact hne
        · exact hno e (List.mem_of_mem_drop h)
    · rw [heq] at he
      rcases List.mem_or_eq_of_mem_set he with h | rfl
      · exact hno e h
      · simp only
        rw [hk]
        exact hne
  | some a =>
    obtain ⟨e, he, hk, ha⟩ := mem_of_mode _ k a hm
    rw [← ha]
    apply mode_of_mem _ hs2 k e _ hk
    rcases record_cases self m r with ⟨_, heq⟩ | ⟨i, e0, _, hg, hk0, _, heq⟩
    · rw [heq]
      rw [← List.take_append_drop (self.accesses.lower_bound r) self.accesses] at he
      rcases List.mem_append.1 he with h | h
      · exact List.mem_append_left _ h
      · exact List.mem_append_right _ (List.mem_cons_of_mem _ h)
    · rw [heq]
      apply mem_set_of_ne _ _ _ _ he
      intro hlt heq2
      rw [List.get?_eq_getElem?, List.getElem?_eq_getElem hlt] at hg
      injection hg with hg
      rw [heq2] at hg
      rw [hg, hk0] at hk
      exact hne hk

/-- Recording a reference that has no entry gives it an entry with the mode. -/
theorem mode_record_fresh (self : ObjectAccesses) (m : AccessMode) (r : ReferenceWrapper)
    (hs : self.accesses.sorted) (hf : self.accesses.mode r = none) :
    (self.record m r).accesses.mode r = some m := by
  have hs2 := record_sorted self m r hs
  rcases record_cases self m r with ⟨_, heq⟩ | ⟨i, e0, hfi, hg, hk0, _, heq⟩
  · exact mode_of_mem _ hs2 r (r, m) (by rw [heq]; simp) rfl
  · unfold Accesses.mode at hf
    rw [hfi] at hf
    simp only [] at hf
    rw [hg] at hf
    cases hf

/-- Recording a reference that has an entry keeps the mode of the entry when it is the new
mode and makes it WRITE when it is not. -/
theorem mode_record_again (self : ObjectAccesses) (m a : AccessMode) (r : ReferenceWrapper)
    (hs : self.accesses.sorted) (hf : self.accesses.mode r = some a) :
    (self.record m r).accesses.mode r = some (if a = m then a else AccessMode.WRITE) := by
  have hs2 := record_sorted self m r hs
  rcases record_cases self m r with ⟨hfi, _⟩ | ⟨i, e0, hfi, hg, hk0, _, heq⟩
  · simp [Accesses.mode, hfi] at hf
  · have ha : e0.2 = a := by
      unfold Accesses.mode at hf
      rw [hfi] at hf
      simp only [] at hf
      rw [hg] at hf
      simpa using hf
    rw [← ha]
    rw [List.get?_eq_getElem?] at hg
    obtain ⟨hlt, _⟩ := List.getElem?_eq_some.1 hg
    exact mode_of_mem _ hs2 r (e0.1, if e0.2 = m then e0.2 else AccessMode.WRITE)
      (by rw [heq]; exact List.mem_set _ _ hlt _) hk0

theorem find_none_of_mode_none (l : Accesses) (k : ReferenceWrapper) (h : l.mode k = none) :
    l.find k = none := by
  rcases Accesses.find_spec l k with hn | ⟨e, h1, h2, _⟩
  · exact hn
  · unfold Accesses.mode at h
    rw [h1] at h
    simp only [] at h
    rw [h2] at h
    cases h

/-- Recording a reference that has no entry adds one entry to the map. -/
theorem record_perm (self : ObjectAccesses) (m : AccessMode) (r : ReferenceWrapper)
    (hf : self.accesses.mode r = none) :
    (self.record m r).accesses.Perm ((r, m) :: self.accesses) := by
  rw [ObjectAccesses.record_none self m r (find_none_of_mode_none _ _ hf)]
  simp only
  refine List.perm_middle.trans ?_
  rw [List.take_append_drop]

/-- The two steps of `add_access` with mode MEASURE. -/
theorem add_access_measure (ir : Root) (self : ObjectAccesses) (r : ReferenceWrapper) :
    ∃ (s0 : ObjectAccesses) (copy : ReferenceWrapper), s0.accesses = self.accesses ∧
      copy.reference.target = r.reference.target ∧
      copy.reference.data_type = ir.platform.implicit_bit_type ∧
      self.add_access ir AccessMode.MEASURE r =
        (s0.record AccessMode.WRITE copy).record AccessMode.WRITE r :=
  ⟨{ self with next_addr := (r.reference.clone self.next_addr).2 },
    { reference := { (r.reference.clone self.next_addr).1 with
        data_type := ir.platform.implicit_bit_type } }, rfl, rfl, rfl, by
      simp [ObjectAccesses.add_access]⟩

theorem recorded_mode_eq (m : AccessMode) (hm : m ≠ AccessMode.MEASURE) :
    (if m = AccessMode.LITERAL then AccessMode.READ else m) = recorded_mode m := by
  cases m <;> first | rfl | exact absurd rfl hm

/-- The method `add_access` keeps the map sorted. -/
theorem add_access_sorted (ir : Root) (self : ObjectAccesses) (m : AccessMode)
    (r : ReferenceWrapper) (hs : self.accesses.sorted) :
    (self.add_access ir m r).accesses.sorted := by
  by_cases hm : m = AccessMode.MEASURE
  · subst hm
    obtain ⟨s0, copy, h0, _, _, heq⟩ := add_access_measure ir self r
    rw [heq]
    exact record_sorted _ _ _ (record_sorted _ _ _ (by rw [h0]; exact hs))
  · rw [ObjectAccesses.add_access_eq_record ir self m r hm]
    exact record_sorted _ _ _ hs

/-- An access to a reference that is independent of key `k` does not change what is
recorded for `k`. -/
theorem mode_add_access_other (ir : Root) (self : ObjectAccesses) (m : AccessMode)
    (r : Reference) (k : ReferenceWrapper) (hs : self.accesses.sorted)
    (hi : k.independent ir r = true) :
    (self.add_access ir m { reference := r }).accesses.mode k = self.accesses.mode k := by
  simp only [ReferenceWrapper.independent, Bool.and_eq_true, Bool.or_eq_true,
    decide_eq_true_eq] at hi
  obtain ⟨h1, h2⟩ := hi
  by_cases hm : m = AccessMode.MEASURE
  · subst hm
    obtain ⟨s0, copy, h0, c1, c2, heq⟩ := add_access_measure ir self { reference := r }
    have hs0 : s0.accesses.sorted := by rw [h0]; exact hs
    rw [heq, mode_record_other _ _ _ _ (record_sorted _ _ _ hs0) h1,
      mode_record_other _ _ _ _ hs0, h0]
    intro hk
    simp only [ReferenceWrapper.key, Prod.mk.injEq] at hk
    rcases h2 with h2 | h2
    · exact h2 (c1.symm.trans hk.1)
    · exact h2 (hk.2.1.symm.trans c2)
  · rw [ObjectAccesses.add_access_eq_record ir self m _ hm]
    exact mode_record_other _ _ _ _ hs h1

/-- An access to a reference that has no entry gives it an entry, with the mode of the
access, READ for LITERAL and WRITE for MEASURE. -/
theorem mode_add_access_fresh (ir : Root) (self : ObjectAccesses) (m : AccessMode)
    (r : ReferenceWrapper) (hs : self.accesses.sorted) (hf : self.accesses.mode r = none) :
    (self.add_access ir m r).accesses.mode r = some (recorded_mode m) := by
  by_cases hm : m = AccessMode.MEASURE
  · subst hm
    obtain ⟨s0, copy, h0, _, _, heq⟩ := add_access_measure ir self r
    have hs0 : s0.accesses.sorted := by rw [h0]; exact hs
    have hf0 : s0.accesses.mode r = none := by rw [h0]; exact hf
    rw [heq]
    by_cases hk : copy.key = r.key
    · have h1 := mode_record_fresh s0 AccessMode.WRITE copy hs0
        (by rw [mode_congr _ _ _ hk]; exact hf0)
      rw [mode_congr _ _ _ hk] at h1
      rw [mode_record_again _ _ _ _ (record_sorted _ _ _ hs0) h1]
      rfl
    · exact mode_record_fresh _ _ _ (record_sorted _ _ _ hs0)
        (by rw [mode_record_other _ _ _ _ hs0 hk]; exact hf0)
  · rw [ObjectAccesses.add_access_eq_record ir self m r hm, recorded_mode_eq m hm]
    exact mode_record_fresh _ _ _ hs hf

/-- An access with a mode other than MEASURE to a reference that has no entry adds one
entry to the map. -/
theorem add_access_perm (ir : Root) (self : ObjectAccesses) (m : AccessMode)
    (r : ReferenceWrapper) (hm : m ≠ AccessMode.MEASURE) (hf : self.accesses.mode r = none) :
    (self.add_access ir m r).accesses.Perm ((r, recorded_mode m) :: self.accesses) := by
  rw [ObjectAccesses.add_access_eq_record ir self m r hm, recorded_mode_eq m hm]
  exact record_perm _ _ _ hf

theorem sorted_nil (self : ObjectAccesses) (h : self.accesses = []) : self.accesses.sorted := by
  rw [h]; exact List.Pairwise.nil

theorem mode_nil (self : ObjectAccesses) (h : self.accesses = []) (k : ReferenceWrapper) :
    self.accesses.mode k = none := by
  rw [h]; rfl

mutual
/-- The method `add_expression` keeps the map sorted, and does not change what is recorded
for a key of which all references of the expression are independent. -/
theorem add_expression_frame (ir : Root) (k : ReferenceWrapper) :
    ∀ (e : Expression) (self : ObjectAccesses) (m : AccessMode) (acc : ObjectAccesses),
      self.accesses.sorted → self.add_expression ir m e = .ok acc →
      acc.accesses.sorted ∧
      ((∀ r ∈ e.references, k.independent ir r = true) →
        acc.accesses.mode k = self.accesses.mode k)
  | .reference r, self, m, acc, hs, h => by
    simp only [ObjectAccesses.add_expression, Except.ok.injEq] at h
    subst h
    exact ⟨add_access_sorted _ _ _ _ hs, fun hi =>
      mode_add_access_other ir self m r k hs (hi r (by simp [Expression.references]))⟩
  | .bit_literal _ _, self, m, acc, hs, h => by
    simp only [ObjectAccesses.add_expression, Except.ok.injEq] at h
    subst h
    exact ⟨hs, fun _ => rfl⟩
  | .int_literal _ _, self, m, acc, hs, h => by
    simp only [ObjectAccesses.add_expression, Except.ok.injEq] at h
    subst h
    exact ⟨hs, fun _ => rfl⟩
  | .string_literal _ _, self, m, acc, hs, h => by
    simp only [ObjectAccesses.add_expression, Except.ok.injEq] at h
    subst h
    exact ⟨hs, fun _ => rfl⟩
  | .function_call f operands, self, m, acc, hs, h => by
    simp only [ObjectAccesses.add_expression] at h
    cases f with
    | none => simp at h
    | some p =>
      simp only [] at h
      cases hft : ir.function_nodes.get? p with
      | none => rw [hft] at h; simp at h
      | some ft =>
        rw [hft] at h
        simp only [] at h
        cases hc : count_qubit_types ir ft.operand_types with
        | error e => simp [hc] at h
        | ok n =>
          simp only [hc] at h
          obtain ⟨s1, s2⟩ := add_operands_loop_frame ir k operands self _ _ acc hs h
          exact ⟨s1, fun hi => s2 (by simpa [Expression.references] using hi)⟩
/-- The loop of `add_operands` keeps the map sorted, and does not change what is recorded
for a key of which all references of the operands are independent. -/
theorem add_operands_loop_frame (ir : Root) (k : ReferenceWrapper) :
    ∀ (operands : List Expression) (self : ObjectAccesses) (disable : Bool)
      (prototype : List OperandType) (acc : ObjectAccesses),
      self.accesses.sorted →
      ObjectAccesses.add_operands_loop ir self disable prototype operands = .ok acc →
      acc.accesses.sorted ∧
      ((∀ r ∈ Expression.references_list operands, k.independent ir r = true) →
        acc.accesses.mode k = self.accesses.mode k)
  | [], self, disable, prototype, acc, hs, h => by
    cases prototype with
    | nil =>
      simp only [ObjectAccesses.add_operands_loop, Except.ok.injEq] at h
      subst h
      exact ⟨hs, fun _ => rfl⟩
    | cons o os => simp [ObjectAccesses.add_operands_loop] at h
  | e :: rest, self, disable, prototype, acc, hs, h => by
    cases prototype with
    | nil =>
      simp only [ObjectAccesses.add_operands_loop, Except.ok.injEq] at h
      subst h
      exact ⟨hs, fun _ => rfl⟩
    | cons o os =>
      simp only [ObjectAccesses.add_operands_loop] at h
      cases h1 : self.add_expression ir (demote_commutation disable o.mode) e with
      | error err => simp [h1] at h
      | ok next =>
        simp only [h1] at h
        obtain ⟨a1, a2⟩ := add_expression_frame ir k e self _ next hs h1
        obtain ⟨b1, b2⟩ := add_operands_loop_frame ir k rest next disable os acc a1 h
        refine ⟨b1, fun hi => ?_⟩
        simp only [Expression.references_list, List.mem_append] at hi
        rw [b2 (fun r hr => hi r (Or.inr hr)), a2 (fun r hr => hi r (Or.inl hr))]
end

theorem mem_references_list : ∀ (l : List Expression) (r : Reference),
    r ∈ Expression.references_list l ↔ ∃ e ∈ l, r ∈ e.references
  | [], r => by simp [Expression.references_list]
  | e :: rest, r => by
    simp [Expression.references_list, mem_references_list rest r]

/-- The loop of `add_operands` at operand `i`: when operand `i` is a reference without an
entry and the references of the other operands are independent of it, the loop records it
with the mode of entry `i` of the prototype, a commute mode turned into WRITE when
commutation is disabled. -/
theorem add_operands_loop_at (ir : Root) (r : Reference) (o : OperandType) (disable : Bool) :
    ∀ (i : Nat) (operands : List Expression) (self : ObjectAccesses)
      (prototype : List OperandType) (acc : ObjectAccesses),
      prototype[i]? = some o → operands[i]? = some (.reference r) →
      self.accesses.sorted → self.accesses.mode { reference := r } = none →
      (∀ j e, j ≠ i → operands[j]? = some e →
        ∀ r' ∈ e.references, ReferenceWrapper.independent ir { reference := r } r' = true) →
      ObjectAccesses.add_operands_loop ir self disable prototype operands = .ok acc →
      acc.accesses.sorted ∧
      acc.accesses.mode { reference := r } =
        some (recorded_mode (demote_commutation disable o.mode))
  | 0, operands, self, prototype, acc, hp, hop, hs, hf, hothers, h => by
    cases prototype with
    | nil => simp at hp
    | cons o0 os =>
      cases operands with
      | nil => simp at hop
      | cons e0 rest =>
        simp only [List.getElem?_cons_zero, Option.some.injEq] at hp hop
        subst hp hop
        simp only [ObjectAccesses.add_operands_loop, ObjectAccesses.add_expression] at h
        obtain ⟨b1, b2⟩ := add_operands_loop_frame ir { reference := r } rest _ disable os acc
          (add_access_sorted _ _ _ _ hs) h
        refine ⟨b1, ?_⟩
        rw [b2, mode_add_access_fresh ir self _ _ hs hf]
        intro r' hr'
        obtain ⟨e, he, hre⟩ := (mem_references_list rest r').1 hr'
        obtain ⟨j, hj, rfl⟩ := List.mem_iff_getElem.1 he
        exact hothers (j + 1) _ (by omega)
          (by rw [List.getElem?_cons_succ, List.getElem?_eq_getElem hj]) r' hre
  | i + 1, operands, self, prototype, acc, hp, hop, hs, hf, hothers, h => by
    cases prototype with
    | nil => simp at hp
    | cons o0 os =>
      cases operands with
      | nil => simp at hop
      | cons e0 rest =>
        simp only [List.getElem?_cons_succ] at hp hop
        simp only [ObjectAccesses.add_operands_loop] at h
        cases h1 : self.add_expression ir (demote_commutation disable o0.mode) e0 with
        | error err => simp [h1] at h
        | ok next =>
          simp only [h1] at h
          obtain ⟨a1, a2⟩ := add_expression_frame ir { reference := r } e0 self _ next hs h1
          have hf1 : next.accesses.mode { reference := r } = none := by
            rw [a2 (fun r' hr' => hothers 0 e0 (by omega) (by simp) r' hr'), hf]
          exact add_operands_loop_at ir r o disable i rest next os acc hp hop a1 hf1
            (fun j e hj he => hothers (j + 1) e (by omega)
              (by rw [List.getElem?_cons_succ]; exact he)) h

theorem add_template_operands_frame (ir : Root) (k : ReferenceWrapper) :
    ∀ (template_operands : List Expression) (self : ObjectAccesses)
      (operand_types : List OperandType) (acc : ObjectAccesses),
      self.accesses.sorted →
      self.add_template_operands ir operand_types template_operands = .ok acc →
      acc.accesses.sorted ∧
      ((∀ r ∈ Expression.references_list template_operands, k.independent ir r = true) →
        acc.accesses.mode k = self.accesses.mode k)
  | [], self, operand_types, acc, hs, h => by
    simp only [ObjectAccesses.add_template_operands, Except.ok.injEq] at h
    subst h
    exact ⟨hs, fun _ => rfl⟩
  | e :: rest, self, operand_types, acc, hs, h => by
    cases operand_types with
    | nil => simp [ObjectAccesses.add_template_operands] at h
    | cons o os =>
      simp only [ObjectAccesses.add_template_operands] at h
      cases h1 : self.add_expression ir o.mode e with
      | error err => simp [h1] at h
      | ok next =>
        simp only [h1] at h
        obtain ⟨a1, a2⟩ := add_expression_frame ir k e self _ next hs h1
        obtain ⟨b1, b2⟩ := add_template_operands_frame ir k rest next os acc a1 h
        refine ⟨b1, fun hi => ?_⟩
        simp only [Expression.references_list, List.mem_append] at hi
        rw [b2 (fun r hr => hi r (Or.inr hr)), a2 (fun r hr => hi r (Or.inl hr))]

/-- The empty reference is independent of every reference with a target. -/
theorem independent_empty (ir : Root) (r : Reference) (h : r.target.isSome = true) :
    ReferenceWrapper.independent ir { reference := r } {} = true := by
  cases ht : r.target with
  | none => rw [ht] at h; cases h
  | some t =>
    simp [ReferenceWrapper.independent, ReferenceWrapper.key, ht,
      show ({} : Reference).target = none from rfl]

theorem mode_add_barrier_access_other (ir : Root) (self : ObjectAccesses) (barrier : Bool)
    (r : Reference) (hs : self.accesses.sorted) (h : r.target.isSome = true) :
    (self.add_barrier_access ir barrier).accesses.mode { reference := r } =
      self.accesses.mode { reference := r } :=
  mode_add_access_other ir self _ {} { reference := r } hs (independent_empty ir r h)

theorem well_formed_of_mem : ∀ (l : List Expression) (ir : Root),
    Expression.well_formed_list ir l = true → ∀ e ∈ l, e.well_formed ir = true
  | [], _, _, e, he => by cases he
  | x :: rest, ir, h, e, he => by
    simp only [Expression.well_formed_list, Bool.and_eq_true] at h
    rcases List.mem_cons.1 he with rfl | he
    · exact h.1
    · exact well_formed_of_mem rest ir h.2 e he

theorem recorded_demoted (disable : Bool) (m : AccessMode)
    (h : m = AccessMode.COMMUTE_X ∨ m = AccessMode.COMMUTE_Y ∨ m = AccessMode.COMMUTE_Z) :
    recorded_mode (demote_commutation disable m) =
      if disable = true then AccessMode.WRITE else m := by
  rcases h with h | h | h <;> subst h <;> cases disable <;> rfl

/-- C13. Commutation toggle: for a well-formed unconditional custom instruction whose
operand `i` is a reference `r` and whose instruction type declares a commute mode for
operand `i`, when the references of the other operands and of the template operands are
independent of `r`, `add_statement` on an access map without entries records `r` with mode
WRITE when commutation is disabled for the instruction type and with the declared commute
mode otherwise. With exactly one qubit-typed operand type, commutation is disabled exactly
when `disable_single_qubit_commutation` is set; with two or more, exactly when
`disable_multi_qubit_commutation` is set. -/
theorem commutation_toggle (ir : Root) (self : ObjectAccesses) (custom : CustomInstruction)
    (d : Link) (t i n : Nat) (o : OperandType) (r : Reference)
    (hwf : custom.well_formed ir = true)
    (hempty : self.accesses = [])
    (hcond : custom.condition = some (.bit_literal true d))
    (htype : custom.instruction_type = some t)
    (hcount : count_qubit_types ir (ir.node t).operand_types = .ok n)
    (ho : (ir.node t).operand_types[i]? = some o)
    (hr : custom.operands[i]? = some (.reference r))
    (hmode : o.mode = AccessMode.COMMUTE_X ∨ o.mode = AccessMode.COMMUTE_Y ∨
      o.mode = AccessMode.COMMUTE_Z)
    (hothers : ∀ j e, j ≠ i → custom.operands[j]? = some e →
      ∀ r' ∈ e.references, ReferenceWrapper.independent ir { reference := r } r' = true)
    (htemplate : ∀ r' ∈ Expression.references_list (ir.node t).template_operands,
      ReferenceWrapper.independent ir { reference := r } r' = true) :
    ∃ acc, self.add_statement ir (.custom_instruction custom) = .ok acc ∧
      (n = 1 → acc.accesses.mode { reference := r } =
        some (if self.disable_single_qubit_commutation = true then AccessMode.WRITE
          else o.mode)) ∧
      (2 ≤ n → acc.accesses.mode { reference := r } =
        some (if self.disable_multi_qubit_commutation = true then AccessMode.WRITE
          else o.mode)) ∧
      (n = 0 → acc.accesses.mode { reference := r } = some o.mode) := by
  obtain ⟨acc, hacc⟩ := add_statement_ok ir (.custom_instruction custom) self
    (by simpa [Statement.well_formed] using hwf)
  refine ⟨acc, hacc, ?_⟩
  have htarget : r.target.isSome = true := by
    have hops : Expression.well_formed_list ir custom.operands = true := by
      simp only [CustomInstruction.well_formed, Bool.and_eq_true] at hwf
      exact hwf.2
    have := well_formed_of_mem _ ir hops (.reference r) (List.getElem?_mem hr)
    simpa [Expression.well_formed] using this
  have key : acc.accesses.mode { reference := r } =
      some (if self.disable_qubit_commutation n = true then AccessMode.WRITE else o.mode) := by
    simp only [ObjectAccesses.add_statement] at hacc
    cases h1 : self.add_custom_instruction ir custom with
    | error e => simp [h1] at hacc
    | ok s1 =>
      simp only [h1, Except.ok.injEq] at hacc
      subst hacc
      unfold ObjectAccesses.add_custom_instruction at h1
      simp only [hcond, ObjectAccesses.add_condition, ObjectAccesses.add_expression, htype,
        ObjectAccesses.add_operands, hcount] at h1
      cases h2 : ObjectAccesses.add_operands_loop ir self (self.disable_qubit_commutation n)
          (ir.node t).operand_types custom.operands with
      | error e => simp [h2] at h1
      | ok s2 =>
        simp only [h2] at h1
        obtain ⟨a1, a2⟩ := add_operands_loop_at ir r o _ i custom.operands self _ s2 ho hr
          (sorted_nil self hempty) (mode_nil self hempty _) hothers h2
        rw [recorded_demoted _ _ hmode] at a2
        by_cases hte : (ir.node t).template_operands.isEmpty = true
        · simp only [hte, if_true, Except.ok.injEq] at h1
          subst h1
          rw [mode_add_barrier_access_other ir _ _ r a1 htarget, a2]
        · simp only [hte, Bool.false_eq_true, if_false] at h1
          cases hg : find_generalization ir
              ((ir.node t).template_operands.length + ir.instruction_nodes.length + 1) t with
          | none => simp [hg] at h1
          | some gen =>
            simp only [hg] at h1
            obtain ⟨b1, b2⟩ := add_template_operands_frame ir { reference := r } _ s2 _ s1 a1 h1
            rw [mode_add_barrier_access_other ir _ _ r b1 htarget, b2 htemplate, a2]
  refine ⟨fun hn => ?_, fun hn => ?_, fun hn => ?_⟩
  · rw [key]
    subst hn
    simp [ObjectAccesses.disable_qubit_commutation]
  · rw [key]
    have h1 : (n == 1) = false := by
      rw [beq_eq_false_iff_ne]; omega
    have h2 : decide (n > 1) = true := by
      rw [decide_eq_true_eq]; omega
    simp [ObjectAccesses.disable_qubit_commutation, h1, h2]
  · rw [key]
    subst hn
    simp [ObjectAccesses.disable_qubit_commutation]

theorem mode_add_access_ne (ir : Root) (self : ObjectAccesses) (m : AccessMode)
    (r k : ReferenceWrapper) (hs : self.accesses.sorted) (hm : m ≠ AccessMode.MEASURE)
    (hne : r.key ≠ k.key) :
    (self.add_access ir m r).accesses.mode k = self.accesses.mode k := by
  rw [ObjectAccesses.add_access_eq_record ir self m r hm]
  exact mode_record_other _ _ _ _ hs hne

/-- A sequence of accesses, none with mode MEASURE, to references with different keys that
have no entry adds one entry for each access. -/
theorem add_accesses_perm (ir : Root) :
    ∀ (l : List (AccessMode × ReferenceWrapper)) (self : ObjectAccesses),
      self.accesses.sorted → (∀ x ∈ l, x.1 ≠ AccessMode.MEASURE) →
      l.Pairwise (fun x y => x.2.key ≠ y.2.key) →
      (∀ x ∈ l, self.accesses.mode x.2 = none) →
      (self.add_accesses ir l).accesses.sorted ∧
      (self.add_accesses ir l).accesses.Perm
        (l.map (fun x => (x.2, recorded_mode x.1)) ++ self.accesses)
  | [], self, hs, _, _, _ => ⟨hs, List.Perm.refl _⟩
  | x :: rest, self, hs, hm, hp, hf => by
    rw [List.pairwise_cons] at hp
    have hs1 := add_access_sorted ir self x.1 x.2 hs
    obtain ⟨a1, a2⟩ := add_accesses_perm ir rest (self.add_access ir x.1 x.2) hs1
      (fun y hy => hm y (List.mem_cons_of_mem _ hy)) hp.2
      (fun y hy => by
        rw [mode_add_access_ne ir self x.1 x.2 y.2 hs (hm x (List.mem_cons_self _ _))
          (hp.1 y hy)]
        exact hf y (List.mem_cons_of_mem _ hy))
    refine ⟨a1, ?_⟩
    have hperm := add_access_perm ir self x.1 x.2 (hm x (List.mem_cons_self _ _))
      (hf x (List.mem_cons_self _ _))
    show (ObjectAccesses.add_accesses ir (self.add_access ir x.1 x.2) rest).accesses.Perm _
    refine a2.trans ?_
    simp only [List.map_cons, List.cons_append]
    exact (List.Perm.append_left _ hperm).trans List.perm_middle

theorem add_accesses_append (ir : Root) (self : ObjectAccesses)
    (l1 l2 : List (AccessMode × ReferenceWrapper)) :
    self.add_accesses ir (l1 ++ l2) = (self.add_accesses ir l1).add_accesses ir l2 := by
  simp [ObjectAccesses.add_accesses, List.foldl_append]

/-- On an expression that is not a function call `add_expression` makes the direct
access. -/
theorem add_expression_direct (ir : Root) (self : ObjectAccesses) (m : AccessMode)
    (e : Expression) (h : e.is_function_call = false) :
    self.add_expression ir m e = .ok (self.add_accesses ir (direct_accesses m e)) := by
  cases e with
  | function_call f ops => simp [Expression.is_function_call] at h
  | reference r => simp only [ObjectAccesses.add_expression]; rfl
  | bit_literal _ _ => simp only [ObjectAccesses.add_expression]; rfl
  | int_literal _ _ => simp only [ObjectAccesses.add_expression]; rfl
  | string_literal _ _ => simp only [ObjectAccesses.add_expression]; rfl

theorem record_flags (self : ObjectAccesses) (m : AccessMode) (r : ReferenceWrapper) :
    (self.record m r).disable_single_qubit_commutation = self.disable_single_qubit_commutation ∧
    (self.record m r).disable_multi_qubit_commutation = self.disable_multi_qubit_commutation := by
  unfold ObjectAccesses.record
  split
  · exact ⟨rfl, rfl⟩
  · split <;> exact ⟨rfl, rfl⟩

theorem add_access_flags (ir : Root) (self : ObjectAccesses) (m : AccessMode)
    (r : ReferenceWrapper) (n : Nat) :
    (self.add_access ir m r).disable_qubit_commutation n = self.disable_qubit_commutation n := by
  by_cases hm : m = AccessMode.MEASURE
  · subst hm
    simp only [ObjectAccesses.add_access, reduceCtorEq, if_false, if_true,
      ObjectAccesses.disable_qubit_commutation, (record_flags _ _ _).1, (record_flags _ _ _).2]
  · rw [ObjectAccesses.add_access_eq_record ir self m r hm]
    simp only [ObjectAccesses.disable_qubit_commutation, (record_flags _ _ _).1,
      (record_flags _ _ _).2]

mutual
/-- The method `add_expression` leaves the commutation flags as they are. -/
theorem add_expression_flags (ir : Root) (n : Nat) :
    ∀ (e : Expression) (self : ObjectAccesses) (m : AccessMode) (acc : ObjectAccesses),
      self.add_expression ir m e = .ok acc →
      acc.disable_qubit_commutation n = self.disable_qubit_commutation n
  | .reference r, self, m, acc, h => by
    simp only [ObjectAccesses.add_expression, Except.ok.injEq] at h
    subst h
    exact add_access_flags ir self m _ n
  | .bit_literal _ _, self, m, acc, h => by
    simp only [ObjectAccesses.add_expression, Except.ok.injEq] at h
    subst h
    rfl
  | .int_literal _ _, self, m, acc, h => by
    simp only [ObjectAccesses.add_expression, Except.ok.injEq] at h
    subst h
    rfl
  | .string_literal _ _, self, m, acc, h => by
    simp only [ObjectAccesses.add_expression, Except.ok.injEq] at h
    subst h
    rfl
  | .function_call f operands, self, m, acc, h => by
    simp only [ObjectAccesses.add_expression] at h
    cases f with
    | none => simp at h
    | some p =>
      simp only [] at h
      cases hft : ir.function_nodes.get? p with
      | none => rw [hft] at h; simp at h
      | some ft =>
        rw [hft] at h
        simp only [] at h
        cases hc : count_qubit_types ir ft.operand_types with
        | error e => simp [hc] at h
        | ok k =>
          simp only [hc] at h
          exact add_operands_loop_flags ir n operands self _ _ acc h
/-- The loop of `add_operands` leaves the commutation flags as they are. -/
theorem add_operands_loop_flags (ir : Root) (n : Nat) :
    ∀ (operands : List Expression) (self : ObjectAccesses) (disable : Bool)
      (prototype : List OperandType) (acc : ObjectAccesses),
      ObjectAccesses.add_operands_loop ir self disable prototype operands = .ok acc →
      acc.disable_qubit_commutation n = self.disable_qubit_commutation n
  | [], self, disable, prototype, acc, h => by
    cases prototype with
    | nil =>
      simp only [ObjectAccesses.add_operands_loop, Except.ok.injEq] at h
      subst h
      rfl
    | cons o os => simp [ObjectAccesses.add_operands_loop] at h
  | e :: rest, self, disable, prototype, acc, h => by
    cases prototype with
    | nil =>
      simp only [ObjectAccesses.add_operands_loop, Except.ok.injEq] at h
      subst h
      rfl
    | cons o os =>
      simp only [ObjectAccesses.add_operands_loop] at h
      cases h1 : self.add_expression ir (demote_commutation disable o.mode) e with
      | error err => simp [h1] at h
      | ok next =>
        simp only [h1] at h
        rw [add_operands_loop_flags ir n rest next disable os acc h,
          add_expression_flags ir n e self _ next h1]
end

/-- A function call at operand `i`: when operand `i` of the call is a reference without an
entry and the references of the other operands are independent of it, `add_expression`
records it with the mode of operand type `i` of the function type, whatever the mode
passed to `add_expression` is. -/
theorem add_expression_call_at (ir : Root) (self acc : ObjectAccesses) (m : AccessMode)
    (f : Nat) (operands : List Expression) (ft : FunctionType) (n i : Nat) (o : OperandType)
    (r : Reference)
    (hft : ir.function_nodes.get? f = some ft)
    (hcount : count_qubit_types ir ft.operand_types = .ok n)
    (ho : ft.operand_types[i]? = some o) (hr : operands[i]? = some (.reference r))
    (hs : self.accesses.sorted) (hf : self.accesses.mode { reference := r } = none)
    (hothers : ∀ j e, j ≠ i → operands[j]? = some e →
      ∀ r' ∈ e.references, ReferenceWrapper.independent ir { reference := r } r' = true)
    (h : self.add_expression ir m (.function_call (some f) operands) = .ok acc) :
    acc.accesses.sorted ∧
    acc.accesses.mode { reference := r } =
      some (recorded_mode (demote_commutation (self.disable_qubit_commutation n) o.mode)) := by
  simp only [ObjectAccesses.add_expression] at h
  rw [hft] at h
  simp only [hcount] at h
  exact add_operands_loop_at ir r o _ i operands self _ acc ho hr hs hf hothers h

theorem key_ne_empty_of_target (r : Reference) (h : r.target.isSome = true) :
    ReferenceWrapper.key { reference := r } ≠ ReferenceWrapper.key {} := by
  intro hk
  simp only [ReferenceWrapper.key, Prod.mk.injEq] at hk
  rw [hk.1] at h
  cases h

/-- C12, as amended. Scenario S6: `make_instruction("barrier", [r0, r1])` for two
references with different keys is a wait instruction with duration zero on the two
references, and `add_statement` of it on an access map without entries records exactly
WRITE on `r0`, WRITE on `r1` and READ on the empty reference: the synthetic access is a
READ, as the wait has objects. -/
theorem barrier_scenario (ir : Root) (self : ObjectAccesses) (r0 r1 : Reference)
    (generate_overload_if_needed return_empty_on_failure : Bool)
    (hempty : self.accesses = [])
    (h0 : r0.target.isSome = true) (h1 : r1.target.isSome = true)
    (hne : ReferenceWrapper.key { reference := r0 } ≠ ReferenceWrapper.key { reference := r1 }) :
    make_instruction ir "barrier" [.reference r0, .reference r1] none
        generate_overload_if_needed return_empty_on_failure =
      (ir, .ok (some (.wait_instruction { duration := 0, objects := [r0, r1] }))) ∧
    ∃ acc, self.add_statement ir
        (Instruction.to_statement (.wait_instruction { duration := 0, objects := [r0, r1] })) =
          .ok acc ∧
      acc.accesses.Perm [({ reference := r0 }, AccessMode.WRITE),
        ({ reference := r1 }, AccessMode.WRITE), ({}, AccessMode.READ)] ∧
      acc.accesses.sorted ∧
      acc.accesses.mode {} = some AccessMode.READ := by
  constructor
  · have hn1 : ¬ ("barrier" = "set") := by decide
    have hn2 : ¬ ("barrier" = "wait") := by decide
    simp only [make_instruction, hn1, hn2, if_false, if_true, as_references, set_condition]
  · refine ⟨self.add_accesses ir [(AccessMode.WRITE, { reference := r0 }),
      (AccessMode.WRITE, { reference := r1 }), (AccessMode.READ, {})], rfl, ?_⟩
    obtain ⟨a1, a2⟩ := add_accesses_perm ir [(AccessMode.WRITE, { reference := r0 }),
      (AccessMode.WRITE, { reference := r1 }), (AccessMode.READ, {})] self
      (sorted_nil self hempty)
      (by intro x hx; simp at hx; rcases hx with rfl | rfl | rfl <;> simp)
      (by
        simp only [List.pairwise_cons, List.mem_cons, List.mem_singleton, forall_eq_or_imp,
          forall_eq, List.not_mem_nil, false_imp_iff, implies_true, List.Pairwise.nil,
          and_true]
        exact ⟨⟨hne, key_ne_empty_of_target r0 h0⟩, key_ne_empty_of_target r1 h1⟩)
      (fun x _ => mode_nil self hempty _)
    rw [hempty] at a2
    have a2 : (self.add_accesses ir [(AccessMode.WRITE, { reference := r0 }),
        (AccessMode.WRITE, { reference := r1 }), (AccessMode.READ, {})]).accesses.Perm
        [({ reference := r0 }, AccessMode.WRITE), ({ reference := r1 }, AccessMode.WRITE),
          ({}, AccessMode.READ)] := a2
    refine ⟨a2, a1, ?_⟩
    exact mode_of_mem _ a1 {} ({}, AccessMode.READ) (a2.mem_iff.2 (by simp)) rfl

/-- C12, counterexample: after `add_statement` of the barrier on the qubits `q[0]` and
`q[1]`, the empty reference is recorded with mode READ, not WRITE. -/
theorem barrier_synthetic_access_not_write :
    ¬ (∀ (ir : Root) (self acc : ObjectAccesses) (r0 r1 : Reference),
      self.accesses = [] → r0.target.isSome = true → r1.target.isSome = true →
      ReferenceWrapper.key { reference := r0 } ≠ ReferenceWrapper.key { reference := r1 } →
      self.add_statement ir
        (Instruction.to_statement (.wait_instruction { duration := 0, objects := [r0, r1] })) =
          .ok acc →
      acc.accesses.mode {} = some AccessMode.WRITE) := by
  intro h
  have := h example_ir0 {} _ (example_reference 10 0) (example_reference 11 1) rfl rfl rfl
    (by decide) rfl
  exact absurd this (by decide)

theorem direct_accesses_target (ir : Root) (m : AccessMode) (e : Expression)
    (h : e.well_formed ir = true) :
    ∀ x ∈ direct_accesses m e, x.1 = m ∧ x.2.reference.target.isSome = true := by
  intro x hx
  cases e with
  | reference r =>
    simp only [direct_accesses, List.mem_singleton] at hx
    subst hx
    exact ⟨rfl, by simpa [Expression.well_formed] using h⟩
  | bit_literal _ _ => simp [direct_accesses] at hx
  | int_literal _ _ => simp [direct_accesses] at hx
  | string_literal _ _ => simp [direct_accesses] at hx
  | function_call _ _ => simp [direct_accesses] at hx

theorem add_set_instruction_eq (ir : Root) (self : ObjectAccesses) (set : SetInstruction)
    (cond : Expression) (hcond : set.condition = some cond) :
    self.add_statement ir (.set_instruction set) =
      match self.add_expression ir AccessMode.READ cond with
      | .error e => .error e
      | .ok s1 =>
        match (s1.add_access ir AccessMode.WRITE { reference := set.lhs }).add_expression ir
            AccessMode.READ set.rhs with
        | .error e => .error e
        | .ok s3 => .ok (s3.add_barrier_access ir false) := by
  simp only [ObjectAccesses.add_statement, ObjectAccesses.add_set_instruction, hcond,
    ObjectAccesses.add_condition]
  cases self.add_expression ir AccessMode.READ cond with
  | error e => rfl
  | ok s1 =>
    simp only [ObjectAccesses.add_expression]
    try rfl

/-- C14. Set-instruction accesses. For a well-formed set instruction and an access map
without entries: when the condition and the right-hand side are not function calls,
`add_statement` records exactly the left-hand side with WRITE, the right-hand side with
READ when it is a reference, the condition with READ when it is a reference, and the empty
reference with READ, as long as the references have different keys; a literal records no
access. When the right-hand side or the condition is a function call, an operand of the
call that is a reference independent of the other references is recorded with the mode of
the corresponding operand type of the function type (a commute mode turned into WRITE when
commutation is disabled, LITERAL recorded as READ and MEASURE as WRITE), not with READ. -/
theorem set_instruction_accesses (ir : Root) (self : ObjectAccesses) (set : SetInstruction)
    (cond : Expression) (hwf : set.well_formed ir = true) (hempty : self.accesses = [])
    (hcond : set.condition = some cond) :
    (cond.is_function_call = false → set.rhs.is_function_call = false →
      (direct_accesses AccessMode.READ cond ++
          (AccessMode.WRITE, { reference := set.lhs }) ::
            direct_accesses AccessMode.READ set.rhs).Pairwise
        (fun x y => x.2.key ≠ y.2.key) →
      ∃ acc, self.add_statement ir (.set_instruction set) = .ok acc ∧
        acc.accesses.sorted ∧
        acc.accesses.Perm (({}, AccessMode.READ) ::
          (direct_accesses AccessMode.READ cond ++
            (AccessMode.WRITE, { reference := set.lhs }) ::
              direct_accesses AccessMode.READ set.rhs).map fun x => (x.2, x.1))) ∧
    (∀ (f : Nat) (operands : List Expression) (ft : FunctionType) (n i : Nat)
        (o : OperandType) (r : Reference),
      set.rhs = .function_call (some f) operands →
      ir.function_nodes.get? f = some ft → count_qubit_types ir ft.operand_types = .ok n →
      ft.operand_types[i]? = some o → operands[i]? = some (.reference r) →
      (∀ r' ∈ cond.references, ReferenceWrapper.independent ir { reference := r } r' = true) →
      ReferenceWrapper.independent ir { reference := r } set.lhs = true →
      (∀ j e, j ≠ i → operands[j]? = some e →
        ∀ r' ∈ e.references, ReferenceWrapper.independent ir { reference := r } r' = true) →
      ∃ acc, self.add_statement ir (.set_instruction set) = .ok acc ∧
        acc.accesses.mode { reference := r } =
          some (recorded_mode
            (demote_commutation (self.disable_qubit_commutation n) o.mode))) ∧
    (∀ (f : Nat) (operands : List Expression) (ft : FunctionType) (n i : Nat)
        (o : OperandType) (r : Reference),
      cond = .function_call (some f) operands →
      ir.function_nodes.get? f = some ft → count_qubit_types ir ft.operand_types = .ok n →
      ft.operand_types[i]? = some o → operands[i]? = some (.reference r) →
      (∀ r' ∈ set.rhs.references,
        ReferenceWrapper.independent ir { reference := r } r' = true) →
      ReferenceWrapper.independent ir { reference := r } set.lhs = true →
      (∀ j e, j ≠ i → operands[j]? = some e →
        ∀ r' ∈ e.references, ReferenceWrapper.independent ir { reference := r } r' = true) →
      ∃ acc, self.add_statement ir (.set_instruction set) = .ok acc ∧
        acc.accesses.mode { reference := r } =
          some (recorded_mode
            (demote_commutation (self.disable_qubit_commutation n) o.mode))) := by
  have hwf' := hwf
  simp only [SetInstruction.well_formed, hcond, condition_well_formed, Bool.and_eq_true] at hwf'
  obtain ⟨⟨wc, wl⟩, wr⟩ := hwf'
  have hs0 := sorted_nil self hempty
  obtain ⟨acc, hacc⟩ := add_statement_ok ir (.set_instruction set) self
    (by simpa [Statement.well_formed] using hwf)
  refine ⟨?_, ?_, ?_⟩
  · intro hc hr hp
    have hdc := direct_accesses_target ir AccessMode.READ cond wc
    have hdr := direct_accesses_target ir AccessMode.READ set.rhs wr
    have hall : ∀ x ∈ direct_accesses AccessMode.READ cond ++
        (AccessMode.WRITE, { reference := set.lhs }) :: direct_accesses AccessMode.READ set.rhs,
        x.1 ≠ AccessMode.MEASURE ∧ x.2.reference.target.isSome = true := by
      intro x hx
      rcases List.mem_append.1 hx with h | h
      · exact ⟨by rw [(hdc x h).1]; simp, (hdc x h).2⟩
      · rcases List.mem_cons.1 h with rfl | h
        · exact ⟨by simp, wl⟩
        · exact ⟨by rw [(hdr x h).1]; simp, (hdr x h).2⟩
    refine ⟨self.add_accesses ir ((direct_accesses AccessMode.READ cond ++
        (AccessMode.WRITE, { reference := set.lhs }) ::
          direct_accesses AccessMode.READ set.rhs) ++ [(AccessMode.READ, ({} : ReferenceWrapper))]), ?_, ?_⟩
    · rw [add_set_instruction_eq ir self set cond hcond, add_expression_direct ir self _ cond hc]
      simp only []
      rw [add_expression_direct ir _ _ set.rhs hr]
      simp [ObjectAccesses.add_accesses, ObjectAccesses.add_barrier_access, List.foldl_append]
    · obtain ⟨a1, a2⟩ := add_accesses_perm ir ((direct_accesses AccessMode.READ cond ++
        (AccessMode.WRITE, { reference := set.lhs }) ::
          direct_accesses AccessMode.READ set.rhs) ++ [(AccessMode.READ, ({} : ReferenceWrapper))]) self hs0
        (by
          intro x hx
          rcases List.mem_append.1 hx with h | h
          · exact (hall x h).1
          · simp only [List.mem_singleton] at h; subst h; simp)
        (by
          rw [List.pairwise_append]
          refine ⟨hp, List.pairwise_singleton _ _, ?_⟩
          intro x hx y hy
          simp only [List.mem_singleton] at hy
          subst hy
          exact key_ne_empty_of_target x.2.reference (hall x hx).2)
        (fun x _ => mode_nil self hempty _)
      refine ⟨a1, a2.trans ?_⟩
      rw [hempty, List.append_nil, List.map_append]
      have hrec : ∀ x ∈ direct_accesses AccessMode.READ cond ++
          (AccessMode.WRITE, { reference := set.lhs }) ::
            direct_accesses AccessMode.READ set.rhs, recorded_mode x.1 = x.1 := by
        intro x hx
        rcases List.mem_append.1 hx with h | h
        · rw [(hdc x h).1]; rfl
        · rcases List.mem_cons.1 h with rfl | h
          · rfl
          · rw [(hdr x h).1]; rfl
      rw [List.map_congr_left (fun x hx => by rw [hrec x hx])]
      exact List.perm_append_comm
  · intro f operands ft n i o r hrhs hft hcount ho hr hicond hilhs hothers
    refine ⟨acc, hacc, ?_⟩
    rw [add_set_instruction_eq ir self set cond hcond] at hacc
    cases h1 : self.add_expression ir AccessMode.READ cond with
    | error e => simp [h1] at hacc
    | ok s1 =>
      simp only [h1] at hacc
      obtain ⟨a1, a2⟩ := add_expression_frame ir { reference := r } cond self _ s1 hs0 h1
      have hf1 := add_expression_flags ir n cond self _ s1 h1
      cases h3 : (s1.add_access ir AccessMode.WRITE { reference := set.lhs }).add_expression ir
          AccessMode.READ set.rhs with
      | error e => simp [h3] at hacc
      | ok s3 =>
        simp only [h3, Except.ok.injEq] at hacc
        subst hacc
        have hs2 := add_access_sorted ir s1 AccessMode.WRITE { reference := set.lhs } a1
        have hm2 : (s1.add_access ir AccessMode.WRITE { reference := set.lhs }).accesses.mode
            { reference := r } = none := by
          rw [mode_add_access_other ir s1 _ set.lhs _ a1 hilhs, a2 hicond]
          exact mode_nil self hempty _
        rw [hrhs] at h3
        obtain ⟨b1, b2⟩ := add_expression_call_at ir _ s3 _ f operands ft n i o r hft hcount
          ho hr hs2 hm2 hothers h3
        have htarget : r.target.isSome = true := by
          rw [hrhs] at wr
          simp only [Expression.well_formed, Bool.and_eq_true] at wr
          have := well_formed_of_mem _ ir wr.2 (.reference r) (List.getElem?_mem hr)
          simpa [Expression.well_formed] using this
        rw [mode_add_barrier_access_other ir s3 false r b1 htarget, b2,
          add_access_flags ir s1 _ _ n, hf1]
  · intro f operands ft n i o r hc hft hcount ho hr hirhs hilhs hothers
    refine ⟨acc, hacc, ?_⟩
    rw [add_set_instruction_eq ir self set cond hcond] at hacc
    cases h1 : self.add_expression ir AccessMode.READ cond with
    | error e => simp [h1] at hacc
    | ok s1 =>
      simp only [h1] at hacc
      have h1' := h1
      rw [hc] at h1'
      obtain ⟨a1, a2⟩ := add_expression_call_at ir self s1 _ f operands ft n i o r hft hcount
        ho hr hs0 (mode_nil self hempty _) hothers h1'
      cases h3 : (s1.add_access ir AccessMode.WRITE { reference := set.lhs }).add_expression ir
          AccessMode.READ set.rhs with
      | error e => simp [h3] at hacc
      | ok s3 =>
        simp only [h3, Except.ok.injEq] at hacc
        subst hacc
        have hs2 := add_access_sorted ir s1 AccessMode.WRITE { reference := set.lhs } a1
        obtain ⟨b1, b2⟩ := add_expression_frame ir { reference := r } set.rhs _ _ s3 hs2 h3
        have htarget : r.target.isSome = true := by
          rw [hc] at wc
          simp only [Expression.well_formed, Bool.and_eq_true] at wc
          have := well_formed_of_mem _ ir wc.2 (.reference r) (List.getElem?_mem hr)
          simpa [Expression.well_formed] using this
        rw [mode_add_barrier_access_other ir s3 false r b1 htarget, b2 hirhs,
          mode_add_access_other ir s1 _ set.lhs _ a1 hilhs, a2]

theorem make_bit_lit_ok (ir : Root) (b : Bool) (dt : DataType)
    (hdt : ir.data_type ir.platform.default_bit_type = .ok dt)
    (hkind : dt.kind = DataTypeKind.bit) :
    make_bit_lit ir b = .ok (.bit_literal b ir.platform.default_bit_type) := by
  simp [make_bit_lit, hdt, hkind]

theorem make_bit_lit_eq (ir : Root) (b : Bool) (t : Expression)
    (h : make_bit_lit ir b = .ok t) : t = .bit_literal b ir.platform.default_bit_type := by
  unfold make_bit_lit at h
  cases hd : ir.data_type ir.platform.default_bit_type with
  | error e => simp [hd] at h
  | ok dt =>
    simp only [hd] at h
    split at h
    · simp only [Except.ok.injEq] at h
      exact h.symm
    · cases h

theorem as_references_iff : ∀ (l : List Expression) (refs : List Reference),
    as_references l = some refs ↔ l = refs.map Expression.reference
  | [], refs => by
    cases refs <;> simp [as_references]
  | e :: rest, refs => by
    cases e with
    | reference r =>
      simp only [as_references]
      cases h : as_references rest with
      | none =>
        simp only [false_iff, reduceCtorEq]
        intro heq
        cases refs with
        | nil => simp at heq
        | cons r' rs =>
          simp only [List.map_cons, List.cons.injEq] at heq
          rw [(as_references_iff rest rs).2 heq.2] at h
          cases h
      | some rs =>
        have := (as_references_iff rest rs).1 h
        simp only [Option.some.injEq]
        constructor
        · rintro rfl
          simp [this]
        · intro heq
          cases refs with
          | nil => simp at heq
          | cons r' rs' =>
            simp only [List.map_cons, List.cons.injEq, Expression.reference.injEq] at heq
            have h2 := (as_references_iff rest rs').2 heq.2
            rw [h] at h2
            injection h2 with h2
            rw [heq.1, h2]
    | bit_literal _ _ => cases refs <;> simp [as_references]
    | int_literal _ _ => cases refs <;> simp [as_references]
    | string_literal _ _ => cases refs <;> simp [as_references]
    | function_call _ _ => cases refs <;> simp [as_references]

/-- C16. Set builder: on a platform whose default bit type is a bit type,
`make_instruction("set", ops)` without a condition leaves the IR as it is, never returns the
empty instruction, and returns an instruction exactly when `ops` has two elements, the first
a reference whose data type is a data type of the IR other than a qubit type, and the data
type of the second is the data type of the first; the instruction is then the set
instruction with the first operand as left-hand side, the second as right-hand side and a
literal true as condition. -/
theorem set_builder (ir : Root) (ops : List Expression)
    (generate_overload_if_needed return_empty_on_failure : Bool) (dt : DataType)
    (hdt : ir.data_type ir.platform.default_bit_type = .ok dt)
    (hkind : dt.kind = DataTypeKind.bit) :
    (make_instruction ir "set" ops none generate_overload_if_needed
      return_empty_on_failure).1 = ir ∧
    (make_instruction ir "set" ops none generate_overload_if_needed
      return_empty_on_failure).2 ≠ .ok none ∧
    ∀ insn, (make_instruction ir "set" ops none generate_overload_if_needed
        return_empty_on_failure).2 = .ok (some insn) ↔
      ∃ lhs rhs t, ops = [.reference lhs, rhs] ∧ ir.data_type lhs.data_type = .ok t ∧
        t.kind ≠ DataTypeKind.qubit ∧ get_type_of ir rhs = .ok lhs.data_type ∧
        insn = .set_instruction
          { lhs := lhs, rhs := rhs, condition := some (.bit_literal true ir.platform.default_bit_type) } := by
  have hb := make_bit_lit_ok ir true dt hdt hkind
  rcases ops with _ | ⟨a, _ | ⟨b, _ | ⟨c, rest⟩⟩⟩
  · simp [make_instruction]
  · simp [make_instruction]
  · cases a with
    | reference r =>
      cases h1 : ir.data_type r.data_type with
      | error err => simp [make_instruction, h1]
      | ok t =>
        by_cases hq : t.kind = DataTypeKind.qubit
        · simp [make_instruction, h1, hq]
        · cases h2 : get_type_of ir b with
          | error err => simp [make_instruction, h1, hq, h2]
          | ok tb =>
            by_cases ht : r.data_type = tb
            · subst ht
              simp only [make_instruction, h1, hq, h2, set_condition, hb, if_true, if_false,
                ne_eq, not_true_eq_false, not_false_eq_true, reduceCtorEq, true_and,
                Except.ok.injEq, Option.some.injEq, List.cons.injEq, and_true,
                Expression.reference.injEq]
              intro insn
              constructor
              · intro h
                exact ⟨r, b, t, ⟨rfl, rfl⟩, h1, hq, h2, h.symm⟩
              · rintro ⟨lhs, rhs, t', ⟨rfl, rfl⟩, _, _, _, h⟩
                exact h.symm
            · simp only [make_instruction, h1, hq, h2, if_true, if_false, ne_eq, ht,
                not_false_eq_true, reduceCtorEq, true_and, false_iff, not_exists, not_and,
                List.cons.injEq, and_true, Expression.reference.injEq, and_imp]
              intro insn lhs rhs t' hl hr _ _ h3
              subst hl hr
              rw [h2] at h3
              injection h3 with h3
              exact absurd h3.symm ht
    | bit_literal _ _ => simp [make_instruction]
    | int_literal _ _ => simp [make_instruction]
    | string_literal _ _ => simp [make_instruction]
    | function_call _ _ => simp [make_instruction]
  · simp [make_instruction]

/-- C17. Wait builder: `make_instruction("wait", ops)` without a condition leaves the IR as
it is, never returns the empty instruction, and returns an instruction exactly when `ops`
is an integer literal with a value that is not negative followed by references only; the
instruction is then the wait instruction whose duration is the value of the literal and
whose objects are the references in order (none when only the duration is given). -/
theorem wait_builder (ir : Root) (ops : List Expression)
    (generate_overload_if_needed return_empty_on_failure : Bool) :
    (make_instruction ir "wait" ops none generate_overload_if_needed
      return_empty_on_failure).1 = ir ∧
    (make_instruction ir "wait" ops none generate_overload_if_needed
      return_empty_on_failure).2 ≠ .ok none ∧
    ∀ insn, (make_instruction ir "wait" ops none generate_overload_if_needed
        return_empty_on_failure).2 = .ok (some insn) ↔
      ∃ value d refs, ops = .int_literal value d :: refs.map Expression.reference ∧
        0 ≤ value ∧ ((value.toNat : Nat) : Int) = value ∧
        insn = .wait_instruction { duration := value.toNat, objects := refs } := by
  have hn : ¬ ("wait" = "set") := by decide
  cases ops with
  | nil => simp [make_instruction, hn]
  | cons a rest =>
    cases a with
    | int_literal value d =>
      by_cases hv : value < 0
      · simp only [make_instruction, hn, if_false, if_true, hv, ne_eq, reduceCtorEq,
          not_false_eq_true, true_and, false_iff, not_exists, not_and, List.cons.injEq,
          Expression.int_literal.injEq, and_imp]
        intro insn v d' refs hv1 _ _ hv2
        omega
      · cases hr : as_references rest with
        | none =>
          simp only [make_instruction, hn, if_false, if_true, hv, hr, ne_eq, reduceCtorEq,
            not_false_eq_true, true_and, false_iff, not_exists, not_and, List.cons.injEq,
            Expression.int_literal.injEq, and_imp]
          intro insn v d' refs _ _ hrest
          rw [(as_references_iff rest refs).2 hrest] at hr
          cases hr
        | some refs =>
          have hrest := (as_references_iff rest refs).1 hr
          simp only [make_instruction, hn, if_false, if_true, hv, hr, set_condition, ne_eq,
            reduceCtorEq, not_false_eq_true, true_and, Except.ok.injEq, Option.some.injEq,
            List.cons.injEq, Expression.int_literal.injEq]
          intro insn
          constructor
          · intro h
            exact ⟨value, d, refs, ⟨⟨rfl, rfl⟩, hrest⟩, by omega,
              Int.toNat_of_nonneg (by omega), h.symm⟩
          · rintro ⟨v, d', refs', ⟨⟨rfl, rfl⟩, hrest'⟩, _, _, h⟩
            have : refs' = refs := by
              have h2 := (as_references_iff rest refs').2 hrest'
              rw [hr] at h2
              injection h2 with h2
              exact h2.symm
            subst this
            exact h.symm
    | reference _ => simp [make_instruction, hn]
    | bit_literal _ _ => simp [make_instruction, hn]
    | string_literal _ _ => simp [make_instruction, hn]
    | function_call _ _ => simp [make_instruction, hn]

/-- C18. Barrier builder: `make_instruction("barrier", ops)` without a condition leaves the
IR as it is, never returns the empty instruction, and returns an instruction exactly when
every operand is a reference (also when there is no operand); the instruction is then the
wait instruction with duration zero whose objects are the operands in order. -/
theorem barrier_builder (ir : Root) (ops : List Expression)
    (generate_overload_if_needed return_empty_on_failure : Bool) :
    (make_instruction ir "barrier" ops none generate_overload_if_needed
      return_empty_on_failure).1 = ir ∧
    (make_instruction ir "barrier" ops none generate_overload_if_needed
      return_empty_on_failure).2 ≠ .ok none ∧
    ∀ insn, (make_instruction ir "barrier" ops none generate_overload_if_needed
        return_empty_on_failure).2 = .ok (some insn) ↔
      ∃ refs, ops = refs.map Expression.reference ∧
        insn = .wait_instruction { duration := 0, objects := refs } := by
  have hn1 : ¬ ("barrier" = "set") := by decide
  have hn2 : ¬ ("barrier" = "wait") := by decide
  cases hr : as_references ops with
  | none =>
    simp only [make_instruction, hn1, hn2, if_false, if_true, hr, ne_eq, reduceCtorEq,
      not_false_eq_true, true_and, false_iff, not_exists, not_and]
    intro insn refs hops
    rw [(as_references_iff ops refs).2 hops] at hr
    cases hr
  | some refs =>
    have hops := (as_references_iff ops refs).1 hr
    simp only [make_instruction, hn1, hn2, if_false, if_true, hr, set_condition, ne_eq,
      reduceCtorEq, not_false_eq_true, true_and, Except.ok.injEq, Option.some.injEq]
    intro insn
    constructor
    · intro h
      exact ⟨refs, hops, h.symm⟩
    · rintro ⟨refs', hops', h⟩
      have : refs' = refs := by
        have h2 := (as_references_iff ops refs').2 hops'
        rw [hr] at h2
        injection h2 with h2
        exact h2.symm
      subst this
      exact h.symm

/-- A lookup of `find_instruction_type` that gives the empty link leaves the IR as it is. -/
theorem find_instruction_type_none (ir : Root) (name : String) (types : List Link) (g : Bool)
    (h : (find_instruction_type ir name types g).2 = none) :
    (find_instruction_type ir name types g).1 = ir := by
  unfold find_instruction_type at h ⊢
  split
  · rfl
  · split
    · rfl
    · split
      · rfl
      · rename_i h1 h2 h3
        simp [h1, h2, h3] at h

/-- The lookup `find_instruction_type` leaves the default bit type of the platform as it
is. -/
theorem find_instruction_type_default_bit_type (ir : Root) (name : String) (types : List Link)
    (g : Bool) :
    (find_instruction_type ir name types g).1.platform.default_bit_type =
      ir.platform.default_bit_type := by
  unfold find_instruction_type
  split
  · rfl
  · split
    · rfl
    · split
      · rfl
      · have := (clone_tree_frame ir.instruction_nodes.length ir
          (ir.platform.instructions.getD (lower_bound ir.instruction_names name) 0)).2.2.2.1
        show (clone_tree _ _ _).1.platform.default_bit_type = _
        rw [this]

/-- The condition that `set_condition` gives to a set or custom instruction. -/
theorem set_condition_ok (ir : Root) (insn0 insn : Instruction) (condition : Option Expression)
    (h : set_condition ir insn0 condition = .ok insn) :
    (∀ c, insn = .custom_instruction c →
      c.condition = some (condition.getD (.bit_literal true ir.platform.default_bit_type))) ∧
    (∀ s, insn = .set_instruction s →
      s.condition = some (condition.getD (.bit_literal true ir.platform.default_bit_type))) := by
  cases insn0 with
  | wait_instruction w =>
    cases condition with
    | none =>
      simp only [set_condition, Except.ok.injEq] at h
      subst h
      exact ⟨fun c hc => (by cases hc), fun s hs => (by cases hs)⟩
    | some e => simp [set_condition] at h
  | custom_instruction c0 =>
    cases condition with
    | some e =>
      simp only [set_condition, Except.ok.injEq] at h
      subst h
      exact ⟨fun c hc => (by injection hc with hc; subst hc; rfl), fun s hs => (by cases hs)⟩
    | none =>
      simp only [set_condition] at h
      cases hb : make_bit_lit ir true with
      | error e => simp [hb] at h
      | ok t =>
        simp only [hb, Except.ok.injEq] at h
        subst h
        have := make_bit_lit_eq ir true t hb
        subst this
        exact ⟨fun c hc => (by injection hc with hc; subst hc; rfl), fun s hs => (by cases hs)⟩
  | set_instruction s0 =>
    cases condition with
    | some e =>
      simp only [set_condition, Except.ok.injEq] at h
      subst h
      exact ⟨fun c hc => (by cases hc), fun s hs => (by injection hs with hs; subst hs; rfl)⟩
    | none =>
      simp only [set_condition] at h
      cases hb : make_bit_lit ir true with
      | error e => simp [hb] at h
      | ok t =>
        simp only [hb, Except.ok.injEq] at h
        subst h
        have := make_bit_lit_eq ir true t hb
        subst this
        exact ⟨fun c hc => (by cases hc), fun s hs => (by injection hs with hs; subst hs; rfl)⟩

/-- An instruction returned by `make_instruction` has gone through `set_condition`, on the
IR that `make_instruction` has reached. -/
theorem make_instruction_ok (ir : Root) (name : String) (ops : List Expression)
    (condition : Option Expression) (g e : Bool) (insn : Instruction)
    (h : (make_instruction ir name ops condition g e).2 = .ok (some insn)) :
    ∃ ir' insn0, set_condition ir' insn0 condition = .ok insn ∧
      ir'.platform.default_bit_type = ir.platform.default_bit_type := by
  unfold make_instruction at h
  split at h
  · split at h
    · split at h
      · split at h
        · cases h
        · split at h
          · cases h
          · split at h
            · cases h
            · split at h
              · cases h
              · split at h
                · cases h
                · rename_i insn1 hs
                  simp only [Except.ok.injEq, Option.some.injEq] at h
                  subst h
                  exact ⟨ir, _, hs, rfl⟩
      · cases h
    · cases h
  · split at h
    · split at h
      · cases h
      · split at h
        · cases h
        · split at h
          · cases h
          · split at h
            · cases h
            · rename_i insn1 hs
              simp only [Except.ok.injEq, Option.some.injEq] at h
              subst h
              exact ⟨ir, _, hs, rfl⟩
      · cases h
    · split at h
      · split at h
        · cases h
        · split at h
          · cases h
          · rename_i insn1 hs
            simp only [Except.ok.injEq, Option.some.injEq] at h
            subst h
            exact ⟨ir, _, hs, rfl⟩
      · split at h
        · cases h
        · simp only [] at h
          split at h
          · split at h
            · simp at h
            · split at h <;> simp at h
          · split at h
            · cases h
            · split at h
              · cases h
              · rename_i insn1 hs
                simp only [Except.ok.injEq, Option.some.injEq] at h
                subst h
                exact ⟨_, _, hs, find_instruction_type_default_bit_type ir name _ g⟩

/-- C19. Condition handling: the condition of a set or custom instruction built by
`make_instruction` is the condition supplied, or a bit literal true of the default bit type
of the platform when none was supplied; and for the names wait and barrier,
`make_instruction` with a condition throws: the error of the construction of the wait when
the construction fails without the condition as well, and the error of a condition on an
instruction that cannot be made conditional when it does not. -/
theorem condition_handling (ir : Root) (name : String) (ops : List Expression)
    (condition : Option Expression)
    (generate_overload_if_needed return_empty_on_failure : Bool) :
    (∀ insn, (make_instruction ir name ops condition generate_overload_if_needed
        return_empty_on_failure).2 = .ok (some insn) →
      (∀ c, insn = .custom_instruction c →
        c.condition =
          some (condition.getD (.bit_literal true ir.platform.default_bit_type))) ∧
      (∀ s, insn = .set_instruction s →
        s.condition =
          some (condition.getD (.bit_literal true ir.platform.default_bit_type)))) ∧
    (name = "wait" ∨ name = "barrier" → ∀ c,
      (make_instruction ir name ops (some c) generate_overload_if_needed
        return_empty_on_failure).2 =
      match (make_instruction ir name ops none generate_overload_if_needed
        return_empty_on_failure).2 with
      | .error err => .error err
      | .ok _ => .error (Error.user_error
          "condition specified for instruction that cannot be made conditional")) := by
  constructor
  · intro insn h
    obtain ⟨ir', insn0, hs, hd⟩ := make_instruction_ok ir name ops condition _ _ insn h
    have := set_condition_ok ir' insn0 insn condition hs
    rw [hd] at this
    exact this
  · rintro (rfl | rfl) c
    · have hn : ¬ ("wait" = "set") := by decide
      cases ops with
      | nil => simp [make_instruction, hn]
      | cons a rest =>
        cases a with
        | int_literal value d =>
          by_cases hv : value < 0
          · simp [make_instruction, hn, hv]
          · cases hr : as_references rest with
            | none => simp [make_instruction, hn, hv, hr]
            | some refs => simp [make_instruction, hn, hv, hr, set_condition]
        | reference _ => simp [make_instruction, hn]
        | bit_literal _ _ => simp [make_instruction, hn]
        | string_literal _ _ => simp [make_instruction, hn]
        | function_call _ _ => simp [make_instruction, hn]
    · have hn1 : ¬ ("barrier" = "set") := by decide
      have hn2 : ¬ ("barrier" = "wait") := by decide
      cases hr : as_references ops with
      | none => simp [make_instruction, hn1, hn2, hr]
      | some refs => simp [make_instruction, hn1, hn2, hr, set_condition]

/-- C11, witness: an if-else statement with a break statement in its branch records the
empty reference with WRITE. -/
theorem barrier_rule_witness :
    example_statement.well_formed example_ir0 = true ∧
    example_statement.has_barrier = true ∧
    ∃ acc, ObjectAccesses.add_statement example_ir0 {} example_statement = .ok acc ∧
      acc.accesses.mode {} = some AccessMode.WRITE :=
  ⟨by decide, by decide,
    (barrier_rule example_ir0 example_statement {} (by decide) rfl).1⟩

/-- C12 as amended, witness: the barrier on `q[0]` and `q[1]`. -/
theorem barrier_scenario_witness :
    ReferenceWrapper.key { reference := example_reference 10 0 } ≠
      ReferenceWrapper.key { reference := example_reference 11 1 } ∧
    ∃ acc, ObjectAccesses.add_statement example_ir0 {}
        (Instruction.to_statement (.wait_instruction
          { duration := 0, objects := [example_reference 10 0, example_reference 11 1] })) =
          .ok acc ∧
      acc.accesses.Perm [({ reference := example_reference 10 0 }, AccessMode.WRITE),
        ({ reference := example_reference 11 1 }, AccessMode.WRITE), ({}, AccessMode.READ)] ∧
      acc.accesses.sorted ∧
      acc.accesses.mode {} = some AccessMode.READ :=
  ⟨by decide,
    (barrier_scenario example_ir0 {} (example_reference 10 0) (example_reference 11 1)
      false false rfl rfl rfl (by decide)).2⟩

/-- C13, witness: `rz q[0]`, whose prototype declares COMMUTE_Z, records `q[0]` with WRITE
when `disable_single_qubit_commutation` is set and with COMMUTE_Z when it is not. -/
theorem commutation_toggle_witness :
    example_custom.well_formed example_ir5 = true ∧
    count_qubit_types example_ir5 (example_ir5.node 0).operand_types = .ok 1 ∧
    (∃ acc, ObjectAccesses.add_statement example_ir5
        { disable_single_qubit_commutation := true } (.custom_instruction example_custom) =
          .ok acc ∧
      acc.accesses.mode { reference := example_reference 10 0 } = some AccessMode.WRITE) ∧
    (∃ acc, ObjectAccesses.add_statement example_ir5 {} (.custom_instruction example_custom) =
          .ok acc ∧
      acc.accesses.mode { reference := example_reference 10 0 } =
        some AccessMode.COMMUTE_Z) :=
  ⟨by decide, rfl,
    (commutation_toggle example_ir5 { disable_single_qubit_commutation := true }
      example_custom (some 1) 0 0 1 { mode := AccessMode.COMMUTE_Z, data_type := some 0 }
      (example_reference 10 0) (by decide) rfl rfl rfl rfl rfl rfl (Or.inr (Or.inr rfl))
      (fun j e hj he => by
        cases j with
        | zero => exact absurd rfl hj
        | succ k => simp [example_custom] at he)
      (fun r' hr' => by
        have : (example_ir5.node 0).template_operands = [] := rfl
        rw [this] at hr'
        simp [Expression.references_list] at hr')).imp
      fun acc h => ⟨h.1, h.2.1 rfl⟩,
    (commutation_toggle example_ir5 {}
      example_custom (some 1) 0 0 1 { mode := AccessMode.COMMUTE_Z, data_type := some 0 }
      (example_reference 10 0) (by decide) rfl rfl rfl rfl rfl rfl (Or.inr (Or.inr rfl))
      (fun j e hj he => by
        cases j with
        | zero => exact absurd rfl hj
        | succ k => simp [example_custom] at he)
      (fun r' hr' => by
        have : (example_ir5.node 0).template_operands = [] := rfl
        rw [this] at hr'
        simp [Expression.references_list] at hr')).imp
      fun acc h => ⟨h.1, h.2.1 rfl⟩⟩

/-- C14, witness: the set instruction `b = c` under the condition of a bit variable records
WRITE on `b`, READ on `c`, READ on the condition and READ on the empty reference. -/
theorem set_instruction_accesses_witness :
    example_set.well_formed example_ir0 = true ∧
    ∃ acc, ObjectAccesses.add_statement example_ir0 {} (.set_instruction example_set) =
        .ok acc ∧
      acc.accesses.sorted ∧
      acc.accesses.Perm [({}, AccessMode.READ),
        ({ reference := example_bit_reference }, AccessMode.READ),
        ({ reference := example_int_reference 1 }, AccessMode.WRITE),
        ({ reference := example_int_reference 2 }, AccessMode.READ)] :=
  ⟨by decide,
    (set_instruction_accesses example_ir0 {} example_set (.reference example_bit_reference)
      (by decide) rfl rfl).1 rfl rfl (by decide)⟩

/-- C16, witness: `set [int_ref, int_lit(5)]` gives a set instruction, and
`set [int_ref, bit_lit(true)]` fails with the error of different types. -/
theorem set_builder_witness :
    example_ir0.data_type example_ir0.platform.default_bit_type =
      .ok { name := "bit", kind := DataTypeKind.bit } ∧
    (make_instruction example_ir0 "set"
      [.reference (example_int_reference 1), .int_literal 5 (some 2)] none false false).2 =
      .ok (some (.set_instruction
        { lhs := example_int_reference 1, rhs := .int_literal 5 (some 2), condition := some (.bit_literal true (some 1)) })) ∧
    (make_instruction example_ir0 "set"
      [.reference (example_int_reference 1), .bit_literal true (some 1)] none false false).2 =
      .error (Error.user_error
        "the left-hand side and right-hand side of a set instruction must have the same type") :=
  ⟨rfl,
    ((set_builder example_ir0 [.reference (example_int_reference 1), .int_literal 5 (some 2)]
      false false { name := "bit", kind := DataTypeKind.bit } rfl rfl).2.2 _).2
      ⟨example_int_reference 1, .int_literal 5 (some 2),
        { name := "int", kind := DataTypeKind.int 32 true }, rfl, rfl, by decide, rfl, rfl⟩,
    rfl⟩

/-- C17, witness: `wait [int_lit(10)]` is a wait of duration 10 on all objects,
`wait [int_lit(10), q[0]]` waits on `q[0]`, and `wait [int_lit(-1)]` is rejected. -/
theorem wait_builder_witness :
    (make_instruction example_ir0 "wait" [.int_literal 10 (some 2)] none false false).2 =
      .ok (some (.wait_instruction { duration := 10, objects := [] })) ∧
    (make_instruction example_ir0 "wait"
      [.int_literal 10 (some 2), .reference (example_reference 10 0)] none false false).2 =
      .ok (some (.wait_instruction { duration := 10, objects := [example_reference 10 0] })) ∧
    (make_instruction example_ir0 "wait" [.int_literal (-1) (some 2)] none false false).2 =
      .error (Error.user_error "the duration of a wait instruction cannot be negative") :=
  ⟨((wait_builder example_ir0 [.int_literal 10 (some 2)] false false).2.2 _).2
      ⟨10, some 2, [], rfl, by decide, rfl, rfl⟩,
    ((wait_builder example_ir0 [.int_literal 10 (some 2), .reference (example_reference 10 0)]
      false false).2.2 _).2 ⟨10, some 2, [example_reference 10 0], rfl, by decide, rfl, rfl⟩,
    rfl⟩

/-- C18, witness: a barrier without operands is a wait of duration zero on all objects, and
a barrier on a literal is rejected. -/
theorem barrier_builder_witness :
    (make_instruction example_ir0 "barrier" [] none false false).2 =
      .ok (some (.wait_instruction { duration := 0, objects := [] })) ∧
    (make_instruction example_ir0 "barrier" [.int_literal 1 (some 2)] none false false).2 =
      .error (Error.user_error
        "the operands of a wait instruction after the first must be references") :=
  ⟨((barrier_builder example_ir0 [] false false).2.2 _).2 ⟨[], rfl, rfl⟩, rfl⟩

/-- C19, witness: a wait with a condition is rejected, and `g q[4]` built without a
condition has a literal true as condition. -/
theorem condition_handling_witness :
    (make_instruction example_ir0 "wait" [.int_literal 10 (some 2)]
      (some (.bit_literal true (some 1))) false false).2 =
      .error (Error.user_error
        "condition specified for instruction that cannot be made conditional") ∧
    ∀ c, (make_instruction example_ir2 "g" [example_qubit_ref 7 4] none false false).2 =
        .ok (some (.custom_instruction c)) →
      c.condition = some (.bit_literal true (some 1)) :=
  ⟨(condition_handling example_ir0 "wait" [.int_literal 10 (some 2)] none false false).2
      (Or.inl rfl) (.bit_literal true (some 1)),
    fun c h => ((condition_handling example_ir2 "g" [example_qubit_ref 7 4] none false
      false).1 _ h).1 c rfl⟩

/-! ## Integer ranges -/

theorem shift_left_one_eq (n : Nat) : shift_left_one n = 2 ^ n % 2 ^ 64 := by
  unfold shift_left_one
  split
  · rename_i h
    exact (Nat.mod_eq_of_lt (Nat.pow_lt_pow_right (by decide) h)).symm
  · rename_i h
    have h64 : 64 ≤ n := Nat.le_of_not_lt h
    obtain ⟨k, rfl⟩ := Nat.exists_eq_add_of_le h64
    rw [pow_add, Nat.mul_mod_right]

theorem get_max_int_for_signed (bits : Nat) (h1 : 1 ≤ bits) (h2 : bits ≤ 64) :
    get_max_int_for bits true = 2 ^ (bits - 1) - 1 := by
  interval_cases bits <;> decide

theorem get_min_int_for_signed (bits : Nat) (h1 : 1 ≤ bits) (h2 : bits ≤ 64) :
    get_min_int_for bits true = -(2 ^ (bits - 1)) := by
  interval_cases bits <;> decide

theorem get_max_int_for_unsigned (bits : Nat) (h : bits ≤ 63) :
    get_max_int_for bits false = 2 ^ bits - 1 := by
  interval_cases bits <;> decide

theorem get_min_int_for_unsigned (bits : Nat) : get_min_int_for bits false = 0 := rfl

/-! ## Integer literals -/

theorem data_type_some (ir : Root) (T : Nat) (dt : DataType)
    (hT : ir.data_type_nodes.get? T = some dt) : ir.data_type (some T) = .ok dt := by
  simp only [Root.data_type, hT]

theorem make_int_lit_int (ir : Root) (i : Int) (T : Nat) (dt : DataType) (addr : Nat)
    (hT : ir.data_type_nodes.get? T = some dt) (bits : Nat) (is_signed : Bool)
    (hk : dt.kind = DataTypeKind.int bits is_signed) :
    make_int_lit ir i (some T) addr =
      if i > get_max_int_for bits is_signed ∨ i < get_min_int_for bits is_signed then
        .error (Error.user_error "integer literal value out of range for default integer type")
      else .ok { addr := addr, value := i, data_type := some T } := by
  unfold make_int_lit
  have h1 : (if (some T : Link) = none then ir.platform.default_int_type else some T) = some T := by
    simp
  rw [h1, data_type_some ir T dt hT]
  simp only [hk]

theorem make_int_lit_not_int (ir : Root) (i : Int) (T : Nat) (dt : DataType) (addr : Nat)
    (hT : ir.data_type_nodes.get? T = some dt)
    (hk : ∀ bits is_signed, dt.kind ≠ DataTypeKind.int bits is_signed) :
    make_int_lit ir i (some T) addr = .error (Error.user_error "type is not integer-like") := by
  unfold make_int_lit
  have h1 : (if (some T : Link) = none then ir.platform.default_int_type else some T) = some T := by
    simp
  rw [h1, data_type_some ir T dt hT]
  cases hd : dt.kind with
  | int bits is_signed => exact absurd hd (hk bits is_signed)
  | _ => simp only [hd]

/-- C21. Integer literal range: for a data type `T` that is an integer type and every
integer `i`, `make_int_lit(i, T)` succeeds iff `get_min_int_for(T) <= i <= get_max_int_for(T)`,
and the literal it returns has value `i` and data type `T`; for a data type that is not an
integer type it fails. -/
theorem int_literal_range (ir : Root) (i : Int) (T : Nat) (dt : DataType) (addr : Nat)
    (hT : ir.data_type_nodes.get? T = some dt) :
    (∀ bits is_signed, dt.kind = DataTypeKind.int bits is_signed →
      ((∃ lit, make_int_lit ir i (some T) addr = .ok lit) ↔
        get_min_int_for bits is_signed ≤ i ∧ i ≤ get_max_int_for bits is_signed) ∧
      ∀ lit, make_int_lit ir i (some T) addr = .ok lit →
        lit.value = i ∧ lit.data_type = some T) ∧
    ((∀ bits is_signed, dt.kind ≠ DataTypeKind.int bits is_signed) →
      ∃ e, make_int_lit ir i (some T) addr = .error e) := by
  refine ⟨fun bits is_signed hk => ?_, fun hk => ⟨_, make_int_lit_not_int ir i T dt addr hT hk⟩⟩
  rw [make_int_lit_int ir i T dt addr hT bits is_signed hk]
  by_cases h : i > get_max_int_for bits is_signed ∨ i < get_min_int_for bits is_signed
  · rw [if_pos h]
    refine ⟨⟨fun ⟨lit, hl⟩ => (by cases hl), fun hr => ?_⟩, fun lit hl => (by cases hl)⟩
    rcases h with h | h
    · exact absurd hr.2 (not_le.mpr h)
    · exact absurd hr.1 (not_le.mpr h)
  · rw [if_neg h]
    rw [not_or, not_lt, not_lt] at h
    refine ⟨⟨fun _ => ⟨h.2, h.1⟩, fun _ => ⟨_, rfl⟩⟩, fun lit hl => ?_⟩
    cases hl
    exact ⟨rfl, rfl⟩

/-- C21, witness: for the 8-bit signed type of the example platform `make_int_lit` succeeds
for -128 and 127 and fails for -129 and 128; for the qubit type it fails. -/
theorem int_literal_range_witness :
    example_platform.data_type_nodes.get? 2 = some { name := "int8", kind := DataTypeKind.int 8 true } ∧
    get_min_int_for 8 true = -128 ∧ get_max_int_for 8 true = 127 ∧
    (∃ lit, make_int_lit example_platform (-128) (some 2) 0 = .ok lit) ∧
    (∃ lit, make_int_lit example_platform 127 (some 2) 0 = .ok lit) ∧
    ¬ (∃ lit, make_int_lit example_platform (-129) (some 2) 0 = .ok lit) ∧
    ¬ (∃ lit, make_int_lit example_platform 128 (some 2) 0 = .ok lit) ∧
    (∃ e, make_int_lit example_platform 5 (some 0) 0 = .error e) :=
  ⟨rfl, by decide, by decide,
    ((int_literal_range example_platform (-128) 2 _ 0 rfl).1 8 true rfl).1.2 (by decide),
    ((int_literal_range example_platform 127 2 _ 0 rfl).1 8 true rfl).1.2 (by decide),
    fun h => absurd (((int_literal_range example_platform (-129) 2 _ 0 rfl).1 8 true rfl).1.1 h)
      (by decide),
    fun h => absurd (((int_literal_range example_platform 128 2 _ 0 rfl).1 8 true rfl).1.1 h)
      (by decide),
    (int_literal_range example_platform 5 0 _ 0 rfl).2 (fun _ _ h => by cases h)⟩

theorem shift_counts_defined_signed (bits : Nat) :
    shift_counts_defined bits true ↔ 1 ≤ bits ∧ bits ≤ 64 := by
  simp [shift_counts_defined]

theorem shift_counts_defined_unsigned (bits : Nat) :
    shift_counts_defined bits false ↔ bits ≤ 63 := by
  simp [shift_counts_defined]

theorem int_range_bounds_signed (bits : Nat) (h1 : 1 ≤ bits) (h2 : bits ≤ 64) :
    -(2 ^ 63) ≤ get_min_int_for bits true ∧ get_max_int_for bits true < 2 ^ 63 := by
  rw [get_min_int_for_signed bits h1 h2, get_max_int_for_signed bits h1 h2]
  have h : (2 : Int) ^ (bits - 1) ≤ 2 ^ 63 := pow_le_pow_right₀ (by norm_num) (by omega)
  constructor <;> linarith

theorem int_range_bounds_unsigned (bits : Nat) (h : bits ≤ 63) :
    -(2 ^ 63) ≤ get_min_int_for bits false ∧ get_max_int_for bits false < 2 ^ 63 := by
  rw [get_min_int_for_unsigned, get_max_int_for_unsigned bits h]
  have h : (2 : Int) ^ bits ≤ 2 ^ 63 := pow_le_pow_right₀ (by norm_num) h
  constructor
  · norm_num
  · linarith

/-- C22, as amended. Integer range formula: for every integer type whose range computation
shifts by less than 64 (1 to 64 bits when signed, at most 63 bits when unsigned),
`get_max_int_for` returns `2 ^ (bits - (1 if signed else 0)) - 1` and `get_min_int_for`
returns `-2 ^ (bits - 1)` if the type is signed and 0 otherwise; both results are signed
64-bit integers. -/
theorem int_range_formula (bits : Nat) (is_signed : Bool)
    (h : shift_counts_defined bits is_signed) :
    get_max_int_for bits is_signed = 2 ^ (bits - (if is_signed then 1 else 0)) - 1 ∧
    get_min_int_for bits is_signed = (if is_signed then -(2 ^ (bits - 1)) else 0) ∧
    -(2 ^ 63) ≤ get_min_int_for bits is_signed ∧ get_max_int_for bits is_signed < 2 ^ 63 := by
  cases is_signed with
  | true =>
    simp only [shift_counts_defined, if_true] at h
    refine ⟨?_, ?_, int_range_bounds_signed bits h.1 h.2⟩
    · rw [get_max_int_for_signed bits h.1 h.2, if_pos rfl]
    · rw [get_min_int_for_signed bits h.1 h.2, if_pos rfl]
  | false =>
    simp only [shift_counts_defined] at h
    have h' : bits ≤ 63 := by simpa using h
    refine ⟨?_, ?_, int_range_bounds_unsigned bits h'⟩
    · rw [get_max_int_for_unsigned bits h']
      simp
    · rw [get_min_int_for_unsigned]
      simp

/-- C22, counterexample: for the unsigned 64-bit type `get_max_int_for` returns -1 (the
shift by 64 gives 0 modulo `2 ^ 64`, and the result is cast to a signed 64-bit integer),
not `2 ^ 64 - 1`. -/
theorem int_range_formula_fails_unsigned_64 :
    ¬ (∀ (bits : Nat) (is_signed : Bool), 1 ≤ bits → bits ≤ 64 →
      get_max_int_for bits is_signed = 2 ^ (bits - (if is_signed then 1 else 0)) - 1 ∧
      get_min_int_for bits is_signed = (if is_signed then -(2 ^ (bits - 1)) else 0)) := by
  intro hall
  have h := (hall 64 false (by decide) (by decide)).1
  have h1 : get_max_int_for 64 false = -1 := by decide
  rw [h1] at h
  exact absurd h (by decide)

/-- C22 as amended, witness: the 8-bit signed type has the range from -128 to 127 and the
unsigned 63-bit type the range from 0 to `2 ^ 63 - 1`. -/
theorem int_range_formula_witness :
    shift_counts_defined 8 true ∧ get_max_int_for 8 true = 127 ∧ get_min_int_for 8 true = -128 ∧
    get_max_int_for 63 false = 2 ^ 63 - 1 :=
  ⟨(shift_counts_defined_signed 8).2 ⟨by decide, by decide⟩,
    (int_range_formula 8 true ((shift_counts_defined_signed 8).2 ⟨by decide, by decide⟩)).1,
    (int_range_formula 8 true ((shift_counts_defined_signed 8).2 ⟨by decide, by decide⟩)).2.1,
    (int_range_formula 63 false ((shift_counts_defined_unsigned 63).2 (by decide))).1⟩

/-! ## References made by `make_reference` -/

theorem to_int_lt (x : Nat) : to_int x < 2 ^ 63 := by
  unfold to_int
  split <;> omega

theorem to_int_ge (x : Nat) : -(2 ^ 63) ≤ to_int x := by
  unfold to_int
  split <;> omega

theorem to_int_of_lt (x : Nat) (h : x < 2 ^ 63) : to_int x = x := by
  unfold to_int
  have h1 : x % 2 ^ 64 = x := Nat.mod_eq_of_lt (by omega)
  rw [h1, if_pos h]

theorem to_uint_of_nonneg (i : Int) (h0 : 0 ≤ i) (h1 : i < 2 ^ 63) : to_uint i = i.toNat := by
  unfold to_uint
  rw [Int.emod_eq_of_lt h0 (by omega)]

theorem get_max_int_for_lt (bits : Nat) (is_signed : Bool) :
    get_max_int_for bits is_signed < 2 ^ 63 := by
  unfold get_max_int_for
  exact to_int_lt _

theorem get_max_int_for_nonneg (bits : Nat) (is_signed : Bool)
    (h : shift_counts_defined bits is_signed) : 0 ≤ get_max_int_for bits is_signed := by
  cases is_signed with
  | true =>
    rw [shift_counts_defined_signed] at h
    rw [get_max_int_for_signed bits h.1 h.2]
    have : (1 : Int) ≤ 2 ^ (bits - 1) := one_le_pow₀ (by norm_num)
    omega
  | false =>
    rw [shift_counts_defined_unsigned] at h
    rw [get_max_int_for_unsigned bits h]
    have : (1 : Int) ≤ 2 ^ bits := one_le_pow₀ (by norm_num)
    omega

theorem make_uint_lit_default (ir : Root) (i : Nat) (addr : Nat) (dt : DataType)
    (bits : Nat) (is_signed : Bool)
    (hd : ir.data_type ir.platform.default_int_type = .ok dt)
    (hk : dt.kind = DataTypeKind.int bits is_signed) :
    make_uint_lit ir i none addr =
      if i > to_uint (get_max_int_for bits is_signed) then
        .error (Error.user_error "integer literal value out of range for default integer type")
      else .ok { addr := addr, value := to_int i, data_type := ir.platform.default_int_type } := by
  unfold make_uint_lit
  rw [if_pos rfl, hd]
  simp only [hk]

/-- When `make_uint_lit` succeeds, the default integer type is an integer type, the value
is not above the maximum of that type read as an unsigned integer, and the literal holds
the signed reading of the value. -/
theorem make_uint_lit_ok (ir : Root) (i : Nat) (addr : Nat) (lit : IntLiteral)
    (h : make_uint_lit ir i none addr = .ok lit) :
    ∃ dt bits is_signed, ir.data_type ir.platform.default_int_type = .ok dt ∧
      dt.kind = DataTypeKind.int bits is_signed ∧
      i ≤ to_uint (get_max_int_for bits is_signed) ∧
      lit = { addr := addr, value := to_int i, data_type := ir.platform.default_int_type } := by
  unfold make_uint_lit at h
  rw [if_pos rfl] at h
  cases hd : ir.data_type ir.platform.default_int_type with
  | error e => rw [hd] at h; cases h
  | ok dt =>
    rw [hd] at h
    simp only [] at h
    cases hk : dt.kind with
    | int bits is_signed =>
      rw [hk] at h
      simp only [] at h
      by_cases hi : i > to_uint (get_max_int_for bits is_signed)
      · rw [if_pos hi] at h; cases h
      · rw [if_neg hi] at h
        cases h
        exact ⟨dt, bits, is_signed, rfl, hk, Nat.le_of_not_lt hi, rfl⟩
    | _ => rw [hk] at h; cases h

/-- The indices made by a successful run of the loop of `make_reference`: one literal per
index, each index below the size of its dimension and accepted by `make_uint_lit`. -/
theorem make_reference_loop_ok (ir : Root) :
    ∀ (idx shape : List Nat) (addr : Nat) (lits : List IntLiteral),
      make_reference_loop ir idx shape addr = .ok lits →
      lits.length = idx.length ∧ idx.length ≤ shape.length ∧
      ∀ k, k < idx.length →
        idx.getD k 0 < shape.getD k 0 ∧
        make_uint_lit ir (idx.getD k 0) none (addr + k) = .ok (lits.getD k default)
  | [], _, _, lits, h => by
    simp only [make_reference_loop] at h
    cases h
    exact ⟨rfl, Nat.zero_le _, fun k hk => absurd hk (Nat.not_lt_zero k)⟩
  | _ :: _, [], _, _, h => by
    simp only [make_reference_loop] at h
    cases h
  | index :: indices, size :: shape, addr, lits, h => by
    simp only [make_reference_loop] at h
    by_cases hi : index ≥ size
    · rw [if_pos hi] at h; cases h
    · rw [if_neg hi] at h
      cases hl : make_uint_lit ir index none addr with
      | error e => rw [hl] at h; cases h
      | ok lit =>
        rw [hl] at h
        simp only [] at h
        cases hr : make_reference_loop ir indices shape (addr + 1) with
        | error e => rw [hr] at h; cases h
        | ok rest =>
          rw [hr] at h
          cases h
          obtain ⟨h1, h2, h3⟩ := make_reference_loop_ok ir indices shape (addr + 1) rest hr
          refine ⟨by simp [h1], by simpa using h2, fun k hk => ?_⟩
          cases k with
          | zero => exact ⟨Nat.lt_of_not_le hi, hl⟩
          | succ k =>
            have hk' : k < indices.length := by simpa using hk
            have := h3 k hk'
            refine ⟨by simpa using this.1, ?_⟩
            have ha : addr + (k + 1) = addr + 1 + k := by omega
            rw [ha]
            simpa using this.2

/-- The loop of `make_reference` succeeds when there is a dimension for each index, every
index is below the size of its dimension and `make_uint_lit` accepts it. -/
theorem make_reference_loop_succeeds (ir : Root) :
    ∀ (idx shape : List Nat) (addr : Nat), idx.length ≤ shape.length →
      (∀ k, k < idx.length → idx.getD k 0 < shape.getD k 0) →
      (∀ k, k < idx.length → ∀ a, ∃ lit, make_uint_lit ir (idx.getD k 0) none a = .ok lit) →
      ∃ lits, make_reference_loop ir idx shape addr = .ok lits
  | [], _, _, _, _, _ => ⟨[], by simp only [make_reference_loop]⟩
  | _ :: _, [], _, hl, _, _ => absurd hl (by simp)
  | index :: indices, size :: shape, addr, hl, hlt, hu => by
    simp only [make_reference_loop]
    have h0 := hlt 0 (by simp)
    have h0' : index < size := by simpa using h0
    rw [if_neg (Nat.not_le_of_lt h0')]
    obtain ⟨lit, hlit⟩ := hu 0 (by simp) addr
    have hlit' : make_uint_lit ir index none addr = .ok lit := by simpa using hlit
    rw [hlit']
    obtain ⟨rest, hrest⟩ := make_reference_loop_succeeds ir indices shape (addr + 1)
      (by simpa using hl)
      (fun k hk => by simpa using hlt (k + 1) (by simpa using hk))
      (fun k hk a => by simpa using hu (k + 1) (by simpa using hk) a)
    rw [hrest]
    exact ⟨_, rfl⟩

/-- The loop of `make_reference` fails when an index is not below the size of its
dimension. -/
theorem make_reference_loop_fails (ir : Root) (idx shape : List Nat) (addr : Nat) (k : Nat)
    (hk : k < idx.length) (hge : shape.getD k 0 ≤ idx.getD k 0) :
    ∃ e, make_reference_loop ir idx shape addr = .error e := by
  cases h : make_reference_loop ir idx shape addr with
  | error e => exact ⟨e, rfl⟩
  | ok lits =>
    have := ((make_reference_loop_ok ir idx shape addr lits h).2.2 k hk).1
    exact absurd this (Nat.not_lt_of_le hge)

theorem object_some (ir : Root) (t : Nat) (o : Object)
    (ho : ir.object_nodes.get? t = some o) : ir.object (some t) = .ok o := by
  simp only [Root.object, ho]

theorem make_reference_of_loop_ok (ir : Root) (t : Nat) (o : Object) (idx : List Nat)
    (addr : Nat) (ho : ir.object_nodes.get? t = some o) (hlen : idx.length = o.shape.length)
    (lits : List IntLiteral) (h : make_reference_loop ir idx o.shape addr = .ok lits) :
    make_reference ir (some t) idx addr =
      .ok { target := some t, data_type := o.data_type, indices := lits } := by
  unfold make_reference
  rw [object_some ir t o ho]
  simp only []
  rw [if_neg (by omega), if_neg (by omega), h]

theorem make_reference_of_loop_error (ir : Root) (t : Nat) (o : Object) (idx : List Nat)
    (addr : Nat) (ho : ir.object_nodes.get? t = some o) (hlen : idx.length = o.shape.length)
    (e : Error) (h : make_reference_loop ir idx o.shape addr = .error e) :
    make_reference ir (some t) idx addr = .error e := by
  unfold make_reference
  rw [object_some ir t o ho]
  simp only []
  rw [if_neg (by omega), if_neg (by omega), h]

theorem make_reference_length (ir : Root) (t : Nat) (o : Object) (idx : List Nat) (addr : Nat)
    (ho : ir.object_nodes.get? t = some o) (hlen : idx.length ≠ o.shape.length) :
    ∃ e, make_reference ir (some t) idx addr = .error e := by
  unfold make_reference
  rw [object_some ir t o ho]
  simp only []
  by_cases h1 : idx.length > o.shape.length
  · rw [if_pos h1]; exact ⟨_, rfl⟩
  · rw [if_neg h1, if_pos (by omega)]; exact ⟨_, rfl⟩

/-- The value that `make_uint_lit` accepts on a platform whose default integer type has a
defined range is below `2 ^ 63`. -/
theorem make_uint_lit_value (ir : Root) (hdef : ir.default_int_type_defined) (i : Nat)
    (addr : Nat) (lit : IntLiteral) (h : make_uint_lit ir i none addr = .ok lit) :
    lit.value = i := by
  obtain ⟨dt, bits, is_signed, hd, hk, hle, rfl⟩ := make_uint_lit_ok ir i addr lit h
  have h0 := get_max_int_for_nonneg bits is_signed (hdef dt bits is_signed hd hk)
  have h1 := get_max_int_for_lt bits is_signed
  rw [to_uint_of_nonneg _ h0 h1] at hle
  have : i < 2 ^ 63 := by omega
  exact to_int_of_lt i this

theorem make_uint_lit_succeeds (ir : Root) (i : Nat) (addr : Nat) (dt : DataType)
    (bits : Nat) (is_signed : Bool)
    (hd : ir.data_type ir.platform.default_int_type = .ok dt)
    (hk : dt.kind = DataTypeKind.int bits is_signed)
    (hi : (i : Int) ≤ get_max_int_for bits is_signed) :
    ∃ lit, make_uint_lit ir i none addr = .ok lit := by
  rw [make_uint_lit_default ir i addr dt bits is_signed hd hk]
  have h1 := get_max_int_for_lt bits is_signed
  have h0 : 0 ≤ get_max_int_for bits is_signed := le_trans (Int.ofNat_nonneg i) hi
  rw [to_uint_of_nonneg _ h0 h1, if_neg (by omega)]
  exact ⟨_, rfl⟩

/-- C23. Reference construction: `make_reference(obj, idx)` fails when `idx` has more or
fewer entries than `obj.shape` or when some `idx[i] >= obj.shape[i]`; it succeeds when `idx`
has as many entries as `obj.shape`, every `idx[i] < obj.shape[i]` and no `idx[i]` exceeds
the maximum of the default integer type of the platform; and whenever it succeeds the
reference has target `obj`, data type `obj.data_type` and one index literal per dimension,
which holds the signed reading of `idx[i]`, that is `idx[i]` itself on a platform whose
default integer type has a defined range, with `idx[i] < obj.shape[i]`. -/
theorem reference_construction (ir : Root) (t : Nat) (o : Object) (idx : List Nat) (addr : Nat)
    (ho : ir.object_nodes.get? t = some o) :
    (idx.length ≠ o.shape.length → ∃ e, make_reference ir (some t) idx addr = .error e) ∧
    ((∃ k, k < idx.length ∧ o.shape.getD k 0 ≤ idx.getD k 0) →
      ∃ e, make_reference ir (some t) idx addr = .error e) ∧
    (∀ dt bits is_signed, ir.data_type ir.platform.default_int_type = .ok dt →
      dt.kind = DataTypeKind.int bits is_signed →
      idx.length = o.shape.length →
      (∀ k, k < idx.length → idx.getD k 0 < o.shape.getD k 0) →
      (∀ k, k < idx.length → (idx.getD k 0 : Int) ≤ get_max_int_for bits is_signed) →
      ∃ ref, make_reference ir (some t) idx addr = .ok ref) ∧
    (∀ ref, make_reference ir (some t) idx addr = .ok ref →
      ref.target = some t ∧ ref.data_type = o.data_type ∧
      ref.indices.length = o.shape.length ∧ idx.length = o.shape.length ∧
      ∀ k, k < idx.length →
        idx.getD k 0 < o.shape.getD k 0 ∧
        (ref.indices.getD k default).value = to_int (idx.getD k 0) ∧
        (ir.default_int_type_defined → (ref.indices.getD k default).value = idx.getD k 0)) := by
  refine ⟨make_reference_length ir t o idx addr ho, ?_, ?_, ?_⟩
  · rintro ⟨k, hk, hge⟩
    by_cases hlen : idx.length = o.shape.length
    · obtain ⟨e, he⟩ := make_reference_loop_fails ir idx o.shape addr k hk hge
      exact ⟨e, make_reference_of_loop_error ir t o idx addr ho hlen e he⟩
    · exact make_reference_length ir t o idx addr ho hlen
  · intro dt bits is_signed hd hkind hlen hlt hmax
    obtain ⟨lits, hl⟩ := make_reference_loop_succeeds ir idx o.shape addr (le_of_eq hlen) hlt
      (fun k hk a => make_uint_lit_succeeds ir _ a dt bits is_signed hd hkind (hmax k hk))
    exact ⟨_, make_reference_of_loop_ok ir t o idx addr ho hlen lits hl⟩
  · intro ref href
    by_cases hlen : idx.length = o.shape.length
    · cases hl : make_reference_loop ir idx o.shape addr with
      | error e =>
        rw [make_reference_of_loop_error ir t o idx addr ho hlen e hl] at href
        cases href
      | ok lits =>
        rw [make_reference_of_loop_ok ir t o idx addr ho hlen lits hl] at href
        cases href
        obtain ⟨h1, _, h3⟩ := make_reference_loop_ok ir idx o.shape addr lits hl
        refine ⟨rfl, rfl, by rw [← hlen]; exact h1, hlen, fun k hk => ?_⟩
        obtain ⟨hlt, hu⟩ := h3 k hk
        obtain ⟨_, _, _, _, _, _, hlit⟩ := make_uint_lit_ok ir _ _ _ hu
        refine ⟨hlt, ?_, fun hdef => make_uint_lit_value ir hdef _ _ _ hu⟩
        show (lits.getD k default).value = _
        rw [hlit]
    · obtain ⟨e, he⟩ := make_reference_length ir t o idx addr ho hlen
      rw [he] at href
      cases href

theorem example_platform_defined : example_platform.default_int_type_defined := by
  intro dt bits is_signed hd hk
  have h1 : example_platform.data_type example_platform.platform.default_int_type =
      .ok { name := "int8", kind := DataTypeKind.int 8 true } := rfl
  rw [h1] at hd
  cases hd
  cases hk
  exact (shift_counts_defined_signed 8).2 ⟨by decide, by decide⟩

/-- C23, witness: in the example platform the element `m[1, 4]` of the matrix `m` of shape
`[2, 5]` is the reference with target `m`, the data type of `m` and the index literals 1
and 4; the index lists `[1]`, `[1, 4, 0]` and `[2, 0]` are refused. -/
theorem reference_construction_witness :
    make_reference example_platform (some 1) [1, 4] 0 =
      .ok { target := some 1, data_type := some 2, indices := [{ addr := 0, value := 1, data_type := some 2 }, { addr := 1, value := 4, data_type := some 2 }] } ∧
    (∃ e, make_reference example_platform (some 1) [1] 0 = .error e) ∧
    (∃ e, make_reference example_platform (some 1) [1, 4, 0] 0 = .error e) ∧
    (∃ e, make_reference example_platform (some 1) [2, 0] 0 = .error e) ∧
    (∃ ref, make_reference example_platform (some 1) [1, 4] 0 = .ok ref) :=
  ⟨rfl,
    (reference_construction example_platform 1 _ [1] 0 rfl).1 (by decide),
    (reference_construction example_platform 1 _ [1, 4, 0] 0 rfl).1 (by decide),
    (reference_construction example_platform 1 _ [2, 0] 0 rfl).2.1 ⟨0, by decide, by decide⟩,
    (reference_construction example_platform 1 _ [1, 4] 0 rfl).2.2.1 _ 8 true rfl rfl rfl
      (by decide) (by decide)⟩

/-! ## Binary search in a collection sorted by name -/

theorem getD_mem_names (names : List String) (i : Nat) (h : i < names.length) :
    names.getD i "" ∈ names := by
  rw [List.getD_eq_getElem _ _ h]
  exact List.getElem_mem h

theorem exists_getD_of_mem (names : List String) (v : String) (h : v ∈ names) :
    ∃ i, i < names.length ∧ names.getD i "" = v := by
  obtain ⟨i, hi, hv⟩ := List.getElem_of_mem h
  exact ⟨i, hi, by rw [List.getD_eq_getElem _ _ hi]; exact hv⟩

theorem pairwise_le_getD (names : List String) (hs : names.Pairwise (· ≤ ·)) (i j : Nat)
    (hij : i ≤ j) (hj : j < names.length) : names.getD i "" ≤ names.getD j "" := by
  rw [List.getD_eq_getElem _ _ hj, List.getD_eq_getElem _ _ (lt_of_le_of_lt hij hj)]
  rcases Nat.lt_or_eq_of_le hij with h | h
  · exact List.pairwise_iff_getElem.1 hs i j (lt_of_le_of_lt hij hj) hj h
  · subst h; exact le_refl _

/-- In a list sorted by name the binary search finds `v` iff `v` is in the list. -/
theorem lower_bound_mem_iff (names : List String) (v : String) (hs : names.Pairwise (· ≤ ·)) :
    v ∈ names ↔
      lower_bound names v < names.length ∧ names.getD (lower_bound names v) "" = v := by
  obtain ⟨_, hlt, hge⟩ := lower_bound_spec names v hs
  constructor
  · intro hv
    obtain ⟨i, hi, hiv⟩ := exists_getD_of_mem names v hv
    have hpi : lower_bound names v ≤ i := by
      by_contra hc
      have := hlt i (Nat.lt_of_not_le hc)
      rw [hiv] at this
      exact lt_irrefl _ this
    have hp : lower_bound names v < names.length := lt_of_le_of_lt hpi hi
    refine ⟨hp, le_antisymm ?_ (hge _ (le_refl _) hp)⟩
    have := pairwise_le_getD names hs _ i hpi hi
    rwa [hiv] at this
  · rintro ⟨hp, hv⟩
    rw [← hv]
    exact getD_mem_names names _ hp

theorem pairwise_le_of_lt (names : List String) (hs : names.Pairwise (· < ·)) :
    names.Pairwise (· ≤ ·) :=
  hs.imp fun h => le_of_lt h

theorem mem_take_getD (names : List String) (p : Nat) (x : String) (h : x ∈ names.take p) :
    ∃ i, i < p ∧ i < names.length ∧ names.getD i "" = x := by
  obtain ⟨i, hi, hx⟩ := List.getElem_of_mem h
  have hi' : i < p ∧ i < names.length := by
    rw [List.length_take] at hi
    omega
  refine ⟨i, hi'.1, hi'.2, ?_⟩
  rw [List.getD_eq_getElem _ _ hi'.2, ← hx, List.getElem_take]

theorem mem_drop_getD (names : List String) (p : Nat) (x : String) (h : x ∈ names.drop p) :
    ∃ i, p ≤ i ∧ i < names.length ∧ names.getD i "" = x := by
  obtain ⟨i, hi, hx⟩ := List.getElem_of_mem h
  rw [List.length_drop] at hi
  refine ⟨p + i, by omega, by omega, ?_⟩
  rw [List.getD_eq_getElem _ _ (by omega), ← hx, List.getElem_drop]

/-- Inserting a new name at its lower bound keeps a strictly increasing list strictly
increasing. -/
theorem insert_lower_bound_sorted (names : List String) (v : String)
    (hs : names.Pairwise (· < ·)) (hv : v ∉ names) :
    (names.take (lower_bound names v) ++ v :: names.drop (lower_bound names v)).Pairwise
      (· < ·) := by
  obtain ⟨_, hlt, hge⟩ := lower_bound_spec names v (pairwise_le_of_lt names hs)
  have hsplit : names.take (lower_bound names v) ++ names.drop (lower_bound names v) = names :=
    List.take_append_drop _ _
  have hs' := hs
  rw [← hsplit] at hs'
  obtain ⟨h1, h2, h3⟩ := List.pairwise_append.1 hs'
  have hbelow : ∀ a ∈ names.take (lower_bound names v), a < v := by
    intro a ha
    obtain ⟨i, hi, _, hia⟩ := mem_take_getD names _ a ha
    rw [← hia]
    exact hlt i hi
  have habove : ∀ b ∈ names.drop (lower_bound names v), v < b := by
    intro b hb
    obtain ⟨i, hi, hil, hib⟩ := mem_drop_getD names _ b hb
    have hle : v ≤ b := by rw [← hib]; exact hge i hi hil
    refine lt_of_le_of_ne hle ?_
    intro hvb
    exact hv (by rw [hvb]; exact List.mem_of_mem_drop hb)
  refine List.pairwise_append.2 ⟨h1, List.pairwise_cons.2 ⟨habove, h2⟩, ?_⟩
  intro a ha b hb
  rcases List.mem_cons.1 hb with hb | hb
  · rw [hb]; exact hbelow a ha
  · exact h3 a ha b hb

/-- The first entry that satisfies a test is what `find?` returns. -/
theorem find?_eq_get?_first {α : Type} (q : α → Bool) :
    ∀ (l : List α) (p : Nat) (x : α), l.get? p = some x → q x = true →
      (∀ i y, i < p → l.get? i = some y → q y = false) → l.find? q = some x
  | [], _, _, h, _, _ => by simp at h
  | a :: l, 0, x, h, hq, _ => by
    simp only [List.get?_cons_zero, Option.some.injEq] at h
    subst h
    simp [List.find?_cons, hq]
  | a :: l, p + 1, x, h, hq, hb => by
    have ha : q a = false := hb 0 a (Nat.succ_pos p) rfl
    rw [List.find?_cons, ha]
    exact find?_eq_get?_first q l p x (by simpa using h) hq
      (fun i y hi hy => hb (i + 1) y (Nat.succ_lt_succ hi) (by simpa using hy))

/-- The lookup by binary search in a collection sorted by name returns what a sequential
scan for the first entry with that name returns. -/
theorem search_eq_find? (ids : List Nat) (f : Nat → String) (v : String)
    (hs : (ids.map f).Pairwise (· ≤ ·)) :
    (if lower_bound (ids.map f) v = ids.length ∨
        (ids.map f).getD (lower_bound (ids.map f) v) "" ≠ v then none
      else ids.get? (lower_bound (ids.map f) v)) =
      ids.find? (fun id => decide (f id = v)) := by
  obtain ⟨hle, hlt, _⟩ := lower_bound_spec (ids.map f) v hs
  have hmem := lower_bound_mem_iff (ids.map f) v hs
  rw [List.length_map] at hle hmem
  by_cases hv : v ∈ ids.map f
  · obtain ⟨hp, hpv⟩ := hmem.1 hv
    rw [if_neg (fun h => h.elim (fun h1 => absurd h1 (Nat.ne_of_lt hp)) (fun h2 => h2 hpv))]
    have hget : ids.get? (lower_bound (ids.map f) v) = some (ids[lower_bound (ids.map f) v]) := by
      simp [hp]
    rw [hget]
    symm
    refine find?_eq_get?_first _ ids _ _ hget ?_ ?_
    · rw [List.getD_eq_getElem _ _ (by simpa using hp)] at hpv
      simpa using hpv
    · intro i y hi hy
      have hil : i < ids.length := lt_trans hi hp
      have := hlt i hi
      rw [List.getD_eq_getElem _ _ (by simpa using hil)] at this
      have hy' : y = ids[i] := by
        rw [List.get?_eq_getElem?, List.getElem?_eq_getElem hil] at hy
        exact (Option.some.inj hy).symm
      simp only [List.getElem_map] at this
      rw [hy']
      simpa using ne_of_lt this
  · have hcond : lower_bound (ids.map f) v = ids.length ∨
        (ids.map f).getD (lower_bound (ids.map f) v) "" ≠ v := by
      by_cases hp : lower_bound (ids.map f) v = ids.length
      · exact Or.inl hp
      · refine Or.inr fun hpv => hv (hmem.2 ⟨by omega, hpv⟩)
    rw [if_pos hcond]
    symm
    rw [List.find?_eq_none]
    intro x hx hfx
    exact hv (List.mem_map.2 ⟨x, hx, by simpa using hfx⟩)

theorem find_type_eq (ir : Root) (n : String) (hs : ir.data_type_names.Pairwise (· ≤ ·)) :
    find_type ir n =
      ir.platform.data_types.find? (fun id => decide ((ir.data_type_node id).name = n)) :=
  search_eq_find? ir.platform.data_types (fun id => (ir.data_type_node id).name) n hs

theorem find_physical_object_eq (ir : Root) (n : String)
    (hs : ir.object_names.Pairwise (· ≤ ·)) :
    find_physical_object ir n =
      ir.platform.objects.find? (fun id => decide ((ir.object_node id).name = n)) :=
  search_eq_find? ir.platform.objects (fun id => (ir.object_node id).name) n hs

theorem length_object_names (ir : Root) : ir.object_names.length = ir.platform.objects.length := by
  simp [Root.object_names]

/-- The three outcomes of `add_physical_object` on a collection sorted by name. -/
theorem add_physical_object_cases (ir : Root) (obj : Object)
    (hs : ir.object_names.Pairwise (· ≤ ·)) :
    (is_identifier obj.name = false ∧
      add_physical_object ir obj =
        (ir, .error (Error.user_error "invalid name for new register: not a valid identifier"))) ∨
    (is_identifier obj.name = true ∧ obj.name ∈ ir.object_names ∧
      add_physical_object ir obj =
        (ir, .error (Error.user_error "invalid name for new register: already in use"))) ∨
    (is_identifier obj.name = true ∧ obj.name ∉ ir.object_names ∧
      add_physical_object ir obj =
        ({ ir with
            object_nodes := ir.object_nodes ++ [obj]
            platform := { ir.platform with
              objects := insert_at ir.platform.objects (lower_bound ir.object_names obj.name)
                ir.object_nodes.length } },
          .ok (some ir.object_nodes.length))) := by
  have hmem := lower_bound_mem_iff ir.object_names obj.name hs
  rw [length_object_names] at hmem
  unfold add_physical_object
  by_cases hid : is_identifier obj.name = true
  · right
    rw [if_neg (by simpa using hid)]
    by_cases hv : obj.name ∈ ir.object_names
    · left
      obtain ⟨hp, hpv⟩ := hmem.1 hv
      rw [if_pos ⟨by omega, hpv⟩]
      exact ⟨hid, hv, rfl⟩
    · right
      have hle := (lower_bound_spec ir.object_names obj.name hs).1
      rw [length_object_names] at hle
      rw [if_neg (fun h => hv (hmem.2 ⟨by omega, h.2⟩))]
      exact ⟨hid, hv, rfl⟩
  · left
    rw [if_pos (by simpa using hid)]
    exact ⟨by simpa using hid, rfl⟩

/-! ## The object collection -/

/-- The IR that a successful `add_physical_object` reaches when it inserts at `pos`. -/
theorem object_node_insert_old (ir : Root) (obj : Object) (l : List Nat) (id : Nat)
    (h : id < ir.object_nodes.length) :
    ({ ir with object_nodes := ir.object_nodes ++ [obj], platform := { ir.platform with objects := l } } : Root).object_node id = ir.object_node id := by
  simp only [Root.object_node, List.getD_eq_getElem?_getD]
  rw [List.getElem?_append_left h]

theorem object_node_insert_new (ir : Root) (obj : Object) (l : List Nat) :
    ({ ir with object_nodes := ir.object_nodes ++ [obj], platform := { ir.platform with objects := l } } : Root).object_node ir.object_nodes.length = obj := by
  simp only [Root.object_node, List.getD_eq_getElem?_getD]
  rw [List.getElem?_append_right (le_refl _)]
  simp

theorem object_names_insert (ir : Root) (obj : Object) (p : Nat)
    (hv : ∀ id ∈ ir.platform.objects, id < ir.object_nodes.length) :
    ({ ir with object_nodes := ir.object_nodes ++ [obj], platform := { ir.platform with objects := insert_at ir.platform.objects p ir.object_nodes.length } } : Root).object_names =
      ir.object_names.take p ++ obj.name :: ir.object_names.drop p := by
  have hmap : ir.platform.objects.map
        (fun id => ((ir.object_nodes ++ [obj]).getD id default).name) =
      ir.platform.objects.map (fun id => (ir.object_nodes.getD id default).name) := by
    apply List.map_congr_left
    intro id hid
    simp only [List.getD_eq_getElem?_getD]
    rw [List.getElem?_append_left (hv id hid)]
  have hnew : ((ir.object_nodes ++ [obj]).getD ir.object_nodes.length default) = obj := by
    simp only [List.getD_eq_getElem?_getD]
    rw [List.getElem?_append_right (le_refl _)]
    simp
  simp only [Root.object_names, Root.object_node, insert_at, List.map_append, List.map_cons,
    List.map_take, List.map_drop]
  rw [hmap, hnew]

theorem sublist_insert_at (l : List Nat) (p x : Nat) : List.Sublist l (insert_at l p x) := by
  unfold insert_at
  have h : List.Sublist (l.take p ++ l.drop p) (l.take p ++ x :: l.drop p) :=
    List.Sublist.append (List.Sublist.refl _) (List.sublist_cons_self _ _)
  rwa [List.take_append_drop] at h

/-- A successful `add_physical_object` on a strictly sorted collection. -/
theorem add_physical_object_step (ir : Root) (obj : Object) (hs : ir.objects_sorted)
    (hid : is_identifier obj.name = true) (hnew : obj.name ∉ ir.object_names) :
    (add_physical_object ir obj).2 = .ok (some ir.object_nodes.length) ∧
    (add_physical_object ir obj).1.object_node ir.object_nodes.length = obj ∧
    (add_physical_object ir obj).1.platform.objects =
      insert_at ir.platform.objects (lower_bound ir.object_names obj.name)
        ir.object_nodes.length ∧
    (∀ id ∈ ir.platform.objects,
      (add_physical_object ir obj).1.object_node id = ir.object_node id) ∧
    (add_physical_object ir obj).1.object_names =
      ir.object_names.take (lower_bound ir.object_names obj.name) ++
        obj.name :: ir.object_names.drop (lower_bound ir.object_names obj.name) ∧
    (add_physical_object ir obj).1.objects_sorted := by
  rcases add_physical_object_cases ir obj (pairwise_le_of_lt _ hs.sorted) with h | h | h
  · rw [h.1] at hid; cases hid
  · exact absurd h.2.1 hnew
  · rw [h.2.2]
    have hnames := object_names_insert ir obj (lower_bound ir.object_names obj.name) hs.valid
    refine ⟨rfl, object_node_insert_new ir obj _, rfl,
      fun id hid => object_node_insert_old ir obj _ id (hs.valid id hid), hnames, ?_, ?_⟩
    · intro id hid
      simp only [] at hid
      rcases (mem_insert_at _ _ _ _).1 hid with h1 | h1
      · rw [h1]; simp
      · have := hs.valid id h1
        simp only [List.length_append, List.length_singleton]
        omega
    · show List.Pairwise (· < ·) _
      rw [hnames]
      exact insert_lower_bound_sorted ir.object_names obj.name hs.sorted hnew

theorem add_physical_object_unchanged (ir : Root) (obj : Object) (e : Error)
    (h : (add_physical_object ir obj).2 = .error e) : (add_physical_object ir obj).1 = ir := by
  unfold add_physical_object at h ⊢
  split
  · rfl
  · split
    · rfl
    · rename_i h1 h2
      rw [if_neg h1, if_neg h2] at h
      cases h

theorem ObjectsAdded.objects_sorted {ir : Root} (h : ObjectsAdded ir) : ir.objects_sorted := by
  induction h with
  | empty ir he =>
    refine ⟨fun id hid => ?_, ?_⟩
    · rw [he] at hid; cases hid
    · simp [Root.object_names, he]
  | step ir obj _ ih =>
    rcases add_physical_object_cases ir obj (pairwise_le_of_lt _ ih.sorted) with h | h | h
    · rw [h.2]; exact ih
    · rw [h.2.2]; exact ih
    · exact (add_physical_object_step ir obj ih h.1 h.2.1).2.2.2.2.2

theorem find?_name_some (l : List Nat) (f : Nat → String) (n : String) :
    (∃ id, l.find? (fun id => decide (f id = n)) = some id ∧ id ∈ l ∧ f id = n) ↔
      ∃ id ∈ l, f id = n := by
  constructor
  · rintro ⟨id, _, hm, hf⟩
    exact ⟨id, hm, hf⟩
  · rintro ⟨id, hm, hf⟩
    cases h : l.find? (fun id => decide (f id = n)) with
    | none =>
      rw [List.find?_eq_none] at h
      exact absurd (by simpa using hf) (h id hm)
    | some x =>
      exact ⟨x, rfl, List.mem_of_find?_eq_some h, by simpa using List.find?_some h⟩

theorem find?_name_none (l : List Nat) (f : Nat → String) (n : String) :
    l.find? (fun id => decide (f id = n)) = none ↔ ∀ id ∈ l, f id ≠ n := by
  rw [List.find?_eq_none]
  simp

theorem pairwise_lt_unique (f : Nat → String) :
    ∀ (l : List Nat), (l.map f).Pairwise (· < ·) → ∀ x ∈ l, ∀ y ∈ l, f x = f y → x = y
  | [], _, x, hx, _, _, _ => by cases hx
  | a :: t, h, x, hx, y, hy, hxy => by
    rw [List.map_cons, List.pairwise_cons] at h
    rcases List.mem_cons.1 hx with hx | hx <;> rcases List.mem_cons.1 hy with hy | hy
    · rw [hx, hy]
    · have := h.1 (f y) (List.mem_map.2 ⟨y, hy, rfl⟩)
      rw [← hxy, hx] at this
      exact absurd this (lt_irrefl _)
    · have := h.1 (f x) (List.mem_map.2 ⟨x, hx, rfl⟩)
      rw [hxy, hy] at this
      exact absurd this (lt_irrefl _)
    · exact pairwise_lt_unique f t h.2 x hx y hy hxy

/-- After a successful `add_physical_object` the lookup of the name returns the object. -/
theorem find_after_add (ir : Root) (obj : Object) (link : Link) (hs : ir.objects_sorted)
    (h : (add_physical_object ir obj).2 = .ok link) :
    find_physical_object (add_physical_object ir obj).1 obj.name = link ∧
    ∃ id, link = some id ∧ (add_physical_object ir obj).1.object_node id = obj := by
  rcases add_physical_object_cases ir obj (pairwise_le_of_lt _ hs.sorted) with hc | hc | hc
  · rw [hc.2] at h; cases h
  · rw [hc.2.2] at h; cases h
  · obtain ⟨hres, hnode, hobjs, _, _, hsorted⟩ := add_physical_object_step ir obj hs hc.1 hc.2.1
    rw [hres] at h
    cases h
    refine ⟨?_, _, rfl, hnode⟩
    rw [find_physical_object_eq _ _ (pairwise_le_of_lt _ hsorted.sorted)]
    have hmem : ir.object_nodes.length ∈ (add_physical_object ir obj).1.platform.objects := by
      rw [hobjs]
      exact (mem_insert_at _ _ _ _).2 (Or.inl rfl)
    obtain ⟨x, hx, hxm, hxn⟩ := (find?_name_some (add_physical_object ir obj).1.platform.objects
      (fun id => ((add_physical_object ir obj).1.object_node id).name) obj.name).2
      ⟨_, hmem, by rw [hnode]⟩
    rw [hx]
    congr 1
    exact pairwise_lt_unique _ _ hsorted.sorted x hxm _ hmem (by simp only [hxn, hnode])

/-- C27. Physical-object registry order: on a platform whose object collection is strictly
sorted by name, `add_physical_object` of an object whose name is a valid identifier that is
not in use succeeds and inserts the object at the lower-bound position of its name; the
previous entries keep their relative order and their nodes, and the collection is strictly
sorted by name afterwards. Hence after any sequence of `add_physical_object` calls from a
platform without objects the collection is strictly increasing by name. -/
theorem physical_object_order (ir : Root) (obj : Object) (hs : ir.objects_sorted)
    (hid : is_identifier obj.name = true) (hnew : obj.name ∉ ir.object_names) :
    ((add_physical_object ir obj).2 = .ok (some ir.object_nodes.length) ∧
      (add_physical_object ir obj).1.object_node ir.object_nodes.length = obj ∧
      (add_physical_object ir obj).1.platform.objects =
        insert_at ir.platform.objects (lower_bound ir.object_names obj.name)
          ir.object_nodes.length ∧
      List.Sublist ir.platform.objects (add_physical_object ir obj).1.platform.objects ∧
      (∀ id ∈ ir.platform.objects,
        (add_physical_object ir obj).1.object_node id = ir.object_node id) ∧
      (add_physical_object ir obj).1.object_names =
        ir.object_names.take (lower_bound ir.object_names obj.name) ++
          obj.name :: ir.object_names.drop (lower_bound ir.object_names obj.name) ∧
      (add_physical_object ir obj).1.object_names.Pairwise (· < ·)) ∧
    (∀ ir0, ObjectsAdded ir0 → ir0.object_names.Pairwise (· < ·)) := by
  obtain ⟨h1, h2, h3, h4, h5, h6⟩ := add_physical_object_step ir obj hs hid hnew
  refine ⟨⟨h1, h2, h3, ?_, h4, h5, h6.sorted⟩, fun ir0 h0 => h0.objects_sorted.sorted⟩
  rw [h3]
  exact sublist_insert_at _ _ _

/-- C28. `add_physical_object` errors: on a platform whose object collection is sorted by
name, `add_physical_object(obj)` raises an error iff `obj.name` is not a valid identifier or
an object with that name is already registered; when it raises, the IR, and with it the
object collection, is unchanged. -/
theorem add_physical_object_errors (ir : Root) (obj : Object)
    (hs : ir.object_names.Pairwise (· ≤ ·)) :
    ((∃ e, (add_physical_object ir obj).2 = .error e) ↔
      (is_identifier obj.name = false ∨ obj.name ∈ ir.object_names)) ∧
    (∀ e, (add_physical_object ir obj).2 = .error e →
      (add_physical_object ir obj).1 = ir ∧
      (add_physical_object ir obj).1.platform.objects = ir.platform.objects) := by
  refine ⟨?_, fun e he => ?_⟩
  · rcases add_physical_object_cases ir obj hs with h | h | h
    · rw [h.2]; exact ⟨fun _ => Or.inl h.1, fun _ => ⟨_, rfl⟩⟩
    · rw [h.2.2]; exact ⟨fun _ => Or.inr h.2.1, fun _ => ⟨_, rfl⟩⟩
    · rw [h.2.2]
      constructor
      · rintro ⟨e, he⟩; cases he
      · rintro (h1 | h1)
        · rw [h.1] at h1; cases h1
        · exact absurd h1 h.2.1
  · have := add_physical_object_unchanged ir obj e he
    exact ⟨this, by rw [this]⟩

/-- C29. Lookup by binary search: on a data type collection (object collection) sorted by
name, `find_type(n)` (`find_physical_object(n)`) returns what a sequential scan for the first
entry named `n` returns: an entry named `n` iff the collection has one, and the empty link
otherwise. After a successful `add_physical_object(obj)` on a strictly sorted collection,
`find_physical_object(obj.name)` returns the link to `obj`. -/
theorem lookup_by_binary_search (ir : Root) (n : String) :
    (ir.data_type_names.Pairwise (· ≤ ·) →
      find_type ir n =
        ir.platform.data_types.find? (fun id => decide ((ir.data_type_node id).name = n)) ∧
      ((∃ id, find_type ir n = some id ∧ id ∈ ir.platform.data_types ∧
          (ir.data_type_node id).name = n) ↔
        ∃ id ∈ ir.platform.data_types, (ir.data_type_node id).name = n) ∧
      (find_type ir n = none ↔ ∀ id ∈ ir.platform.data_types, (ir.data_type_node id).name ≠ n)) ∧
    (ir.object_names.Pairwise (· ≤ ·) →
      find_physical_object ir n =
        ir.platform.objects.find? (fun id => decide ((ir.object_node id).name = n)) ∧
      ((∃ id, find_physical_object ir n = some id ∧ id ∈ ir.platform.objects ∧
          (ir.object_node id).name = n) ↔
        ∃ id ∈ ir.platform.objects, (ir.object_node id).name = n) ∧
      (find_physical_object ir n = none ↔
        ∀ id ∈ ir.platform.objects, (ir.object_node id).name ≠ n)) ∧
    (∀ (obj : Object) (link : Link), ir.objects_sorted →
      (add_physical_object ir obj).2 = .ok link →
      find_physical_object (add_physical_object ir obj).1 obj.name = link ∧
      ∃ id, link = some id ∧ (add_physical_object ir obj).1.object_node id = obj) := by
  refine ⟨fun hs => ?_, fun hs => ?_, fun obj link hs h => find_after_add ir obj link hs h⟩
  · rw [find_type_eq ir n hs]
    exact ⟨rfl, find?_name_some _ _ n, find?_name_none _ _ n⟩
  · rw [find_physical_object_eq ir n hs]
    exact ⟨rfl, find?_name_some _ _ n, find?_name_none _ _ n⟩

theorem string_le_of_toList (a b : String) (h : a.toList < b.toList) : a ≤ b :=
  le_of_lt (String.lt_iff_toList_lt.2 h)

theorem example_objects1_added : ObjectsAdded example_objects1 :=
  ObjectsAdded.step _ _ (ObjectsAdded.empty _ rfl)

theorem example_objects2_added : ObjectsAdded example_objects2 :=
  ObjectsAdded.step _ _ example_objects1_added

theorem example_platform_types_sorted : example_platform.data_type_names.Pairwise (· ≤ ·) := by
  have h : example_platform.data_type_names = ["bit", "int8", "qubit", "uint64"] := by decide
  rw [h]
  apply List.chain'_iff_pairwise.1
  simp only [List.chain'_cons, List.chain'_singleton, and_true]
  exact ⟨string_le_of_toList _ _ (by decide), string_le_of_toList _ _ (by decide),
    string_le_of_toList _ _ (by decide)⟩

/-- C27, witness: the register `b` is added to the platform that holds the register `q`; it
becomes node 1 and goes before `q` in the collection. -/
theorem physical_object_order_witness :
    example_objects1.objects_sorted ∧ example_objects1.platform.objects = [0] ∧
    (add_physical_object example_objects1 { name := "b", data_type := some 1, shape := [3] }).2 =
      .ok (some 1) ∧
    example_objects2.platform.objects = [1, 0] ∧ example_objects2.object_names = ["b", "q"] ∧
    example_objects2.object_names.Pairwise (· < ·) :=
  ⟨example_objects1_added.objects_sorted, by decide,
    (physical_object_order example_objects1 { name := "b", data_type := some 1, shape := [3] }
      example_objects1_added.objects_sorted (by decide) (by decide)).1.1,
    by decide, by decide,
    (physical_object_order example_objects1 { name := "b", data_type := some 1, shape := [3] }
      example_objects1_added.objects_sorted (by decide) (by decide)).2 _ example_objects2_added⟩

/-- C28, witness: on the platform that holds the register `q`, adding an object named `q` or
`1q` raises an error and adding one named `b` does not. -/
theorem add_physical_object_errors_witness :
    example_objects1.object_names.Pairwise (· ≤ ·) ∧
    (∃ e, (add_physical_object example_objects1 { name := "q" }).2 = .error e) ∧
    (∃ e, (add_physical_object example_objects1 { name := "1q" }).2 = .error e) ∧
    (add_physical_object example_objects1 { name := "q" }).1 = example_objects1 ∧
    ¬ (∃ e, (add_physical_object example_objects1 { name := "b" }).2 = .error e) :=
  ⟨pairwise_le_of_lt _ example_objects1_added.objects_sorted.sorted,
    (add_physical_object_errors example_objects1 { name := "q" }
      (pairwise_le_of_lt _ example_objects1_added.objects_sorted.sorted)).1.2
      (Or.inr (by decide)),
    (add_physical_object_errors example_objects1 { name := "1q" }
      (pairwise_le_of_lt _ example_objects1_added.objects_sorted.sorted)).1.2
      (Or.inl (by decide)),
    ((add_physical_object_errors example_objects1 { name := "q" }
      (pairwise_le_of_lt _ example_objects1_added.objects_sorted.sorted)).2 _ rfl).1,
    fun h => absurd ((add_physical_object_errors example_objects1 { name := "b" }
      (pairwise_le_of_lt _ example_objects1_added.objects_sorted.sorted)).1.1 h)
      (by decide)⟩

/-- C29, witness: in the example platform `find_type("qubit")` is the data type node 0 and
`find_type("real")` is empty; after `b` has been added to the platform that holds `q`,
`find_physical_object("b")` is the new node and `find_physical_object("c")` is empty. -/
theorem lookup_by_binary_search_witness :
    example_platform.data_type_names.Pairwise (· ≤ ·) ∧
    find_type example_platform "qubit" = some 0 ∧
    find_type example_platform "real" = none ∧
    find_physical_object example_objects2 "b" = some 1 ∧
    find_physical_object example_objects2 "c" = none :=
  ⟨example_platform_types_sorted,
    ((lookup_by_binary_search example_platform "qubit").1 example_platform_types_sorted).1.trans
      (by decide),
    ((lookup_by_binary_search example_platform "real").1 example_platform_types_sorted).1.trans
      (by decide),
    ((lookup_by_binary_search example_objects1 "b").2.2
      { name := "b", data_type := some 1, shape := [3] } (some 1)
      example_objects1_added.objects_sorted rfl).1,
    ((lookup_by_binary_search example_objects2 "c").2.1
      (pairwise_le_of_lt _ example_objects2_added.objects_sorted.sorted)).1.trans (by decide)⟩

/-! ## Reference remapping -/

theorem visit_reference_target (map : List (Link × Link)) (r : Reference) :
    (ReferenceRemapper.visit_reference map r).target = (map.lookup r.target).getD r.target := by
  unfold ReferenceRemapper.visit_reference
  cases map.lookup r.target <;> rfl

theorem visit_reference_data_type (map : List (Link × Link)) (r : Reference) :
    (ReferenceRemapper.visit_reference map r).data_type = r.data_type := by
  unfold ReferenceRemapper.visit_reference
  cases map.lookup r.target <;> rfl

theorem visit_reference_indices (map : List (Link × Link)) (r : Reference) :
    (ReferenceRemapper.visit_reference map r).indices = r.indices := by
  unfold ReferenceRemapper.visit_reference
  cases map.lookup r.target <;> rfl

theorem visit_reference_node_count (map : List (Link × Link)) (r : Reference) :
    (ReferenceRemapper.visit_reference map r).node_count = r.node_count := by
  simp only [Reference.node_count, visit_reference_indices]

mutual
theorem visit_expression_spec (map : List (Link × Link)) :
    ∀ e : Expression,
      (ReferenceRemapper.visit_expression map e).references =
        e.references.map (ReferenceRemapper.visit_reference map) ∧
      (ReferenceRemapper.visit_expression map e).node_count = e.node_count
  | .bit_literal _ _ => ⟨rfl, rfl⟩
  | .int_literal _ _ => ⟨rfl, rfl⟩
  | .string_literal _ _ => ⟨rfl, rfl⟩
  | .reference r => by
    simp only [ReferenceRemapper.visit_expression, Expression.references, Expression.node_count,
      List.map_cons, List.map_nil, visit_reference_node_count, and_self]
  | .function_call f operands => by
    have h := visit_expressions_spec map operands
    simp only [ReferenceRemapper.visit_expression, Expression.references, Expression.node_count,
      h.1, h.2, and_self]
theorem visit_expressions_spec (map : List (Link × Link)) :
    ∀ l : List Expression,
      Expression.references_list (ReferenceRemapper.visit_expressions map l) =
        (Expression.references_list l).map (ReferenceRemapper.visit_reference map) ∧
      Expression.node_count_list (ReferenceRemapper.visit_expressions map l) =
        Expression.node_count_list l
  | [] => ⟨rfl, rfl⟩
  | e :: rest => by
    have h1 := visit_expression_spec map e
    have h2 := visit_expressions_spec map rest
    simp only [ReferenceRemapper.visit_expressions, Expression.references_list,
      Expression.node_count_list, h1.1, h1.2, h2.1, h2.2, List.map_append, and_self]
end

theorem visit_maybe_expression_spec (map : List (Link × Link)) (c : Option Expression) :
    maybe_references (ReferenceRemapper.visit_maybe_expression map c) =
      (maybe_references c).map (ReferenceRemapper.visit_reference map) ∧
    maybe_node_count (ReferenceRemapper.visit_maybe_expression map c) = maybe_node_count c := by
  cases c with
  | none => exact ⟨rfl, rfl⟩
  | some e => exact visit_expression_spec map e

theorem visit_set_instruction_spec (map : List (Link × Link)) (insn : SetInstruction) :
    (ReferenceRemapper.visit_set_instruction map insn).references =
      insn.references.map (ReferenceRemapper.visit_reference map) ∧
    (ReferenceRemapper.visit_set_instruction map insn).node_count = insn.node_count := by
  have h1 := visit_maybe_expression_spec map insn.condition
  have h2 := visit_expression_spec map insn.rhs
  simp only [ReferenceRemapper.visit_set_instruction, SetInstruction.references,
    SetInstruction.node_count, h1.1, h1.2, h2.1, h2.2, List.map_append, List.map_cons,
    visit_reference_node_count, and_self]

theorem visit_maybe_set_spec (map : List (Link × Link)) (s : Option SetInstruction) :
    maybe_set_references (ReferenceRemapper.visit_maybe_set map s) =
      (maybe_set_references s).map (ReferenceRemapper.visit_reference map) ∧
    maybe_set_node_count (ReferenceRemapper.visit_maybe_set map s) = maybe_set_node_count s := by
  cases s with
  | none => exact ⟨rfl, rfl⟩
  | some insn => exact visit_set_instruction_spec map insn

theorem visit_objects_node_count (map : List (Link × Link)) (l : List Reference) :
    ((l.map (ReferenceRemapper.visit_reference map)).map Reference.node_count).sum =
      (l.map Reference.node_count).sum := by
  rw [List.map_map]
  congr 1
  apply List.map_congr_left
  intro r _
  exact visit_reference_node_count map r

mutual
theorem visit_statement_spec (map : List (Link × Link)) :
    ∀ s : Statement,
      (ReferenceRemapper.visit_statement map s).references =
        s.references.map (ReferenceRemapper.visit_reference map) ∧
      (ReferenceRemapper.visit_statement map s).node_count = s.node_count
  | .custom_instruction insn => by
    have h1 := visit_maybe_expression_spec map insn.condition
    have h2 := visit_expressions_spec map insn.operands
    simp only [ReferenceRemapper.visit_statement, ReferenceRemapper.visit_custom_instruction,
      Statement.references, Statement.node_count, h1.1, h1.2, h2.1, h2.2, List.map_append,
      and_self]
  | .set_instruction insn => by
    simp only [ReferenceRemapper.visit_statement, Statement.references, Statement.node_count]
    exact visit_set_instruction_spec map insn
  | .goto_instruction insn => by
    have h1 := visit_maybe_expression_spec map insn.condition
    simp only [ReferenceRemapper.visit_statement, ReferenceRemapper.visit_goto_instruction,
      Statement.references, Statement.node_count, h1.1, h1.2, and_self]
  | .wait_instruction insn => by
    simp only [ReferenceRemapper.visit_statement, ReferenceRemapper.visit_wait_instruction,
      Statement.references, Statement.node_count, visit_objects_node_count, and_self]
  | .dummy_instruction _ => ⟨rfl, rfl⟩
  | .if_else branches otherwise => by
    have h1 := visit_branches_spec map branches
    have h2 := visit_otherwise_spec map otherwise
    simp only [ReferenceRemapper.visit_statement, Statement.references, Statement.node_count,
      h1.1, h1.2, h2.1, h2.2, List.map_append, and_self]
  | .static_loop lhs frm to_ body => by
    have h1 := visit_block_spec map body
    simp only [ReferenceRemapper.visit_statement, Statement.references, Statement.node_count,
      h1.1, h1.2, List.map_cons, visit_reference_node_count, and_self]
  | .for_loop init condition update body => by
    have h1 := visit_block_spec map body
    have h2 := visit_maybe_set_spec map init
    have h3 := visit_maybe_set_spec map update
    have h4 := visit_expression_spec map condition
    simp only [ReferenceRemapper.visit_statement, Statement.references, Statement.node_count,
      h1.1, h1.2, h2.1, h2.2, h3.1, h3.2, h4.1, h4.2, List.map_append, and_self]
  | .repeat_until_loop condition body => by
    have h1 := visit_block_spec map body
    have h4 := visit_expression_spec map condition
    simp only [ReferenceRemapper.visit_statement, Statement.references, Statement.node_count,
      h1.1, h1.2, h4.1, h4.2, List.map_append, and_self]
  | .break_statement => ⟨rfl, rfl⟩
  | .continue_statement => ⟨rfl, rfl⟩
theorem visit_block_spec (map : List (Link × Link)) :
    ∀ l : List Statement,
      Statement.block_references (ReferenceRemapper.visit_block map l) =
        (Statement.block_references l).map (ReferenceRemapper.visit_reference map) ∧
      Statement.block_node_count (ReferenceRemapper.visit_block map l) =
        Statement.block_node_count l
  | [] => ⟨rfl, rfl⟩
  | s :: rest => by
    have h1 := visit_statement_spec map s
    have h2 := visit_block_spec map rest
    simp only [ReferenceRemapper.visit_block, Statement.block_references,
      Statement.block_node_count, h1.1, h1.2, h2.1, h2.2, List.map_append, and_self]
theorem visit_branches_spec (map : List (Link × Link)) :
    ∀ l : List IfElseBranch,
      Statement.branches_references (ReferenceRemapper.visit_branches map l) =
        (Statement.branches_references l).map (ReferenceRemapper.visit_reference map) ∧
      Statement.branches_node_count (ReferenceRemapper.visit_branches map l) =
        Statement.branches_node_count l
  | [] => ⟨rfl, rfl⟩
  | b :: rest => by
    have h1 := visit_branch_spec map b
    have h2 := visit_branches_spec map rest
    simp only [ReferenceRemapper.visit_branches, Statement.branches_references,
      Statement.branches_node_count, h1.1, h1.2, h2.1, h2.2, List.map_append, and_self]
theorem visit_branch_spec (map : List (Link × Link)) :
    ∀ b : IfElseBranch,
      Statement.branch_references (ReferenceRemapper.visit_branch map b) =
        (Statement.branch_references b).map (ReferenceRemapper.visit_reference map) ∧
      Statement.branch_node_count (ReferenceRemapper.visit_branch map b) =
        Statement.branch_node_count b
  | .mk condition body => by
    have h1 := visit_block_spec map body
    have h4 := visit_expression_spec map condition
    simp only [ReferenceRemapper.visit_branch, Statement.branch_references,
      Statement.branch_node_count, h1.1, h1.2, h4.1, h4.2, List.map_append, and_self]
theorem visit_otherwise_spec (map : List (Link × Link)) :
    ∀ o : Option (List Statement),
      Statement.otherwise_references (ReferenceRemapper.visit_otherwise map o) =
        (Statement.otherwise_references o).map (ReferenceRemapper.visit_reference map) ∧
      Statement.otherwise_node_count (ReferenceRemapper.visit_otherwise map o) =
        Statement.otherwise_node_count o
  | none => ⟨rfl, rfl⟩
  | some block => by
    have h1 := visit_block_spec map block
    simp only [ReferenceRemapper.visit_otherwise, Statement.otherwise_references,
      Statement.otherwise_node_count, h1.1, h1.2, and_self]
end

theorem lookup_single (A B k : Link) :
    ([(A, B)] : List (Link × Link)).lookup k = if k = A then some B else none := by
  by_cases h : k = A
  · subst h
    simp [List.lookup]
  · rw [if_neg h]
    have : (k == A) = false := by simpa using h
    simp [List.lookup, this]

theorem visit_reference_single (A B : Link) (hAB : A ≠ B) (r : Reference) :
    (ReferenceRemapper.visit_reference [(A, B)] r).target ≠ A ∧
    (r.target = A → (ReferenceRemapper.visit_reference [(A, B)] r).target = B) ∧
    (r.target ≠ A → (ReferenceRemapper.visit_reference [(A, B)] r).target = r.target) := by
  rw [visit_reference_target, lookup_single]
  by_cases h : r.target = A
  · rw [if_pos h]
    exact ⟨fun hb => hAB hb.symm, fun _ => rfl, fun hn => absurd h hn⟩
  · rw [if_neg h]
    exact ⟨h, fun ha => absurd ha h, fun _ => rfl⟩

/-- C24. Reference remapping: applying `ReferenceRemapper(M)` to a statement tree visits
every reference node once: the references of the result are those of the tree, in the same
order, each with target `M[k]` when its target `k` is a key of `M` (one lookup, the result
is not looked up again) and with its own target otherwise, and with the same data type and
indices; the number of nodes of the tree does not change. For `M = {A -> B}` with `A`
different from `B`, afterwards no reference targets `A`, every reference that targeted `A`
targets `B` and every other reference keeps its target. -/
theorem reference_remapping (map : List (Link × Link)) (stmt : Statement) :
    (ReferenceRemapper.visit_statement map stmt).references =
      stmt.references.map (ReferenceRemapper.visit_reference map) ∧
    (∀ r : Reference,
      (ReferenceRemapper.visit_reference map r).target = (map.lookup r.target).getD r.target ∧
      (ReferenceRemapper.visit_reference map r).data_type = r.data_type ∧
      (ReferenceRemapper.visit_reference map r).indices = r.indices) ∧
    (ReferenceRemapper.visit_statement map stmt).references.length = stmt.references.length ∧
    (ReferenceRemapper.visit_statement map stmt).node_count = stmt.node_count ∧
    (∀ A B : Link, A ≠ B → map = [(A, B)] →
      (∀ r ∈ (ReferenceRemapper.visit_statement map stmt).references, r.target ≠ A) ∧
      (∀ i, i < stmt.references.length →
        ((stmt.references.getD i default).target = A →
          ((ReferenceRemapper.visit_statement map stmt).references.getD i default).target = B) ∧
        ((stmt.references.getD i default).target ≠ A →
          ((ReferenceRemapper.visit_statement map stmt).references.getD i default).target =
            (stmt.references.getD i default).target))) := by
  have hspec := visit_statement_spec map stmt
  refine ⟨hspec.1, fun r => ⟨visit_reference_target map r, visit_reference_data_type map r,
    visit_reference_indices map r⟩, by rw [hspec.1, List.length_map], hspec.2, ?_⟩
  intro A B hAB hmap
  subst hmap
  rw [hspec.1]
  refine ⟨fun r hr => ?_, fun i hi => ?_⟩
  · obtain ⟨r0, _, rfl⟩ := List.mem_map.1 hr
    exact (visit_reference_single A B hAB r0).1
  · have hget : (stmt.references.map (ReferenceRemapper.visit_reference [(A, B)])).getD i default =
        ReferenceRemapper.visit_reference [(A, B)] (stmt.references.getD i default) := by
      rw [List.getD_eq_getElem _ _ (by simpa using hi), List.getD_eq_getElem _ _ hi,
        List.getElem_map]
    rw [hget]
    exact (visit_reference_single A B hAB _).2

/-- C24, witness: in the example loop the map from object 0 to object 1 turns the two
references to object 0 into references to object 1 and keeps the others; with the map from
object 0 to object 1 and from object 1 to object 2 a reference to object 0 becomes one to
object 1, not to object 2. -/
theorem reference_remapping_witness :
    example_remap_statement.references.map (fun r => r.target) = [some 2, some 0, some 1, some 0] ∧
    (ReferenceRemapper.visit_statement [(some 0, some 1)] example_remap_statement).references.map
      (fun r => r.target) = [some 2, some 1, some 1, some 1] ∧
    (ReferenceRemapper.visit_statement [(some 0, some 1)] example_remap_statement).node_count =
      example_remap_statement.node_count ∧
    (ReferenceRemapper.visit_statement [(some 0, some 1), (some 1, some 2)]
      example_remap_statement).references.map (fun r => r.target) =
        [some 2, some 1, some 2, some 1] :=
  ⟨by decide,
    by rw [(reference_remapping [(some 0, some 1)] example_remap_statement).1]; decide,
    (reference_remapping [(some 0, some 1)] example_remap_statement).2.2.2.1,
    by decide⟩

/-! ## Names of function types -/

theorem visit_operand_type_error (ir : Root) (ot : OperandType) (e : Error)
    (h : DescribingVisitor.visit_operand_type ir ot = .error e) : e = Error.empty_dereference := by
  unfold DescribingVisitor.visit_operand_type at h
  cases hm : ot.mode <;> rw [hm] at h <;> simp only [] at h <;> try cases h
  cases hd : ir.data_type ot.data_type with
  | error e' =>
    rw [hd] at h
    simp only [] at h
    cases h
    cases hl : ot.data_type with
    | none => rw [hl] at hd; simp only [Root.data_type] at hd; cases hd; rfl
    | some p =>
      rw [hl] at hd
      simp only [Root.data_type] at hd
      cases hg : ir.data_type_nodes.get? p with
      | none => rw [hg] at hd; cases hd; rfl
      | some dt => rw [hg] at hd; cases hd
  | ok dt =>
    rw [hd] at h
    simp only [] at h
    split at h <;> cases h

theorem visit_operand_types_error (ir : Root) :
    ∀ (l : List OperandType) (first : Bool) (e : Error),
      DescribingVisitor.visit_operand_types ir l first = .error e → e = Error.empty_dereference
  | [], _, _, h => by simp only [DescribingVisitor.visit_operand_types] at h; cases h
  | opt :: rest, first, e, h => by
    simp only [DescribingVisitor.visit_operand_types] at h
    cases h1 : DescribingVisitor.visit_operand_type ir opt with
    | error e1 =>
      rw [h1] at h
      cases h
      exact visit_operand_type_error ir opt _ h1
    | ok text =>
      rw [h1] at h
      simp only [] at h
      cases h2 : DescribingVisitor.visit_operand_types ir rest false with
      | error e2 =>
        rw [h2] at h
        cases h
        exact visit_operand_types_error ir rest false _ h2
      | ok texts => rw [h2] at h; cases h

theorem visit_function_type_error (ir : Root) (ft : FunctionType) (e : Error)
    (h : DescribingVisitor.visit_function_type ir ft = .error e) : e = Error.empty_dereference := by
  unfold DescribingVisitor.visit_function_type at h
  cases h1 : DescribingVisitor.visit_operand_types ir ft.operand_types true with
  | error e1 =>
    rw [h1] at h
    cases h
    exact visit_operand_types_error ir _ _ _ h1
  | ok texts => rw [h1] at h; cases h

theorem duplicate_message_ne (text : String) :
    "duplicate function type: " ++ text ≠ "invalid name for new function type" := by
  intro h
  have h1 := congrArg String.toList h
  rw [String.toList, String.data_append] at h1
  exact absurd h1 (by simp)

/-- The invalid-name error of `add_function_type` is raised exactly when the name is neither
an identifier nor begins with `operator`. -/
theorem add_function_type_invalid_name (ir : Root) (ft : FunctionType) :
    (add_function_type ir ft).2 = .error (Error.user_error "invalid name for new function type") ↔
      (is_identifier ft.name = false ∧ starts_with ft.name "operator" = false) := by
  unfold add_function_type
  by_cases hn : ¬ is_identifier ft.name = true ∧ ¬ starts_with ft.name "operator" = true
  · rw [if_pos hn]
    exact ⟨fun _ => ⟨by simpa using hn.1, by simpa using hn.2⟩, fun _ => rfl⟩
  · rw [if_neg hn]
    constructor
    · intro h
      exfalso
      cases hs : scan_function_types ir ft.name (operand_data_types ft.operand_types)
          (ir.platform.functions.drop (lower_bound ir.function_names ft.name))
          (lower_bound ir.function_names ft.name) with
      | none =>
        rw [hs] at h
        simp only [] at h
        cases hd : DescribingVisitor.visit_function_type ir ft with
        | error e =>
          rw [hd] at h
          simp only [] at h
          have := visit_function_type_error ir ft e hd
          rw [this] at h
          cases h
        | ok text =>
          rw [hd] at h
          simp only [Except.error.injEq, Error.user_error.injEq] at h
          exact duplicate_message_ne text h
      | some pos =>
        rw [hs] at h
        cases h
    · intro h
      exact absurd ⟨by simp [h.1], by simp [h.2]⟩ hn

theorem operator_names_start (n : String) (h : n ∈ operator_names) :
    starts_with n "operator" = true := by
  revert n
  decide

theorem add_function_type_accepts_iff (ir : Root) (ft : FunctionType) :
    (add_function_type ir ft).2 ≠ .error (Error.user_error "invalid name for new function type") ↔
      (is_identifier ft.name = true ∨ starts_with ft.name "operator" = true) := by
  rw [Ne, add_function_type_invalid_name]
  cases is_identifier ft.name <;> cases starts_with ft.name "operator" <;> simp

/-- C30, as amended. Function-type name validation: `add_function_type` accepts `ft.name`
(does not raise the invalid-name error) iff the name matches the identifier grammar or
begins with `operator`, whatever follows; in particular the names of the operator table are
accepted. -/
theorem function_type_name_validation (ir : Root) (ft : FunctionType) :
    ((add_function_type ir ft).2 ≠
        .error (Error.user_error "invalid name for new function type") ↔
      (is_identifier ft.name = true ∨ starts_with ft.name "operator" = true)) ∧
    (∀ n ∈ operator_names, starts_with n "operator" = true) ∧
    (ft.name ∈ operator_names →
      (add_function_type ir ft).2 ≠
        .error (Error.user_error "invalid name for new function type")) :=
  ⟨add_function_type_accepts_iff ir ft, operator_names_start,
    fun h => (add_function_type_accepts_iff ir ft).2 (Or.inr (operator_names_start _ h))⟩

/-- C30, counterexample: the name `operator@` is accepted, and it is neither an identifier
nor `operator` followed by an operator spelling of the table. -/
theorem function_type_name_any_operator_suffix :
    ¬ (∀ (ir : Root) (ft : FunctionType),
      (add_function_type ir ft).2 ≠
          .error (Error.user_error "invalid name for new function type") ↔
        (is_identifier ft.name = true ∨ ft.name ∈ operator_names)) := by
  intro hall
  have h := (hall {} { name := "operator@" }).1
    ((add_function_type_accepts_iff {} { name := "operator@" }).2 (Or.inr (by decide)))
  revert h
  decide

/-- C30 as amended, witness: on a platform without function types the names `min`,
`operator+` and `operator@` are accepted and the name `1x` is not. -/
theorem function_type_name_validation_witness :
    (add_function_type {} { name := "min" }).2 = .ok (some 0) ∧
    (add_function_type {} { name := "operator+" }).2 = .ok (some 0) ∧
    (add_function_type {} { name := "operator@" }).2 ≠
      .error (Error.user_error "invalid name for new function type") ∧
    (add_function_type {} { name := "1x" }).2 =
      .error (Error.user_error "invalid name for new function type") :=
  ⟨rfl, rfl,
    (function_type_name_validation {} { name := "operator@" }).1.2 (Or.inr (by decide)),
    by
      have h := (function_type_name_validation {} { name := "1x" }).1
      by_contra hc
      exact absurd (h.1 hc) (by decide)⟩

/-! ## The loops of the describing visitor -/

theorem intercalate_go (sep : String) (l : List String) :
    ∀ acc : String, String.intercalate.go acc sep l = acc ++ join_items sep false l := by
  induction l with
  | nil => intro acc; simp [String.intercalate.go, join_items]
  | cons a rest ih =>
    intro acc
    simp only [String.intercalate.go, join_items, Bool.false_eq_true, if_false]
    rw [ih]
    simp only [String.append_assoc]

theorem join_items_true (sep : String) (l : List String) :
    join_items sep true l = sep.intercalate l := by
  cases l with
  | nil => rfl
  | cons a rest =>
    simp only [join_items, if_true, String.intercalate, intercalate_go]
    simp

theorem join_items_append (sep : String) (a b : List String) :
    ∀ first : Bool, join_items sep first (a ++ b) =
      join_items sep first a ++ join_items sep (first && a.isEmpty) b := by
  induction a with
  | nil => intro first; simp [join_items]
  | cons x rest ih =>
    intro first
    show (if first then "" else sep) ++ x ++ join_items sep false (rest ++ b) = _
    rw [ih false]
    simp only [join_items, List.isEmpty_cons, Bool.and_false, Bool.false_and,
      String.append_assoc]

/-- The text of the loop over the operands is the text of the items it describes. -/
theorem visit_operands_iff (ir : Root) (ots : List OperandType) :
    ∀ (ops : List Expression) (i : Nat) (first : Bool) (text : String),
      DescribingVisitor.visit_operands ir ots ops i first = .ok text ↔
        ∃ items : List String, items.length = ops.length ∧
          (∀ k, k < ops.length → ∃ ot T O, ots.get? (i + k) = some ot ∧
            DescribingVisitor.visit_operand_type ir ot = .ok T ∧
            DescribingVisitor.visit_expression ir 0 (ops.getD k default) = .ok O ∧
            items.getD k "" = " " ++ T ++ "=" ++ O) ∧
          text = join_items "," first items
  | [], i, first, text => by
    simp only [DescribingVisitor.visit_operands, Except.ok.injEq]
    constructor
    · intro h
      exact ⟨[], rfl, fun k hk => absurd hk (Nat.not_lt_zero k), by rw [← h]; rfl⟩
    · rintro ⟨items, hl, _, ht⟩
      have : items = [] := List.length_eq_zero.1 hl
      subst this
      rw [ht]; rfl
  | op :: rest, i, first, text => by
    have ih := visit_operands_iff ir ots rest (i + 1) false
    simp only [DescribingVisitor.visit_operands]
    constructor
    · intro h
      cases h1 : ots.get? i with
      | none => rw [h1] at h; cases h
      | some ot =>
        rw [h1] at h
        simp only [] at h
        cases h2 : DescribingVisitor.visit_operand_type ir ot with
        | error e => rw [h2] at h; cases h
        | ok T =>
          rw [h2] at h
          simp only [] at h
          cases h3 : DescribingVisitor.visit_expression ir 0 op with
          | error e => rw [h3] at h; cases h
          | ok O =>
            rw [h3] at h
            simp only [] at h
            cases h4 : DescribingVisitor.visit_operands ir ots rest (i + 1) false with
            | error e => rw [h4] at h; cases h
            | ok texts =>
              rw [h4] at h
              simp only [Except.ok.injEq] at h
              obtain ⟨items, hl, hk, ht⟩ := (ih texts).1 h4
              refine ⟨(" " ++ T ++ "=" ++ O) :: items, by simp [hl], fun k hklt => ?_, ?_⟩
              · cases k with
                | zero => exact ⟨ot, T, O, h1, h2, h3, rfl⟩
                | succ k =>
                  obtain ⟨ot', T', O', g1, g2, g3, g4⟩ := hk k (by simpa using hklt)
                  refine ⟨ot', T', O', ?_, g2, by simpa using g3, by simpa using g4⟩
                  rw [← g1]
                  congr 1
                  omega
              · rw [← h, ht]
                simp only [join_items, String.append_assoc]
    · rintro ⟨items, hl, hk, ht⟩
      cases items with
      | nil => simp at hl
      | cons item items =>
        obtain ⟨ot, T, O, g1, g2, g3, g4⟩ := hk 0 (by simp)
        simp only [Nat.add_zero] at g1
        simp only [List.getD_cons_zero] at g3 g4
        rw [g1]
        simp only []
        rw [g2]
        simp only []
        rw [g3]
        simp only []
        have hrest : DescribingVisitor.visit_operands ir ots rest (i + 1) false =
            .ok (join_items "," false items) := by
          refine (ih _).2 ⟨items, by simpa using hl, fun k hklt => ?_, rfl⟩
          obtain ⟨ot', T', O', f1, f2, f3, f4⟩ := hk (k + 1) (by simpa using hklt)
          refine ⟨ot', T', O', ?_, f2, by simpa using f3, by simpa using f4⟩
          rw [← f1]
          congr 1
          omega
        rw [hrest]
        simp only [Except.ok.injEq]
        rw [ht, g4]
        simp only [join_items, String.append_assoc]

theorem visit_operands_items (ir : Root) (ots : List OperandType) (ops : List Expression)
    (first : Bool) (text : String) :
    DescribingVisitor.visit_operands ir ots ops 0 first = .ok text ↔
      ∃ items, items_described ir ots ops items ∧ text = join_items "," first items := by
  rw [visit_operands_iff]
  simp only [items_described, Nat.zero_add]
  constructor
  · rintro ⟨items, h1, h2, h3⟩; exact ⟨items, ⟨h1, h2⟩, h3⟩
  · rintro ⟨items, ⟨h1, h2⟩, h3⟩; exact ⟨items, h1, h2, h3⟩

/-! ## The description of a custom instruction -/

theorem visit_conditional_instruction_iff (ir : Root) (condition : Option Expression)
    (text : String) :
    DescribingVisitor.visit_conditional_instruction ir condition = .ok text ↔
      ∃ c, condition = some c ∧
        ((is_literal_true c = true ∧ text = "") ∨
          (is_literal_true c = false ∧ ∃ C, DescribingVisitor.visit_expression ir 0 c = .ok C ∧
            text = "cond (" ++ C ++ ") ")) := by
  cases condition with
  | none =>
    simp only [DescribingVisitor.visit_conditional_instruction]
    constructor
    · intro h; cases h
    · rintro ⟨c, hc, _⟩; cases hc
  | some c =>
    simp only [DescribingVisitor.visit_conditional_instruction]
    by_cases hl : is_literal_true c = true
    · rw [if_pos hl]
      constructor
      · intro h
        cases h
        exact ⟨c, rfl, Or.inl ⟨hl, rfl⟩⟩
      · rintro ⟨c', hc, h | h⟩
        · cases hc; rw [h.2]
        · cases hc; rw [hl] at h; cases h.1
    · rw [if_neg hl]
      have hl' : is_literal_true c = false := by simpa using hl
      constructor
      · intro h
        cases hv : DescribingVisitor.visit_expression ir 0 c with
        | error e => rw [hv] at h; cases h
        | ok C =>
          rw [hv] at h
          cases h
          exact ⟨c, rfl, Or.inr ⟨hl', C, hv, rfl⟩⟩
      · rintro ⟨c', hc, h | h⟩
        · cases hc; rw [hl'] at h; cases h.1
        · cases hc
          obtain ⟨_, C, hC, ht⟩ := h
          rw [hC, ht]

theorem isEmpty_of_items_described (ir : Root) (ots : List OperandType) (ops : List Expression)
    (items : List String) (h : items_described ir ots ops items) :
    items.isEmpty = ops.isEmpty := by
  have hl := h.1
  cases items <;> cases ops <;> simp at hl ⊢

theorem items_described_nil (ir : Root) (ots : List OperandType) (items : List String) :
    items_described ir ots [] items ↔ items = [] := by
  constructor
  · intro h; exact List.length_eq_zero.1 h.1
  · intro h; subst h; exact ⟨rfl, fun i hi => absurd hi (Nat.not_lt_zero i)⟩

theorem print_instruction_type_prefix_iff (ir : Root) (it : InstructionType) (text : String)
    (first : Bool) :
    DescribingVisitor.print_instruction_type_prefix ir it = .ok (text, first) ↔
      ∃ (gen_types : List OperandType) (items : List String),
        (it.template_operands = [] ∨ ∃ g, it.generalization = some g ∧
          gen_types = (DescribingVisitor.generalization ir g).operand_types) ∧
        items_described ir gen_types it.template_operands items ∧
        text = DescribingVisitor.instruction_type_name it ++ join_items "," true items ∧
        first = items.isEmpty := by
  unfold DescribingVisitor.print_instruction_type_prefix
  cases hto : it.template_operands with
  | nil =>
    simp only [List.isEmpty_nil, if_true, Except.ok.injEq, Prod.mk.injEq]
    constructor
    · rintro ⟨h1, h2⟩
      exact ⟨[], [], Or.inl trivial, (items_described_nil ir _ _).2 rfl, by rw [← h1]; simp [join_items],
        by rw [← h2]; rfl⟩
    · rintro ⟨gt, items, _, hi, ht, hf⟩
      have := (items_described_nil ir _ _).1 hi
      subst this
      exact ⟨by rw [ht]; simp [join_items], by rw [hf]; rfl⟩
  | cons op rest =>
    simp only [List.isEmpty_cons, Bool.false_eq_true, if_false]
    constructor
    · intro h
      cases hg : it.generalization with
      | none => rw [hg] at h; cases h
      | some g =>
        rw [hg] at h
        simp only [] at h
        cases hv : DescribingVisitor.visit_operands ir
            (DescribingVisitor.generalization ir g).operand_types (op :: rest) 0 true with
        | error e => rw [hv] at h; cases h
        | ok t =>
          rw [hv] at h
          simp only [Except.ok.injEq, Prod.mk.injEq] at h
          obtain ⟨items, hi, ht⟩ := (visit_operands_items ir _ _ _ _).1 hv
          refine ⟨_, items, Or.inr ⟨g, rfl, rfl⟩, hi, by rw [← h.1, ht], ?_⟩
          rw [← h.2, isEmpty_of_items_described ir _ _ _ hi]
          rfl
    · rintro ⟨gt, items, hgen, hi, ht, hf⟩
      rcases hgen with hgen | ⟨g, hg, hgt⟩
      · cases hgen
      · rw [hg]
        simp only []
        subst hgt
        rw [(visit_operands_items ir _ _ true _).2 ⟨items, hi, rfl⟩]
        have : items.isEmpty = false := by
          rw [isEmpty_of_items_described ir _ _ _ hi]; rfl
        rw [ht, hf, this]

/-- The description of a custom instruction, as a text of items. -/
theorem visit_custom_instruction_iff (ir : Root) (custom : CustomInstruction) (text : String) :
    DescribingVisitor.visit_custom_instruction ir custom = .ok text ↔
      ∃ (c : Expression) (t : Nat) (condition_text : String) (gen_types : List OperandType)
        (template_items operand_items : List String),
        custom.condition = some c ∧ custom.instruction_type = some t ∧
        ((is_literal_true c = true ∧ condition_text = "") ∨
          (is_literal_true c = false ∧ ∃ C, DescribingVisitor.visit_expression ir 0 c = .ok C ∧
            condition_text = "cond (" ++ C ++ ") ")) ∧
        ((ir.node t).template_operands = [] ∨ ∃ g, (ir.node t).generalization = some g ∧
          gen_types = (DescribingVisitor.generalization ir g).operand_types) ∧
        items_described ir gen_types (ir.node t).template_operands template_items ∧
        items_described ir (ir.node t).operand_types custom.operands operand_items ∧
        text = condition_text ++ (ir.node t).name ++
          (if (ir.node t).cqasm_name ≠ (ir.node t).name then "/" ++ (ir.node t).cqasm_name
            else "") ++ ",".intercalate (template_items ++ operand_items) := by
  have hjoin : ∀ (ti oi : List String), join_items "," true ti ++ join_items "," ti.isEmpty oi =
      ",".intercalate (ti ++ oi) := by
    intro ti oi
    rw [← join_items_true, join_items_append]
    simp
  unfold DescribingVisitor.visit_custom_instruction
  constructor
  · intro h
    cases hc : DescribingVisitor.visit_conditional_instruction ir custom.condition with
    | error e => rw [hc] at h; cases h
    | ok ct =>
      rw [hc] at h
      simp only [] at h
      obtain ⟨c, hcc, hcond⟩ := (visit_conditional_instruction_iff ir _ _).1 hc
      cases ht : custom.instruction_type with
      | none => rw [ht] at h; cases h
      | some t =>
        rw [ht] at h
        simp only [] at h
        cases hp : DescribingVisitor.print_instruction_type_prefix ir (ir.node t) with
        | error e => rw [hp] at h; cases h
        | ok tt =>
          rw [hp] at h
          simp only [] at h
          obtain ⟨gt, ti, hgen, hti, htt, hfirst⟩ :=
            (print_instruction_type_prefix_iff ir (ir.node t) tt.1 tt.2).1 hp
          cases hv : DescribingVisitor.visit_operands ir (ir.node t).operand_types
              custom.operands 0 tt.2 with
          | error e => rw [hv] at h; cases h
          | ok ot =>
            rw [hv] at h
            simp only [Except.ok.injEq] at h
            obtain ⟨oi, hoi, hot⟩ := (visit_operands_items ir _ _ _ _).1 hv
            refine ⟨c, t, ct, gt, ti, oi, hcc, rfl, hcond, hgen, hti, hoi, ?_⟩
            rw [← h, htt, hot, hfirst, ← hjoin]
            simp only [DescribingVisitor.instruction_type_name, String.append_assoc]
  · rintro ⟨c, t, ct, gt, ti, oi, hcc, ht, hcond, hgen, hti, hoi, htext⟩
    rw [(visit_conditional_instruction_iff ir _ _).2 ⟨c, hcc, hcond⟩]
    simp only []
    rw [ht]
    simp only []
    rw [(print_instruction_type_prefix_iff ir (ir.node t) _ _).2 ⟨gt, ti, hgen, hti, rfl, rfl⟩]
    simp only []
    rw [(visit_operands_items ir _ _ _ _).2 ⟨oi, hoi, rfl⟩]
    simp only [Except.ok.injEq]
    rw [htext, ← hjoin]
    simp only [DescribingVisitor.instruction_type_name, String.append_assoc]

theorem visit_data_type_of_data_type (ir : Root) (link : Link) (dt : DataType)
    (h : ir.data_type link = .ok dt) : DescribingVisitor.visit_data_type ir link = dt.name := by
  cases link with
  | none => simp only [Root.data_type] at h; cases h
  | some p =>
    simp only [Root.data_type] at h
    simp only [DescribingVisitor.visit_data_type]
    cases hg : ir.data_type_nodes.get? p with
    | none => rw [hg] at h; cases h
    | some d => rw [hg] at h; cases h; rfl

theorem visit_operand_type_write_qubit (ir : Root) (ot : OperandType) (dt : DataType)
    (hm : ot.mode = AccessMode.WRITE) (hd : ir.data_type ot.data_type = .ok dt)
    (hk : dt.kind = DataTypeKind.qubit) :
    DescribingVisitor.visit_operand_type ir ot = .ok dt.name := by
  unfold DescribingVisitor.visit_operand_type
  rw [hm]
  simp only []
  rw [hd]
  simp only []
  rw [if_neg (by simp [hk]), visit_data_type_of_data_type ir _ dt hd]

theorem visit_indices_eq (l : List IntLiteral) :
    ∀ first : Bool, DescribingVisitor.visit_indices l first =
      join_items ", " first (l.map fun index => toString index.value) := by
  induction l with
  | nil => intro first; rfl
  | cons index rest ih =>
    intro first
    simp only [DescribingVisitor.visit_indices, List.map_cons, join_items, ih]

theorem visit_reference_plain (ir : Root) (r : Reference) (target : Object)
    (ht : ir.object r.target = .ok target) (hd : r.data_type = target.data_type)
    (hn : target.name ≠ "") (hi : r.indices ≠ []) :
    DescribingVisitor.visit_reference ir r =
      .ok (target.name ++ "[" ++
        ", ".intercalate (r.indices.map fun index => toString index.value) ++ "]") := by
  unfold DescribingVisitor.visit_reference
  rw [ht]
  simp only []
  rw [if_neg (by simp [hd]), if_neg hn, if_pos hi, visit_indices_eq, join_items_true]
  simp [String.append_assoc]

/-- C26, counterexample: the instruction type `cz` with the cQASM name `cphase` is
described as `cz/cphase`, which is not the name of the instruction type followed by the
items of the operands. -/
theorem description_with_cqasm_name :
    ¬ (∀ (ir : Root) (custom : CustomInstruction) (text : String),
      describe ir (.custom_instruction custom) = .ok text →
      ∃ (c : Expression) (t : Nat) (condition_text : String) (operand_items : List String),
        custom.condition = some c ∧ custom.instruction_type = some t ∧
        ((is_literal_true c = true ∧ condition_text = "") ∨
          (is_literal_true c = false ∧ ∃ C, DescribingVisitor.visit_expression ir 0 c = .ok C ∧
            condition_text = "cond (" ++ C ++ ") ")) ∧
        items_described ir (ir.node t).operand_types custom.operands operand_items ∧
        text = condition_text ++ (ir.node t).name ++ ",".intercalate operand_items) := by
  intro hall
  obtain ⟨c, t, ct, items, hc, ht, hcond, hitems, htext⟩ := hall example_alias
    { condition := some (.bit_literal true (some 1)), instruction_type := some 0 } "cz/cphase" rfl
  cases hc
  cases ht
  have hnil : items = [] := List.length_eq_zero.1 hitems.1
  subst hnil
  rcases hcond with ⟨_, hct⟩ | ⟨hf, _⟩
  · subst hct
    exact absurd htext (by decide)
  · exact absurd hf (by decide)

/-! ## Parentheses in the description of an expression -/

theorem parenthesize_false (text : String) : parenthesize false text = text := by
  simp [parenthesize]

theorem parenthesize_true (text : String) : parenthesize true text = "(" ++ text ++ ")" := by
  simp [parenthesize]

/-- The surrounding precedence only decides on the parentheses around an operator call. -/
theorem visit_expression_context (ir : Root) (c : Nat) (e : Expression) (body : String)
    (h0 : DescribingVisitor.visit_expression ir 0 e = .ok body) :
    DescribingVisitor.visit_expression ir c e = .ok (text_in_context ir c e body) := by
  cases e with
  | bit_literal v d =>
    simp only [DescribingVisitor.visit_expression] at h0 ⊢
    rw [h0]; rfl
  | int_literal v d =>
    simp only [DescribingVisitor.visit_expression] at h0 ⊢
    rw [h0]; rfl
  | string_literal v d =>
    simp only [DescribingVisitor.visit_expression] at h0 ⊢
    rw [h0]; rfl
  | reference r =>
    simp only [DescribingVisitor.visit_expression] at h0 ⊢
    rw [h0]; rfl
  | function_call f operands =>
    cases f with
    | none => simp only [DescribingVisitor.visit_expression] at h0; cases h0
    | some p =>
      simp only [DescribingVisitor.visit_expression] at h0 ⊢
      simp only [text_in_context, Expression.operator_info]
      cases hft : ir.function_nodes.get? p with
      | none => rw [hft] at h0; cases h0
      | some ft =>
        rw [hft] at h0
        simp only [] at h0 ⊢
        cases hop : OPERATOR_INFO.lookup (ft.name, operands.length) with
        | none =>
          rw [hop] at h0
          simp only [] at h0 ⊢
          exact h0
        | some q =>
          rw [hop] at h0
          simp only [] at h0 ⊢
          cases ht : DescribingVisitor.visit_operator_operands ir q operands with
          | error e => rw [ht] at h0; cases h0
          | ok text =>
            rw [ht] at h0
            simp only [Except.ok.injEq] at h0 ⊢
            have hb : body = q.prefix_text ++ text := by
              rw [← h0]
              have : decide (0 > q.precedence) = false := by simp
              rw [this, parenthesize_false]
            rw [hb]

theorem left_context (op : OperatorInfo) (q : Nat) :
    decide ((if op.associativity = OperatorAssociativity.RIGHT then op.precedence + 1
      else op.precedence) > q) = operand_parenthesized op true q := by
  unfold operand_parenthesized
  rw [Bool.eq_iff_iff]
  cases ha : op.associativity
  · simp
  · simp only [if_true, if_false, decide_eq_true_eq, Bool.or_eq_true, Bool.and_eq_true,
      reduceCtorEq, decide_True, decide_False, and_true, and_false, or_false]
    omega

theorem right_context (op : OperatorInfo) (q : Nat) :
    decide ((if op.associativity = OperatorAssociativity.LEFT then op.precedence + 1
      else op.precedence) > q) = operand_parenthesized op false q := by
  unfold operand_parenthesized
  rw [Bool.eq_iff_iff]
  cases ha : op.associativity
  · simp only [if_true, if_false, decide_eq_true_eq, Bool.or_eq_true, Bool.and_eq_true,
      reduceCtorEq, decide_True, decide_False, and_true, and_false, or_false]
    omega
  · simp

theorem text_in_left_context (ir : Root) (op : OperatorInfo) (e : Expression) (body : String) :
    text_in_context ir (if op.associativity = OperatorAssociativity.RIGHT then op.precedence + 1
      else op.precedence) e body = operand_text ir op true e body := by
  unfold text_in_context operand_text
  cases e.operator_info ir with
  | none => rfl
  | some q => simp only [left_context]

theorem text_in_right_context (ir : Root) (op : OperatorInfo) (e : Expression) (body : String) :
    text_in_context ir (if op.associativity = OperatorAssociativity.LEFT then op.precedence + 1
      else op.precedence) e body = operand_text ir op false e body := by
  unfold text_in_context operand_text
  cases e.operator_info ir with
  | none => rfl
  | some q => simp only [right_context]

/-- The description of a call of a binary operator. -/
theorem visit_binary_operator (ir : Root) (p : Nat) (ft : FunctionType) (op : OperatorInfo)
    (l r : Expression) (L R : String) (c : Nat)
    (hft : ir.function_nodes.get? p = some ft)
    (hop : OPERATOR_INFO.lookup (ft.name, 2) = some op)
    (hl : DescribingVisitor.visit_expression ir 0 l = .ok L)
    (hr : DescribingVisitor.visit_expression ir 0 r = .ok R) :
    DescribingVisitor.visit_expression ir c (.function_call (some p) [l, r]) =
      .ok (parenthesize (decide (c > op.precedence))
        (op.prefix_text ++ operand_text ir op true l L ++ op.infix_text ++
          operand_text ir op false r R)) := by
  simp only [DescribingVisitor.visit_expression, hft, List.length_cons, List.length_nil]
  have hop' : OPERATOR_INFO.lookup (ft.name, 0 + 1 + 1) = some op := hop
  rw [hop']
  simp only [DescribingVisitor.visit_operator_operands]
  rw [visit_expression_context ir _ l L hl, visit_expression_context ir _ r R hr]
  simp only [text_in_left_context, text_in_right_context, String.append_assoc]

theorem visit_arguments_texts (ir : Root) (args : List Expression) (texts : List String)
    (h : List.Forall₂ (fun a t => DescribingVisitor.visit_expression ir 0 a = .ok t) args texts) :
    ∀ first, DescribingVisitor.visit_arguments ir args first = .ok (join_items ", " first texts) := by
  induction h with
  | nil => intro first; rfl
  | cons ha _ ih =>
    intro first
    simp only [DescribingVisitor.visit_arguments, ha, ih false, join_items, String.append_assoc]

/-- The description of a call of a function that is not an operator of the table. -/
theorem visit_function (ir : Root) (f : Nat) (ft : FunctionType) (args : List Expression)
    (texts : List String) (c : Nat)
    (hft : ir.function_nodes.get? f = some ft)
    (hop : OPERATOR_INFO.lookup (ft.name, args.length) = none)
    (h : List.Forall₂ (fun a t => DescribingVisitor.visit_expression ir 0 a = .ok t) args texts) :
    DescribingVisitor.visit_expression ir c (.function_call (some f) args) =
      .ok (ft.name ++ "(" ++ ", ".intercalate texts ++ ")") := by
  simp only [DescribingVisitor.visit_expression, hft, hop, visit_arguments_texts ir args texts h,
    join_items_true]

theorem operand_text_operator (ir : Root) (op q : OperatorInfo) (is_left : Bool)
    (e : Expression) (body : String) (h : e.operator_info ir = some q) :
    operand_text ir op is_left e body =
      if q.precedence < op.precedence ∨ (q.precedence = op.precedence ∧
          (if is_left then op.associativity = OperatorAssociativity.RIGHT
            else op.associativity = OperatorAssociativity.LEFT)) then "(" ++ body ++ ")"
      else body := by
  unfold operand_text
  rw [h]
  simp only [operand_parenthesized]
  by_cases hc : q.precedence < op.precedence ∨ (q.precedence = op.precedence ∧
      (if is_left then op.associativity = OperatorAssociativity.RIGHT
        else op.associativity = OperatorAssociativity.LEFT))
  · rw [if_pos hc]
    have : (decide (q.precedence < op.precedence) ||
        (decide (q.precedence = op.precedence) &&
          (if is_left then decide (op.associativity = OperatorAssociativity.RIGHT)
            else decide (op.associativity = OperatorAssociativity.LEFT)))) = true := by
      cases is_left <;> simpa using hc
    rw [this, parenthesize_true]
  · rw [if_neg hc]
    have : (decide (q.precedence < op.precedence) ||
        (decide (q.precedence = op.precedence) &&
          (if is_left then decide (op.associativity = OperatorAssociativity.RIGHT)
            else decide (op.associativity = OperatorAssociativity.LEFT)))) = false := by
      cases is_left <;> simpa using hc
    rw [this, parenthesize_false]

theorem operand_text_other (ir : Root) (op : OperatorInfo) (is_left : Bool) (e : Expression)
    (body : String) (h : e.operator_info ir = none) :
    operand_text ir op is_left e body = body := by
  unfold operand_text
  rw [h]

/-- C25. Describer parentheses: the description of a call of a binary operator of the
operator table with precedence `p`, whose operands have the top-level descriptions `L` and
`R`, is the text of the left operand, the infix text of the operator and the text of the
right operand, in parentheses iff the surrounding precedence is above `p`, so without
parentheses at the top level. The text of an operand that is an operator call with
precedence `q` is its top-level description wrapped in parentheses iff `q < p`, or `q = p`
and the operand is the left operand of a right-associative operator or the right operand of
a left-associative operator; the text of any other operand is its top-level description.
The description of a call of a function that is not in the operator table is the name and
the top-level descriptions of the arguments, separated by `, `, between parentheses. -/
theorem describer_parentheses (ir : Root) (p : Nat) (ft : FunctionType) (op : OperatorInfo)
    (l r : Expression) (L R : String) (c : Nat)
    (hft : ir.function_nodes.get? p = some ft)
    (hop : OPERATOR_INFO.lookup (ft.name, 2) = some op)
    (hl : DescribingVisitor.visit_expression ir 0 l = .ok L)
    (hr : DescribingVisitor.visit_expression ir 0 r = .ok R) :
    DescribingVisitor.visit_expression ir c (.function_call (some p) [l, r]) =
      .ok (parenthesize (decide (c > op.precedence))
        (op.prefix_text ++ operand_text ir op true l L ++ op.infix_text ++
          operand_text ir op false r R)) ∧
    DescribingVisitor.visit_expression ir 0 (.function_call (some p) [l, r]) =
      .ok (op.prefix_text ++ operand_text ir op true l L ++ op.infix_text ++
        operand_text ir op false r R) ∧
    (∀ q, l.operator_info ir = some q →
      operand_text ir op true l L =
        if q.precedence < op.precedence ∨ (q.precedence = op.precedence ∧
          op.associativity = OperatorAssociativity.RIGHT) then "(" ++ L ++ ")" else L) ∧
    (∀ q, r.operator_info ir = some q →
      operand_text ir op false r R =
        if q.precedence < op.precedence ∨ (q.precedence = op.precedence ∧
          op.associativity = OperatorAssociativity.LEFT) then "(" ++ R ++ ")" else R) ∧
    (l.operator_info ir = none → operand_text ir op true l L = L) ∧
    (r.operator_info ir = none → operand_text ir op false r R = R) ∧
    (∀ (f : Nat) (ft' : FunctionType) (args : List Expression) (texts : List String) (c' : Nat),
      ir.function_nodes.get? f = some ft' →
      OPERATOR_INFO.lookup (ft'.name, args.length) = none →
      List.Forall₂ (fun a t => DescribingVisitor.visit_expression ir 0 a = .ok t) args texts →
      DescribingVisitor.visit_expression ir c' (.function_call (some f) args) =
        .ok (ft'.name ++ "(" ++ ", ".intercalate texts ++ ")")) := by
  refine ⟨visit_binary_operator ir p ft op l r L R c hft hop hl hr, ?_,
    fun q hq => ?_, fun q hq => ?_, operand_text_other ir op true l L,
    operand_text_other ir op false r R,
    fun f ft' args texts c' h1 h2 h3 => visit_function ir f ft' args texts c' h1 h2 h3⟩
  · rw [visit_binary_operator ir p ft op l r L R 0 hft hop hl hr]
    have : decide (0 > op.precedence) = false := by simp
    rw [this, parenthesize_false]
  · rw [operand_text_operator ir op q true l L hq]
    simp
  · rw [operand_text_operator ir op q false r R hq]
    simp

/-- C25, witness: with the references `a`, `b` and `c`, `a + (b * c)` is described as
`a + b * c`, `(a + b) * c` as `(a + b) * c`, `a ** (b ** c)` as `a ** b ** c`,
`(a ** b) ** c` as `(a ** b) ** c` and `min(a + b, c)` as `min(a + b, c)`. -/
theorem describer_parentheses_witness :
    DescribingVisitor.visit_expression example_describe_ir 0
      (example_call 0 (example_scalar 0) (example_call 1 (example_scalar 1) (example_scalar 2))) =
        .ok "a + b * c" ∧
    DescribingVisitor.visit_expression example_describe_ir 0
      (example_call 1 (example_call 0 (example_scalar 0) (example_scalar 1)) (example_scalar 2)) =
        .ok "(a + b) * c" ∧
    DescribingVisitor.visit_expression example_describe_ir 0
      (example_call 2 (example_scalar 0) (example_call 2 (example_scalar 1) (example_scalar 2))) =
        .ok "a ** b ** c" ∧
    DescribingVisitor.visit_expression example_describe_ir 0
      (example_call 2 (example_call 2 (example_scalar 0) (example_scalar 1)) (example_scalar 2)) =
        .ok "(a ** b) ** c" ∧
    DescribingVisitor.visit_expression example_describe_ir 0
      (example_call 3 (example_call 0 (example_scalar 0) (example_scalar 1)) (example_scalar 2)) =
        .ok "min(a + b, c)" :=
  ⟨(describer_parentheses example_describe_ir 0 _ _ (example_scalar 0)
      (example_call 1 (example_scalar 1) (example_scalar 2)) "a" "b * c" 0 rfl rfl rfl rfl).2.1,
    (describer_parentheses example_describe_ir 1 _ _
      (example_call 0 (example_scalar 0) (example_scalar 1)) (example_scalar 2) "a + b" "c" 0
      rfl rfl rfl rfl).2.1,
    (describer_parentheses example_describe_ir 2 _ _ (example_scalar 0)
      (example_call 2 (example_scalar 1) (example_scalar 2)) "a" "b ** c" 0 rfl rfl rfl rfl).2.1,
    (describer_parentheses example_describe_ir 2 _ _
      (example_call 2 (example_scalar 0) (example_scalar 1)) (example_scalar 2) "a ** b" "c" 0
      rfl rfl rfl rfl).2.1,
    rfl⟩

/-! ## Conditions of the gates of the old representation -/

/-- The pair of a condition type and its operands is valid exactly when the number of
operands is that of the condition type. -/
theorem is_valid_cond_iff (condition : ConditionType) (cond_operands : List Nat) :
    Gate.is_valid_cond condition cond_operands = true ↔
      cond_operands.length =
        (match condition with
         | .ALWAYS | .NEVER => 0
         | .UNARY | .NOT => 1
         | _ => 2) := by
  cases condition <;> simp [Gate.is_valid_cond]

/-- The conditions with one operand close the bracket of the operand. -/
theorem cond_qasm_unary (a : Nat) :
    Gate.cond_qasm .UNARY [a] = .ok ("cond(b[" ++ toString a ++ "]) ") ∧
    Gate.cond_qasm .NOT [a] = .ok ("cond(!b[" ++ toString a ++ "]) ") :=
  ⟨rfl, rfl⟩

/-- The conditions with two operands do not close the bracket of the second operand. -/
theorem cond_qasm_binary (a b : Nat) :
    Gate.cond_qasm .AND [a, b] =
      .ok ("cond(b[" ++ toString a ++ "]&&b[" ++ toString b ++ ") ") ∧
    Gate.cond_qasm .NAND [a, b] =
      .ok ("cond(!(b[" ++ toString a ++ "]&&b[" ++ toString b ++ ")) ") ∧
    Gate.cond_qasm .OR [a, b] =
      .ok ("cond(b[" ++ toString a ++ "]||b[" ++ toString b ++ ") ") ∧
    Gate.cond_qasm .NOR [a, b] =
      .ok ("cond(!(b[" ++ toString a ++ "]||b[" ++ toString b ++ ")) ") ∧
    Gate.cond_qasm .XOR [a, b] =
      .ok ("cond(b[" ++ toString a ++ "]^^b[" ++ toString b ++ ") ") ∧
    Gate.cond_qasm .NXOR [a, b] =
      .ok ("cond(!(b[" ++ toString a ++ "]^^b[" ++ toString b ++ ")) ") :=
  ⟨rfl, rfl, rfl, rfl, rfl, rfl⟩

/-- C40, at the gate with the condition AND and the condition operands 0 and 1: the pair is
valid and `cond_qasm` returns `cond(b[0]&&b[1) `, where the bracket of the second operand is
not closed: the square brackets are not balanced and the operand 1 does not appear as
`b[1]`, while the condition NOT prints its operand as `b[1]` with balanced brackets. -/
theorem cond_qasm_and_unbalanced :
    Gate.is_valid_cond .AND [0, 1] = true ∧
    Gate.cond_qasm .AND [0, 1] = .ok "cond(b[0]&&b[1) " ∧
    brackets_balanced [] "cond(b[0]&&b[1) ".toList = false ∧
    operand_appears 1 "cond(b[0]&&b[1) " = false ∧
    Gate.cond_qasm .NOT [1] = .ok "cond(!b[1]) " ∧
    brackets_balanced [] "cond(!b[1]) ".toList = true ∧
    operand_appears 1 "cond(!b[1]) " = true :=
  ⟨rfl, rfl, rfl, rfl, rfl, rfl, rfl⟩

/-! ## Durations -/

theorem foldl_max_spec (l : List Int) : ∀ a : Int,
    (l.foldl max a = a ∨ l.foldl max a ∈ l) ∧ a ≤ l.foldl max a ∧ ∀ e ∈ l, e ≤ l.foldl max a := by
  induction l with
  | nil => intro a; simp
  | cons x rest ih =>
    intro a
    obtain ⟨h1, h2, h3⟩ := ih (max a x)
    simp only [List.foldl_cons, List.mem_cons]
    refine ⟨?_, le_trans (le_max_left a x) h2, ?_⟩
    · rcases h1 with h | h
      · rcases le_total a x with hax | hax
        · right; left; rw [h]; exact max_eq_right hax
        · left; rw [h]; exact max_eq_left hax
      · right; right; exact h
    · intro e he
      rcases he with he | he
      · rw [he]; exact le_trans (le_max_right a x) h2
      · exact h3 e he

theorem block_scheduled_tail (ir : Root) (stmt : Statement) (rest : List Statement)
    (h : block_scheduled ir (stmt :: rest)) : block_scheduled ir rest :=
  fun s hs => h s (List.mem_cons_of_mem _ hs)

/-- The loop of `get_duration_of_block` on a block whose sums do not wrap around: it returns
the maximum of the start value and the sums `cycle + duration`. -/
theorem get_duration_of_block_loop_spec (ir : Root) : ∀ (block : List Statement) (duration : Nat),
    block_scheduled ir block →
    ∃ r, get_duration_of_block_loop ir block duration = .ok r ∧
      (r : Int) = (block_ends ir block).foldl max (duration : Int)
  | [], duration, _ => ⟨duration, rfl, rfl⟩
  | stmt :: rest, duration, h => by
    have hrest := block_scheduled_tail ir stmt rest h
    cases hc : stmt.instruction_cycle with
    | none =>
      obtain ⟨r, hr, hm⟩ := get_duration_of_block_loop_spec ir rest duration hrest
      refine ⟨r, ?_, ?_⟩
      · simp only [get_duration_of_block_loop, hc]; exact hr
      · have he : Statement.cycle_plus_duration ir stmt = none := by
          simp only [Statement.cycle_plus_duration, hc]
        simp only [block_ends, List.filterMap_cons, he]; exact hm
    | some cycle =>
      obtain ⟨d, hd, h0, hlt⟩ := h stmt (List.mem_cons_self _ _) cycle hc
      have hu : to_uint cycle = cycle.toNat := by
        unfold to_uint
        rw [Int.emod_eq_of_lt h0 (by omega)]
      have hsum : (cycle.toNat + d) % 2 ^ 64 = cycle.toNat + d := by
        apply Nat.mod_eq_of_lt
        have : ((cycle.toNat + d : Nat) : Int) < 2 ^ 64 := by
          push_cast; rw [Int.toNat_of_nonneg h0]; exact hlt
        exact_mod_cast this
      obtain ⟨r, hr, hm⟩ :=
        get_duration_of_block_loop_spec ir rest (max duration (cycle.toNat + d)) hrest
      refine ⟨r, ?_, ?_⟩
      · simp only [get_duration_of_block_loop, hc, hd, hu, hsum]; exact hr
      · have he : Statement.cycle_plus_duration ir stmt = some (cycle + (d : Int)) := by
          simp only [Statement.cycle_plus_duration, hc, hd]
        simp only [block_ends, List.filterMap_cons, he, List.foldl_cons]
        rw [hm, block_ends]
        congr 1
        push_cast
        rw [Int.toNat_of_nonneg h0]

/-- The sums of a block whose instructions have cycles that are not negative are not
negative. -/
theorem block_ends_nonneg (ir : Root) (block : List Statement) (h : block_scheduled ir block) :
    ∀ e ∈ block_ends ir block, 0 ≤ e := by
  intro e he
  simp only [block_ends, List.mem_filterMap] at he
  obtain ⟨stmt, hs, hse⟩ := he
  cases hc : stmt.instruction_cycle with
  | none => simp only [Statement.cycle_plus_duration, hc] at hse; cases hse
  | some cycle =>
    obtain ⟨d, hd, h0, _⟩ := h stmt hs cycle hc
    simp only [Statement.cycle_plus_duration, hc, hd, Option.some.injEq] at hse
    omega

/-- The statements that are not instructions do not change the result of the loop of
`get_duration_of_block`. -/
theorem get_duration_of_block_loop_filter (ir : Root) : ∀ (block : List Statement) (duration : Nat),
    get_duration_of_block_loop ir (block.filter fun stmt => stmt.instruction_cycle.isSome) duration
      = get_duration_of_block_loop ir block duration
  | [], _ => rfl
  | stmt :: rest, duration => by
    cases hc : stmt.instruction_cycle with
    | none =>
      rw [List.filter_cons_of_neg (by simp [hc])]
      simp only [get_duration_of_block_loop, hc]
      exact get_duration_of_block_loop_filter ir rest duration
    | some cycle =>
      rw [List.filter_cons_of_pos (by simp [hc])]
      simp only [get_duration_of_block_loop, hc]
      cases get_duration_of_instruction ir stmt with
      | error e => rfl
      | ok d => exact get_duration_of_block_loop_filter ir rest _

theorem example_block_scheduled : block_scheduled example_duration_ir example_block := by
  intro stmt hs cycle hc
  simp only [example_block, List.mem_cons, List.mem_singleton, List.not_mem_nil, or_false] at hs
  rcases hs with h | h | h | h
  · subst h
    simp only [Statement.instruction_cycle, Option.some.injEq] at hc
    subst hc
    exact ⟨3, rfl, by decide, by decide⟩
  · subst h
    simp only [Statement.instruction_cycle, Option.some.injEq] at hc
    subst hc
    exact ⟨10, rfl, by decide, by decide⟩
  · subst h
    simp only [Statement.instruction_cycle, Option.some.injEq] at hc
    subst hc
    exact ⟨0, rfl, by decide, by decide⟩
  · subst h
    simp only [Statement.instruction_cycle] at hc
    cases hc

/-- C33 as stated fails: the block with one wait instruction of no duration in cycle -1
has the sum -1, and `get_duration_of_block` returns 2^64 - 1, which is not the maximum of
the sums. -/
theorem block_duration_negative_cycle :
    ¬ (∀ duration,
        get_duration_of_block example_duration_ir example_negative_block = .ok duration →
        is_maximum_or_zero (block_ends example_duration_ir example_negative_block)
          (duration : Int)) := by
  intro h
  have h1 : get_duration_of_block example_duration_ir example_negative_block
      = .ok (2 ^ 64 - 1) := rfl
  have h2 : block_ends example_duration_ir example_negative_block = [-1] := rfl
  have h3 := (h _ h1).2.1
  rw [h2] at h3
  have h4 := h3 (by simp)
  simp only [List.mem_singleton] at h4
  have h5 : (0 : Int) ≤ ((2 ^ 64 - 1 : Nat) : Int) := Int.ofNat_nonneg _
  omega

/-- C33 (amended): for every block whose instructions have a type, a cycle that is not
negative and a sum `cycle + duration` below 2^64, `get_duration_of_block` returns the
maximum of the sums `cycle + duration` of the statements that are instructions, and 0 for a
block without instructions; the duration of a custom instruction is that of its instruction
type, the duration of a wait instruction is its own and that of any other instruction is 0;
for every block, leaving out the statements that are not instructions does not change the
result. -/
theorem block_duration (ir : Root) (block : List Statement) (h : block_scheduled ir block) :
    (∃ duration, get_duration_of_block ir block = .ok duration ∧
      is_maximum_or_zero (block_ends ir block) (duration : Int)) ∧
    (∀ custom t, custom.instruction_type = some t →
      get_duration_of_instruction ir (.custom_instruction custom) = .ok (ir.node t).duration) ∧
    (∀ wait, get_duration_of_instruction ir (.wait_instruction wait) = .ok wait.duration) ∧
    (∀ stmt : Statement, (∀ custom, stmt ≠ .custom_instruction custom) →
      (∀ wait, stmt ≠ .wait_instruction wait) → get_duration_of_instruction ir stmt = .ok 0) ∧
    (∀ stmt : Statement, stmt.instruction_cycle = none ↔
      ((∃ branches otherwise, stmt = .if_else branches otherwise) ∨
       (∃ lhs frm to_ body, stmt = .static_loop lhs frm to_ body) ∨
       (∃ init condition update body, stmt = .for_loop init condition update body) ∨
       (∃ condition body, stmt = .repeat_until_loop condition body) ∨
       stmt = .break_statement ∨ stmt = .continue_statement)) ∧
    (∀ other : List Statement,
      get_duration_of_block ir (other.filter fun stmt => stmt.instruction_cycle.isSome)
        = get_duration_of_block ir other) := by
  refine ⟨?_, ?_, fun _ => rfl, ?_, ?_, fun other => get_duration_of_block_loop_filter ir other 0⟩
  · obtain ⟨r, hr, hm⟩ := get_duration_of_block_loop_spec ir block 0 h
    obtain ⟨h1, h2, h3⟩ := foldl_max_spec (block_ends ir block) ((0 : Nat) : Int)
    rw [← hm] at h1 h2 h3
    refine ⟨r, hr, ?_, ?_, h3⟩
    · intro he
      rw [hm, he]; rfl
    · intro hne
      rcases h1 with h1 | h1
      · cases hl : block_ends ir block with
        | nil => exact absurd hl hne
        | cons x rest =>
          have hx : x ∈ block_ends ir block := by rw [hl]; exact List.mem_cons_self _ _
          have hx0 := block_ends_nonneg ir block h x hx
          have hxr := h3 x hx
          have : x = (r : Int) := by rw [h1] at hxr ⊢; push_cast at hxr ⊢; omega
          rw [← this, ← hl]; exact hx
      · exact h1
  · intro custom t ht
    simp only [get_duration_of_instruction, ht]
  · intro stmt hc hw
    cases stmt with
    | custom_instruction c => exact absurd rfl (hc c)
    | wait_instruction w => exact absurd rfl (hw w)
    | _ => rfl
  · intro stmt
    cases stmt <;> simp [Statement.instruction_cycle]

theorem block_duration_witness :
    block_scheduled example_duration_ir example_block ∧
    (∃ duration, get_duration_of_block example_duration_ir example_block = .ok duration ∧
      is_maximum_or_zero (block_ends example_duration_ir example_block) (duration : Int)) :=
  ⟨example_block_scheduled, (block_duration example_duration_ir example_block
    example_block_scheduled).1⟩

/-! ## The function collection -/

theorem same_operand_data_types_iff (ots : List OperandType) (types : List Link) :
    same_operand_data_types ots types ↔ operand_data_types ots = types := by
  unfold same_operand_data_types operand_data_types
  constructor
  · rintro ⟨hl, hi⟩
    apply List.ext_getElem (by simp [hl])
    intro i h1 h2
    have h1' : i < ots.length := by simpa using h1
    have := hi i h1'
    rw [List.getD_eq_getElem _ _ h1', List.getD_eq_getElem _ _ h2] at this
    simp [this]
  · intro h
    subst h
    refine ⟨by simp, fun i hi => ?_⟩
    rw [List.getD_eq_getElem _ _ hi, List.getD_eq_getElem _ _ (by simpa using hi)]
    simp

theorem same_operand_data_types_match (ots : List OperandType) (types : List Link) :
    same_operand_data_types ots types ↔ data_types_match ots types = true := by
  rw [same_operand_data_types_iff, data_types_match_iff]

/-- The search of `add_function_type` finds a duplicate exactly when the search of
`find_function_type` finds an entry. -/
theorem scan_function_types_none_iff (ir : Root) (name : String) (types : List Link) :
    ∀ (rest : List Nat) (pos : Nat),
      scan_function_types ir name types rest pos = none ↔
        scan_find_function_type ir name types rest ≠ none
  | [], pos => by simp [scan_function_types, scan_find_function_type]
  | id :: rest, pos => by
    simp only [scan_function_types, scan_find_function_type]
    by_cases hn : (ir.function_node id).name = name
    · rw [if_pos hn, if_pos hn]
      by_cases hm : data_types_match (ir.function_node id).operand_types types = true
      · rw [if_pos hm, if_pos hm]; simp
      · rw [if_neg hm, if_neg hm]
        exact scan_function_types_none_iff ir name types rest (pos + 1)
    · rw [if_neg hn, if_neg hn]; simp

/-- An entry found by the search of `find_function_type` is an entry with the name and the
operand data types asked for. -/
theorem scan_find_function_type_some (ir : Root) (name : String) (types : List Link) :
    ∀ (rest : List Nat) (id : Nat), scan_find_function_type ir name types rest = some id →
      id ∈ rest ∧ (ir.function_node id).name = name ∧
        data_types_match (ir.function_node id).operand_types types = true
  | [], id, h => by simp [scan_find_function_type] at h
  | x :: rest, id, h => by
    simp only [scan_find_function_type] at h
    by_cases hn : (ir.function_node x).name = name
    · rw [if_pos hn] at h
      by_cases hm : data_types_match (ir.function_node x).operand_types types = true
      · rw [if_pos hm] at h
        simp only [Option.some.injEq] at h
        subst h
        exact ⟨List.mem_cons_self _ _, hn, hm⟩
      · rw [if_neg hm] at h
        obtain ⟨h1, h2⟩ := scan_find_function_type_some ir name types rest id h
        exact ⟨List.mem_cons_of_mem _ h1, h2⟩
    · rw [if_neg hn] at h; cases h

/-- In a part of the collection that is sorted by name and starts at the lower bound of
`name`, a search of `find_function_type` that finds nothing means that no entry has the
name and the operand data types asked for. -/
theorem scan_find_function_type_none (ir : Root) (name : String) (types : List Link) :
    ∀ (rest : List Nat),
      (rest.map fun id => (ir.function_node id).name).Pairwise (· ≤ ·) →
      (∀ id ∈ rest, name ≤ (ir.function_node id).name) →
      scan_find_function_type ir name types rest = none →
      ∀ id ∈ rest, ¬ ((ir.function_node id).name = name ∧
        data_types_match (ir.function_node id).operand_types types = true)
  | [], _, _, _ => by simp
  | x :: rest, hs, hge, h => by
    simp only [scan_find_function_type] at h
    simp only [List.map_cons, List.pairwise_cons, List.mem_map, forall_exists_index, and_imp,
      forall_apply_eq_imp_iff₂] at hs
    intro id hid
    by_cases hn : (ir.function_node x).name = name
    · rw [if_pos hn] at h
      by_cases hm : data_types_match (ir.function_node x).operand_types types = true
      · rw [if_pos hm] at h; cases h
      · rw [if_neg hm] at h
        rcases List.mem_cons.1 hid with he | he
        · subst he; exact fun hc => hm hc.2
        · exact scan_find_function_type_none ir name types rest hs.2
            (fun y hy => hge y (List.mem_cons_of_mem _ hy)) h id he
    · have hlt : name < (ir.function_node x).name :=
        lt_of_le_of_ne (hge x (List.mem_cons_self _ _)) (Ne.symm hn)
      rcases List.mem_cons.1 hid with he | he
      · subst he; exact fun hc => hn hc.1
      · exact fun hc => absurd hc.1 (ne_of_gt (lt_of_lt_of_le hlt (hs.1 id he)))

/-- The position that the search of `add_function_type` returns: the entries passed have
the name `name`, the entries from the position on have a greater name. -/
theorem scan_function_types_some (ir : Root) (name : String) (types : List Link) :
    ∀ (rest : List Nat) (pos p : Nat),
      (rest.map fun id => (ir.function_node id).name).Pairwise (· ≤ ·) →
      (∀ id ∈ rest, name ≤ (ir.function_node id).name) →
      scan_function_types ir name types rest pos = some p →
      pos ≤ p ∧ p ≤ pos + rest.length ∧
      (∀ id ∈ rest.take (p - pos), (ir.function_node id).name = name) ∧
      (∀ id ∈ rest.drop (p - pos), name < (ir.function_node id).name)
  | [], pos, p, _, _, h => by
    simp only [scan_function_types, Option.some.injEq] at h
    subst h
    simp
  | x :: rest, pos, p, hs, hge, h => by
    simp only [scan_function_types] at h
    simp only [List.map_cons, List.pairwise_cons, List.mem_map, forall_exists_index, and_imp,
      forall_apply_eq_imp_iff₂] at hs
    by_cases hn : (ir.function_node x).name = name
    · rw [if_pos hn] at h
      by_cases hm : data_types_match (ir.function_node x).operand_types types = true
      · rw [if_pos hm] at h; cases h
      · rw [if_neg hm] at h
        obtain ⟨h1, h2, h3, h4⟩ := scan_function_types_some ir name types rest (pos + 1) p hs.2
          (fun y hy => hge y (List.mem_cons_of_mem _ hy)) h
        have hp : p - pos = (p - (pos + 1)) + 1 := by omega
        refine ⟨by omega, by simp only [List.length_cons]; omega, ?_, ?_⟩
        · rw [hp, List.take_succ_cons]
          intro id hid
          rcases List.mem_cons.1 hid with he | he
          · subst he; exact hn
          · exact h3 id he
        · rw [hp, List.drop_succ_cons]
          exact h4
    · rw [if_neg hn] at h
      simp only [Option.some.injEq] at h
      subst h
      have hlt : name < (ir.function_node x).name :=
        lt_of_le_of_ne (hge x (List.mem_cons_self _ _)) (Ne.symm hn)
      refine ⟨le_refl _, by omega, by simp, ?_⟩
      simp only [Nat.sub_self, List.drop_zero]
      intro id hid
      rcases List.mem_cons.1 hid with he | he
      · subst he; exact hlt
      · exact lt_of_lt_of_le hlt (hs.1 id he)

/-- The entries of a sorted function collection before the lower bound of `name` have a
smaller name, the entries from the lower bound on are sorted and have a name that is not
smaller. -/
theorem functions_lower_bound (ir : Root) (name : String)
    (hs : ir.function_names.Pairwise (· ≤ ·)) :
    lower_bound ir.function_names name ≤ ir.platform.functions.length ∧
    (∀ id ∈ ir.platform.functions.take (lower_bound ir.function_names name),
      (ir.function_node id).name < name) ∧
    (((ir.platform.functions.drop (lower_bound ir.function_names name)).map
      fun id => (ir.function_node id).name).Pairwise (· ≤ ·)) ∧
    (∀ id ∈ ir.platform.functions.drop (lower_bound ir.function_names name),
      name ≤ (ir.function_node id).name) := by
  obtain ⟨hle, hlt, hge⟩ := lower_bound_spec ir.function_names name hs
  have hlen : ir.function_names.length = ir.platform.functions.length := by
    simp [Root.function_names]
  refine ⟨by omega, ?_, ?_, ?_⟩
  · intro id hid
    have hm : (ir.function_node id).name ∈
        ir.function_names.take (lower_bound ir.function_names name) := by
      rw [Root.function_names, ← List.map_take]
      exact List.mem_map_of_mem _ hid
    obtain ⟨i, hi, _, hv⟩ := mem_take_getD _ _ _ hm
    rw [← hv]; exact hlt i hi
  · rw [List.map_drop]
    exact List.Pairwise.sublist (List.drop_sublist _ _) hs
  · intro id hid
    have hm : (ir.function_node id).name ∈
        ir.function_names.drop (lower_bound ir.function_names name) := by
      rw [Root.function_names, ← List.map_drop]
      exact List.mem_map_of_mem _ hid
    obtain ⟨i, hi, hil, hv⟩ := mem_drop_getD _ _ _ hm
    rw [← hv]; exact hge i hi hil

/-- In a sorted function collection `find_function_type` returns an entry with the name and
the operand data types asked for. -/
theorem find_function_type_some (ir : Root) (name : String) (types : List Link) (id : Nat)
    (h : find_function_type ir name types = some id) : ir.function_entry name types id := by
  obtain ⟨h1, h2, h3⟩ := scan_find_function_type_some ir name types _ id h
  exact ⟨List.mem_of_mem_drop h1, h2, (same_operand_data_types_match _ _).2 h3⟩

/-- In a sorted function collection `find_function_type` returns the empty link only when
no entry has the name and the operand data types asked for. -/
theorem find_function_type_none (ir : Root) (name : String) (types : List Link)
    (hs : ir.function_names.Pairwise (· ≤ ·))
    (h : find_function_type ir name types = none) (id : Nat) :
    ¬ ir.function_entry name types id := by
  obtain ⟨_, hlt, hp, hge⟩ := functions_lower_bound ir name hs
  rintro ⟨hmem, hn, hm⟩
  rw [← List.take_append_drop (lower_bound ir.function_names name) ir.platform.functions,
    List.mem_append] at hmem
  rcases hmem with hmem | hmem
  · exact absurd hn (ne_of_lt (hlt id hmem))
  · exact scan_find_function_type_none ir name types _ hp hge h id hmem
      ⟨hn, (same_operand_data_types_match _ _).1 hm⟩

theorem visit_operand_type_ok (ir : Root) (ot : OperandType) (dt : DataType)
    (h : ir.data_type ot.data_type = .ok dt) :
    ∃ text, DescribingVisitor.visit_operand_type ir ot = .ok text := by
  unfold DescribingVisitor.visit_operand_type
  cases hm : ot.mode <;> simp only [h]
  · by_cases hk : dt.kind ≠ DataTypeKind.qubit
    · rw [if_pos hk]; exact ⟨_, rfl⟩
    · rw [if_neg hk]; exact ⟨_, rfl⟩
  all_goals exact ⟨_, rfl⟩

theorem visit_operand_types_ok (ir : Root) :
    ∀ (l : List OperandType) (first : Bool),
      (∀ ot ∈ l, ∃ dt, ir.data_type ot.data_type = .ok dt) →
      ∃ text, DescribingVisitor.visit_operand_types ir l first = .ok text
  | [], _, _ => ⟨_, rfl⟩
  | ot :: rest, first, h => by
    obtain ⟨dt, hdt⟩ := h ot (List.mem_cons_self _ _)
    obtain ⟨t1, h1⟩ := visit_operand_type_ok ir ot dt hdt
    obtain ⟨t2, h2⟩ := visit_operand_types_ok ir rest false
      (fun o ho => h o (List.mem_cons_of_mem _ ho))
    refine ⟨(if first then "" else ", ") ++ t1 ++ t2, ?_⟩
    simp only [DescribingVisitor.visit_operand_types, h1, h2]

/-- The description of a function type whose operand data types are nodes of the store. -/
theorem visit_function_type_ok (ir : Root) (ft : FunctionType) (h : ft.types_defined ir) :
    ∃ text, DescribingVisitor.visit_function_type ir ft = .ok text := by
  obtain ⟨t, ht⟩ := visit_operand_types_ok ir ft.operand_types true h
  refine ⟨ft.name ++ "(" ++ t ++ ") -> " ++ DescribingVisitor.visit_data_type ir ft.return_type, ?_⟩
  simp only [DescribingVisitor.visit_function_type, ht]

theorem function_names_insert (ir : Root) (ft : FunctionType) (p : Nat)
    (hv : ∀ id ∈ ir.platform.functions, id < ir.function_nodes.length) :
    ({ ir with function_nodes := ir.function_nodes ++ [ft], platform := { ir.platform with functions := insert_at ir.platform.functions p ir.function_nodes.length } } : Root).function_names =
      ir.function_names.take p ++ ft.name :: ir.function_names.drop p := by
  have hmap : ir.platform.functions.map
        (fun id => ((ir.function_nodes ++ [ft]).getD id default).name) =
      ir.platform.functions.map (fun id => (ir.function_nodes.getD id default).name) := by
    apply List.map_congr_left
    intro id hid
    simp only [List.getD_eq_getElem?_getD]
    rw [List.getElem?_append_left (hv id hid)]
  have hnew : ((ir.function_nodes ++ [ft]).getD ir.function_nodes.length default) = ft := by
    simp only [List.getD_eq_getElem?_getD]
    rw [List.getElem?_append_right (le_refl _)]
    simp
  simp only [Root.function_names, Root.function_node, insert_at, List.map_append, List.map_cons,
    List.map_take, List.map_drop]
  rw [hmap, hnew]

/-- Inserting a name between the names that are not greater and the names that are not
smaller keeps a list non-decreasing. -/
theorem pairwise_le_insert (names : List String) (p : Nat) (v : String)
    (hs : names.Pairwise (· ≤ ·)) (h1 : ∀ x ∈ names.take p, x ≤ v)
    (h2 : ∀ x ∈ names.drop p, v ≤ x) :
    (names.take p ++ v :: names.drop p).Pairwise (· ≤ ·) := by
  have hs' := hs
  rw [← List.take_append_drop p names, List.pairwise_append] at hs'
  obtain ⟨ht, hd, htd⟩ := hs'
  rw [List.pairwise_append]
  refine ⟨ht, List.pairwise_cons.2 ⟨h2, hd⟩, ?_⟩
  intro a ha b hb
  rcases List.mem_cons.1 hb with hb | hb
  · rw [hb]; exact h1 a ha
  · exact htd a ha b hb

/-- With an acceptable name and an entry found by `find_function_type`, `add_function_type`
throws and leaves the platform as it is; the error is the duplicate error when the
description of the function type is defined. -/
theorem add_function_type_duplicate (ir : Root) (ft : FunctionType)
    (hn : is_identifier ft.name = true ∨ starts_with ft.name "operator" = true)
    (h : find_function_type ir ft.name (operand_data_types ft.operand_types) ≠ none) :
    (add_function_type ir ft).1 = ir ∧
    (∀ text, DescribingVisitor.visit_function_type ir ft = .ok text →
      (add_function_type ir ft).2 =
        .error (Error.user_error ("duplicate function type: " ++ text))) := by
  have hn' : ¬ (¬ is_identifier ft.name = true ∧ ¬ starts_with ft.name "operator" = true) := by
    rcases hn with h1 | h1
    · exact fun hc => hc.1 h1
    · exact fun hc => hc.2 h1
  have hscan := (scan_function_types_none_iff ir ft.name (operand_data_types ft.operand_types)
    (ir.platform.functions.drop (lower_bound ir.function_names ft.name))
    (lower_bound ir.function_names ft.name)).2 h
  unfold add_function_type
  rw [if_neg hn', hscan]
  simp only []
  cases hv : DescribingVisitor.visit_function_type ir ft with
  | error e => exact ⟨rfl, fun text ht => by cases ht⟩
  | ok t => exact ⟨rfl, fun text ht => by cases ht; rfl⟩

/-- With an acceptable name and no entry found by `find_function_type`, `add_function_type`
inserts the new node at the position that its search returns. -/
theorem add_function_type_insert (ir : Root) (ft : FunctionType)
    (hn : is_identifier ft.name = true ∨ starts_with ft.name "operator" = true)
    (h : find_function_type ir ft.name (operand_data_types ft.operand_types) = none) :
    ∃ pos, scan_function_types ir ft.name (operand_data_types ft.operand_types)
        (ir.platform.functions.drop (lower_bound ir.function_names ft.name))
        (lower_bound ir.function_names ft.name) = some pos ∧
      add_function_type ir ft =
        ({ ir with
            function_nodes := ir.function_nodes ++ [ft]
            platform := { ir.platform with
              functions := insert_at ir.platform.functions pos ir.function_nodes.length } },
          .ok (some ir.function_nodes.length)) := by
  have hn' : ¬ (¬ is_identifier ft.name = true ∧ ¬ starts_with ft.name "operator" = true) := by
    rcases hn with h1 | h1
    · exact fun hc => hc.1 h1
    · exact fun hc => hc.2 h1
  cases hscan : scan_function_types ir ft.name (operand_data_types ft.operand_types)
      (ir.platform.functions.drop (lower_bound ir.function_names ft.name))
      (lower_bound ir.function_names ft.name) with
  | none => exact absurd h ((scan_function_types_none_iff ir _ _ _ _).1 hscan)
  | some pos =>
    refine ⟨pos, rfl, ?_⟩
    unfold add_function_type
    rw [if_neg hn', hscan]

/-- The position at which `add_function_type` inserts in a sorted collection: the entries
before it have a name that is not greater, the entries from it on have a greater name. -/
theorem scan_function_types_position (ir : Root) (name : String) (types : List Link)
    (hs : ir.function_names.Pairwise (· ≤ ·)) (pos : Nat)
    (h : scan_function_types ir name types
        (ir.platform.functions.drop (lower_bound ir.function_names name))
        (lower_bound ir.function_names name) = some pos) :
    pos ≤ ir.platform.functions.length ∧
    (∀ id ∈ ir.platform.functions.take pos, (ir.function_node id).name ≤ name) ∧
    (∀ id ∈ ir.platform.functions.drop pos, name < (ir.function_node id).name) := by
  obtain ⟨hle, hlt, hp, hge⟩ := functions_lower_bound ir name hs
  obtain ⟨h1, h2, h3, h4⟩ := scan_function_types_some ir name types _ _ pos hp hge h
  rw [List.length_drop] at h2
  have hpos : pos = lower_bound ir.function_names name +
      (pos - lower_bound ir.function_names name) := by omega
  refine ⟨by omega, ?_, ?_⟩
  · intro id hid
    rw [hpos, List.take_add, List.mem_append] at hid
    rcases hid with hid | hid
    · exact le_of_lt (hlt id hid)
    · exact le_of_eq (h3 id hid)
  · intro id hid
    rw [hpos, ← List.drop_drop] at hid
    exact h4 id hid

theorem example_min1_defined : example_min1.types_defined example_functions3 := by
  intro ot hot
  simp only [example_min1, List.mem_singleton] at hot
  subst hot
  exact ⟨_, rfl⟩

/-- The platform that `add_function_type` reaches when it inserts at a position between the
names that are not greater and the names that are greater is sorted. -/
theorem functions_sorted_insert (ir : Root) (ft : FunctionType) (pos : Nat)
    (hs : ir.functions_sorted)
    (h1 : ∀ id ∈ ir.platform.functions.take pos, (ir.function_node id).name ≤ ft.name)
    (h2 : ∀ id ∈ ir.platform.functions.drop pos, ft.name < (ir.function_node id).name) :
    ({ ir with
        function_nodes := ir.function_nodes ++ [ft]
        platform := { ir.platform with
          functions := insert_at ir.platform.functions pos ir.function_nodes.length } }
      : Root).functions_sorted := by
  constructor
  · intro id hid
    simp only [List.length_append, List.length_singleton]
    rcases (mem_insert_at _ _ _ _).1 hid with h | h
    · omega
    · have := hs.valid id h; omega
  · rw [function_names_insert ir ft pos hs.valid]
    apply pairwise_le_insert _ _ _ hs.sorted
    · intro x hx
      rw [Root.function_names, ← List.map_take] at hx
      obtain ⟨id, hid, rfl⟩ := List.mem_map.1 hx
      exact h1 id hid
    · intro x hx
      rw [Root.function_names, ← List.map_drop] at hx
      obtain ⟨id, hid, rfl⟩ := List.mem_map.1 hx
      exact le_of_lt (h2 id hid)

theorem add_function_type_invalid (ir : Root) (ft : FunctionType)
    (hn : ¬ (is_identifier ft.name = true ∨ starts_with ft.name "operator" = true)) :
    (add_function_type ir ft).1 = ir := by
  unfold add_function_type
  rw [if_pos ⟨fun h => hn (Or.inl h), fun h => hn (Or.inr h)⟩]

/-- A call of `add_function_type` keeps the function collection sorted. -/
theorem add_function_type_sorted (ir : Root) (ft : FunctionType) (hs : ir.functions_sorted) :
    (add_function_type ir ft).1.functions_sorted := by
  by_cases hn : is_identifier ft.name = true ∨ starts_with ft.name "operator" = true
  · cases hf : find_function_type ir ft.name (operand_data_types ft.operand_types) with
    | none =>
      obtain ⟨pos, hscan, heq⟩ := add_function_type_insert ir ft hn hf
      obtain ⟨_, h1, h2⟩ := scan_function_types_position ir _ _ hs.sorted pos hscan
      rw [heq]
      exact functions_sorted_insert ir ft pos hs h1 h2
    | some id =>
      rw [(add_function_type_duplicate ir ft hn (by rw [hf]; simp)).1]
      exact hs
  · rw [add_function_type_invalid ir ft hn]; exact hs

/-- The function collection of a platform built by `add_function_type` is sorted. -/
theorem FunctionsAdded.functions_sorted (ir : Root) (h : FunctionsAdded ir) :
    ir.functions_sorted := by
  induction h with
  | empty ir he =>
    constructor
    · intro id hid; rw [he] at hid; cases hid
    · rw [Root.function_names, he]; exact List.Pairwise.nil
  | step ir ft _ ih => exact add_function_type_sorted ir ft ih

theorem example_functions3_added : FunctionsAdded example_functions3 :=
  FunctionsAdded.step _ _ (FunctionsAdded.step _ _ (FunctionsAdded.step _ _
    (FunctionsAdded.empty _ rfl)))

/-- C31. For every name-sorted function collection and function type `ft` with an
acceptable name (and operand data types that are nodes of the store, so that the description
in the error message is defined), `add_function_type` raises the duplicate error iff the
collection holds an entry with the same name, the same number of operand types and
positionally identical operand data types, in which case the platform is unchanged;
otherwise `ft` is inserted at a position after which every entry has a greater name and
before which no entry has a greater name, and the collection stays non-decreasing by
name. -/
theorem add_function_type_duplicates_and_order (ir : Root) (ft : FunctionType)
    (hs : ir.functions_sorted)
    (hn : is_identifier ft.name = true ∨ starts_with ft.name "operator" = true)
    (hd : ft.types_defined ir) :
    ((∃ text, (add_function_type ir ft).2 =
        .error (Error.user_error ("duplicate function type: " ++ text))) ↔
      ∃ id, ir.function_entry ft.name (operand_data_types ft.operand_types) id) ∧
    ((∃ id, ir.function_entry ft.name (operand_data_types ft.operand_types) id) →
      (add_function_type ir ft).1 = ir) ∧
    ((¬ ∃ id, ir.function_entry ft.name (operand_data_types ft.operand_types) id) →
      ∃ pos, pos ≤ ir.platform.functions.length ∧
        add_function_type ir ft =
          ({ ir with
              function_nodes := ir.function_nodes ++ [ft]
              platform := { ir.platform with
                functions := insert_at ir.platform.functions pos ir.function_nodes.length } },
            .ok (some ir.function_nodes.length)) ∧
        (∀ id ∈ ir.platform.functions.take pos, (ir.function_node id).name ≤ ft.name) ∧
        (∀ id ∈ ir.platform.functions.drop pos, ft.name < (ir.function_node id).name) ∧
        (add_function_type ir ft).1.functions_sorted) := by
  have hfound : (∃ id, ir.function_entry ft.name (operand_data_types ft.operand_types) id) ↔
      find_function_type ir ft.name (operand_data_types ft.operand_types) ≠ none := by
    constructor
    · rintro ⟨id, hid⟩ hnone
      exact find_function_type_none ir _ _ hs.sorted hnone id hid
    · intro hne
      cases hf : find_function_type ir ft.name (operand_data_types ft.operand_types) with
      | none => exact absurd hf hne
      | some id => exact ⟨id, find_function_type_some ir _ _ id hf⟩
  refine ⟨⟨?_, ?_⟩, ?_, ?_⟩
  · rintro ⟨text, ht⟩
    by_contra hno
    have hf : find_function_type ir ft.name (operand_data_types ft.operand_types) = none := by
      by_contra hne; exact hno (hfound.2 hne)
    obtain ⟨pos, _, heq⟩ := add_function_type_insert ir ft hn hf
    rw [heq] at ht
    cases ht
  · intro he
    obtain ⟨text, htext⟩ := visit_function_type_ok ir ft hd
    exact ⟨text, (add_function_type_duplicate ir ft hn (hfound.1 he)).2 text htext⟩
  · intro he
    exact (add_function_type_duplicate ir ft hn (hfound.1 he)).1
  · intro hno
    have hf : find_function_type ir ft.name (operand_data_types ft.operand_types) = none := by
      by_contra hne; exact hno (hfound.2 hne)
    obtain ⟨pos, hscan, heq⟩ := add_function_type_insert ir ft hn hf
    obtain ⟨hle, h1, h2⟩ := scan_function_types_position ir _ _ hs.sorted pos hscan
    exact ⟨pos, hle, heq, h1, h2, add_function_type_sorted ir ft hs⟩

theorem add_function_type_duplicates_and_order_witness :
    example_functions3.functions_sorted ∧
    (is_identifier example_min1.name = true ∨ starts_with example_min1.name "operator" = true) ∧
    example_min1.types_defined example_functions3 ∧
    ((∃ text, (add_function_type example_functions3 example_min1).2 =
        .error (Error.user_error ("duplicate function type: " ++ text))) ↔
      ∃ id, example_functions3.function_entry example_min1.name
        (operand_data_types example_min1.operand_types) id) :=
  ⟨FunctionsAdded.functions_sorted _ example_functions3_added, Or.inl (by decide),
    example_min1_defined,
    (add_function_type_duplicates_and_order example_functions3 example_min1
      (FunctionsAdded.functions_sorted _ example_functions3_added) (Or.inl (by decide))
      example_min1_defined).1⟩

theorem function_node_insert_old (ir : Root) (ft : FunctionType) (l : List Nat) (id : Nat)
    (h : id < ir.function_nodes.length) :
    ({ ir with function_nodes := ir.function_nodes ++ [ft], platform := { ir.platform with functions := l } } : Root).function_node id = ir.function_node id := by
  simp only [Root.function_node, List.getD_eq_getElem?_getD]
  rw [List.getElem?_append_left h]

theorem function_node_insert_new (ir : Root) (ft : FunctionType) (l : List Nat) :
    ({ ir with function_nodes := ir.function_nodes ++ [ft], platform := { ir.platform with functions := l } } : Root).function_node ir.function_nodes.length = ft := by
  simp only [Root.function_node, List.getD_eq_getElem?_getD]
  rw [List.getElem?_append_right (le_refl _)]
  simp

/-- A call of `add_function_type` on a sorted collection keeps the entries distinct. -/
theorem add_function_type_distinct (ir : Root) (ft : FunctionType) (hs : ir.functions_sorted)
    (hd : ir.functions_distinct) : (add_function_type ir ft).1.functions_distinct := by
  by_cases hn : is_identifier ft.name = true ∨ starts_with ft.name "operator" = true
  · cases hf : find_function_type ir ft.name (operand_data_types ft.operand_types) with
    | none =>
      obtain ⟨pos, _, heq⟩ := add_function_type_insert ir ft hn hf
      rw [heq]
      have hnew : ∀ b ∈ ir.platform.functions,
          ¬ ((ir.function_node b).name = ft.name ∧
            operand_data_types (ir.function_node b).operand_types =
              operand_data_types ft.operand_types) := by
        intro b hb hc
        exact find_function_type_none ir _ _ hs.sorted hf b
          ⟨hb, hc.1, (same_operand_data_types_iff _ _).2 hc.2⟩
      intro a ha b hb hname htypes
      simp only at ha hb
      rcases (mem_insert_at _ _ _ _).1 ha with ha | ha
      · rcases (mem_insert_at _ _ _ _).1 hb with hb | hb
        · rw [ha, hb]
        · exfalso
          rw [ha, function_node_insert_new, function_node_insert_old _ _ _ _ (hs.valid b hb)]
            at hname htypes
          exact hnew b hb ⟨hname.symm, htypes.symm⟩
      · rcases (mem_insert_at _ _ _ _).1 hb with hb | hb
        · exfalso
          rw [hb, function_node_insert_new, function_node_insert_old _ _ _ _ (hs.valid a ha)]
            at hname htypes
          exact hnew a ha ⟨hname, htypes⟩
        · rw [function_node_insert_old _ _ _ _ (hs.valid a ha),
            function_node_insert_old _ _ _ _ (hs.valid b hb)] at hname htypes
          exact hd a ha b hb hname htypes
    | some id =>
      rw [(add_function_type_duplicate ir ft hn (by rw [hf]; simp)).1]
      exact hd
  · rw [add_function_type_invalid ir ft hn]; exact hd

/-- The entries of a platform built by `add_function_type` are distinct. -/
theorem FunctionsAdded.functions_distinct (ir : Root) (h : FunctionsAdded ir) :
    ir.functions_distinct := by
  induction h with
  | empty ir he =>
    intro a ha
    rw [he] at ha; cases ha
  | step ir ft hadd ih =>
    exact add_function_type_distinct ir ft (FunctionsAdded.functions_sorted ir hadd) ih

/-- Two entries with the name and the operand data types asked for are the same entry. -/
theorem function_entry_unique (ir : Root) (hd : ir.functions_distinct) (name : String)
    (types : List Link) (a b : Nat) (ha : ir.function_entry name types a)
    (hb : ir.function_entry name types b) : a = b :=
  hd a ha.1 b hb.1 (ha.2.1.trans hb.2.1.symm)
    (((same_operand_data_types_iff _ _).1 ha.2.2).trans
      ((same_operand_data_types_iff _ _).1 hb.2.2).symm)

/-- The result of `make_function_call` on operands with the data types `types`. -/
theorem make_function_call_found (ir : Root) (name : String) (operands : List Expression)
    (types : List Link) (ht : get_types_of ir operands = .ok types) (id : Nat)
    (hf : find_function_type ir name types = some id) :
    make_function_call ir name operands = .ok (.function_call (some id) operands) := by
  unfold make_function_call
  rw [ht]
  simp only [hf]

theorem make_function_call_not_found (ir : Root) (name : String) (operands : List Expression)
    (types : List Link) (ht : get_types_of ir operands = .ok types)
    (hf : find_function_type ir name types = none) :
    ∃ e, make_function_call ir name operands = .error e := by
  unfold make_function_call
  rw [ht]
  simp only [hf]
  cases data_type_names ir types with
  | error e => exact ⟨e, rfl⟩
  | ok names => exact ⟨_, rfl⟩

/-- C32. In every function collection built from one without entries by calls of
`add_function_type`, at most one entry has a given name and tuple of operand data types;
`find_function_type` returns that entry when it exists and the empty link otherwise; for
operands with the data types `types`, `make_function_call` succeeds iff such an entry
exists, and then returns the function call with that function type and the operands as
they were given. -/
theorem find_function_type_unique (ir : Root) (h : FunctionsAdded ir) (name : String)
    (types : List Link) :
    (∀ a b, ir.function_entry name types a → ir.function_entry name types b → a = b) ∧
    (∀ id, ir.function_entry name types id → find_function_type ir name types = some id) ∧
    ((¬ ∃ id, ir.function_entry name types id) → find_function_type ir name types = none) ∧
    (∀ operands, get_types_of ir operands = .ok types →
      ((∃ call, make_function_call ir name operands = .ok call) ↔
        ∃ id, ir.function_entry name types id) ∧
      (∀ id, ir.function_entry name types id →
        make_function_call ir name operands = .ok (.function_call (some id) operands))) := by
  have hs := FunctionsAdded.functions_sorted ir h
  have hd := FunctionsAdded.functions_distinct ir h
  have hfind : ∀ id, ir.function_entry name types id →
      find_function_type ir name types = some id := by
    intro id hid
    cases hf : find_function_type ir name types with
    | none => exact absurd hid (find_function_type_none ir name types hs.sorted hf id)
    | some x =>
      rw [function_entry_unique ir hd name types x id (find_function_type_some ir _ _ x hf) hid]
  have hnone : (¬ ∃ id, ir.function_entry name types id) →
      find_function_type ir name types = none := by
    intro hno
    cases hf : find_function_type ir name types with
    | none => rfl
    | some x => exact absurd ⟨x, find_function_type_some ir _ _ x hf⟩ hno
  refine ⟨function_entry_unique ir hd name types, hfind, hnone, ?_⟩
  intro operands ht
  refine ⟨⟨?_, ?_⟩, ?_⟩
  · rintro ⟨call, hc⟩
    by_contra hno
    obtain ⟨e, he⟩ := make_function_call_not_found ir name operands types ht (hnone hno)
    rw [he] at hc
    cases hc
  · rintro ⟨id, hid⟩
    exact ⟨_, make_function_call_found ir name operands types ht id (hfind id hid)⟩
  · intro id hid
    exact make_function_call_found ir name operands types ht id (hfind id hid)

theorem find_function_type_unique_witness :
    FunctionsAdded example_functions3 ∧
    (∀ id, example_functions3.function_entry "min" [some 0] id →
      find_function_type example_functions3 "min" [some 0] = some id) ∧
    find_function_type example_functions3 "min" [some 0] = some 1 ∧
    make_function_call example_functions3 "min" [.int_literal 3 (some 0)] =
      .ok (.function_call (some 1) [.int_literal 3 (some 0)]) :=
  ⟨example_functions3_added,
    (find_function_type_unique example_functions3 example_functions3_added "min" [some 0]).2.1,
    rfl, rfl⟩

/-! ## Canonical access modes -/

/-- A node at some depth of the tree of a node of the store is a node of the store. -/
theorem at_depth_lt {ir : Root} (hv : ir.links_valid) {root d t : Nat}
    (hroot : root < ir.instruction_nodes.length) (h : at_depth ir root d t) :
    t < ir.instruction_nodes.length := by
  induction h with
  | root => exact hroot
  | child d p c _ hc ih => exact hv.specs p ih c hc

/-- The depth of a node is kept when the state is extended. -/
theorem at_depth_extends {a b : Root} (hext : Extends a b) (hv : a.links_valid) {root d t : Nat}
    (hroot : root < a.instruction_nodes.length) (h : at_depth a root d t) :
    at_depth b root d t := by
  induction h with
  | root => exact at_depth.root
  | child d p c hp hc ih =>
    obtain ⟨extra, he, _⟩ := hext.specializations p (at_depth_lt hv hroot hp)
    exact at_depth.child d p c ih (by rw [he]; exact List.mem_append_left _ hc)

/-- The depth of a node is kept when the specialization lists are. -/
theorem at_depth_congr {a b : Root}
    (hs : ∀ j, (b.node j).specializations = (a.node j).specializations) {root d t : Nat}
    (h : at_depth a root d t) : at_depth b root d t := by
  induction h with
  | root => exact at_depth.root
  | child d p c _ hc ih => exact at_depth.child d p c ih (by rw [hs]; exact hc)

/-- A node at some depth is in the tree. -/
theorem in_tree_of_at_depth {ir : Root} {root d t : Nat} (h : at_depth ir root d t) :
    in_tree ir root t := by
  induction h with
  | root => exact in_tree.root
  | child d p c _ hc ih => exact in_tree.child p c ih hc

theorem at_depth_of_in_tree {ir : Root} {root t : Nat} (h : in_tree ir root t) :
    ∃ d, at_depth ir root d t := by
  induction h with
  | root => exact ⟨0, at_depth.root⟩
  | child p c _ hc ih =>
    obtain ⟨d, hd⟩ := ih
    exact ⟨d + 1, at_depth.child d p c hd hc⟩

/-- The operand types that `move_operands` leaves are those of the incoming node without one
entry for every template operand. -/
theorem move_operands_drop (ir : Root) (l : List Expression) (spec : InstructionType)
    (next : Nat) (s : InstructionType) (n : Nat)
    (h : move_operands ir l spec next = .ok (s, n)) :
    s.operand_types = spec.operand_types.drop l.length ∧
    s.specializations = spec.specializations := by
  obtain ⟨_, _, _, _, h5, _, ⟨front, hf1, hf2⟩, _⟩ := move_operands_spec ir _ _ _ _ _ h
  refine ⟨?_, h5⟩
  rw [hf1, ← hf2.length_eq, List.drop_left]

/-- The nodes that the loop over the template operands creates: each is at a depth `d` of
the tree of `root` and has the operand types of the incoming instruction type without the
first `d`. -/
theorem add_specializations_new_nodes (it : InstructionType) (tops : List Expression)
    (hit : it.specializations = []) (root : Nat) :
    ∀ (rest done : List Expression) (ir : Root) (cur : Nat) (added : Bool),
      tops = done ++ rest → ir.links_valid → root < ir.instruction_nodes.length →
      at_depth ir root done.length cur →
      ∀ id, ir.instruction_nodes.length ≤ id →
        id < (add_specializations it tops rest done.length ir cur added).1.instruction_nodes.length →
        ∃ d, done.length < d ∧ d ≤ tops.length ∧
          at_depth (add_specializations it tops rest done.length ir cur added).1 root d id ∧
          ((add_specializations it tops rest done.length ir cur added).1.node id).operand_types =
            it.operand_types.drop d := by
  intro rest
  induction rest with
  | nil =>
    intro done ir cur added _ _ _ _ id h1 h2
    simp only [add_specializations] at h2
    omega
  | cons op rest ih =>
    intro done ir cur added htops hv hroot hcur id h1 h2
    have htops2 : tops = (done ++ [op]) ++ rest := by rw [htops]; simp
    have hlen2 : (done ++ [op]).length = done.length + 1 := by simp
    have hcurlt := at_depth_lt hv hroot hcur
    unfold add_specializations at h2 ⊢
    cases hfind : find_specialization ir (ir.node cur).specializations (some op) with
    | some c =>
      simp only [hfind] at h2 ⊢
      rw [← hlen2] at h2 ⊢
      have hc : at_depth ir root (done ++ [op]).length c := by
        rw [hlen2]
        exact at_depth.child _ cur c hcur (find_specialization_mem hfind).1
      obtain ⟨d, hd1, hd2, hd3, hd4⟩ := ih (done ++ [op]) ir c added htops2 hv hroot hc id h1 h2
      exact ⟨d, by rw [hlen2] at hd1; omega, hd2, hd3, hd4⟩
    | none =>
      simp only [hfind] at h2 ⊢
      cases hmove : move_operands ir (tops.take (done.length + 1))
          { it with decompositions := [] } ir.next_addr with
      | error e =>
        simp only [hmove] at h2
        omega
      | ok p =>
        obtain ⟨spec, next⟩ := p
        simp only [hmove] at h2 ⊢
        rw [← hlen2] at h2 ⊢
        obtain ⟨hdrop, hspecs⟩ := move_operands_drop ir _ _ _ _ _ hmove
        have htake : (tops.take (done.length + 1)).length = done.length + 1 := by
          rw [List.length_take, htops]; simp
        rw [htake] at hdrop
        have hcur' : cur < ({ ir with next_addr := next } : Root).instruction_nodes.length :=
          hcurlt
        have hext1 : Extends ir (({ ir with next_addr := next } : Root).add_specialization cur spec) :=
          (Extends.next_addr ir next).trans (Extends.add_specialization _ cur spec hcur')
        have hv1 : (({ ir with next_addr := next } : Root).add_specialization cur spec).links_valid :=
          links_valid_add_specialization _ cur spec (links_valid_next_addr ir next hv) hcur'
            (by rw [hspecs]; exact hit)
        have hlen1 : (({ ir with next_addr := next } : Root).add_specialization cur
            spec).instruction_nodes.length = ir.instruction_nodes.length + 1 :=
          length_add_specialization _ cur spec
        have hnew : at_depth (({ ir with next_addr := next } : Root).add_specialization cur spec)
            root (done ++ [op]).length ir.instruction_nodes.length := by
          rw [hlen2]
          refine at_depth.child _ cur _ (at_depth_extends hext1 hv hroot hcur) ?_
          rw [node_add_specialization_parent _ _ _ hcur']
          exact List.mem_append_right _ (List.mem_singleton_self _)
        by_cases hid : id = ir.instruction_nodes.length
        · subst hid
          have hfr := add_specializations_frame it tops hit rest (done ++ [op]).length
            (({ ir with next_addr := next } : Root).add_specialization cur spec)
            ir.instruction_nodes.length true (by rw [hlen1]; omega)
          refine ⟨(done ++ [op]).length, by omega, by rw [htops]; simp, ?_, ?_⟩
          · exact at_depth_extends hfr.1 hv1 (by rw [hlen1]; omega) hnew
          · rw [hfr.1.operand_types _ (by rw [hlen1]; omega),
              node_add_specialization_new _ _ _ hcur']
            rw [hlen2]
            exact hdrop
        · obtain ⟨d, hd1, hd2, hd3, hd4⟩ := ih (done ++ [op])
            (({ ir with next_addr := next } : Root).add_specialization cur spec)
            ir.instruction_nodes.length true htops2 hv1 (by rw [hlen1]; omega) hnew id
            (by rw [hlen1]; omega) h2
          exact ⟨d, by rw [hlen2] at hd1; omega, hd2, hd3, hd4⟩

/-- In a sorted collection without repeated overloads the search of
`add_or_find_instruction_type` finds the entry with the name and the operand data types of
the incoming instruction type. -/
theorem existing_root_of_overload (ir : Root) (t : InstructionType) (hs : ir.names_sorted)
    (hd : ir.overloads_distinct) (r : Nat) (hr : r ∈ ir.platform.instructions)
    (hrn : (ir.node r).name = t.name)
    (hrt : operand_data_types (ir.node r).operand_types = operand_data_types t.operand_types) :
    (find_root ir t).2 = true ∧ existing_root ir t = r := by
  have hfound : (find_root ir t).2 = true := by
    by_contra hf
    have hf' : (search_overload ir t.name (operand_data_types t.operand_types)).2 = false := by
      simpa [find_root] using hf
    have h := find?_matches_eq ir t.name (operand_data_types t.operand_types) hs
    rw [hf'] at h
    simp only [Bool.false_eq_true, if_false] at h
    have := List.find?_eq_none.1 h r hr
    simp only [matches_overload, hrn, decide_True, Bool.true_and, Bool.not_eq_true] at this
    have hm := (data_types_match_iff (ir.node r).operand_types
      (operand_data_types t.operand_types)).2 hrt
    rw [hm] at this
    cases this
  refine ⟨hfound, ?_⟩
  obtain ⟨e1, e2, e3, _⟩ := existing_root_spec ir t hs hfound
  by_contra hne
  have hsym : Symmetric fun a b => ¬ same_overload (ir.node a) (ir.node b) :=
    fun a b hab hba => hab ⟨hba.1.symm, hba.2.symm⟩
  exact List.Pairwise.forall hsym hd e1 hr hne ⟨e2.trans hrn.symm, e3.trans hrt.symm⟩

/-- The state that `add_decomposition_rule` reaches differs from the state that
`add_or_find_instruction_type` reaches in the decomposition rules of one node at most. -/
theorem add_decomposition_rule_ir (ir : Root) (t : InstructionType) (tops : List Expression) :
    (add_decomposition_rule ir t tops).1 = (add_or_find_instruction_type ir t tops).ir ∨
    ∃ n d, (add_decomposition_rule ir t tops).1 =
      (add_or_find_instruction_type ir t tops).ir.set_node n
        { (add_or_find_instruction_type ir t tops).ir.node n with decompositions := d } := by
  unfold add_decomposition_rule
  simp only []
  cases (add_or_find_instruction_type ir t tops).result with
  | error e => exact Or.inl rfl
  | ok p =>
    obtain ⟨ityp, added⟩ := p
    cases added
    · exact Or.inr ⟨ityp, _, rfl⟩
    · exact Or.inl rfl

/-- The nodes that `add_or_find_instruction_type` creates when the overload `r` of the
incoming instruction type exists. -/
theorem add_or_find_new_nodes (ir : Root) (t : InstructionType) (tops : List Expression)
    (r : Nat) (hwf : ir.well_formed)
    (h1 : t.specializations = []) (h2 : t.template_operands = []) (h3 : t.generalization = none)
    (hname : is_identifier t.name = true)
    (hr : r ∈ ir.platform.instructions) (hrn : (ir.node r).name = t.name)
    (hrt : operand_data_types (ir.node r).operand_types = operand_data_types t.operand_types) :
    (add_or_find_instruction_type ir t tops).instruction_type =
      { t with operand_types := (ir.node r).operand_types } ∧
    ∀ id, ir.instruction_nodes.length ≤ id →
      id < (add_or_find_instruction_type ir t tops).ir.instruction_nodes.length →
      ∃ d, 1 ≤ d ∧ d ≤ tops.length ∧
        at_depth (add_or_find_instruction_type ir t tops).ir r d id ∧
        ((add_or_find_instruction_type ir t tops).ir.node id).operand_types =
          (ir.node r).operand_types.drop d := by
  obtain ⟨hf, hroot⟩ := existing_root_of_overload ir t hwf.sorted hwf.distinct r hr hrn hrt
  have hcopied : with_copied_modes ir t = { t with operand_types := (ir.node r).operand_types } := by
    have := with_copied_modes_operand_types ir t hwf.sorted hf
    rw [hroot] at this
    unfold with_copied_modes at this ⊢
    simp only at this
    rw [this]
  have hpre : t.specializations = [] ∧ t.template_operands.isEmpty = true ∧
      t.generalization = none := ⟨h1, by rw [h2]; rfl, h3⟩
  have hrlt := hwf.consistent.top r hr
  unfold add_or_find_instruction_type
  rw [if_neg (not_not.2 hpre), if_neg (not_not.2 hname), if_pos hf, hroot, hcopied]
  obtain ⟨a1, a2⟩ := attach_decompositions_result
    (add_specializations { t with operand_types := (ir.node r).operand_types } tops tops 0 ir r
      false) { t with operand_types := (ir.node r).operand_types }
  refine ⟨a2, ?_⟩
  intro id hid1 hid2
  have hnew := add_specializations_new_nodes { t with operand_types := (ir.node r).operand_types }
    tops h1 r tops [] ir r false rfl hwf.links_valid hrlt at_depth.root id hid1
  rcases attach_decompositions_ir
    (add_specializations { t with operand_types := (ir.node r).operand_types } tops tops 0 ir r
      false) { t with operand_types := (ir.node r).operand_types } with hir | ⟨n, _, hir⟩
  · rw [hir] at hid2 ⊢
    obtain ⟨d, hd1, hd2, hd3, hd4⟩ := hnew hid2
    exact ⟨d, by simpa using hd1, hd2, hd3, hd4⟩
  · rw [hir] at hid2 ⊢
    rw [length_set_node] at hid2
    obtain ⟨d, hd1, hd2, hd3, hd4⟩ := hnew hid2
    refine ⟨d, by simpa using hd1, hd2, ?_, ?_⟩
    · exact at_depth_congr (fun j => (set_decompositions_fields _ n _ j).2.2.2.2) hd3
    · rw [(set_decompositions_fields _ n _ id).2.1]; exact hd4

theorem example_ir6_built : Built example_ir6 :=
  Built.add_instruction_type _ _ _ (Built.empty example_ir0 rfl rfl)

/-- C34. Canonical access modes: when `add_instruction_type` or `add_decomposition_rule` is
called on a platform with the registry invariant with a fully generalized instruction type
`t` with a valid name for which a root overload `r` with the same name and operand data
types exists, the operand types of `t` are left with the access modes of `r` (and their own
data types, which are those of `r`), and every node that the call creates is at a depth `d`
from 1 to the number of template operands of the tree of `r` and has the operand types of
`r` without the first `d`, whatever modes `t` carried on entry. -/
theorem canonical_access_modes (ir : Root) (t : InstructionType) (tops : List Expression)
    (r : Nat) (hwf : ir.well_formed)
    (h1 : t.specializations = []) (h2 : t.template_operands = []) (h3 : t.generalization = none)
    (hname : is_identifier t.name = true)
    (hr : r ∈ ir.platform.instructions) (hrn : (ir.node r).name = t.name)
    (hrt : operand_data_types (ir.node r).operand_types = operand_data_types t.operand_types) :
    (add_or_find_instruction_type ir t tops).instruction_type =
      { t with operand_types := (ir.node r).operand_types } ∧
    (add_or_find_instruction_type ir t tops).instruction_type.operand_types.map
        (fun o => o.mode) = (ir.node r).operand_types.map (fun o => o.mode) ∧
    operand_data_types (add_or_find_instruction_type ir t tops).instruction_type.operand_types =
      operand_data_types t.operand_types ∧
    ∀ ir', (ir' = (add_instruction_type ir t tops).1 ∨
        ir' = (add_decomposition_rule ir t tops).1) →
      ∀ id, ir.instruction_nodes.length ≤ id → id < ir'.instruction_nodes.length →
        ∃ d, 1 ≤ d ∧ d ≤ tops.length ∧ at_depth ir' r d id ∧
          (ir'.node id).operand_types = (ir.node r).operand_types.drop d := by
  obtain ⟨k1, k2⟩ := add_or_find_new_nodes ir t tops r hwf h1 h2 h3 hname hr hrn hrt
  refine ⟨k1, by rw [k1], by rw [k1]; exact hrt, ?_⟩
  intro ir' hir' id hid1 hid2
  rcases hir' with hir' | hir'
  · rw [hir', add_instruction_type_ir] at hid2 ⊢
    exact k2 id hid1 hid2
  · rcases add_decomposition_rule_ir ir t tops with h | ⟨n, d, h⟩
    · rw [hir', h] at hid2 ⊢
      exact k2 id hid1 hid2
    · rw [hir', h] at hid2 ⊢
      rw [length_set_node] at hid2
      obtain ⟨d', hd1, hd2, hd3, hd4⟩ := k2 id hid1 hid2
      refine ⟨d', hd1, hd2, ?_, ?_⟩
      · exact at_depth_congr (fun j => (set_decompositions_fields _ n _ j).2.2.2.2) hd3
      · rw [(set_decompositions_fields _ n _ id).2.1]; exact hd4

theorem canonical_access_modes_witness :
    example_ir6.well_formed ∧ is_identifier example_cz_write.name = true ∧
    0 ∈ example_ir6.platform.instructions ∧
    (add_or_find_instruction_type example_ir6 example_cz_write
        [example_qubit_ref 0 3]).instruction_type =
      { example_cz_write with operand_types := (example_ir6.node 0).operand_types } ∧
    (example_ir6.node 0).operand_types = example_cz.operand_types ∧
    (example_ir7.node 1).operand_types =
      [{ mode := AccessMode.COMMUTE_X, data_type := some 0 }] :=
  ⟨example_ir6_built.well_formed, by decide, by decide,
    (canonical_access_modes example_ir6 example_cz_write [example_qubit_ref 0 3] 0
      example_ir6_built.well_formed rfl rfl rfl (by decide) (by decide) rfl rfl).1,
    rfl, rfl⟩

/-! ## Describing instruction types -/

/-- C35, at the instruction type `toffoli` specialized on `qubits[0]`, `qubits[1]` and
`qubits[2]` (node 3, at depth 3 of the tree of node 0): `print_instruction_type_prefix`
takes one step from the generalization (node 2) and so reads the operand types of node 1,
which has two of them, for the three template operands; the description throws on the
third. The description of node 2 (depth 2) is as the claim says, and the loop of
`add_statement` over the generalizations reaches node 0 from node 3. -/
theorem describe_depth_three_out_of_range :
    at_depth example_toffoli_ir 0 3 3 ∧
    (example_toffoli_ir.node 0).operand_types.length = 3 ∧
    (example_toffoli_ir.node 3).template_operands.length = 3 ∧
    DescribingVisitor.visit_instruction_type example_toffoli_ir (example_toffoli_ir.node 3) =
      .error Error.out_of_range ∧
    DescribingVisitor.generalization example_toffoli_ir 2 = example_toffoli_ir.node 1 ∧
    DescribingVisitor.visit_instruction_type example_toffoli_ir (example_toffoli_ir.node 2) =
      .ok "toffoli Z-commute qubit=qubits[0], Z-commute qubit=qubits[1], X-commute qubit" ∧
    find_generalization example_toffoli_ir 4 3 = some 0 :=
  ⟨at_depth.child 2 2 3 (at_depth.child 1 1 2 (at_depth.child 0 0 1 at_depth.root
      (by decide)) (by decide)) (by decide),
    rfl, rfl, rfl, rfl, rfl, rfl⟩

/-! ## The specialization loop on consistent trees -/

theorem get_types_of_cons (ir : Root) (op : Expression) (rest : List Expression) (t : Link)
    (ts : List Link) (h : get_types_of ir (op :: rest) = .ok (t :: ts)) :
    get_type_of ir op = .ok t ∧ get_types_of ir rest = .ok ts := by
  unfold get_types_of at h
  cases h1 : get_type_of ir op with
  | error e => simp [h1] at h
  | ok t1 =>
    simp only [h1] at h
    cases h2 : get_types_of ir rest with
    | error e => simp [h2] at h
    | ok ts1 =>
      simp only [h2, Except.ok.injEq, List.cons.injEq] at h
      rw [h.1, h.2]
      exact ⟨rfl, rfl⟩

/-- The data type of operand `i` is entry `i` of the data types of the operands. -/
theorem get_types_of_getD (ir : Root) :
    ∀ (ops : List Expression) (types : List Link), get_types_of ir ops = .ok types →
      ∀ i, i < ops.length → get_type_of ir (ops.getD i default) = .ok (types.getD i none)
  | [], _, _, i, hi => by simp at hi
  | op :: rest, types, h, i, hi => by
    have hlen := get_types_of_length ir _ _ h
    cases types with
    | nil => simp at hlen
    | cons t ts =>
      obtain ⟨h1, h2⟩ := get_types_of_cons ir op rest t ts h
      cases i with
      | zero => simpa using h1
      | succ j =>
        have := get_types_of_getD ir rest ts h2 j (by simpa using hi)
        simpa using this

/-- The specialization loop of `make_instruction` on consistent trees, from a node whose
operand types have the data types of the operands: the read of the front operand never
meets an empty list, the loop makes at most one descent per operand, the loop of
`make_instruction` returns the same node and operands, and the operand types of the node
have the data types of the operands that are left. -/
theorem specialize_instruction_strict_spec (ir : Root) (htc : ir.tree_consistent) :
    ∀ (operands : List Expression) (fuel fuel' cur : Nat), operands.length < fuel →
      operands.length < fuel' → cur < ir.instruction_nodes.length →
      get_types_of ir operands = .ok (operand_data_types (ir.node cur).operand_types) →
      ∃ t left descents,
        specialize_instruction_strict ir fuel cur operands = .ok (t, left, descents) ∧
        specialize_instruction ir fuel' cur operands = some (t, left) ∧
        descents ≤ operands.length ∧ left = operands.drop descents ∧
        get_types_of ir left = .ok (operand_data_types (ir.node t).operand_types) := by
  intro operands
  induction operands with
  | nil =>
    intro fuel fuel' cur hfuel hfuel' hcur hty
    cases fuel with
    | zero => simp at hfuel
    | succ fuel =>
    cases fuel' with
    | zero => simp at hfuel'
    | succ fuel' =>
      have hots : (ir.node cur).operand_types = [] := by
        simp only [get_types_of, Except.ok.injEq] at hty
        unfold operand_data_types at hty
        exact List.map_eq_nil_iff.1 hty.symm
      have hspecs : (ir.node cur).specializations = [] := by
        cases hs : (ir.node cur).specializations with
        | nil => rfl
        | cons c cs =>
          obtain ⟨_, e, o, _, h2, _⟩ := htc.children cur hcur c (by rw [hs]; exact List.mem_cons_self _ _)
          rw [hots] at h2
          cases h2
      refine ⟨cur, [], 0, ?_, ?_, le_refl _, rfl, hty⟩
      · simp only [specialize_instruction_strict, hspecs, if_true]
      · simp only [specialize_instruction, hspecs, find_specialization, List.find?_nil]
  | cons op rest ih =>
    intro fuel fuel' cur hfuel hfuel' hcur hty
    cases fuel with
    | zero => simp at hfuel
    | succ fuel =>
    cases fuel' with
    | zero => simp at hfuel'
    | succ fuel' =>
      simp only [List.length_cons] at hfuel hfuel'
      by_cases hspecs : (ir.node cur).specializations = []
      · refine ⟨cur, op :: rest, 0, ?_, ?_, Nat.zero_le _, rfl, hty⟩
        · simp only [specialize_instruction_strict, hspecs, if_true]
        · simp only [specialize_instruction, hspecs, find_specialization, List.find?_nil]
      · cases hfind : find_specialization ir (ir.node cur).specializations (some op) with
        | none =>
          refine ⟨cur, op :: rest, 0, ?_, ?_, Nat.zero_le _, rfl, hty⟩
          · simp only [specialize_instruction_strict, hspecs, if_false, hfind]
          · simp only [specialize_instruction, List.head?_cons, hfind]
        | some c =>
          obtain ⟨hmem, _⟩ := find_specialization_mem hfind
          have hclt := find_specialization_lt hfind
          obtain ⟨_, e, o, _, h2, _⟩ := htc.children cur hcur c hmem
          rw [h2] at hty
          simp only [operand_data_types, List.map_cons] at hty
          obtain ⟨_, hty2⟩ := get_types_of_cons ir op rest _ _ hty
          obtain ⟨t, left, n, s1, s2, s3, s4, s5⟩ := ih fuel fuel' c (by omega) (by omega) hclt hty2
          refine ⟨t, left, n + 1, ?_, ?_, by simp only [List.length_cons]; omega, ?_, s5⟩
          · simp only [specialize_instruction_strict, hspecs, if_false, hfind, s1]
          · simp only [specialize_instruction, List.head?_cons, hfind, List.drop_succ_cons,
              List.drop_zero]
            exact s2
          · rw [s4]; rfl

theorem operand_data_types_getD (ots : List OperandType) (i : Nat) (h : i < ots.length) :
    (operand_data_types ots).getD i none = (ots.getD i default).data_type := by
  unfold operand_data_types
  rw [List.getD_eq_getElem _ _ (by simpa using h), List.getD_eq_getElem _ _ h]
  simp

/-- C37. Operand/prototype agreement and safe specialization loop: on a platform built by
`add_instruction_type` and `add_decomposition_rule`, for a call of `make_instruction`
without overload generation, with a name other than set, wait and barrier, whose operands
have data types and for which `find_instruction_type` finds the instruction type `root`:
the specialization loop, with its read of the front operand written out, returns (it never
reads the front of an empty operand list and does not reach its bound) after at most
`|ops|` descents with an instruction type `t` and the operands left after the descents;
there are as many operands left as `t` has operand types, operand `i` has the data type of
operand type `i`, and an instruction that `make_instruction` returns is the custom
instruction with the type `t` and these operands. -/
theorem operand_prototype_agreement (ir : Root) (hb : Built ir) (name : String)
    (ops : List Expression) (condition : Option Expression) (return_empty_on_failure : Bool)
    (types : List Link) (root : Nat)
    (h1 : name ≠ "set") (h2 : name ≠ "wait") (h3 : name ≠ "barrier")
    (ht : get_types_of ir ops = .ok types)
    (hf : (find_instruction_type ir name types false).2 = some root) :
    ∃ t left descents,
      (∀ fuel, ops.length < fuel →
        specialize_instruction_strict ir fuel root ops = .ok (t, left, descents)) ∧
      descents ≤ ops.length ∧ left = ops.drop descents ∧
      left.length = (ir.node t).operand_types.length ∧
      (∀ i, i < left.length →
        get_type_of ir (left.getD i default) =
          .ok ((ir.node t).operand_types.getD i default).data_type) ∧
      (make_instruction ir name ops condition false return_empty_on_failure).2 ≠
        .error (Error.internal_error "specialization loop bound reached") ∧
      ∀ insn, (make_instruction ir name ops condition false return_empty_on_failure).2 =
          .ok (some insn) →
        ∃ c, insn = .custom_instruction c ∧ c.instruction_type = some t ∧ c.operands = left := by
  have hwf := hb.well_formed
  have hfe := find_instruction_type_false_eq ir name types hwf.sorted
  rw [hfe] at hf
  simp only at hf
  have hmem : root ∈ ir.platform.instructions := List.mem_of_find?_eq_some hf
  have hmatch := List.find?_some hf
  simp only [Bool.and_eq_true, decide_eq_true_eq] at hmatch
  have hroot := hwf.consistent.top root hmem
  have hty : get_types_of ir ops = .ok (operand_data_types (ir.node root).operand_types) := by
    rw [hmatch.2]; exact ht
  obtain ⟨t, left, n, s1, s2, s3, s4, s5⟩ := specialize_instruction_strict_spec ir hwf.consistent
    ops (ops.length + 1) (ops.length + ir.instruction_nodes.length + 1) root (by omega) (by omega)
    hroot hty
  have hlen : left.length = (ir.node t).operand_types.length := by
    have := get_types_of_length ir _ _ s5
    rw [← this]; simp [operand_data_types]
  refine ⟨t, left, n, ?_, s3, s4, hlen, ?_, ?_, ?_⟩
  · intro fuel hfuel
    obtain ⟨t', left', n', r1, r2, r3, r4, _⟩ := specialize_instruction_strict_spec ir
      hwf.consistent ops fuel (ops.length + ir.instruction_nodes.length + 1) root hfuel (by omega)
      hroot hty
    rw [s2] at r2
    simp only [Option.some.injEq, Prod.mk.injEq] at r2
    obtain ⟨rfl, rfl⟩ := r2
    have hn : n' = n := by
      have e1 := congrArg List.length r4
      have e2 := congrArg List.length s4
      rw [List.length_drop] at e1 e2
      omega
    rw [r1, hn]
  · intro i hi
    rw [get_types_of_getD ir left _ s5 i hi, operand_data_types_getD _ _ (by omega)]
  · unfold make_instruction
    simp only [h1, h2, h3, if_false, ht, hfe, hf, s2]
    cases hc : set_condition ir
        (.custom_instruction { instruction_type := some t, operands := left }) condition with
    | error e =>
      simp only []
      intro h
      simp only [Except.error.injEq] at h
      rcases set_condition_custom_error ir _ condition _ hc with hk | hk <;>
        (rw [h] at hk; exact absurd hk (by simp))
    | ok insn2 => simp
  · intro insn h
    unfold make_instruction at h
    simp only [h1, h2, h3, if_false, ht, hfe, hf, s2] at h
    cases hc : set_condition ir
        (.custom_instruction { instruction_type := some t, operands := left }) condition with
    | error e => simp [hc] at h
    | ok insn2 =>
      simp only [hc, Except.ok.injEq, Option.some.injEq] at h
      subst h
      obtain ⟨c2, k1, k2, k3⟩ := set_condition_custom ir _ condition insn2 hc
      exact ⟨c2, k1, k2, k3⟩

theorem operand_prototype_agreement_witness :
    Built example_ir2 ∧ "g" ≠ "set" ∧ "g" ≠ "wait" ∧ "g" ≠ "barrier" ∧
    get_types_of example_ir2 [example_qubit_ref 7 3] = .ok [some 0] ∧
    (find_instruction_type example_ir2 "g" [some 0] false).2 = some 0 ∧
    specialize_instruction_strict example_ir2 2 0 [example_qubit_ref 7 3] = .ok (1, [], 1) ∧
    ∃ t left descents,
      (∀ fuel, [example_qubit_ref 7 3].length < fuel →
        specialize_instruction_strict example_ir2 fuel 0 [example_qubit_ref 7 3] =
          .ok (t, left, descents)) ∧
      descents ≤ [example_qubit_ref 7 3].length ∧
      left = [example_qubit_ref 7 3].drop descents ∧
      left.length = (example_ir2.node t).operand_types.length :=
  ⟨example_ir2_built, by decide, by decide, by decide, rfl, rfl, rfl,
    (operand_prototype_agreement example_ir2 example_ir2_built "g" [example_qubit_ref 7 3] none
      false [some 0] 0 (by decide) (by decide) (by decide) rfl rfl).imp
      fun _ h => h.imp fun _ h => h.imp fun _ h => ⟨h.1, h.2.1, h.2.2.1, h.2.2.2.1⟩⟩

/-! ## Order independence of the access map -/

theorem merge_all_some (modes : List AccessMode) : ∀ a : AccessMode,
    merge_all (some a) modes =
      some (if modes.all (fun x => decide (x = a)) then a else AccessMode.WRITE) := by
  induction modes with
  | nil => intro a; rfl
  | cons x rest ih =>
    intro a
    simp only [merge_all, List.foldl_cons, merged_mode, List.all_cons] at ih ⊢
    by_cases hax : a = x
    · subst hax
      rw [if_pos rfl, ih a]
      simp
    · rw [if_neg hax, ih AccessMode.WRITE]
      have : decide (x = a) = false := by simpa using fun h => hax h.symm
      simp only [this, Bool.false_and, Bool.false_eq_true, if_false, ite_self]

/-- Recording modes one after the other from an empty entry gives the common mode. -/
theorem merge_all_none (modes : List AccessMode) : merge_all none modes = common_mode modes := by
  cases modes with
  | nil => rfl
  | cons m rest =>
    have := merge_all_some rest m
    simp only [merge_all, List.foldl_cons, merged_mode, common_mode] at this ⊢
    rw [this]
    by_cases h : rest.all (fun x => decide (x = m)) = true
    · rw [if_pos h, if_pos h]
    · rw [if_neg h, if_neg h]

/-- The common mode does not depend on the order of the accesses. -/
theorem common_mode_perm {l l' : List AccessMode} (h : l.Perm l') :
    common_mode l = common_mode l' := by
  cases l with
  | nil => rw [List.Perm.nil_eq h]
  | cons m rest =>
    cases l' with
    | nil => exact absurd h.symm.nil_eq (by simp)
    | cons m' rest' =>
      simp only [common_mode]
      by_cases hp : rest.all (fun x => decide (x = m)) = true
      · have hall : ∀ x ∈ m :: rest, x = m := by
          intro x hx
          rcases List.mem_cons.1 hx with hx | hx
          · exact hx
          · simpa using List.all_eq_true.1 hp x hx
        have hm' : m' = m := hall m' (h.symm.subset (List.mem_cons_self _ _))
        have hp' : rest'.all (fun x => decide (x = m')) = true := by
          rw [List.all_eq_true]
          intro x hx
          simpa [hm'] using hall x (h.symm.subset (List.mem_cons_of_mem _ hx))
        rw [if_pos hp, if_pos hp', hm']
      · have hp' : ¬ rest'.all (fun x => decide (x = m')) = true := by
          intro hp'
          apply hp
          have hall : ∀ x ∈ m' :: rest', x = m' := by
            intro x hx
            rcases List.mem_cons.1 hx with hx | hx
            · exact hx
            · simpa using List.all_eq_true.1 hp' x hx
          have hm : m = m' := hall m (h.subset (List.mem_cons_self _ _))
          rw [List.all_eq_true]
          intro x hx
          simpa [hm] using hall x (h.subset (List.mem_cons_of_mem _ hx))
        rw [if_neg hp, if_neg hp']

/-- The accesses to one reference are a permutation of those of a permutation of the
sequence. -/
theorem accesses_to_perm {l l' : List (AccessMode × ReferenceWrapper)} (h : l.Perm l')
    (k : ReferenceWrapper) : (accesses_to l k).Perm (accesses_to l' k) :=
  (h.filter _).map _

/-- The mode that an access other than MEASURE leaves for its reference. -/
theorem mode_add_access_same (ir : Root) (self : ObjectAccesses) (m : AccessMode)
    (r : ReferenceWrapper) (hs : self.accesses.sorted) (hm : m ≠ AccessMode.MEASURE) :
    (self.add_access ir m r).accesses.mode r =
      some (merged_mode (self.accesses.mode r) (promote_literal m)) := by
  rw [ObjectAccesses.add_access_eq_record ir self m r hm]
  cases hf : self.accesses.mode r with
  | none => exact mode_record_fresh self _ r hs hf
  | some a => exact mode_record_again self _ a r hs hf

/-- The mode that a sequence of accesses, none with mode MEASURE, leaves for a reference:
the modes of the accesses to that reference recorded one after the other. -/
theorem mode_add_accesses (ir : Root) (k : ReferenceWrapper) :
    ∀ (l : List (AccessMode × ReferenceWrapper)) (self : ObjectAccesses),
      self.accesses.sorted → (∀ x ∈ l, x.1 ≠ AccessMode.MEASURE) →
      (self.add_accesses ir l).accesses.sorted ∧
      (self.add_accesses ir l).accesses.mode k =
        merge_all (self.accesses.mode k) (accesses_to l k)
  | [], self, hs, _ => ⟨hs, rfl⟩
  | x :: rest, self, hs, hm => by
    have hs1 := add_access_sorted ir self x.1 x.2 hs
    obtain ⟨r1, r2⟩ := mode_add_accesses ir k rest (self.add_access ir x.1 x.2) hs1
      (fun y hy => hm y (List.mem_cons_of_mem _ hy))
    have hx := hm x (List.mem_cons_self _ _)
    refine ⟨r1, ?_⟩
    show ((self.add_access ir x.1 x.2).add_accesses ir rest).accesses.mode k = _
    rw [r2]
    by_cases hk : x.2.key = k.key
    · have h1 : accesses_to (x :: rest) k = promote_literal x.1 :: accesses_to rest k := by
        simp [accesses_to, List.filter_cons, hk]
      rw [h1, mode_congr _ k x.2 hk.symm, mode_add_access_same ir self x.1 x.2 hs hx,
        mode_congr _ k x.2 hk.symm]
      rfl
    · have h1 : accesses_to (x :: rest) k = accesses_to rest k := by
        simp [accesses_to, List.filter_cons, hk]
      rw [h1, mode_add_access_ne ir self x.1 x.2 k hs hx hk]

theorem entry_lt_asymm (p q : (Link × Link × List Nat) × AccessMode) (h1 : entry_lt p q)
    (h2 : entry_lt q p) : False := by
  obtain ⟨a, b, ha, hb, hab⟩ := h1
  obtain ⟨c, d, hc, hd, hcd⟩ := h2
  have h3 : b.lt a = true := by
    rw [wrapper_lt_congr_left b c a (hb.trans hc.symm),
      wrapper_lt_congr_right c a d (ha.trans hd.symm)]
    exact hcd
  rw [wrapper_lt_asymm a b hab] at h3
  cases h3

/-- The entries of a sorted map are sorted by key. -/
theorem entries_sorted (l : Accesses) (hs : l.sorted) : l.entries.Pairwise entry_lt := by
  unfold Accesses.entries
  rw [List.pairwise_map]
  exact hs.imp fun {x y} h => ⟨x.1, y.1, rfl, rfl, h⟩

/-- The pair of a key and a mode is an entry of a sorted map exactly when the map records
the mode for the key. -/
theorem mem_entries_iff (l : Accesses) (hs : l.sorted) (k : ReferenceWrapper) (a : AccessMode) :
    (k.key, a) ∈ l.entries ↔ l.mode k = some a := by
  unfold Accesses.entries
  constructor
  · intro h
    obtain ⟨e, he, heq⟩ := List.mem_map.1 h
    simp only [Prod.mk.injEq] at heq
    rw [mode_of_mem l hs k e he heq.1, heq.2]
  · intro h
    obtain ⟨e, he, hk, ha⟩ := mem_of_mode l k a h
    exact List.mem_map.2 ⟨e, he, by rw [hk, ha]⟩

/-- Two sorted maps that record the same mode for every reference have the same entries. -/
theorem entries_eq_of_mode_eq (l1 l2 : Accesses) (h1 : l1.sorted) (h2 : l2.sorted)
    (h : ∀ k, l1.mode k = l2.mode k) : l1.entries = l2.entries := by
  have s1 := entries_sorted l1 h1
  have s2 := entries_sorted l2 h2
  have hirr : ∀ p q, entry_lt p q → p ≠ q := by
    intro p q hpq heq
    subst heq
    exact entry_lt_asymm p p hpq hpq
  have n1 : l1.entries.Nodup := s1.imp (fun {p q} hpq => hirr p q hpq)
  have n2 : l2.entries.Nodup := s2.imp (fun {p q} hpq => hirr p q hpq)
  have hmem : ∀ p, p ∈ l1.entries ↔ p ∈ l2.entries := by
    intro p
    constructor
    · intro hp
      obtain ⟨e, he, heq⟩ := List.mem_map.1 hp
      rw [← heq]
      exact (mem_entries_iff l2 h2 e.1 e.2).2
        ((h e.1).symm.trans ((mem_entries_iff l1 h1 e.1 e.2).1 (List.mem_map.2 ⟨e, he, rfl⟩)))
    · intro hp
      obtain ⟨e, he, heq⟩ := List.mem_map.1 hp
      rw [← heq]
      exact (mem_entries_iff l1 h1 e.1 e.2).2
        ((h e.1).trans ((mem_entries_iff l2 h2 e.1 e.2).1 (List.mem_map.2 ⟨e, he, rfl⟩)))
  have hperm : l1.entries.Perm l2.entries := (List.perm_ext_iff_of_nodup n1 n2).2 hmem
  exact @List.eq_of_perm_of_sorted _ entry_lt
    ⟨fun p q hpq hqp => (entry_lt_asymm p q hpq hqp).elim⟩ _ _ hperm s1 s2

theorem merge_modes_comm (a b : AccessMode) : merge_modes a b = merge_modes b a := by
  unfold merge_modes
  by_cases h : a = b
  · subst h; rfl
  · rw [if_neg h, if_neg (fun h' => h h'.symm)]

theorem merge_modes_write (a : AccessMode) :
    merge_modes AccessMode.WRITE a = AccessMode.WRITE := by
  unfold merge_modes
  by_cases h : AccessMode.WRITE = a
  · rw [if_pos h]
  · rw [if_neg h]

theorem merge_modes_assoc (a b c : AccessMode) :
    merge_modes (merge_modes a b) c = merge_modes a (merge_modes b c) := by
  by_cases hab : a = b
  · subst hab
    by_cases hac : a = c
    · subst hac; simp [merge_modes]
    · have h1 : merge_modes a a = a := by simp [merge_modes]
      have h2 : merge_modes a c = AccessMode.WRITE := by simp [merge_modes, hac]
      rw [h1, h2, merge_modes_comm a AccessMode.WRITE, merge_modes_write]
  · have h1 : merge_modes a b = AccessMode.WRITE := by simp [merge_modes, hab]
    rw [h1, merge_modes_write]
    by_cases hbc : b = c
    · subst hbc
      have h2 : merge_modes b b = b := by simp [merge_modes]
      rw [h2, h1]
    · have h2 : merge_modes b c = AccessMode.WRITE := by simp [merge_modes, hbc]
      rw [h2, merge_modes_comm a AccessMode.WRITE, merge_modes_write]

/-- Order independence of access recording, per key of the map (target, data type and
index nodes of the reference): for every finite sequence of `add_access` calls with modes
other than MEASURE applied to an `ObjectAccesses` with an empty map, every key maps to the
common mode of its accesses when they all agree after promoting LITERAL to READ, and to
WRITE otherwise (and to no mode when it has no access); for every permutation of the
sequence the map records the same mode for every key and has the same entries (keys and
modes, in key order); the merge of modes is commutative, associative and idempotent with
WRITE absorbing, and it is the mode that another access leaves for a recorded key. -/
theorem access_order_independence (ir : Root) (self : ObjectAccesses)
    (l l' : List (AccessMode × ReferenceWrapper))
    (hself : self.accesses = []) (hm : ∀ x ∈ l, x.1 ≠ AccessMode.MEASURE) (hp : l.Perm l') :
    (∀ k, (self.add_accesses ir l).accesses.mode k = common_mode (accesses_to l k)) ∧
    (∀ k, (self.add_accesses ir l').accesses.mode k =
      (self.add_accesses ir l).accesses.mode k) ∧
    (self.add_accesses ir l').accesses.entries = (self.add_accesses ir l).accesses.entries ∧
    (∀ a b, merge_modes a b = merge_modes b a) ∧
    (∀ a b c, merge_modes (merge_modes a b) c = merge_modes a (merge_modes b c)) ∧
    (∀ a, merge_modes a a = a) ∧
    (∀ a, merge_modes AccessMode.WRITE a = AccessMode.WRITE ∧
      merge_modes a AccessMode.WRITE = AccessMode.WRITE) ∧
    (∀ (s : ObjectAccesses) (r : ReferenceWrapper) (a m : AccessMode), s.accesses.sorted →
      m ≠ AccessMode.MEASURE → s.accesses.mode r = some a →
      (s.add_access ir m r).accesses.mode r = some (merge_modes a (promote_literal m))) := by
  have hs := sorted_nil self hself
  have hm' : ∀ x ∈ l', x.1 ≠ AccessMode.MEASURE := fun x hx => hm x (hp.symm.subset hx)
  have hmode : ∀ (l0 : List (AccessMode × ReferenceWrapper)),
      (∀ x ∈ l0, x.1 ≠ AccessMode.MEASURE) → ∀ k,
      (self.add_accesses ir l0).accesses.mode k = common_mode (accesses_to l0 k) := by
    intro l0 h0 k
    rw [(mode_add_accesses ir k l0 self hs h0).2, mode_nil self hself k, merge_all_none]
  have heq : ∀ k, (self.add_accesses ir l').accesses.mode k =
      (self.add_accesses ir l).accesses.mode k := by
    intro k
    rw [hmode l' hm' k, hmode l hm k]
    exact common_mode_perm (accesses_to_perm hp.symm k)
  refine ⟨hmode l hm, heq, ?_, merge_modes_comm, merge_modes_assoc, ?_, ?_, ?_⟩
  · exact entries_eq_of_mode_eq _ _ (mode_add_accesses ir default l' self hs hm').1
      (mode_add_accesses ir default l self hs hm).1 heq
  · intro a; simp [merge_modes]
  · intro a
    exact ⟨merge_modes_write a, by rw [merge_modes_comm, merge_modes_write]⟩
  · intro s r a m hsorted hne hrec
    rw [mode_add_access_same ir s m r hsorted hne, hrec]
    rfl

/-- The entries of the map after the accesses of `example_accesses`, in the order given and
in the reverse order. -/
theorem access_order_independence_witness :
    (({} : ObjectAccesses).accesses = []) ∧
    (∀ x ∈ example_accesses, x.1 ≠ AccessMode.MEASURE) ∧
    example_accesses.Perm example_accesses.reverse ∧
    (ObjectAccesses.add_accesses example_ir0 {} example_accesses.reverse).accesses.entries =
      (ObjectAccesses.add_accesses example_ir0 {} example_accesses).accesses.entries ∧
    (ObjectAccesses.add_accesses example_ir0 {} example_accesses).accesses.entries =
      [((some 0, some 0, [5]), AccessMode.READ), ((some 0, some 0, [6]), AccessMode.WRITE)] :=
  ⟨rfl, by decide, (List.reverse_perm _).symm,
    (access_order_independence example_ir0 {} example_accesses example_accesses.reverse rfl
      (by decide) (List.reverse_perm _).symm).2.2.1,
    by decide⟩

/-! ## Specialized instructions in the access analysis -/

theorem example_ir8_built : Built example_ir8 :=
  Built.add_instruction_type _ _ _ (Built.add_instruction_type _ _ _ (Built.empty example_ir0 rfl rfl))

/-- C36, at the instruction type `rz` (one qubit operand in mode COMMUTE_Z) with its
specialization on `q[0]`, in a platform built by `add_instruction_type`, with
`disable_single_qubit_commutation` set: for the specialized form `add_operands` gets a
prototype without operand types and the loop over the template operands records `q[0]`
with the mode COMMUTE_Z of the operand type of `rz`; for the generalized form
`add_operands` turns that mode into WRITE. With both flags false the two forms record the
same entries. -/
theorem specialized_access_not_demoted :
    example_ir8.tree_consistent ∧ at_depth example_ir8 0 1 1 ∧
    ((ObjectAccesses.add_statement example_ir8 { disable_single_qubit_commutation := true }
        example_specialized).toOption.map fun acc => acc.accesses.entries) =
      some [((none, none, []), AccessMode.READ), ((some 0, some 0, [0]), AccessMode.COMMUTE_Z)] ∧
    ((ObjectAccesses.add_statement example_ir8 { disable_single_qubit_commutation := true }
        example_generalized).toOption.map fun acc => acc.accesses.entries) =
      some [((none, none, []), AccessMode.READ), ((some 0, some 0, [0]), AccessMode.WRITE)] ∧
    ((ObjectAccesses.add_statement example_ir8 {} example_specialized).toOption.map
        fun acc => acc.accesses.entries) =
      ((ObjectAccesses.add_statement example_ir8 {} example_generalized).toOption.map
        fun acc => acc.accesses.entries) :=
  ⟨example_ir8_built.well_formed.consistent, at_depth.child 0 0 1 at_depth.root (by decide),
    rfl, rfl, rfl⟩

/-! ## Generated overloads -/

/-- C38, at the platform with `g` on a qubit operand and its specialization `g q[3]`
(nodes 0 and 1), which satisfies the consistency invariant: the overload of `g` on a bit
operand that `find_instruction_type` generates (node 2) is a copy of node 0 with its
specializations, so it has the specialization node 3, a copy of node 1 whose generalization
is still node 0 and whose template operand is a qubit; the consistency invariant does not
hold for the platform reached. When node 0 has a decomposition rule, the generated overload
has it as well. -/
theorem generated_overload_keeps_specializations :
    example_ir2.tree_consistent ∧
    (find_instruction_type example_ir2 "g" [some 1] true).2 = some 2 ∧
    example_ir4.platform.instructions = [0, 2] ∧
    (example_ir4.node 2).template_operands = [] ∧
    (example_ir4.node 2).generalization = none ∧
    (example_ir4.node 2).specializations = [3] ∧
    (example_ir4.node 3).generalization = some 0 ∧
    ¬ example_ir4.tree_consistent ∧
    (example_ir9.node 2).decompositions = [example_rule] :=
  ⟨example_ir2_built.well_formed.consistent, rfl, by decide, rfl, rfl, rfl, rfl,
    fun h => absurd (h.children 2 (by decide) 3 (by decide)).1 (by decide), rfl⟩

/-! ## The duplicate error of `add_instruction_type` -/

/-- The loop over the types of the unknown-instruction message, as a text of items. -/
theorem unknown_instruction_types_eq (ir : Root) :
    ∀ (types : List Link) (names : List String) (first : Bool),
      List.Forall₂ (fun type name => ∃ dt, ir.data_type type = .ok dt ∧ dt.name = name)
        types names →
      unknown_instruction_types ir types first =
        .ok (join_items "," first (names.map fun name => " " ++ name))
  | [], _, _, h => by cases h; rfl
  | type :: rest, _, first, h => by
    cases h with
    | cons h1 h2 =>
      obtain ⟨dt, hdt, hname⟩ := h1
      simp only [unknown_instruction_types, hdt, unknown_instruction_types_eq ir rest _ false h2,
        List.map_cons, join_items, hname, String.append_assoc]

theorem data_type_names_exist (ir : Root) :
    ∀ (types : List Link), (∀ t ∈ types, ∃ dt, ir.data_type t = .ok dt) →
      ∃ names, List.Forall₂ (fun type name => ∃ dt, ir.data_type type = .ok dt ∧ dt.name = name)
        types names
  | [], _ => ⟨[], List.Forall₂.nil⟩
  | type :: rest, h => by
    obtain ⟨dt, hdt⟩ := h type (List.mem_cons_self _ _)
    obtain ⟨names, hn⟩ := data_type_names_exist ir rest
      (fun t ht => h t (List.mem_cons_of_mem _ ht))
    exact ⟨dt.name :: names, List.Forall₂.cons ⟨dt, hdt, rfl⟩ hn⟩

/-- C20. Unknown instruction: for a name other than set, wait and barrier and operands
with data types `types`, when `find_instruction_type` gives the empty link,
`make_instruction` returns the empty instruction with `return_empty_on_failure`, throws
without it, and leaves the IR as it is in both cases; when the data type links of the
operands denote data types, what it throws is the unknown-instruction error, whose message
holds the name of the instruction and the names of the data types of the operands. -/
theorem unknown_instruction (ir : Root) (name : String) (ops : List Expression)
    (condition : Option Expression) (generate_overload_if_needed : Bool) (types : List Link)
    (h1 : name ≠ "set") (h2 : name ≠ "wait") (h3 : name ≠ "barrier")
    (htypes : get_types_of ir ops = .ok types)
    (hfind : (find_instruction_type ir name types generate_overload_if_needed).2 = none) :
    make_instruction ir name ops condition generate_overload_if_needed true = (ir, .ok none) ∧
    (∃ e, make_instruction ir name ops condition generate_overload_if_needed false =
      (ir, .error e)) ∧
    ((∀ t ∈ types, ∃ dt, ir.data_type t = .ok dt) →
      ∃ names,
        List.Forall₂ (fun type name => ∃ dt, ir.data_type type = .ok dt ∧ dt.name = name)
          types names ∧
        make_instruction ir name ops condition generate_overload_if_needed false =
          (ir, .error (Error.user_error ("unknown instruction: " ++ name ++
            ",".intercalate (names.map fun name => " " ++ name))))) := by
  have hir := find_instruction_type_none ir name types _ hfind
  refine ⟨?_, ?_, ?_⟩
  · simp only [make_instruction, h1, h2, h3, if_false, htypes, hfind, if_true, hir]
  · cases hu : unknown_instruction_types ir types true with
    | error e =>
      exact ⟨e, by simp only [make_instruction, h1, h2, h3, if_false, htypes, hfind, hir,
        Bool.false_eq_true, hu]⟩
    | ok texts =>
      exact ⟨Error.user_error ("unknown instruction: " ++ name ++ texts), by
        simp only [make_instruction, h1, h2, h3, if_false, htypes, hfind, hir,
          Bool.false_eq_true, hu]⟩
  · intro hdef
    obtain ⟨names, hn⟩ := data_type_names_exist ir types hdef
    refine ⟨names, hn, ?_⟩
    have hu := unknown_instruction_types_eq ir types names true hn
    rw [join_items_true] at hu
    simp only [make_instruction, h1, h2, h3, if_false, htypes, hfind, hir, Bool.false_eq_true,
      hu]

/-- C20, witness: with only `x` on a qubit operand registered, `x` without operands is an
unknown instruction, and so is `y` on a qubit. -/
theorem unknown_instruction_witness :
    get_types_of example_s1 [] = .ok [] ∧
    (find_instruction_type example_s1 "x" [] false).2 = none ∧
    make_instruction example_s1 "x" [] none false true = (example_s1, .ok none) ∧
    make_instruction example_s1 "x" [] none false false =
      (example_s1, .error (Error.user_error "unknown instruction: x")) ∧
    make_instruction example_s1 "y" [example_qubit 0 0] none false false =
      (example_s1, .error (Error.user_error "unknown instruction: y qubit")) := by
  obtain ⟨k1, _, k3⟩ := unknown_instruction example_s1 "x" [] none false [] (by decide)
    (by decide) (by decide) rfl (by decide)
  obtain ⟨names, hn, hm⟩ := k3 (fun t ht => absurd ht (List.not_mem_nil t))
  cases hn
  exact ⟨rfl, by decide, k1, hm, rfl⟩

/-! ## The description of a custom instruction near the root of its tree -/

/-- C26, as amended. Describing a custom instruction: for a custom instruction with the
condition `c` and the instruction type `t`, where `t` has no template operands or is one or
two specializations below the fully generalized instruction type `r`, and where the
condition, the operand types and the operands have descriptions, `describe` returns the
prefix `cond (` C `) ` (C the description of the condition), which is present iff the
condition is not a bit literal true, then the name of the instruction type, followed by `/`
and its cQASM name iff that is another name, then the comma-separated items ` T=O`: first
one for each template operand of `t` (T the description of the operand type at that
position of `r`), then one for each operand (T the description of `operand_types[i]` of
`t`, O the description of the operand). A qubit operand type in WRITE mode is described by
the bare name of its data type, and a reference to a named object, with the data type of
the object, by the name followed by the indices in square brackets. -/
theorem custom_instruction_description (ir : Root) (custom : CustomInstruction)
    (c : Expression) (t r : Nat) (C : String) (template_items operand_items : List String)
    (hc : custom.condition = some c) (ht : custom.instruction_type = some t)
    (hr : within_two_of_root ir t r)
    (hC : DescribingVisitor.visit_expression ir 0 c = .ok C)
    (htemplate : items_described ir (ir.node r).operand_types (ir.node t).template_operands
      template_items)
    (hoperands : items_described ir (ir.node t).operand_types custom.operands operand_items) :
    describe ir (.custom_instruction custom) =
      .ok ((if is_literal_true c then "" else "cond (" ++ C ++ ") ") ++ (ir.node t).name ++
        (if (ir.node t).cqasm_name ≠ (ir.node t).name then "/" ++ (ir.node t).cqasm_name
          else "") ++ ",".intercalate (template_items ++ operand_items)) ∧
    (∀ (ot : OperandType) (dt : DataType), ot.mode = AccessMode.WRITE →
      ir.data_type ot.data_type = .ok dt → dt.kind = DataTypeKind.qubit →
      DescribingVisitor.visit_operand_type ir ot = .ok dt.name) ∧
    (∀ (ref : Reference) (target : Object), ir.object ref.target = .ok target →
      ref.data_type = target.data_type → target.name ≠ "" → ref.indices ≠ [] →
      DescribingVisitor.visit_reference ir ref =
        .ok (target.name ++ "[" ++
          ", ".intercalate (ref.indices.map fun index => toString index.value) ++ "]")) := by
  refine ⟨?_, visit_operand_type_write_qubit ir, visit_reference_plain ir⟩
  show DescribingVisitor.visit_custom_instruction ir custom = _
  rw [visit_custom_instruction_iff]
  refine ⟨c, t, if is_literal_true c then "" else "cond (" ++ C ++ ") ",
    (ir.node r).operand_types, template_items, operand_items, hc, ht, ?_, ?_, htemplate,
    hoperands, rfl⟩
  · cases hl : is_literal_true c
    · exact Or.inr ⟨rfl, C, hC, by simp⟩
    · exact Or.inl ⟨rfl, by simp⟩
  · rcases hr with h0 | ⟨h1, h2⟩ | ⟨g, h1, h2, _⟩
    · exact Or.inl h0
    · exact Or.inr ⟨r, h1, by simp only [DescribingVisitor.generalization, h2]⟩
    · exact Or.inr ⟨g, h1, by simp only [DescribingVisitor.generalization, h2]⟩

/-- C26 as amended, witness (S1): with the qubit type `qubit`, the register `qubits` and `x`
declared with one qubit operand in WRITE mode, `make_instruction("x", [qubit_ref(0)])` is the
custom instruction of type `x` on `qubits[0]` with the condition true, and its description
is `x qubit=qubits[0]`; and the instruction whose type is `toffoli` specialized on
`qubits[0]`, one specialization below `toffoli`, is described with the item of the template
operand first. -/
theorem custom_instruction_description_witness :
    example_s1_instruction = .ok (some (.custom_instruction { condition := some (.bit_literal true (some 1)), instruction_type := some 0, operands := [.reference { target := some 0, data_type := some 0, indices := [{ addr := 0, value := 0, data_type := some 2 }] }] })) ∧
    within_two_of_root example_s1 0 0 ∧
    describe example_s1 (.custom_instruction { condition := some (.bit_literal true (some 1)), instruction_type := some 0, operands := [.reference { target := some 0, data_type := some 0, indices := [{ addr := 0, value := 0, data_type := some 2 }] }] }) = .ok "x qubit=qubits[0]" ∧
    within_two_of_root example_toffoli_ir 1 0 ∧
    describe example_toffoli_ir (.custom_instruction example_toffoli_instruction) =
      .ok "toffoli Z-commute qubit=qubits[0], Z-commute qubit=qubits[1], X-commute qubit=qubits[2]" :=
  ⟨rfl, Or.inl rfl,
    (custom_instruction_description example_s1 _ (.bit_literal true (some 1)) 0 0 "true" []
      [" qubit=qubits[0]"] rfl rfl (Or.inl rfl) rfl
      ⟨rfl, fun i hi => absurd hi (Nat.not_lt_zero i)⟩
      ⟨rfl, fun i hi => by
        have h0 : i = 0 := Nat.lt_one_iff.1 hi
        subst h0
        exact ⟨{ mode := AccessMode.WRITE, data_type := some 0 }, "qubit", "qubits[0]", rfl, rfl,
          rfl, rfl⟩⟩).1,
    Or.inr (Or.inl ⟨rfl, rfl⟩),
    (custom_instruction_description example_toffoli_ir example_toffoli_instruction
      (.bit_literal true (some 1)) 1 0 "true" [" Z-commute qubit=qubits[0]"]
      [" Z-commute qubit=qubits[1]", " X-commute qubit=qubits[2]"] rfl rfl
      (Or.inr (Or.inl ⟨rfl, rfl⟩)) rfl
      ⟨rfl, fun i hi => by
        have h0 : i = 0 := Nat.lt_one_iff.1 hi
        subst h0
        exact ⟨{ mode := AccessMode.COMMUTE_Z, data_type := some 0 }, "Z-commute qubit",
          "qubits[0]", rfl, rfl, rfl, rfl⟩⟩
      ⟨rfl, fun i hi => by
        have h01 : i = 0 ∨ i = 1 := by
          have : i < 2 := hi
          omega
        rcases h01 with h0 | h0 <;> subst h0
        · exact ⟨{ mode := AccessMode.COMMUTE_Z, data_type := some 0 }, "Z-commute qubit",
            "qubits[1]", rfl, rfl, rfl, rfl⟩
        · exact ⟨{ mode := AccessMode.COMMUTE_X, data_type := some 0 }, "X-commute qubit",
            "qubits[2]", rfl, rfl, rfl, rfl⟩⟩).1⟩

/-! ## References built twice as keys of the access map -/

/-- C15, at the two references to `qubits[1]` that two calls of `make_qubit_ref` build:
the references are equal for `operator==` and the first is below the second for
`operator<`, so that two of `a < b`, `b < a` and `a == b` hold at once. -/
theorem key_order_of_equal_references :
    make_qubit_ref example_platform 1 0 = .ok example_q1.reference ∧
    make_qubit_ref example_platform 1 1 = .ok example_q1_again.reference ∧
    example_q1.eq example_q1_again = true ∧
    example_q1.lt example_q1_again = true ∧
    example_q1_again.lt example_q1 = false :=
  ⟨rfl, rfl, rfl, rfl, rfl⟩

/-- C39, at a READ access and then a WRITE access to `qubits[1]` through the two references
that two calls of `make_qubit_ref` build: the map holds two entries for the object, one with
READ and one with WRITE, in either order of the accesses, where the two accesses through one
reference leave one entry with WRITE. -/
theorem accesses_of_equal_references :
    example_q1.eq example_q1_again = true ∧
    (ObjectAccesses.add_access example_platform
        (ObjectAccesses.add_access example_platform {} AccessMode.READ example_q1)
        AccessMode.WRITE example_q1_again).accesses =
      [(example_q1, AccessMode.READ), (example_q1_again, AccessMode.WRITE)] ∧
    (ObjectAccesses.add_access example_platform
        (ObjectAccesses.add_access example_platform {} AccessMode.WRITE example_q1_again)
        AccessMode.READ example_q1).accesses =
      [(example_q1, AccessMode.READ), (example_q1_again, AccessMode.WRITE)] ∧
    (ObjectAccesses.add_access example_platform
        (ObjectAccesses.add_access example_platform {} AccessMode.READ example_q1)
        AccessMode.WRITE example_q1).accesses =
      [(example_q1, AccessMode.WRITE)] :=
  ⟨rfl, rfl, rfl, rfl⟩

end ql.ir
